import Mathlib

/-!
# RevBayes: partitioning of runs over processes and the Metropolis-Hastings loop

A shallow embedding of

* `PosteriorPredictiveAnalysis` (constructor, `burnin`, `runAll`, `runSim`),
* `UltrametricTreeDistribution` (sample blocks, `pid_per_sample`, the gathering of
  `ln_probs`),
* `Mcmc::run` (initial log-probability and the loop over the moves).

## Numbers

The C++ code computes its index ranges in `double` arithmetic.  A finite `double` is the
rational number it denotes, and an arithmetic operation is the exact operation followed by
rounding to the nearest binary64 number, ties to even (`fl`).  The index computations only
meet finite values (the divisors `num_processes`, `num_runs`, `num_samples` are at least 1
where they are used) and are written over `ℚ`; the log-probabilities of `Mcmc::run` can be
infinite or NaN and are values of `Double`.  A `size_t` is a natural number below `2 ^ 64`
and its arithmetic wraps.

## Collaborators whose source is not part of the embedding

`exp`, the random number generator, the moves (`perform`, `accept`, `reject`) and
`constructFactor` are parameters; `calculateLnProbability()`, `isNotInstantiated()`,
`isSummedOver()` and `getParents()` are fields of a node.  The calls made on them are
recorded in a list of `Call`s.
-/

namespace RevBayes

/-! ## IEEE-754 binary64 rounding -/

/-- Nearest integer, a tie going to the even neighbour. -/
def roundHalfEven (x : ℚ) : ℤ :=
  let f := ⌊x⌋
  if x - f < 1 / 2 then f
  else if 1 / 2 < x - f then f + 1
  else if f % 2 = 0 then f else f + 1

/-- Exponent of the last mantissa bit of the binary64 numbers in the binade of
`x`: 53 significant bits, and the subnormal numbers share the exponent `-1074`. -/
def ulpExp (x : ℚ) : ℤ := max (Int.log 2 |x|) (-1022) - 52

/-- Rounding of a rational to binary64, round-to-nearest, ties-to-even (the
result is below the overflow threshold `2 ^ 1024` everywhere it is used). -/
def fl (x : ℚ) : ℚ := roundHalfEven (x / 2 ^ ulpExp x) * 2 ^ ulpExp x

/-- The `double` division `x / y` of finite doubles, `y ≠ 0`. -/
def ddiv (x y : ℚ) : ℚ := fl (x / y)

/-- The `double` product `x * y`. -/
def dmul (x y : ℚ) : ℚ := fl (x * y)

/-- Conversion `double(n)` of a `size_t`. -/
def toDouble (n : ℕ) : ℚ := fl n

/-- The conversion `size_t(floor(x))` of a non-negative double (defined by C++ for values
below `2 ^ 64`). -/
def toSizeT (x : ℚ) : ℕ := ⌊x⌋₊ % 2 ^ 64

/-! ## `PosteriorPredictiveAnalysis`: the block of runs of a process -/

/-- The value `size_t(floor( (double(pid) / num_processes ) * num_runs))` of
`run_block_start` in `burnin` and `runAll`. -/
def run_block_start (num_runs num_processes pid : ℕ) : ℕ :=
  toSizeT (dmul (ddiv (toDouble pid) (toDouble num_processes)) (toDouble num_runs))

/-- The value `size_t(floor( (double(pid+1) / num_processes ) * num_runs))` of
`run_block_end` in `burnin` and `runAll`. -/
def run_block_end (num_runs num_processes pid : ℕ) : ℕ :=
  toSizeT (dmul (ddiv (toDouble ((pid + 1) % 2 ^ 64)) (toDouble num_processes))
    (toDouble num_runs))

/-- The indices visited by the loop
`for (size_t i = run_block_start; i < run_block_end; ++i)` of `burnin` and `runAll`,
in order. -/
def run_block (num_runs num_processes pid : ℕ) : List ℕ :=
  List.range' (run_block_start num_runs num_processes pid)
    (run_block_end num_runs num_processes pid - run_block_start num_runs num_processes pid)

/-- What the constructor stores in a replicate: the file its clamped nodes are read
from (`dir_names[i]`), `setActivePID` and `setNumberOfProcesses`. -/
structure MonteCarloAnalysis where
  /-- the index `i` of the file `dir_names[i]` -/
  file : ℕ
  /-- argument of `setActivePID` -/
  activePID : ℕ
  /-- argument of `setNumberOfProcesses` -/
  numProcesses : ℤ
  deriving DecidableEq, Repr

/-- Constructor: `size_t(floor( (double(i) / num_runs ) * num_processes ) )`. -/
def run_pid_start (num_runs num_processes i : ℕ) : ℕ :=
  toSizeT (dmul (ddiv (toDouble i) (toDouble num_runs)) (toDouble num_processes))

/-- Constructor:
`std::max( run_pid_start, size_t(floor( (double(i+1) / num_runs ) * num_processes ) ) - 1)`;
the subtraction is a `size_t` subtraction and wraps at zero. -/
def run_pid_end (num_runs num_processes i : ℕ) : ℕ :=
  max (run_pid_start num_runs num_processes i)
    ((toSizeT (dmul (ddiv (toDouble ((i + 1) % 2 ^ 64)) (toDouble num_runs))
        (toDouble num_processes)) + 2 ^ 64 - 1) % 2 ^ 64)

/-- Conversion `int(x)` of a `size_t` on the usual two's-complement targets. -/
def toInt (x : ℕ) : ℤ :=
  if x % 2 ^ 32 < 2 ^ 31 then ((x % 2 ^ 32 : ℕ) : ℤ) else ((x % 2 ^ 32 : ℕ) : ℤ) - 2 ^ 32

/-- Constructor: `int(run_pid_end) - int(run_pid_start) + 1`. -/
def number_processes_per_run (num_runs num_processes i : ℕ) : ℤ :=
  toInt (run_pid_end num_runs num_processes i) - toInt (run_pid_start num_runs num_processes i) + 1

/-- The vector `runs` the constructor leaves on process `pid`, for a directory with
`num_runs` files: entry `i` is a fresh replicate when
`pid >= run_pid_start && pid <= run_pid_end` and stays `NULL` (`none`) otherwise. -/
def constructor (num_runs num_processes pid : ℕ) : List (Option MonteCarloAnalysis) :=
  (List.range num_runs).map fun i =>
    if run_pid_start num_runs num_processes i ≤ pid ∧
        pid ≤ run_pid_end num_runs num_processes i
    then some ⟨i, run_pid_start num_runs num_processes i,
      number_processes_per_run num_runs num_processes i⟩
    else none

/-- The access `runs[idx]->...` of `burnin` and `runSim`: `none` when the pointer is
`NULL` (or `idx` is outside the vector), where the C++ program has no defined result. -/
def deref (runs : List (Option MonteCarloAnalysis)) (idx : ℕ) : Option MonteCarloAnalysis :=
  (runs.get? idx).join

/-- The function `runSim(idx, gen)`: the replicate that is run. -/
def runSim (runs : List (Option MonteCarloAnalysis)) (idx : ℕ) : Option MonteCarloAnalysis :=
  deref runs idx

/-- The function `runAll`: calls `runSim(i, gen)` for every `i` of the block of this
process; the replicates that were run, in order, or `none` if a `NULL` entry was
dereferenced. -/
def runAll (runs : List (Option MonteCarloAnalysis)) (num_runs num_processes pid : ℕ) :
    Option (List MonteCarloAnalysis) :=
  (run_block num_runs num_processes pid).mapM (runSim runs)

/-- The function `burnin`: calls `runs[i]->burnin(...)` for every `i` of the block of
this process. -/
def burnin (runs : List (Option MonteCarloAnalysis)) (num_runs num_processes pid : ℕ) :
    Option (List MonteCarloAnalysis) :=
  (run_block num_runs num_processes pid).mapM (deref runs)

/-! ## `UltrametricTreeDistribution`: sample blocks (build with `RB_MPI`) -/

/-- Constructor:
`size_t(floor( (double(pid - active_PID) / num_processes ) * num_samples) )`. -/
def sample_block_start (num_samples num_processes active_PID pid : ℕ) : ℕ :=
  toSizeT (dmul (ddiv (toDouble ((pid + 2 ^ 64 - active_PID) % 2 ^ 64)) (toDouble num_processes))
    (toDouble num_samples))

/-- Constructor:
`size_t(floor( (double(pid+1 - active_PID) / num_processes ) * num_samples) )`. -/
def sample_block_end (num_samples num_processes active_PID pid : ℕ) : ℕ :=
  toSizeT (dmul (ddiv (toDouble ((pid + 1 + 2 ^ 64 - active_PID) % 2 ^ 64))
    (toDouble num_processes)) (toDouble num_samples))

/-- Constructor: the entry
`size_t(floor( double(i) / num_samples * num_processes ) ) + active_PID`
of `pid_per_sample`. -/
def pid_per_sample (num_samples num_processes active_PID i : ℕ) : ℕ :=
  (toSizeT (dmul (ddiv (toDouble i) (toDouble num_samples)) (toDouble num_processes))
    + active_PID) % 2 ^ 64

/-- First loop of `computeLnProbability`, on process `pid`: `ln_probs[i]` is
`computeBranchRateLnProbability` of sample `i` (here `f i`) inside the sample block of the
process and stays `0.0` outside. -/
def local_ln_probs (num_samples num_processes active_PID pid : ℕ) (f : ℕ → ℚ) : List ℚ :=
  (List.range num_samples).map fun i =>
    if sample_block_start num_samples num_processes active_PID pid ≤ i ∧
        i < sample_block_end num_samples num_processes active_PID pid
    then f i else 0

/-- Second loop of `computeLnProbability` (`RB_MPI`), seen from the active process: entry `i`
of `ln_probs` is its own entry when `pid_per_sample[i]` is the active process, and
otherwise the entry `i` that process `pid_per_sample[i]` sends. -/
def gathered_ln_probs (num_samples num_processes active_PID : ℕ) (f : ℕ → ℚ) : List ℚ :=
  (List.range num_samples).map fun i =>
    (local_ln_probs num_samples num_processes active_PID
      (pid_per_sample num_samples num_processes active_PID i) f).getD i 0

/-! ## `double` values with infinities and NaN -/

/-- A `double`: a finite value (the rational it denotes), `+inf`, `-inf` or NaN.  The two
zeros are not distinguished; they compare equal. -/
inductive Double where
  | fin (q : ℚ)
  | pinf
  | ninf
  | nan
  deriving DecidableEq

/-- Delivery of an exact result `q`: rounded to nearest, and to an infinity when the
rounded magnitude reaches `2 ^ 1024`. -/
def Double.round (q : ℚ) : Double :=
  if 2 ^ 1024 ≤ fl q then Double.pinf
  else if fl q ≤ -2 ^ 1024 then Double.ninf
  else Double.fin (fl q)

/-- The sum `x + y` of two `double`s. -/
def Double.add : Double → Double → Double
  | .fin a, .fin b => Double.round (a + b)
  | .nan, _ => .nan
  | _, .nan => .nan
  | .pinf, .ninf => .nan
  | .ninf, .pinf => .nan
  | .pinf, _ => .pinf
  | _, .pinf => .pinf
  | .ninf, _ => .ninf
  | _, .ninf => .ninf

/-- The comparison `x < y` of two `double`s; false as soon as one of them is NaN. -/
def Double.lt : Double → Double → Bool
  | .fin a, .fin b => decide (a < b)
  | .ninf, .fin _ => true
  | .ninf, .pinf => true
  | .fin _, .pinf => true
  | _, _ => false

/-- The values a `double` variable can hold: a finite value is a binary64 number. -/
def Double.IsDouble : Double → Prop
  | .fin q => fl q = q ∧ |q| < 2 ^ 1024
  | _ => True

/-! ## `Mcmc::run` -/

/-- The calls `Mcmc::run` makes on its collaborators, in the order they are made. -/
inductive Call where
  | touch (node : ℕ)
  | keep (node : ℕ)
  | constructFactor (node : ℕ)
  | calculateLnProbability (node : ℕ)
  | monitor (index gen : ℕ)
  | perform (move : ℕ)
  | uniform01
  | accept (move : ℕ)
  | reject (move : ℕ)
  deriving DecidableEq

/-- A node of `dagNodes`, as far as `Mcmc::run` looks at it. -/
structure InferenceDagNode where
  /-- the test `typeid(*node) == typeid(StochasticInferenceNode)` -/
  isStochastic : Bool
  /-- the value of `isNotInstantiated()` -/
  isNotInstantiated : Bool
  /-- the value of `isSummedOver()` -/
  isSummedOver : Bool
  /-- the set `getParents()`, as positions in `dagNodes`, in the iteration order of the set -/
  parents : List ℕ
  /-- the value `calculateLnProbability()` returns -/
  lnProb : Double

/-- The assignment of factor roots: `getFactorRoot()` of the node at each position,
`none` for `NULL`. -/
abbrev FactorRoots := ℕ → Option ℕ

/-- The local variables of the initialisation part of `Mcmc::run`, with the factor roots
and the calls made so far. -/
structure InitState where
  factorRoot : FactorRoots
  lnProbability : Double
  numSummedOver : ℕ
  numEliminated : ℕ
  calls : List Call

/-- The value `isNotInstantiated()` of the node at position `j` of `dagNodes`. -/
def notInstantiated (dagNodes : List InferenceDagNode) (j : ℕ) : Bool :=
  match dagNodes.get? j with
  | some n => n.isNotInstantiated
  | none => false

/-- The loop over the parents of an instantiated stochastic node: `eliminated` is set,
and the loop left, at the first parent with `isNotInstantiated()`. -/
def parentEliminated (dagNodes : List InferenceDagNode) : List ℕ → Bool
  | [] => false
  | j :: js => if notInstantiated dagNodes j then true else parentEliminated dagNodes js

/-- Body of the loop over `dagNodes` that computes the initial `lnProbability`;
`constructFactor` is the method of `StochasticInferenceNode`, which sets factor roots. -/
def initNode (constructFactor : FactorRoots → ℕ → FactorRoots)
    (dagNodes : List InferenceDagNode) (s : InitState) (i : ℕ) : InitState :=
  match dagNodes.get? i with
  | none => s
  | some node =>
    if node.isStochastic then
      if node.isNotInstantiated then
        let s1 : InitState :=
          if s.factorRoot i = none then
            { s with factorRoot := constructFactor s.factorRoot i,
                     calls := s.calls ++ [Call.constructFactor i] }
          else s
        let s2 : InitState :=
          if s1.factorRoot i = some i then
            { s1 with lnProbability := s1.lnProbability.add node.lnProb,
                      calls := s1.calls ++ [Call.calculateLnProbability i] }
          else s1
        if node.isSummedOver then { s2 with numSummedOver := s2.numSummedOver + 1 }
        else { s2 with numEliminated := s2.numEliminated + 1 }
      else
        if parentEliminated dagNodes node.parents then
          { s with numEliminated := s.numEliminated + 1 }
        else
          { s with lnProbability := s.lnProbability.add node.lnProb,
                   calls := s.calls ++ [Call.calculateLnProbability i] }
    else s

/-- The first `n` iterations of the loop over `dagNodes`, started with
`lnProbability = 0.0` after every node has been touched. -/
def initLoop (constructFactor : FactorRoots → ℕ → FactorRoots)
    (dagNodes : List InferenceDagNode) (roots : FactorRoots) (n : ℕ) : InitState :=
  (List.range n).foldl (initNode constructFactor dagNodes)
    { factorRoot := roots, lnProbability := Double.fin 0, numSummedOver := 0,
      numEliminated := 0, calls := (List.range dagNodes.length).map Call.touch }

/-- The part "Get initial lnProbability of model" of `Mcmc::run`: touch all nodes, sum,
keep all nodes. -/
def initialise (constructFactor : FactorRoots → ℕ → FactorRoots)
    (dagNodes : List InferenceDagNode) (roots : FactorRoots) : InitState :=
  let s := initLoop constructFactor dagNodes roots dagNodes.length
  { s with calls := s.calls ++ (List.range dagNodes.length).map Call.keep }

/-- The factor roots at the moment the loop over `dagNodes` reaches position `k`. -/
def rootsBefore (constructFactor : FactorRoots → ℕ → FactorRoots)
    (dagNodes : List InferenceDagNode) (roots : FactorRoots) (k : ℕ) : FactorRoots :=
  (initLoop constructFactor dagNodes roots k).factorRoot

/-- The factor roots at the moment the test `getFactorRoot() == stochNode` is made on the
node at position `k`, that is after `constructFactor()` if its root was `NULL`. -/
def rootsAtTest (constructFactor : FactorRoots → ℕ → FactorRoots)
    (dagNodes : List InferenceDagNode) (roots : FactorRoots) (k : ℕ) : FactorRoots :=
  if rootsBefore constructFactor dagNodes roots k k = none
  then constructFactor (rootsBefore constructFactor dagNodes roots k) k
  else rootsBefore constructFactor dagNodes roots k

/-- The nodes C4 names: a stochastic node that is either (a) instantiated with no
uninstantiated parent or (b) uninstantiated and its own factor root. -/
def contributes (constructFactor : FactorRoots → ℕ → FactorRoots)
    (dagNodes : List InferenceDagNode) (roots : FactorRoots) (k : ℕ) : Bool :=
  match dagNodes.get? k with
  | none => false
  | some node =>
    node.isStochastic &&
      (if node.isNotInstantiated
       then decide (rootsAtTest constructFactor dagNodes roots k k = some k)
       else !(node.parents.any (notInstantiated dagNodes)))

/-- The nodes on which `constructFactor()` is due: uninstantiated stochastic nodes whose
factor root is `NULL` when the loop reaches them. -/
def needsFactor (constructFactor : FactorRoots → ℕ → FactorRoots)
    (dagNodes : List InferenceDagNode) (roots : FactorRoots) (k : ℕ) : Bool :=
  match dagNodes.get? k with
  | none => false
  | some node =>
    node.isStochastic && node.isNotInstantiated &&
      decide (rootsBefore constructFactor dagNodes roots k k = none)

/-- The value `calculateLnProbability()` of the node at position `k`. -/
def nodeLnProb (dagNodes : List InferenceDagNode) (k : ℕ) : Double :=
  match dagNodes.get? k with
  | some node => node.lnProb
  | none => Double.fin 0

/-- The positions of the nodes on which `calculateLnProbability()` was called, in order. -/
def calculated (calls : List Call) : List ℕ :=
  calls.filterMap fun c => match c with
    | Call.calculateLnProbability i => some i
    | _ => none

/-- The positions of the nodes on which `constructFactor()` was called, in order. -/
def constructed (calls : List Call) : List ℕ :=
  calls.filterMap fun c => match c with
    | Call.constructFactor i => some i
    | _ => none

/-- A `constructFactor` that makes the node its own factor root (used in the examples). -/
def selfRoot : FactorRoots → ℕ → FactorRoots :=
  fun roots k j => if j = k then some k else roots j

/-- Example graph `G → M → C` of three stochastic nodes: `G` is eliminated, `M` and `C` are
instantiated; their log-probabilities are `-1`, `-2` and `-4`. -/
def grandparentExample : List InferenceDagNode :=
  [ { isStochastic := true, isNotInstantiated := true, isSummedOver := false,
      parents := [], lnProb := Double.fin (-1) },
    { isStochastic := true, isNotInstantiated := false, isSummedOver := false,
      parents := [0], lnProb := Double.fin (-2) },
    { isStochastic := true, isNotInstantiated := false, isSummedOver := false,
      parents := [1], lnProb := Double.fin (-4) } ]

/-- Example graph `A → B`: a chain of two eliminated stochastic nodes with
log-probabilities `-1` and `-4`. -/
def chainExample : List InferenceDagNode :=
  [ { isStochastic := true, isNotInstantiated := true, isSummedOver := false,
      parents := [], lnProb := Double.fin (-1) },
    { isStochastic := true, isNotInstantiated := true, isSummedOver := false,
      parents := [0], lnProb := Double.fin (-4) } ]

/-- A `constructFactor` that makes the node at position 0 the factor root of the nodes
at positions 0 and 1 (used in the examples). -/
def chainFactor : FactorRoots → ℕ → FactorRoots :=
  fun roots _ j => if j < 2 then some 0 else roots j

/-- The values that the random number generator yields after `n` calls of `uniform01()`:
`rng k` is the value of call number `k` (counted from 0), whoever makes it. -/
def valuesFrom (rng : ℕ → Double) (n : ℕ) : ℕ → Double :=
  fun k => rng (n + k)

/-- An `InferenceMove` acting on the state `σ` of the model.  The generator `rng` of `run`
is the global generator `GLOBAL_RNG`, which a move can use as well: each function of a move
is given the values that the generator yields from the moment of the call on and returns,
as its last component, the number of values it has taken.  `perform` returns the new
state, `lnProbabilityRatio` (its out-parameter) and `lnHastingsRatio` (its result);
`accept` and `reject` return the new state. -/
structure InferenceMove (σ : Type) where
  perform : σ → (ℕ → Double) → σ × Double × Double × ℕ
  accept : σ → (ℕ → Double) → σ × ℕ
  reject : σ → (ℕ → Double) → σ × ℕ

/-- An `InferenceMonitor`: `monitor gen s next` is the call `monitor(gen)` on the state
`s`; it returns the state and the number of values it has taken from the generator. -/
structure InferenceMonitor (σ : Type) where
  monitor : ℕ → σ → (ℕ → Double) → σ × ℕ

/-- The chain while it runs: the model, the running total, the number of values taken
from the random number generator (by `run`, the moves and the monitors) and the calls
that `run` has made so far. -/
structure Chain (σ : Type) where
  model : σ
  lnProbability : Double
  draws : ℕ
  calls : List Call

/-- The acceptance ratio `r` computed from `lnR`; `exp` is the library function. -/
def acceptanceRatio (exp : Double → Double) (lnR : Double) : Double :=
  if Double.lt (Double.fin 0) lnR then Double.fin 1
  else if Double.lt lnR (Double.fin (-300)) then Double.fin 0
  else exp lnR

/-- The number of values that the generator has yielded when the loop body for `theMove`
reaches `double u = rng->uniform01();`: those before the loop body and those that
`perform` took.  The draw `u` is `rng` of this number. -/
def drawIndex {σ : Type} (rng : ℕ → Double) (theMove : InferenceMove σ) (c : Chain σ) : ℕ :=
  c.draws + (theMove.perform c.model (valuesFrom rng c.draws)).2.2.2

/-- Body of the loop over `moves`, for the move at position `i`; `rng k` is the value of
call number `k` of `uniform01()` on the global generator. -/
def performMove {σ : Type} (exp : Double → Double) (rng : ℕ → Double) (i : ℕ)
    (theMove : InferenceMove σ) (c : Chain σ) : Chain σ :=
  let p := theMove.perform c.model (valuesFrom rng c.draws)
  let lnProbabilityRatio := p.2.1
  let lnHastingsRatio := p.2.2.1
  let lnR := lnProbabilityRatio.add lnHastingsRatio
  let r := acceptanceRatio exp lnR
  let u := rng (drawIndex rng theMove c)
  if Double.lt u r then
    let a := theMove.accept p.1 (valuesFrom rng (drawIndex rng theMove c + 1))
    { model := a.1,
      lnProbability := c.lnProbability.add lnProbabilityRatio,
      draws := drawIndex rng theMove c + 1 + a.2,
      calls := c.calls ++ [Call.perform i, Call.uniform01, Call.accept i] }
  else
    let a := theMove.reject p.1 (valuesFrom rng (drawIndex rng theMove c + 1))
    { model := a.1,
      lnProbability := c.lnProbability,
      draws := drawIndex rng theMove c + 1 + a.2,
      calls := c.calls ++ [Call.perform i, Call.uniform01, Call.reject i] }

/-- The loop `for (size_t i=0; i<moves.size(); i++)`, entered at position `i` with the
moves that are still to be performed. -/
def movesLoop {σ : Type} (exp : Double → Double) (rng : ℕ → Double) :
    ℕ → List (InferenceMove σ) → Chain σ → Chain σ
  | _, [], c => c
  | i, m :: ms, c => movesLoop exp rng (i + 1) ms (performMove exp rng i m c)

/-- The loop `for (size_t i=0; i<monitors.size(); i++) monitors[i]->monitor(gen);`, entered
at position `i` with the monitors that are still to be called. -/
def monitorsLoop {σ : Type} (rng : ℕ → Double) (gen : ℕ) :
    ℕ → List (InferenceMonitor σ) → Chain σ → Chain σ
  | _, [], c => c
  | i, m :: ms, c =>
    monitorsLoop rng gen (i + 1) ms
      { model := (m.monitor gen c.model (valuesFrom rng c.draws)).1,
        lnProbability := c.lnProbability,
        draws := c.draws + (m.monitor gen c.model (valuesFrom rng c.draws)).2,
        calls := c.calls ++ [Call.monitor i gen] }

/-- One generation `gen`: all moves, then all monitors. -/
def generation {σ : Type} (exp : Double → Double) (rng : ℕ → Double)
    (moves : List (InferenceMove σ)) (monitors : List (InferenceMonitor σ)) (c : Chain σ)
    (gen : ℕ) : Chain σ :=
  monitorsLoop rng gen 0 monitors (movesLoop exp rng 0 moves c)

/-- What one move did in a generation. -/
structure Outcome where
  lnProbabilityRatio : Double
  lnHastingsRatio : Double
  accepted : Bool

/-- The outcome of the move `theMove` performed on the chain `c`. -/
def moveOutcome {σ : Type} (exp : Double → Double) (rng : ℕ → Double)
    (theMove : InferenceMove σ) (c : Chain σ) : Outcome :=
  let p := theMove.perform c.model (valuesFrom rng c.draws)
  { lnProbabilityRatio := p.2.1,
    lnHastingsRatio := p.2.2.1,
    accepted :=
      Double.lt (rng (drawIndex rng theMove c)) (acceptanceRatio exp (p.2.1.add p.2.2.1)) }

/-- The outcomes of the moves of one generation, in the order of `moves`. -/
def outcomes {σ : Type} (exp : Double → Double) (rng : ℕ → Double) :
    ℕ → List (InferenceMove σ) → Chain σ → List Outcome
  | _, [], _ => []
  | i, m :: ms, c =>
    moveOutcome exp rng m c :: outcomes exp rng (i + 1) ms (performMove exp rng i m c)

/-- A move on a model without state that always proposes the same two ratios and takes no
value from the generator (used in the examples). -/
def constantMove (lnProbabilityRatio lnHastingsRatio : Double) : InferenceMove Unit where
  perform := fun _ _ => ((), lnProbabilityRatio, lnHastingsRatio, 0)
  accept := fun _ _ => ((), 0)
  reject := fun _ _ => ((), 0)

/-- The `double` nearest to `0.3`. -/
def zeroPointThree : ℚ := 5404319552844595 / 18014398509481984

/-- The boundary `⌊fl (fl (a / P) * N)⌋` that both `run_block_start` (at `a = pid`)
and `run_block_end` (at `a = pid + 1`) compute once the conversions are exact. -/
def blockBound (N P a : ℕ) : ℕ := ⌊fl (fl ((a : ℚ) / P) * N)⌋₊

/-! ## `PosteriorPredictiveAnalysis`: construction and copying -/

/-- What the constructor learns from `RbFileManager` about the path `fn`. -/
structure RbFileManager where
  /-- result of `testFile()` -/
  testFile : Bool
  /-- result of `testDirectory()` -/
  testDirectory : Bool
  /-- result of `isDirectory()` -/
  isDirectory : Bool
  /-- the names `setStringWithNamesOfFilesInDirectory` puts into `dir_names` -/
  dir_names : List String

/-- The members `num_runs` and `runs` of a `PosteriorPredictiveAnalysis`. -/
structure PosteriorPredictiveAnalysis where
  num_runs : ℕ
  runs : List (Option MonteCarloAnalysis)
  deriving DecidableEq, Repr

/-- The two exceptions of the constructor. -/
inductive ConstructorError where
  /-- the exception "Could not find file or path with name ..." -/
  | notFound
  /-- the exception "... is not a directory." -/
  | notADirectory
  deriving DecidableEq, Repr

/-- The members as the initialiser list of the constructor leaves them: `num_runs( 0 )`
and an empty `runs`. -/
def PosteriorPredictiveAnalysis.initial : PosteriorPredictiveAnalysis :=
  { num_runs := 0, runs := [] }

/-- The constructor `PosteriorPredictiveAnalysis(m, fn)` on process `pid`: the finished
object, or the exception thrown together with the members at the moment of the throw. -/
def PosteriorPredictiveAnalysis.create (fm : RbFileManager) (num_processes pid : ℕ) :
    Except (ConstructorError × PosteriorPredictiveAnalysis) PosteriorPredictiveAnalysis :=
  if !fm.testFile && !fm.testDirectory then
    Except.error (ConstructorError.notFound, PosteriorPredictiveAnalysis.initial)
  else if fm.isDirectory then
    Except.ok { num_runs := fm.dir_names.length,
                runs := constructor fm.dir_names.length num_processes pid }
  else
    Except.error (ConstructorError.notADirectory, PosteriorPredictiveAnalysis.initial)

/-- The loop `for (i < num_runs) if ( runs[i] != NULL ) runs[i] = a.runs[i]->clone();` of
the copy constructor and of `operator=`, from position `i` on, for `n` more positions:
`none` when `runs[i]` lies outside the vector or `a.runs[i]` is dereferenced while
`NULL`; `clone()` gives an equal replicate. -/
def copyRunsLoop (a_runs : List (Option MonteCarloAnalysis)) :
    ℕ → ℕ → List (Option MonteCarloAnalysis) → Option (List (Option MonteCarloAnalysis))
  | 0, _, runs => some runs
  | n + 1, i, runs =>
    match runs.get? i with
    | none => none
    | some none => copyRunsLoop a_runs n (i + 1) runs
    | some (some _) =>
      match deref a_runs i with
      | none => none
      | some r => copyRunsLoop a_runs n (i + 1) (runs.set i (some r))

/-- The copy constructor: `num_runs( a.num_runs )`, the member `runs` is not in the
initialiser list and starts empty, then the loop. -/
def PosteriorPredictiveAnalysis.copy (a : PosteriorPredictiveAnalysis) :
    Option PosteriorPredictiveAnalysis :=
  (copyRunsLoop a.runs a.num_runs 0 []).map fun runs => { num_runs := a.num_runs, runs := runs }

/-- The function `clone()`: `new PosteriorPredictiveAnalysis( *this )`. -/
def PosteriorPredictiveAnalysis.clone (a : PosteriorPredictiveAnalysis) :
    Option PosteriorPredictiveAnalysis :=
  a.copy

/-- The assignment `operator=` for `this != &a`: the old runs are freed,
`runs = std::vector<MonteCarloAnalysis*>(a.num_runs,NULL)`, `num_runs = a.num_runs`, then
the loop. -/
def PosteriorPredictiveAnalysis.assign (a : PosteriorPredictiveAnalysis) :
    Option PosteriorPredictiveAnalysis :=
  (copyRunsLoop a.runs a.num_runs 0 (List.replicate a.num_runs none)).map
    fun runs => { num_runs := a.num_runs, runs := runs }

/-- An analysis with one replicate (used in the examples). -/
def oneRunExample : PosteriorPredictiveAnalysis :=
  { num_runs := 1, runs := [some { file := 0, activePID := 0, numProcesses := 1 }] }

/-- The negation `-x`. -/
def Double.neg : Double → Double
  | .fin q => .fin (-q)
  | .pinf => .ninf
  | .ninf => .pinf
  | .nan => .nan

/-- The difference `x - y`. -/
def Double.sub (x y : Double) : Double := x.add y.neg

/-- The quotient `x / y`; a zero divisor is the positive zero. -/
def Double.div : Double → Double → Double
  | .fin a, .fin b =>
    if b = 0 then (if a = 0 then .nan else if 0 < a then .pinf else .ninf)
    else Double.round (a / b)
  | .nan, _ => .nan
  | _, .nan => .nan
  | .fin _, _ => .fin 0
  | .pinf, .fin b => if 0 ≤ b then .pinf else .ninf
  | .ninf, .fin b => if 0 ≤ b then .ninf else .pinf
  | _, _ => .nan

/-- The product `x * y`. -/
def Double.mul : Double → Double → Double
  | .fin a, .fin b => Double.round (a * b)
  | .nan, _ => .nan
  | _, .nan => .nan
  | .fin a, .pinf => if a = 0 then .nan else if 0 < a then .pinf else .ninf
  | .fin a, .ninf => if a = 0 then .nan else if 0 < a then .ninf else .pinf
  | .pinf, .fin b => if b = 0 then .nan else if 0 < b then .pinf else .ninf
  | .ninf, .fin b => if b = 0 then .nan else if 0 < b then .ninf else .pinf
  | .pinf, .pinf => .pinf
  | .ninf, .ninf => .pinf
  | .pinf, .ninf => .ninf
  | .ninf, .pinf => .ninf

/-- The comparison `x == y`; false as soon as one of them is NaN. -/
def Double.eq : Double → Double → Bool
  | .fin a, .fin b => decide (a = b)
  | .pinf, .pinf => true
  | .ninf, .ninf => true
  | _, _ => false

/-! ## `UltrametricTreeDistribution`: the probability of the samples -/

/-- A node of `my_tree` in `computeBranchRateLnProbability`. -/
structure BranchNode where
  /-- the value of `the_node->isRoot()` -/
  isRoot : Bool
  /-- the value of `the_node->getBranchLength()` -/
  branch_time : Double
  /-- the value of `sampled_node.getBranchLength()` -/
  branch_exp_num_events : Double

/-- The function `computeBranchRateLnProbability`; `rate_prior x` is the value of
`rate_prior->computeLnProbability()` after `rate_prior->setValue( new double(x) )`,
`containsClade` and `hasSameTopology` are the results of the two tests on the trees.  The
line printed to `std::cerr` for a rate that is not finite does not change the result. -/
def computeBranchRateLnProbability (rate_prior : Double → Double)
    (containsClade hasSameTopology : Bool) (nodes : List BranchNode) : Double :=
  if containsClade = false then Double.ninf
  else if hasSameTopology then
    nodes.foldl
      (fun ln_prob the_node =>
        if the_node.isRoot = false then
          ln_prob.add (rate_prior (the_node.branch_exp_num_events.div the_node.branch_time))
        else ln_prob)
      (Double.fin 0)
  else Double.ninf

/-- The loop `if ( i == 0 || max < ln_probs[i] ) max = ln_probs[i];` of
`computeLnProbability`, from position `i` on. -/
def maxLoop : ℕ → Double → List Double → Double
  | _, max, [] => max
  | i, max, x :: xs => maxLoop (i + 1) (if i = 0 ∨ max.lt x = true then x else max) xs

/-- The aggregate of the samples in `computeLnProbability` (on the active process),
before the tree prior is added: `max` from `maxLoop` started with `max = 0`, `prob` the sum
of `exp( ln_probs[i] - max )`, and `std::log( prob ) + max - std::log( num_samples )`;
`exp` and `log` are the library functions. -/
def sampleAggregate (exp log : Double → Double) (ln_probs : List Double) : Double :=
  let max := maxLoop 0 (Double.fin 0) ln_probs
  let prob := ln_probs.foldl (fun prob x => prob.add (exp (x.sub max))) (Double.fin 0)
  ((log prob).add max).sub (log (Double.fin (toDouble ln_probs.length)))

/-- The negated value as log-density (used in the examples): the log-density of an
exponential distribution with rate 1. -/
def exponentialLnPdf : Double → Double := Double.neg

/-- The values `-1, -2, -3, ...` of the samples `0, 1, 2, ...` (used in the examples). -/
def exampleLnProbs : ℕ → ℚ := fun i => -((i : ℚ) + 1)

/-! ## `BiogeographyCladogeneticBirthDeathFunction::update` -/

/-- A key of the event map: the vector `idx` with the states of the ancestor, the left and
the right daughter. -/
abbrev EventKey := ℕ × ℕ × ℕ

/-- The member `eventMap`, a `std::map` from keys to rates: `none` for a key that is not
in the map. -/
abbrev EventMap := EventKey → Option Double

/-- The assignment `eventMap[ idx ] = v`. -/
def EventMap.assign (m : EventMap) (idx : EventKey) (v : Double) : EventMap :=
  fun k => if k = idx then some v else m k

/-- The update `eventMap[ idx ] += v`; an absent key is first entered with `0.0`. -/
def EventMap.addTo (m : EventMap) (idx : EventKey) (v : Double) : EventMap :=
  m.assign idx (((m idx).getD (Double.fin 0)).add v)

/-- The members of the function that `update` reads and writes. -/
structure Biogeography where
  numRanges : ℕ
  use_hidden_rate : Bool
  connectivityType : String
  /-- the entries of `eventMapTypes` in the order of the map -/
  eventMapTypes : List (EventKey × ℕ)
  /-- the entry `eventMapCounts[ a ][ t ]` -/
  eventMapCounts : ℕ → ℕ → ℕ
  /-- the entry `sr[ t ]` of `speciationRates->getValue()` -/
  speciationRates : ℕ → Double
  /-- the entry `rate_multipliers[0]` of `hiddenRateMultipliers->getValue()` -/
  rateMultiplier : Double
  eventMap : EventMap

/-- The key `idx_hidden`: every component is `idx[k] + numRanges + 1`, an `unsigned`. -/
def hiddenKey (numRanges : ℕ) (idx : EventKey) : EventKey :=
  ((idx.1 + numRanges + 1) % 2 ^ 32, (idx.2.1 + numRanges + 1) % 2 ^ 32,
    (idx.2.2 + numRanges + 1) % 2 ^ 32)

/-- Body of the first inner loop of `update`: the entry of the event, and of its hidden
copy, is set to `0.0`. -/
def resetEvent (s : Biogeography) (m : EventMap) (e : EventKey × ℕ) : EventMap :=
  let m1 := m.assign e.1 (Double.fin 0)
  if s.use_hidden_rate = true then m1.assign (hiddenKey s.numRanges e.1) (Double.fin 0)
  else m1

/-- The value `speciation_rate`: `sr[ event_type ]` unless it is NaN
(`sr[ event_type ] == sr[ event_type ]` fails), and `0.0` then. -/
def speciationRate (s : Biogeography) (event_type : ℕ) : Double :=
  if (s.speciationRates event_type).eq (s.speciationRates event_type) = true
  then s.speciationRates event_type else Double.fin 0

/-- The value `v = speciation_rate / eventMapCounts[ idx[0] ][ event_type ]`. -/
def eventRate (s : Biogeography) (e : EventKey × ℕ) : Double :=
  (speciationRate s e.2).div (Double.fin (toDouble (s.eventMapCounts e.1.1 e.2)))

/-- Body of the second inner loop of `update`: `v` is added to the entry of the event and
`v * rate_multipliers[0]` to the entry of its hidden copy. -/
def rateEvent (s : Biogeography) (m : EventMap) (e : EventKey × ℕ) : EventMap :=
  let m1 := m.addTo e.1 (eventRate s e)
  if s.use_hidden_rate = true then
    m1.addTo (hiddenKey s.numRanges e.1) ((eventRate s e).mul s.rateMultiplier)
  else m1

/-- One iteration of the outer loop `for (unsigned i = 0; i < numRanges; i++)`. -/
def updateRound (s : Biogeography) (m : EventMap) : EventMap :=
  s.eventMapTypes.foldl (rateEvent s) (s.eventMapTypes.foldl (resetEvent s) m)

/-- The function `update()`: `updateEventMapFactors()` throws for a connectivity type other
than "none" and "modularity" (it writes `eventMapFactors` only, which `update` does not
read); then the outer loop runs `numRanges` times. -/
def Biogeography.update (s : Biogeography) : Except String Biogeography :=
  if s.connectivityType = "none" ∨ s.connectivityType = "modularity" then
    Except.ok { s with eventMap :=
      (List.range s.numRanges).foldl (fun m _ => updateRound s m) s.eventMap }
  else Except.error "Unknown connectivityType"

/-- A passed argument: the label `getLabel()` returns (empty when the argument was passed
without one) and the variable `getVariable()` returns, `none` for `NULL`. -/
structure Argument (V : Type) where
  getLabel : String
  getVariable : Option V

/-- An argument rule, as far as `processArguments` reads it: the label, whether the rule is
an ellipsis (`isType(Ellipsis_name)`), the result of `isArgValid` for a variable and the
flag `evaluateOnce`, the value `isArgValid` leaves in `conversionNeeded`, and `hasDefault()`.
The class `ArgumentRule` is defined elsewhere, so these are data of the rule. -/
structure ArgumentRule (V : Type) where
  getArgLabel : String
  isEllipsis : Bool
  isArgValid : Option V → Bool → Bool
  conversionNeeded : Option V → Bool → Bool
  hasDefault : Bool

/-- What a variable slot of `args` holds: nothing yet, the variable of a passed argument
(converted by the rule or not), or the default of its rule (`getDefaultReference()` or
`getDefaultVariable()`). -/
inductive SlotValue (V : Type)
  | empty
  | passed (v : Option V) (converted : Bool)
  | defaultValue
  deriving DecidableEq

/-- The two ways in which `processArguments` stops without returning `true`: the statement
`return false`, and an access `theRules[i]` with `i` not below `theRules.size()`, after
which the behaviour of the program is undefined. -/
inductive Stop
  | returnFalse
  | outOfBounds
  deriving DecidableEq

/-- The local vectors `taken`, `filled` and `passedArgIndex` and the member `args`. -/
structure MatchState (V : Type) where
  taken : List Bool
  filled : List Bool
  passedArgIndex : List Int
  args : List (SlotValue V)

/-- The entry `taken[i]`. -/
def MatchState.isTaken {V : Type} (st : MatchState V) (i : ℕ) : Bool := st.taken.getD i false

/-- The entry `filled[j]`. -/
def MatchState.isFilled {V : Type} (st : MatchState V) (j : ℕ) : Bool := st.filled.getD j false

/-- The entry `passedArgIndex[j]`. -/
def MatchState.argIndex {V : Type} (st : MatchState V) (j : ℕ) : Int :=
  st.passedArgIndex.getD j (-1)

/-- The content of the slot `args[j]`. -/
def MatchState.slot {V : Type} (st : MatchState V) (j : ℕ) : SlotValue V :=
  st.args.getD j SlotValue.empty

/-- The four statements with which every phase binds the passed argument `i` to the slot
`j`: `taken[i] = true; filled[j] = true; passedArgIndex[j] = i;` and
`args[j].replaceArgumentVariable(...)` with the variable, converted if `conversionNeeded`. -/
def MatchState.fill {V : Type} (st : MatchState V) (r : ArgumentRule V) (a : Argument V)
    (i j : ℕ) (evaluateOnce : Bool) : MatchState V :=
  { taken := st.taken.set i true
    filled := st.filled.set j true
    passedArgIndex := st.passedArgIndex.set j (i : Int)
    args := st.args.set j
      (SlotValue.passed a.getVariable (r.conversionNeeded a.getVariable evaluateOnce)) }

/-- The test `nRules > 0 && theRules[nRules-1]->isType(Ellipsis_name)`. -/
def hasEllipsis {V : Type} (rules : List (ArgumentRule V)) : Bool :=
  match rules[rules.length - 1]? with
  | some r => decide (0 < rules.length) && r.isEllipsis
  | none => false

/-- The local `numRegularRules`. -/
def numRegularRules {V : Type} (rules : List (ArgumentRule V)) : ℕ :=
  if hasEllipsis rules = true then rules.length - 1 else rules.length

/-- The local `numFinalArgs`. -/
def numFinalArgs {V : Type} (rules : List (ArgumentRule V)) (passedArgs : List (Argument V)) :
    ℕ :=
  if hasEllipsis rules = true then
    if passedArgs.length < rules.length then rules.length - 1 else passedArgs.length
  else rules.length

/-- The loop that fills `args` with empty slots: it reads `theRules[i]` for the indices `i`
of the list, here `0, ..., numFinalArgs - 1`. -/
def emptySlots {V : Type} (rules : List (ArgumentRule V)) :
    List ℕ → List (SlotValue V) → Except Stop (List (SlotValue V))
  | [], args => Except.ok args
  | i :: is, args =>
    match rules[i]? with
    | none => Except.error Stop.outOfBounds
    | some _ => emptySlots rules is (args ++ [SlotValue.empty])

/-- Phase 1, the loop over the arguments `i = nRules-1, ...` the ellipsis swallows; the list
holds the arguments from `i` on. -/
def ellipsisLoop {V : Type} (ellipsisRule : ArgumentRule V) (evaluateOnce : Bool) :
    ℕ → List (Argument V) → MatchState V → Except Stop (MatchState V)
  | _, [], st => Except.ok st
  | i, a :: as, st =>
    match a.getVariable with
    | none => Except.error Stop.returnFalse
    | some _ =>
      if ellipsisRule.isArgValid a.getVariable evaluateOnce = true then
        ellipsisLoop ellipsisRule evaluateOnce (i + 1) as
          (st.fill ellipsisRule a i i evaluateOnce)
      else Except.error Stop.returnFalse

/-- Phase 1: the ellipsis arguments, when the last rule is an ellipsis and at least `nRules`
arguments are passed. -/
def ellipsisPhase {V : Type} (rules : List (ArgumentRule V)) (passedArgs : List (Argument V))
    (evaluateOnce : Bool) (st : MatchState V) : Except Stop (MatchState V) :=
  if hasEllipsis rules = true ∧ rules.length ≤ passedArgs.length then
    match rules[rules.length - 1]? with
    | none => Except.error Stop.outOfBounds
    | some r =>
      ellipsisLoop r evaluateOnce (rules.length - 1) (passedArgs.drop (rules.length - 1)) st
  else Except.ok st

/-- Phase 2, the inner loop over the regular rules `j` of the list for the labelled
argument `a` at position `i`. -/
def exactInner {V : Type} (rules : List (ArgumentRule V)) (a : Argument V) (i : ℕ)
    (evaluateOnce : Bool) : List ℕ → MatchState V → Except Stop (MatchState V)
  | [], st => Except.ok st
  | j :: js, st =>
    match rules[j]? with
    | none => Except.error Stop.outOfBounds
    | some r =>
      if a.getLabel = r.getArgLabel then
        if r.isArgValid a.getVariable evaluateOnce = true ∧ st.isFilled j = false then
          exactInner rules a i evaluateOnce js (st.fill r a i j evaluateOnce)
        else Except.error Stop.returnFalse
      else exactInner rules a i evaluateOnce js st

/-- Phase 2, exact matching of labels: the loop over the passed arguments; the list holds
the arguments from position `i` on. -/
def exactLoop {V : Type} (rules : List (ArgumentRule V)) (evaluateOnce : Bool) :
    ℕ → List (Argument V) → MatchState V → Except Stop (MatchState V)
  | _, [], st => Except.ok st
  | i, a :: as, st =>
    if st.isTaken i = true then Except.ok st
    else if a.getLabel.length = 0 then exactLoop rules evaluateOnce (i + 1) as st
    else
      match exactInner rules a i evaluateOnce (List.range (numRegularRules rules)) st with
      | Except.error e => Except.error e
      | Except.ok st1 => exactLoop rules evaluateOnce (i + 1) as st1

/-- The test `theRules[j]->getArgLabel().compare(0, label.size(), label) == 0`: the first
`label.size()` characters of the label of the rule, or all of them if there are fewer, are
those of the label of the argument. -/
def labelStartsWith (ruleLabel argLabel : String) : Bool :=
  ruleLabel.data.take argLabel.length == argLabel.data

/-- Phase 3, the inner loop over the regular rules `j` of the list: it counts in `nMatches`
the unfilled rules whose label starts with the label of the argument and keeps the last of
them in `matchRule`. -/
def partialInner {V : Type} (rules : List (ArgumentRule V)) (a : Argument V)
    (st : MatchState V) : List ℕ → ℕ × Int → Except Stop (ℕ × Int)
  | [], acc => Except.ok acc
  | j :: js, acc =>
    match rules[j]? with
    | none => Except.error Stop.outOfBounds
    | some r =>
      if st.isFilled j = false ∧ labelStartsWith r.getArgLabel a.getLabel = true then
        partialInner rules a st js (acc.1 + 1, (j : Int))
      else partialInner rules a st js acc

/-- Phase 3, the body of the loop for the argument `a` at position `i`. -/
def partialStep {V : Type} (rules : List (ArgumentRule V)) (evaluateOnce : Bool) (i : ℕ)
    (a : Argument V) (st : MatchState V) : Except Stop (MatchState V) :=
  if st.isTaken i = true then Except.ok st
  else if a.getLabel.length = 0 then Except.ok st
  else
    match partialInner rules a st (List.range (numRegularRules rules)) (0, -1) with
    | Except.error e => Except.error e
    | Except.ok (nMatches, matchRule) =>
      if nMatches ≠ 1 then Except.error Stop.returnFalse
      else
        match rules[matchRule.toNat]? with
        | none => Except.error Stop.outOfBounds
        | some r =>
          if r.isArgValid a.getVariable evaluateOnce = true then
            Except.ok (st.fill r a i matchRule.toNat evaluateOnce)
          else Except.error Stop.returnFalse

/-- Phase 3, partial matching of labels: the loop over the passed arguments; the list holds
the arguments from position `i` on. -/
def partialLoop {V : Type} (rules : List (ArgumentRule V)) (evaluateOnce : Bool) :
    ℕ → List (Argument V) → MatchState V → Except Stop (MatchState V)
  | _, [], st => Except.ok st
  | i, a :: as, st =>
    match partialStep rules evaluateOnce i a st with
    | Except.error e => Except.error e
    | Except.ok st1 => partialLoop rules evaluateOnce (i + 1) as st1

/-- Phase 4, the inner loop over the regular rules `j` of the list: the argument goes to
the first empty slot; when there is none, nothing happens. -/
def unusedInner {V : Type} (rules : List (ArgumentRule V)) (a : Argument V) (i : ℕ)
    (evaluateOnce : Bool) : List ℕ → MatchState V → Except Stop (MatchState V)
  | [], st => Except.ok st
  | j :: js, st =>
    if st.isFilled j = false then
      match rules[j]? with
      | none => Except.error Stop.outOfBounds
      | some r =>
        if r.isArgValid a.getVariable evaluateOnce = true then
          Except.ok (st.fill r a i j evaluateOnce)
        else Except.error Stop.returnFalse
    else unusedInner rules a i evaluateOnce js st

/-- Phase 4, the remaining arguments in the order they were passed: the loop over the
passed arguments; the list holds the arguments from position `i` on. -/
def unusedLoop {V : Type} (rules : List (ArgumentRule V)) (evaluateOnce : Bool) :
    ℕ → List (Argument V) → MatchState V → Except Stop (MatchState V)
  | _, [], st => Except.ok st
  | i, a :: as, st =>
    if st.isTaken i = true then unusedLoop rules evaluateOnce (i + 1) as st
    else
      match unusedInner rules a i evaluateOnce (List.range (numRegularRules rules)) st with
      | Except.error e => Except.error e
      | Except.ok st1 => unusedLoop rules evaluateOnce (i + 1) as st1

/-- Phase 5, the defaults: the loop over the regular rules `i` of the list. -/
def defaultLoop {V : Type} (rules : List (ArgumentRule V)) :
    List ℕ → MatchState V → Except Stop (MatchState V)
  | [], st => Except.ok st
  | i :: is, st =>
    if st.isFilled i = true then defaultLoop rules is st
    else
      match rules[i]? with
      | none => Except.error Stop.outOfBounds
      | some r =>
        if r.hasDefault = false then Except.error Stop.returnFalse
        else defaultLoop rules is { st with args := st.args.set i SlotValue.defaultValue }

/-- Phase 0 of `processArguments`: the test for too many arguments, the empty slots and the
initial vectors. -/
def initialState {V : Type} (rules : List (ArgumentRule V)) (passedArgs : List (Argument V)) :
    Except Stop (MatchState V) :=
  if numFinalArgs rules passedArgs < passedArgs.length then Except.error Stop.returnFalse
  else
    match emptySlots rules (List.range (numFinalArgs rules passedArgs)) [] with
    | Except.error e => Except.error e
    | Except.ok args =>
      Except.ok
        { taken := List.replicate passedArgs.length false
          filled := List.replicate (numFinalArgs rules passedArgs) false
          passedArgIndex := List.replicate (numFinalArgs rules passedArgs) (-1)
          args := args }

/-- The state after phases 0 to 2, when the loop of phase 3 starts. -/
def afterExact {V : Type} (rules : List (ArgumentRule V)) (passedArgs : List (Argument V))
    (evaluateOnce : Bool) : Except Stop (MatchState V) :=
  match initialState rules passedArgs with
  | Except.error e => Except.error e
  | Except.ok st0 =>
    match ellipsisPhase rules passedArgs evaluateOnce st0 with
    | Except.error e => Except.error e
    | Except.ok st1 => exactLoop rules evaluateOnce 0 passedArgs st1

/-- The state in which the loop of phase 2 reaches the passed argument `i`: phases 0 and 1
and the iterations of phase 2 for the arguments before `i`. -/
def beforeExact {V : Type} (rules : List (ArgumentRule V)) (passedArgs : List (Argument V))
    (evaluateOnce : Bool) (i : ℕ) : Except Stop (MatchState V) :=
  match initialState rules passedArgs with
  | Except.error e => Except.error e
  | Except.ok st0 =>
    match ellipsisPhase rules passedArgs evaluateOnce st0 with
    | Except.error e => Except.error e
    | Except.ok st1 => exactLoop rules evaluateOnce 0 (passedArgs.take i) st1

/-- The state in which the loop of phase 3 reaches the passed argument `i`: phases 0 to 2
and the iterations of phase 3 for the arguments before `i`. -/
def beforePartial {V : Type} (rules : List (ArgumentRule V)) (passedArgs : List (Argument V))
    (evaluateOnce : Bool) (i : ℕ) : Except Stop (MatchState V) :=
  match afterExact rules passedArgs evaluateOnce with
  | Except.error e => Except.error e
  | Except.ok st2 => partialLoop rules evaluateOnce 0 (passedArgs.take i) st2

/-- The state after phases 0 to 3, when the loop of phase 4 starts. -/
def afterPartial {V : Type} (rules : List (ArgumentRule V)) (passedArgs : List (Argument V))
    (evaluateOnce : Bool) : Except Stop (MatchState V) :=
  match afterExact rules passedArgs evaluateOnce with
  | Except.error e => Except.error e
  | Except.ok st2 => partialLoop rules evaluateOnce 0 passedArgs st2

/-- The function `RbFunction::processArguments`, phases 0 to 5: `Except.ok st` when it
returns `true`, with the final value `st` of `args` and of the three vectors.  The match
score of phase 6, which changes none of them, is left out, and so are the labels
`setArgumentLabel` gives the slots.  The sizes are taken to fit an `int`. -/
def processArguments {V : Type} (rules : List (ArgumentRule V)) (passedArgs : List (Argument V))
    (evaluateOnce : Bool) : Except Stop (MatchState V) :=
  match afterPartial rules passedArgs evaluateOnce with
  | Except.error e => Except.error e
  | Except.ok st3 =>
    match unusedLoop rules evaluateOnce 0 passedArgs st3 with
    | Except.error e => Except.error e
    | Except.ok st4 => defaultLoop rules (List.range (numRegularRules rules)) st4

/-- The passed argument `i` is swallowed by the ellipsis. -/
def swallowed {V : Type} (rules : List (ArgumentRule V)) (passedArgs : List (Argument V))
    (i : ℕ) : Prop :=
  hasEllipsis rules = true ∧ rules.length ≤ passedArgs.length ∧ rules.length - 1 ≤ i

/-- A regular rule with the given label that accepts every variable; it has a default or
not. -/
def plainRule (label : String) (hasDefault : Bool) : ArgumentRule ℕ :=
  { getArgLabel := label, isEllipsis := false, isArgValid := fun _ _ => true,
    conversionNeeded := fun _ _ => false, hasDefault := hasDefault }

/-- An ellipsis rule that accepts every variable. -/
def ellipsisRule : ArgumentRule ℕ :=
  { getArgLabel := "", isEllipsis := true, isArgValid := fun _ _ => true,
    conversionNeeded := fun _ _ => false, hasDefault := false }

/-- The vectors of the state have the sizes they are created with: `taken` that of
`passedArgs`, the others `numFinalArgs`. -/
def MatchState.WF {V : Type} (st : MatchState V) (size n : ℕ) : Prop :=
  st.taken.length = size ∧ st.filled.length = n ∧ st.passedArgIndex.length = n ∧
    st.args.length = n

/-- The state `st1` extends `st`: what is taken stays taken, and a filled slot stays filled
and keeps its argument and its content. -/
def MatchState.Ext {V : Type} (st st1 : MatchState V) : Prop :=
  (∀ i, st.isTaken i = true → st1.isTaken i = true) ∧
  ∀ j, st.isFilled j = true →
    st1.isFilled j = true ∧ st1.argIndex j = st.argIndex j ∧ st1.slot j = st.slot j

/-- Between `st` and `st1` only passed arguments at the positions `lo ≤ k < hi` were bound:
the sizes are kept, `st1` extends `st`, and `taken` is the same at every other position. -/
def MatchState.Touches {V : Type} (st st1 : MatchState V) (size n lo hi : ℕ) : Prop :=
  st1.WF size n ∧ st.Ext st1 ∧ ∀ k, k < lo ∨ hi ≤ k → st1.isTaken k = st.isTaken k

/-- The test of phase 3 for the rule `j` in the state `st`: the slot is not filled and the
label of the rule starts with the label of the argument. -/
def PartialMatch {V : Type} (rules : List (ArgumentRule V)) (a : Argument V)
    (st : MatchState V) (j : ℕ) : Prop :=
  ∃ r, rules[j]? = some r ∧ st.isFilled j = false ∧
    labelStartsWith r.getArgLabel a.getLabel = true

/-- The states `st` and `st1` agree at the position `k` of every vector. -/
def MatchState.SameAt {V : Type} (st st1 : MatchState V) (k : ℕ) : Prop :=
  st1.isTaken k = st.isTaken k ∧ st1.isFilled k = st.isFilled k ∧
    st1.argIndex k = st.argIndex k ∧ st1.slot k = st.slot k

/-- The vectors of the state are consistent with one another: an unfilled slot is empty and
has no argument; a filled slot `j` holds the variable of the passed argument
`passedArgIndex[j]`, which is taken and satisfies `P`; every taken argument is in a filled
slot; and no two filled slots have the same argument. -/
def MatchState.Inv {V : Type} (st : MatchState V) (passedArgs : List (Argument V)) (n : ℕ)
    (P : ℕ → Argument V → Prop) : Prop :=
  st.WF passedArgs.length n ∧
  (∀ j, j < n → st.isFilled j = false →
    st.argIndex j = -1 ∧ st.slot j = SlotValue.empty) ∧
  (∀ j, j < n → st.isFilled j = true →
    ∃ (i : ℕ) (a : Argument V), passedArgs[i]? = some a ∧
      st.argIndex j = (i : Int) ∧ st.isTaken i = true ∧ P i a ∧
      ∃ c, st.slot j = SlotValue.passed a.getVariable c) ∧
  (∀ i, i < passedArgs.length → st.isTaken i = true →
    ∃ j, j < n ∧ st.isFilled j = true ∧ st.argIndex j = (i : Int)) ∧
  ∀ j k, j < n → k < n → st.isFilled j = true → st.isFilled k = true →
    st.argIndex j = st.argIndex k → j = k

/-- The non-empty labels of the rules are pairwise distinct, which the code assumes
("we assume that all labels are unique; this is checked by FunctionTable"). -/
def DistinctLabels {V : Type} (rules : List (ArgumentRule V)) : Prop :=
  ((rules.map ArgumentRule.getArgLabel).filter (fun l => decide (l ≠ ""))).Nodup

/-- Rules with the labels "alpha", "beta", "gamma" and "delta", the last with a default
(used in the examples). -/
def exampleRules : List (ArgumentRule ℕ) :=
  [plainRule "alpha" false, plainRule "beta" false, plainRule "gamma" false,
    plainRule "delta" true]

/-- Three passed arguments: an unlabelled one, one that abbreviates "gamma" and one labelled
"alpha" (used in the examples). -/
def exampleArgs : List (Argument ℕ) :=
  [⟨"", some 10⟩, ⟨"ga", some 11⟩, ⟨"alpha", some 12⟩]

/-- Rules with the labels "alpha" and "alphabet", the second with a default (used in the
examples). -/
def alphaRules : List (ArgumentRule ℕ) := [plainRule "alpha" false, plainRule "alphabet" true]

/-- Two rules with the same label (used in the examples). -/
def duplicateRules : List (ArgumentRule ℕ) := [plainRule "x" false, plainRule "x" false]

/-- A labelled and an unlabelled passed argument (used in the examples). -/
def duplicateArgs : List (Argument ℕ) := [⟨"x", some 1⟩, ⟨"", some 2⟩]

/-! ## `Func_readAncestralStateTrace::readAncestralStates` -/

/-- An `AncestralStateTrace`, as far as `readAncestralStates` writes it: the parameter
name, the file name and the values added with `addObject`, in the order they were added. -/
structure AncestralStateTrace where
  parmName : String
  fileName : String
  values : List String
  deriving DecidableEq

/-- The two ways in which `readAncestralStates` fails: the file cannot be opened (an
exception), and an access `data[j-1]` past the end of `data`. -/
inductive ReadError
  | couldNotOpen
  | outOfBounds
  deriving DecidableEq

/-- The loop over the columns `j = 1, ...` of the header: a new trace, named by the column,
is appended to `data`.  The list holds the columns from `j` on. -/
def headerLoop (fileName : String) :
    List String → List AncestralStateTrace → List AncestralStateTrace
  | [], data => data
  | parmName :: columns, data =>
    headerLoop fileName columns (data ++ [⟨parmName, fileName, []⟩])

/-- The loop over the columns `j = 1, ...` of a later line: the column is added to the
trace `data[j-1]`.  The list holds the columns from `j` on. -/
def dataLoop : ℕ → List String → List AncestralStateTrace →
    Except ReadError (List AncestralStateTrace)
  | _, [], data => Except.ok data
  | j, anc_state :: columns, data =>
    match data[j - 1]? with
    | none => Except.error ReadError.outOfBounds
    | some t =>
      dataLoop (j + 1) columns (data.set (j - 1) { t with values := t.values ++ [anc_state] })

/-- The loop over the lines that `getline` returns.  `stringSplit line delimitter` is the
vector of columns `StringUtilities::stringSplit` produces. -/
def readLoop (stringSplit : String → String → List String) (fileName delimitter : String) :
    List String → Bool → List AncestralStateTrace →
    Except ReadError (List AncestralStateTrace)
  | [], _, data => Except.ok data
  | line :: lines, hasHeaderBeenRead, data =>
    if line.length = 0 then readLoop stringSplit fileName delimitter lines hasHeaderBeenRead data
    else if line.data.head? = some '#' then
      readLoop stringSplit fileName delimitter lines hasHeaderBeenRead data
    else if hasHeaderBeenRead = false then
      readLoop stringSplit fileName delimitter lines true
        (headerLoop fileName ((stringSplit line delimitter).drop 1) data)
    else
      match dataLoop 1 ((stringSplit line delimitter).drop 1) data with
      | Except.error e => Except.error e
      | Except.ok data1 => readLoop stringSplit fileName delimitter lines true data1

/-- The function `readAncestralStates`: `file` is `none` when the file cannot be opened and
holds the lines of the file otherwise. -/
def readAncestralStates (stringSplit : String → String → List String)
    (fileName delimitter : String) (file : Option (List String)) :
    Except ReadError (List AncestralStateTrace) :=
  match file with
  | none => Except.error ReadError.couldNotOpen
  | some lines => readLoop stringSplit fileName delimitter lines false []

/-- A line that is neither empty nor a comment (a line that starts with `#`). -/
def isContentLine (line : String) : Bool :=
  !decide (line.length = 0) && !decide (line.data.head? = some '#')

/-- A splitting function for the examples: a line is split into its characters. -/
def splitCharacters (line _delimitter : String) : List String :=
  line.data.map fun c => String.mk [c]

/-! ## `RbStatistics::Helper::randomlySelectFromVectorWithoutReplacement` -/

/-- The index `(int)(rng->uniform01()*(n-i))` for the draw `u` and `m = n - i`: the product
of doubles, truncated. -/
def whichElement (u : ℚ) (m : ℕ) : ℕ := ⌊dmul u (toDouble m)⌋₊

/-- How a call of `randomlySelectFromVectorWithoutReplacement` ends: with the exception
(the two vectors are those at the throw), with an access to `tmpV` past its end, or
normally, with the two vectors it leaves. -/
inductive SelectResult (T : Type)
  | thrown (sourceV destV : List T)
  | outOfBounds
  | done (sourceV destV : List T)

/-- The loop `for (int i=0; i<k; i++)`, with the number of iterations still to do, the
counter `i`, `tmpV` and `destV`; `rng i` is the value of the call of `uniform01()` in
iteration `i`.  The result is the final `destV`, or `none` after an access to `tmpV` past
its end. -/
def selectLoop {T : Type} (rng : ℕ → ℚ) (n : ℕ) : ℕ → ℕ → List T → List T → Option (List T)
  | 0, _, _, destV => some destV
  | c + 1, i, tmpV, destV =>
    match tmpV[whichElement (rng i) (n - i)]?, tmpV[n - i - 1]? with
    | some x, some y =>
      selectLoop rng n c (i + 1) (tmpV.set (whichElement (rng i) (n - i)) y) (destV ++ [x])
    | _, _ => none

/-- The function `randomlySelectFromVectorWithoutReplacement`, called with two different
vectors `sourceV` and `destV`; the test is `(int)sourceV.size() < k`. -/
def randomlySelectFromVectorWithoutReplacement {T : Type} (sourceV destV : List T) (k : ℤ)
    (rng : ℕ → ℚ) : SelectResult T :=
  if toInt sourceV.length < k then SelectResult.thrown sourceV destV
  else
    match selectLoop rng sourceV.length k.toNat 0 sourceV [] with
    | none => SelectResult.outOfBounds
    | some destV1 => SelectResult.done sourceV destV1

/-- A source vector with three elements (used in the examples). -/
def exampleSource : List ℕ := [10, 20, 30]

/-! ## `BiogeographyCladogeneticBirthDeathFunction`: bit vectors, ranges and events -/

/-- The function `sumBits`: the sum of the entries of a presence/absence vector. -/
def sumBits (b : List ℕ) : ℕ := b.foldl (fun n x => n + x) 0

/-- The inner loop of `buildBits` for one row: the entries `j, j+1, ...` of `bits[i]` are
`m % 2`, `m / 2 % 2`, ..., and once `m` has become 0 the loop is left and the remaining
entries keep their initial 0.  The first argument is the number of entries from `j` on. -/
def bitsRow : ℕ → ℕ → List ℕ
  | 0, _ => []
  | c + 1, m => (m % 2) :: (if m / 2 = 0 then List.replicate c 0 else bitsRow c (m / 2))

/-- The row `bits[i]` after the first loop of `buildBits`; the loop starts at `i = 1`, so
`bits[0]` keeps its zeros. -/
def bitsOf (numCharacters i : ℕ) : List ℕ :=
  if i = 0 then List.replicate numCharacters 0 else bitsRow numCharacters i

/-- The vector `bits`, with `numIntStates = pow(2, numCharacters)` rows. -/
def allBits (numCharacters : ℕ) : List (List ℕ) :=
  (List.range (2 ^ numCharacters)).map (bitsOf numCharacters)

/-- The statement `bitsByNumOn[j].push_back(b)`. -/
def pushAt : List (List (List ℕ)) → ℕ → List ℕ → List (List (List ℕ))
  | [], _, _ => []
  | x :: xs, 0, b => (x ++ [b]) :: xs
  | x :: xs, j + 1, b => x :: pushAt xs j b

/-- The vector `bitsByNumOn` after the first loop of `buildBits`: `numCharacters + 1`
lists, `bits[0]` pushed to the first and then every `bits[i]`, `i ≥ 1`, to the list number
`sumBits(bits[i])`. -/
def bitsByNumOn (numCharacters : ℕ) : List (List (List ℕ)) :=
  ((allBits numCharacters).drop 1).foldl (fun bb b => pushAt bb (sumBits b) b)
    (pushAt (List.replicate (numCharacters + 1) []) 0 (bitsOf numCharacters 0))

/-- The vector `statesToBitsByNumOn`: the lists of `bitsByNumOn` one after the other (the
counter `k` runs through all of them). -/
def statesToBitsByNumOn (numCharacters : ℕ) : List (List ℕ) :=
  (bitsByNumOn numCharacters).flatten

/-- The loop `bitsToStatesByNumOn[ statesToBitsByNumOn[i] ] = i` from `i` on; a map from
bit vectors to states is a function whose value at a key that is not in the map is 0, the
value `operator[]` enters for a new key. -/
def assignStates : ℕ → List (List ℕ) → (List ℕ → ℕ) → (List ℕ → ℕ)
  | _, [], m => m
  | i, b :: bs, m => assignStates (i + 1) bs (Function.update m b i)

/-- The map `bitsToStatesByNumOn` after `buildBits`. -/
def bitsToStatesByNumOn (numCharacters : ℕ) : List ℕ → ℕ :=
  assignStates 0 (statesToBitsByNumOn numCharacters) (fun _ => 0)

/-- The function `bitsToState`. -/
def bitsToState (numCharacters : ℕ) (b : List ℕ) : ℕ := bitsToStatesByNumOn numCharacters b

/-- The presence/absence vector of the single area `j`. -/
def unitBits (numCharacters j : ℕ) : List ℕ := (List.replicate numCharacters 0).set j 1

/-- A presence/absence vector for `numCharacters` areas: that many entries, each 0 or 1. -/
def IsBits (numCharacters : ℕ) (b : List ℕ) : Prop :=
  b.length = numCharacters ∧ ∀ x ∈ b, x = 0 ∨ x = 1

/-- The statement `s.insert(i)` on a `std::set<unsigned>`, a strictly increasing list. -/
def setInsert (i : ℕ) : List ℕ → List ℕ
  | [] => [i]
  | x :: xs => if i < x then i :: x :: xs else if i = x then x :: xs else x :: setInsert i xs

/-- The order of `std::set<unsigned>` values: lexicographic comparison of their elements. -/
def setLt : List ℕ → List ℕ → Bool
  | _, [] => false
  | [], _ :: _ => true
  | x :: xs, y :: ys => if x < y then true else if y < x then false else setLt xs ys

/-- The statement `r.insert(s)` on a `std::set<std::set<unsigned> >`, a list increasing in
the order `setLt`. -/
def rangeInsert (s : List ℕ) : List (List ℕ) → List (List ℕ)
  | [] => [s]
  | x :: xs =>
    if s = x then x :: xs else if setLt s x = true then s :: x :: xs else x :: rangeInsert s xs

/-- How `buildRanges` can fail to return: an element outside the connectivity matrix is
read, or the recursion is deeper than the depth given to the model. -/
inductive RangeError
  | outOfBounds
  | depthExceeded
  deriving DecidableEq, Repr

/-- The inner loop `for (size_t i = 0; i < numCharacters; i++)` of `buildRangesRecursively`,
for the element `it` of `s` and the values `is` of `i` still to come; `recurse` is the
recursive call.  The element `g->getValue()[*it][i]` is read before `all` is looked at. -/
def rangesInner (recurse : List ℕ → List (List ℕ) → Except RangeError (List (List ℕ)))
    (g : List (List Double)) (all : Bool) (s : List ℕ) (it : ℕ) :
    List ℕ → List (List ℕ) → Except RangeError (List (List ℕ))
  | [], r => Except.ok r
  | i :: is, r =>
    match g[it]? >>= fun row => row[i]? with
    | none => Except.error RangeError.outOfBounds
    | some x =>
      if (Double.fin 0).lt x = true ∨ all = true then
        if setInsert i s ∈ r then rangesInner recurse g all s it is r
        else
          match recurse (setInsert i s) r with
          | Except.error e => Except.error e
          | Except.ok r1 => rangesInner recurse g all s it is r1
      else rangesInner recurse g all s it is r

/-- The outer loop `for (it = s.begin(); it != s.end(); it++)` of `buildRangesRecursively`,
for the elements `its` of `s` still to come. -/
def rangesOuter (recurse : List ℕ → List (List ℕ) → Except RangeError (List (List ℕ)))
    (numCharacters : ℕ) (g : List (List Double)) (all : Bool) (s : List ℕ) :
    List ℕ → List (List ℕ) → Except RangeError (List (List ℕ))
  | [], r => Except.ok r
  | it :: its, r =>
    match rangesInner recurse g all s it (List.range numCharacters) r with
    | Except.error e => Except.error e
    | Except.ok r1 => rangesOuter recurse numCharacters g all s its r1

/-- The function `buildRangesRecursively(s, r, k, g, all)`; the first argument bounds the
depth of the recursion, and the result is the set `r` on return. -/
def buildRangesRecursively (numCharacters : ℕ) (g : List (List Double)) (all : Bool) (k : ℕ) :
    ℕ → List ℕ → List (List ℕ) → Except RangeError (List (List ℕ))
  | 0, _, _ => Except.error RangeError.depthExceeded
  | depth + 1, s, r =>
    let r1 := if s.length ≤ k then rangeInsert s r else r
    if s.length = k then Except.ok r1
    else rangesOuter (buildRangesRecursively numCharacters g all k depth) numCharacters g all s s r1

/-- The first loop of `buildRanges`, for the areas `is` still to come. -/
def rangesLoop (numCharacters : ℕ) (g : List (List Double)) (all : Bool) (maxRangeSize : ℕ)
    (depth : ℕ) : List ℕ → List (List ℕ) → Except RangeError (List (List ℕ))
  | [], r => Except.ok r
  | i :: is, r =>
    match buildRangesRecursively numCharacters g all maxRangeSize depth [i]
        (rangeInsert [i] r) with
    | Except.error e => Except.error e
    | Except.ok r1 => rangesLoop numCharacters g all maxRangeSize depth is r1

/-- The vector `v` of `buildRanges`: `numCharacters` zeros, and then `v[*jt] = 1` for every
element of the set. -/
def indicatorBits (numCharacters : ℕ) (s : List ℕ) : List ℕ :=
  s.foldl (fun v j => v.set j 1) (List.replicate numCharacters 0)

/-- The function `buildRanges(range_set, g, all)` called with an empty `range_set`, for the
`numCharacters = g.size()` areas of the connectivity matrix `g`: the set `range_set` on
return.  The recursion is given the depth `numCharacters + 1`. -/
def buildRanges (g : List (List Double)) (all : Bool) (maxRangeSize : ℕ) :
    Except RangeError (List ℕ) :=
  match rangesLoop g.length g all maxRangeSize (g.length + 1) (List.range g.length) [] with
  | Except.error e => Except.error e
  | Except.ok r =>
    Except.ok (r.foldl
      (fun range_set s => setInsert (bitsToStatesByNumOn g.length (indicatorBits g.length s))
        range_set) [])

/-- The connectivity matrix of `n` areas with every entry 0 (used in the examples). -/
def zeroMatrix (n : ℕ) : List (List Double) := List.replicate n (List.replicate n (Double.fin 0))

/-- A set of areas that `buildRanges` is to find: a non-empty `std::set` of at most `k` of
the `n` areas. -/
def IsRange (n k : ℕ) (s : List ℕ) : Prop :=
  s.Pairwise (· < ·) ∧ (∀ x ∈ s, x < n) ∧ 1 ≤ s.length ∧ s.length ≤ k

/-- The set `u` needs no further search: it has `k` areas, or each of its extensions by
one area is in `r`. -/
def RangeClosed (n k : ℕ) (r : List (List ℕ)) (u : List ℕ) : Prop :=
  u.length = k ∨ ∀ i, i < n → setInsert i u ∈ r

/-- What a call of `buildRangesRecursively(s, r, ...)` achieves: it returns, with `r`
extended by sets to be found only, among them `s`, and every new set and `s` need no
further search. -/
def RangesPost (n k : ℕ) (r : List (List ℕ)) (s : List ℕ)
    (res : Except RangeError (List (List ℕ))) : Prop :=
  ∃ r1, res = Except.ok r1 ∧ (∀ u ∈ r, u ∈ r1) ∧ (∀ u ∈ r1, IsRange n k u) ∧ s ∈ r1 ∧
    (∀ u ∈ r1, u ∈ r ∨ RangeClosed n k r1 u) ∧ RangeClosed n k r1 s
/-- The values of the enumerators `SYMPATRY`, `ALLOPATRY` and `JUMP_DISPERSAL` of the event
types; the enumeration is declared in the header of the class. -/
structure CladoEventTypes where
  SYMPATRY : ℕ
  ALLOPATRY : ℕ
  JUMP_DISPERSAL : ℕ

/-- The function `bitAllopatryComplement(mask, base)`: a copy of `mask` with a 0 wherever
`base` has a 1. -/
def bitAllopatryComplement (mask base : List ℕ) : List ℕ :=
  (List.range base.length).foldl (fun ret i => if base[i]? = some 1 then ret.set i 0 else ret)
    mask

/-- The function `bitCombinations(comb, array, i, accum)`: the vectors it appends to `comb`;
the second argument holds the entries of `array` from `i` on. -/
def bitCombinations (array : List ℕ) : List ℕ → List ℕ → List (List ℕ)
  | [], accum =>
    if sumBits accum = 0 ∨ sumBits accum = sumBits array then [] else [accum]
  | b :: rest, accum =>
    bitCombinations array rest (accum ++ [0]) ++
      (if b = 1 then bitCombinations array rest (accum ++ [1]) else [])

/-- The order of the keys of the event maps: `operator<` of `std::vector<unsigned>`. -/
def keyLt (a b : EventKey) : Bool :=
  if a.1 < b.1 then true else if b.1 < a.1 then false
  else if a.2.1 < b.2.1 then true else if b.2.1 < a.2.1 then false
  else decide (a.2.2 < b.2.2)

/-- The assignment `eventMapTypes[ idx ] = t` on the entries of the map, kept in the order
of their keys. -/
def mapAssign (idx : EventKey) (t : ℕ) : List (EventKey × ℕ) → List (EventKey × ℕ)
  | [] => [(idx, t)]
  | x :: xs =>
    if idx = x.1 then (idx, t) :: xs
    else if keyLt idx x.1 = true then (idx, t) :: x :: xs
    else x :: mapAssign idx t xs

/-- The three statements that enter an event for the range `i`: `eventMapTypes[ idx ] = t;
eventMapCounts[ i ][ t ] += 1; eventMap[ idx ] = 0.0;`. -/
def addEvent (i : ℕ) (s : Biogeography) (e : EventKey × ℕ) : Biogeography :=
  { s with
    eventMapTypes := mapAssign e.1 e.2 s.eventMapTypes
    eventMapCounts :=
      Function.update s.eventMapCounts i
        (Function.update (s.eventMapCounts i) e.2 (s.eventMapCounts i e.2 + 1))
    eventMap := s.eventMap.assign e.1 (Double.fin 0) }

/-- The member `eventTypes` after `buildBits`; `eventStringToStateMap` has exactly these
keys. -/
def eventTypes : List String := ["s", "a"]

/-- A loop "L-trunk, R-bud" of `buildEventMap` over the areas `areas` (`on` or `off`): the
events `(i -> i | sr)` of type `t`, one for every area whose state `sr` is in `ranges`. -/
def trunkBudEvents (numCharacters : ℕ) (ranges : List ℕ) (i t : ℕ) (areas : List ℕ) :
    List (EventKey × ℕ) :=
  areas.filterMap fun j =>
    let sr := bitsToStatesByNumOn numCharacters (unitBits numCharacters j)
    if sr ∈ ranges then some ((i, i, sr), t) else none

/-- A loop "L-bud, R-trunk" of `buildEventMap`: the events `(i -> sl | i)` of type `t`. -/
def budTrunkEvents (numCharacters : ℕ) (ranges : List ℕ) (i t : ℕ) (areas : List ℕ) :
    List (EventKey × ℕ) :=
  areas.filterMap fun j =>
    let sl := bitsToStatesByNumOn numCharacters (unitBits numCharacters j)
    if sl ∈ ranges then some ((i, sl, i), t) else none

/-- The allopatry loop of `buildEventMap` for the range `i` with bits `ba`: the events
`(i -> sl | sr)` for the combinations `bl` with one area in `bl` or one area in its
complement `br`. -/
def allopatryEvents (numCharacters : ℕ) (i t : ℕ) (ba : List ℕ) : List (EventKey × ℕ) :=
  (bitCombinations ba ba []).filterMap fun bl =>
    let br := bitAllopatryComplement ba bl
    if sumBits bl = 1 ∨ sumBits br = 1 then
      some ((i, bitsToStatesByNumOn numCharacters bl, bitsToStatesByNumOn numCharacters br), t)
    else none

/-- The events that the body of the loop of `buildEventMap` enters for the range `i` with
bits `ba`, in the order in which it enters them; `onAreas` and `offAreas` are the vectors
`on` and `off`. -/
def rangeEvents (types : CladoEventTypes) (numCharacters : ℕ) (ranges : List ℕ) (i : ℕ)
    (ba : List ℕ) : List (EventKey × ℕ) :=
  let onAreas := (List.range ba.length).filter fun j => ba[j]? = some 1
  let offAreas := (List.range ba.length).filter fun j => ¬ ba[j]? = some 1
  let jump :=
    if "j" ∈ eventTypes then
      trunkBudEvents numCharacters ranges i types.JUMP_DISPERSAL offAreas ++
        budTrunkEvents numCharacters ranges i types.JUMP_DISPERSAL offAreas
    else []
  if sumBits ba = 1 then
    if i ∈ ranges then ((i, i, i), types.SYMPATRY) :: jump else []
  else if 1 < sumBits ba then
    if i ∈ ranges then
      (if "s" ∈ eventTypes then
        trunkBudEvents numCharacters ranges i types.SYMPATRY onAreas ++
          budTrunkEvents numCharacters ranges i types.SYMPATRY onAreas
      else []) ++
      (if "a" ∈ eventTypes then allopatryEvents numCharacters i types.ALLOPATRY ba else []) ++
      jump
    else []
  else jump

/-- The loop of `buildEventMap` over the ranges `is` still to come; `none` when a state is
not an index of `statesToBitsByNumOn`. -/
def eventLoop (types : CladoEventTypes) (numCharacters : ℕ) (ranges : List ℕ) :
    List ℕ → Biogeography → Option Biogeography
  | [], s => some s
  | i :: is, s =>
    match (statesToBitsByNumOn numCharacters)[i]? with
    | none => none
    | some ba =>
      eventLoop types numCharacters ranges is
        ((rangeEvents types numCharacters ranges i ba).foldl (addEvent i)
          { s with eventMapCounts := Function.update s.eventMapCounts i fun _ => 0 })

/-- The function `buildEventMap()`: `eventMapCounts` is cleared (a missing count reads as
0), `eventMapTypes` and `eventMap` are not.  `buildCutsets()`, called at the end, writes
`eventMapCutsets` only. -/
def buildEventMap (types : CladoEventTypes) (numCharacters : ℕ) (ranges : List ℕ)
    (s : Biogeography) : Option Biogeography :=
  eventLoop types numCharacters ranges ranges { s with eventMapCounts := fun _ _ => 0 }

/-- How the constructor and `setRateMultipliers` can fail. -/
inductive BuildError
  | unsupported
  | outOfBounds
  | depthExceeded
  | unknownConnectivity
  deriving DecidableEq, Repr

/-- The function object: the members `numCharacters` and `ranges`, the vectors
`speciationRates->getValue()` and `hiddenRateMultipliers->getValue()` (the latter empty as
long as `setRateMultipliers` has not been called), and the members that `update` reads and
writes. -/
structure BiogeographyFunction where
  numCharacters : ℕ
  ranges : List ℕ
  speciationRates : List Double
  hiddenRateMultipliers : List Double
  state : Biogeography

/-- The function `update()` reading the two vectors.  In each of the `numRanges` rounds the
second inner loop reads `sr[ event_type ]` for every entry of `eventMapTypes` and, with
hidden rates, `rate_multipliers[0]`; neither access is checked, and a read outside of its
vector is reported as `outOfBounds`.  `updateEventMapFactors()` throws before the first
read. -/
def updateVectors (sr rm : List Double) (s : Biogeography) : Except BuildError Biogeography :=
  match Biogeography.update
      { s with
        speciationRates := fun t => sr.getD t (Double.fin 0)
        rateMultiplier := rm.getD 0 (Double.fin 0) } with
  | Except.error _ => Except.error BuildError.unknownConnectivity
  | Except.ok s2 =>
    if s.numRanges = 0 ∨ ∀ e ∈ s.eventMapTypes,
        e.2 < sr.length ∧ (s.use_hidden_rate = true → 0 < rm.length) then Except.ok s2
    else Except.error BuildError.outOfBounds

/-- The calls `buildEventMap(); update();` that end the constructor and
`setRateMultipliers`, for the vectors `sr` of speciation rates and `rm` of rate
multipliers. -/
def rebuild (types : CladoEventTypes) (numCharacters : ℕ) (ranges : List ℕ)
    (sr rm : List Double) (s : Biogeography) : Except BuildError BiogeographyFunction :=
  match buildEventMap types numCharacters ranges s with
  | none => Except.error BuildError.outOfBounds
  | some s1 =>
    match updateVectors sr rm s1 with
    | Except.error e => Except.error e
    | Except.ok s2 =>
      Except.ok { numCharacters := numCharacters, ranges := ranges, speciationRates := sr,
                  hiddenRateMultipliers := rm, state := s2 }

/-- The constructor, for the vector `sr` of speciation rates, the maximum range size `mrs`,
the connectivity matrix `cm` and the connectivity type `ct`: it throws for more than 10
characters, and otherwise calls `buildBits`, `buildRanges(ranges, connectivityMatrix,
true)`, sets `numRanges` to `ranges.size()` plus one, and calls `buildEventMap` and
`update`.  The rate multipliers are not set yet (`update` does not read them while
`use_hidden_rate` is false). -/
def construct (types : CladoEventTypes) (sr : List Double) (mrs : ℕ)
    (cm : List (List Double)) (ct : String) : Except BuildError BiogeographyFunction :=
  if 10 < cm.length then Except.error BuildError.unsupported
  else
    match buildRanges cm true mrs with
    | Except.error RangeError.outOfBounds => Except.error BuildError.outOfBounds
    | Except.error RangeError.depthExceeded => Except.error BuildError.depthExceeded
    | Except.ok ranges =>
      rebuild types cm.length ranges sr []
        { numRanges := ranges.length + 1, use_hidden_rate := false, connectivityType := ct,
          eventMapTypes := [], eventMapCounts := fun _ _ => 0,
          speciationRates := fun t => sr.getD t (Double.fin 0),
          rateMultiplier := Double.fin 0, eventMap := fun _ => none }

/-- The function `setRateMultipliers(rm)` for a non-null `rm` with the values `rm`. -/
def setRateMultipliers (types : CladoEventTypes) (f : BiogeographyFunction)
    (rm : List Double) : Except BuildError BiogeographyFunction :=
  rebuild types f.numCharacters f.ranges f.speciationRates rm
    { f.state with use_hidden_rate := true }

/-- The enumerators numbered in the order `SYMPATRY, ALLOPATRY, JUMP_DISPERSAL` (used in
the examples). -/
def exampleTypes : CladoEventTypes := { SYMPATRY := 0, ALLOPATRY := 1, JUMP_DISPERSAL := 2 }

/-- The vectors that `bitCombinations` builds from the entries `rest` of `array`, before the
all-0 and all-1 vectors are left out: a 0 or, where the entry is 1, a 1 at each place. -/
def subVectors : List ℕ → List (List ℕ)
  | [] => [[]]
  | b :: rest =>
    (subVectors rest).map (0 :: ·) ++ (if b = 1 then (subVectors rest).map (1 :: ·) else [])

/-- The events that `buildEventMap` enters for the ranges `is`, in order. -/
def allEvents (types : CladoEventTypes) (numCharacters : ℕ) (ranges : List ℕ) (is : List ℕ) :
    List (EventKey × ℕ) :=
  is.flatMap fun i =>
    rangeEvents types numCharacters ranges i (((statesToBitsByNumOn numCharacters)[i]?).getD [])

/-! # Lemmas and theorems -/

/-! ### Facts about rounding -/

theorem roundHalfEven_intCast (n : ℤ) : roundHalfEven (n : ℚ) = n := by
  simp [roundHalfEven]

theorem floor_le_roundHalfEven (x : ℚ) : ⌊x⌋ ≤ roundHalfEven x := by
  unfold roundHalfEven
  simp only
  split_ifs <;> omega

theorem roundHalfEven_le_floor_succ (x : ℚ) : roundHalfEven x ≤ ⌊x⌋ + 1 := by
  unfold roundHalfEven
  simp only
  split_ifs <;> omega

theorem roundHalfEven_mono {x y : ℚ} (h : x ≤ y) : roundHalfEven x ≤ roundHalfEven y := by
  have hf : ⌊x⌋ ≤ ⌊y⌋ := Int.floor_mono h
  rcases lt_or_eq_of_le hf with hlt | heq
  · calc roundHalfEven x ≤ ⌊x⌋ + 1 := roundHalfEven_le_floor_succ x
      _ ≤ ⌊y⌋ := hlt
      _ ≤ roundHalfEven y := floor_le_roundHalfEven y
  · unfold roundHalfEven
    simp only [heq]
    have hxy : x - (⌊y⌋ : ℚ) ≤ y - (⌊y⌋ : ℚ) := by linarith
    split_ifs <;> first | omega | (exfalso; linarith)

/-- Certificate for a rounding that is not a tie. -/
theorem roundHalfEven_eq_of_near {x : ℚ} {m : ℤ} (h1 : (m : ℚ) - 1 / 2 < x)
    (h2 : x < (m : ℚ) + 1 / 2) : roundHalfEven x = m := by
  have hfl : ⌊x⌋ = m ∨ ⌊x⌋ = m - 1 := by
    have h3 : m - 1 ≤ ⌊x⌋ := by
      rw [Int.le_floor]; push_cast; linarith
    have h4 : ⌊x⌋ < m + 1 := by
      rw [Int.floor_lt]; push_cast; linarith
    omega
  unfold roundHalfEven
  simp only
  rcases hfl with hf | hf
  · have h5 : (⌊x⌋ : ℚ) = m := by exact_mod_cast hf
    rw [h5, hf]
    split_ifs <;> first | rfl | (exfalso; linarith)
  · have h5 : (⌊x⌋ : ℚ) = m - 1 := by rw [hf]; push_cast; ring
    rw [h5, hf]
    split_ifs <;> first | omega | (exfalso; linarith)

/-- Certificate for a tie: the even neighbour is taken. -/
theorem roundHalfEven_eq_of_tie {x : ℚ} {m : ℤ} (hm : m % 2 = 0)
    (h : x = (m : ℚ) + 1 / 2 ∨ x = (m : ℚ) - 1 / 2) : roundHalfEven x = m := by
  unfold roundHalfEven
  simp only
  rcases h with h | h
  · have hf : ⌊x⌋ = m := by
      rw [Int.floor_eq_iff]; constructor <;> linarith
    have h5 : (⌊x⌋ : ℚ) = m := by exact_mod_cast hf
    rw [h5, hf]
    split_ifs <;> first | rfl | omega | (exfalso; linarith)
  · have hf : ⌊x⌋ = m - 1 := by
      rw [Int.floor_eq_iff]; push_cast; constructor <;> linarith
    have h5 : (⌊x⌋ : ℚ) = m - 1 := by rw [hf]; push_cast; ring
    rw [h5, hf]
    split_ifs <;> first | omega | (exfalso; linarith)

theorem two_zpow_pos (e : ℤ) : (0 : ℚ) < 2 ^ e := zpow_pos (by norm_num) e

theorem log_two_eq {x : ℚ} {k : ℤ} (h1 : (2 : ℚ) ^ k ≤ x) (h2 : x < 2 ^ (k + 1)) :
    Int.log 2 x = k := by
  have hx : 0 < x := lt_of_lt_of_le (two_zpow_pos k) h1
  have hb : 1 < (2 : ℕ) := by norm_num
  have ha : k ≤ Int.log 2 x := by
    rw [← Int.zpow_le_iff_le_log hb hx]
    simpa using h1
  have hc : Int.log 2 x < k + 1 := by
    rw [← Int.lt_zpow_iff_log_lt hb hx]
    simpa using h2
  omega

theorem ulpExp_eq {x : ℚ} {k : ℤ} (h1 : (2 : ℚ) ^ k ≤ |x|) (h2 : |x| < 2 ^ (k + 1))
    (hk : -1022 ≤ k) : ulpExp x = k - 52 := by
  unfold ulpExp
  rw [log_two_eq h1 h2, max_eq_left hk]

/-- Certificate for the value of `fl x`: the binade `k` of `x` and the rounded
mantissa `m`. -/
theorem fl_eq {x : ℚ} {k m : ℤ} (h1 : (2 : ℚ) ^ k ≤ |x|) (h2 : |x| < 2 ^ (k + 1))
    (hk : -1022 ≤ k) (hm : roundHalfEven (x / 2 ^ (k - 52)) = m) :
    fl x = m * 2 ^ (k - 52) := by
  unfold fl
  rw [ulpExp_eq h1 h2 hk, hm]

/-- A number that is an integer multiple of its own last-bit unit is not changed. -/
theorem fl_eq_self {x : ℚ} (m : ℤ) (h : x = m * 2 ^ ulpExp x) : fl x = x := by
  unfold fl
  have hp := two_zpow_pos (ulpExp x)
  have h3 : x / 2 ^ ulpExp x = (m : ℚ) := by
    rw [div_eq_iff hp.ne.symm]; exact h
  rw [h3, roundHalfEven_intCast, ← h]

theorem fl_zero : fl 0 = 0 := by
  apply fl_eq_self 0
  simp

theorem ulpExp_natCast (n : ℕ) : ulpExp (n : ℚ) = (Nat.log 2 n : ℤ) - 52 := by
  unfold ulpExp
  rw [abs_of_nonneg (Nat.cast_nonneg n), Int.log_natCast]
  have : (0 : ℤ) ≤ (Nat.log 2 n : ℤ) := Int.natCast_nonneg _
  rw [max_eq_left (by omega)]

/-- The conversion `size_t → double` is exact up to `2 ^ 53`. -/
theorem fl_natCast {n : ℕ} (h : n ≤ 2 ^ 53) : fl (n : ℚ) = n := by
  rcases Nat.eq_zero_or_pos n with h0 | hpos
  · subst h0; simpa using fl_zero
  have hL : Nat.log 2 n ≤ 53 := by
    have := Nat.log_mono_right (b := 2) h
    rwa [Nat.log_pow (by norm_num)] at this
  rcases Nat.lt_or_ge (Nat.log 2 n) 53 with hlt | hge
  · -- the last-bit unit is at most one
    apply fl_eq_self ((n : ℤ) * 2 ^ (52 - Nat.log 2 n))
    rw [ulpExp_natCast]
    have h52 : ((Nat.log 2 n : ℤ) - 52) = -((52 - Nat.log 2 n : ℕ) : ℤ) := by omega
    rw [h52, zpow_neg, zpow_natCast]
    push_cast
    have : (0 : ℚ) < 2 ^ (52 - Nat.log 2 n) := by positivity
    field_simp
  · -- `n = 2 ^ 53`
    have hn : n = 2 ^ 53 := by
      have h53 : Nat.log 2 n = 53 := le_antisymm hL hge
      have := Nat.pow_log_le_self 2 hpos.ne.symm
      rw [h53] at this
      exact le_antisymm h this
    apply fl_eq_self (2 ^ 52)
    rw [ulpExp_natCast, hn, Nat.log_pow (by norm_num)]
    norm_num

theorem toDouble_eq {n : ℕ} (h : n ≤ 2 ^ 53) : toDouble n = n := fl_natCast h

theorem fl_nonneg {x : ℚ} (h : 0 ≤ x) : 0 ≤ fl x := by
  unfold fl
  have hp := two_zpow_pos (ulpExp x)
  have h1 : 0 ≤ x / 2 ^ ulpExp x := div_nonneg h hp.le
  have h2 : (0 : ℤ) ≤ roundHalfEven (x / 2 ^ ulpExp x) := by
    have := roundHalfEven_mono h1
    rwa [show ((0 : ℚ)) = ((0 : ℤ) : ℚ) by norm_num, roundHalfEven_intCast] at this
  have h3 : (0 : ℚ) ≤ (roundHalfEven (x / 2 ^ ulpExp x) : ℚ) := by exact_mod_cast h2
  exact mul_nonneg h3 hp.le

/-- Rounding does not cross a multiple of the last-bit unit (from below). -/
theorem fl_le_of_le {x : ℚ} (m : ℤ) (h : x ≤ m * 2 ^ ulpExp x) :
    fl x ≤ m * 2 ^ ulpExp x := by
  unfold fl
  have hp := two_zpow_pos (ulpExp x)
  have h1 : x / 2 ^ ulpExp x ≤ (m : ℚ) := by
    rw [div_le_iff₀ hp]; exact h
  have h2 : roundHalfEven (x / 2 ^ ulpExp x) ≤ m := by
    have := roundHalfEven_mono h1
    rwa [roundHalfEven_intCast] at this
  have h3 : (roundHalfEven (x / 2 ^ ulpExp x) : ℚ) ≤ (m : ℚ) := by exact_mod_cast h2
  exact mul_le_mul_of_nonneg_right h3 hp.le

/-- Rounding does not cross a multiple of the last-bit unit (from above). -/
theorem le_fl_of_le {x : ℚ} (m : ℤ) (h : (m : ℚ) * 2 ^ ulpExp x ≤ x) :
    (m : ℚ) * 2 ^ ulpExp x ≤ fl x := by
  unfold fl
  have hp := two_zpow_pos (ulpExp x)
  have h1 : (m : ℚ) ≤ x / 2 ^ ulpExp x := by
    rw [le_div_iff₀ hp]; exact h
  have h2 : m ≤ roundHalfEven (x / 2 ^ ulpExp x) := by
    have := roundHalfEven_mono h1
    rwa [roundHalfEven_intCast] at this
  have h3 : (m : ℚ) ≤ (roundHalfEven (x / 2 ^ ulpExp x) : ℚ) := by exact_mod_cast h2
  exact mul_le_mul_of_nonneg_right h3 hp.le

theorem two_pow_mul_zpow (n : ℕ) (e : ℤ) :
    (((2 : ℤ) ^ n : ℤ) : ℚ) * 2 ^ e = 2 ^ ((n : ℤ) + e) := by
  rw [zpow_add₀ (by norm_num), zpow_natCast]
  push_cast
  rfl

/-- Rounding to binary64 is monotone on the non-negative numbers. -/
theorem fl_mono {x y : ℚ} (hx : 0 ≤ x) (hxy : x ≤ y) : fl x ≤ fl y := by
  rcases hx.eq_or_lt with h0 | hpos
  · rw [← h0, fl_zero]; exact fl_nonneg (hx.trans hxy)
  have hy : 0 < y := lt_of_lt_of_le hpos hxy
  have hb : 1 < (2 : ℕ) := by norm_num
  have hL : Int.log 2 x ≤ Int.log 2 y := Int.log_mono_right hpos hxy
  have hex : ulpExp x = max (Int.log 2 x) (-1022) - 52 := by
    unfold ulpExp; rw [abs_of_pos hpos]
  have hey : ulpExp y = max (Int.log 2 y) (-1022) - 52 := by
    unfold ulpExp; rw [abs_of_pos hy]
  have hle : ulpExp x ≤ ulpExp y := by
    rw [hex, hey]
    have := max_le_max hL (le_refl (-1022 : ℤ))
    omega
  rcases hle.eq_or_lt with heq | hlt
  · unfold fl
    rw [heq]
    have hp := two_zpow_pos (ulpExp y)
    have h1 : x / 2 ^ ulpExp y ≤ y / 2 ^ ulpExp y := div_le_div_of_nonneg_right hxy hp.le
    have h2 := roundHalfEven_mono h1
    have h3 : (roundHalfEven (x / 2 ^ ulpExp y) : ℚ) ≤
        (roundHalfEven (y / 2 ^ ulpExp y) : ℚ) := by
      exact_mod_cast h2
    exact mul_le_mul_of_nonneg_right h3 hp.le
  · -- `x` and `y` lie in different binades
    have hxu : x < (2 : ℚ) ^ (Int.log 2 x + 1) := by
      simpa using Int.lt_zpow_succ_log_self hb x
    have h1 : (2 : ℚ) ^ (Int.log 2 x + 1) ≤ 2 ^ (53 + ulpExp x) := by
      apply zpow_le_zpow_right₀ (by norm_num)
      rw [hex]
      have := le_max_left (Int.log 2 x) (-1022)
      omega
    have hux : fl x ≤ ((2 ^ 53 : ℤ) : ℚ) * 2 ^ ulpExp x := by
      apply fl_le_of_le
      rw [two_pow_mul_zpow 53]
      exact (hxu.trans_le h1).le
    have hLy : -1022 < Int.log 2 y := by
      by_contra hcon
      rw [hex, hey, max_eq_right (not_lt.mp hcon)] at hlt
      have := le_max_right (Int.log 2 x) (-1022)
      omega
    have hey2 : ulpExp y = Int.log 2 y - 52 := by
      rw [hey, max_eq_left hLy.le]
    have hyl : (2 : ℚ) ^ (Int.log 2 y) ≤ y := by
      simpa using Int.zpow_log_le_self hb hy
    have hly : ((2 ^ 52 : ℤ) : ℚ) * 2 ^ ulpExp y ≤ fl y := by
      apply le_fl_of_le
      rw [two_pow_mul_zpow 52]
      have : ((52 : ℕ) : ℤ) + ulpExp y = Int.log 2 y := by rw [hey2]; omega
      rw [this]
      exact hyl
    have hmid :
        ((2 ^ 53 : ℤ) : ℚ) * 2 ^ ulpExp x ≤ ((2 ^ 52 : ℤ) : ℚ) * 2 ^ ulpExp y := by
      rw [two_pow_mul_zpow 53, two_pow_mul_zpow 52]
      apply zpow_le_zpow_right₀ (by norm_num)
      push_cast
      omega
    exact hux.trans (hmid.trans hly)

/-- The `double` nearest to one tenth is `0x1.999999999999ap-4`. -/
theorem fl_one_tenth : fl (1 / 10) = 7205759403792794 / 2 ^ 56 := by
  rw [fl_eq (k := -4) (m := 7205759403792794) (by norm_num [abs_of_pos])
    (by norm_num [abs_of_pos]) (by norm_num)
    (roundHalfEven_eq_of_near (by norm_num) (by norm_num))]
  norm_num

/-! ### The block boundaries as a monotone sequence -/

theorem fl_one : fl 1 = 1 := by
  have := fl_natCast (n := 1) (by norm_num)
  simpa using this

theorem fl_div_le_one {a P : ℕ} (hP : 1 ≤ P) (ha : a ≤ P) : fl ((a : ℚ) / P) ≤ 1 := by
  have hP0 : (0 : ℚ) < P := by exact_mod_cast hP
  have h1 : (a : ℚ) / P ≤ 1 := by
    rw [div_le_one hP0]; exact_mod_cast ha
  have := fl_mono (div_nonneg (Nat.cast_nonneg a) hP0.le) h1
  rwa [fl_one] at this

theorem fl_blockBound_le {N P a : ℕ} (hP : 1 ≤ P) (ha : a ≤ P) (hN : N ≤ 2 ^ 53) :
    fl (fl ((a : ℚ) / P) * N) ≤ N := by
  have hP0 : (0 : ℚ) < P := by exact_mod_cast hP
  have h0 : 0 ≤ fl ((a : ℚ) / P) := fl_nonneg (div_nonneg (Nat.cast_nonneg a) hP0.le)
  have h1 : fl ((a : ℚ) / P) * N ≤ N := by
    have := mul_le_mul_of_nonneg_right (fl_div_le_one hP ha) (Nat.cast_nonneg N : (0 : ℚ) ≤ N)
    simpa using this
  have := fl_mono (mul_nonneg h0 (Nat.cast_nonneg N)) h1
  rwa [fl_natCast hN] at this

theorem blockBound_le {N P a : ℕ} (hP : 1 ≤ P) (ha : a ≤ P) (hN : N ≤ 2 ^ 53) :
    blockBound N P a ≤ N := by
  unfold blockBound
  have h := fl_blockBound_le hP ha hN
  have := Nat.floor_mono h
  rwa [Nat.floor_natCast] at this

theorem blockBound_mono {N P a b : ℕ} (hP : 1 ≤ P) (hab : a ≤ b) :
    blockBound N P a ≤ blockBound N P b := by
  unfold blockBound
  have hP0 : (0 : ℚ) < P := by exact_mod_cast hP
  have h1 : (a : ℚ) / P ≤ (b : ℚ) / P :=
    div_le_div_of_nonneg_right (by exact_mod_cast hab) hP0.le
  have h2 := fl_mono (div_nonneg (Nat.cast_nonneg a) hP0.le) h1
  have h0 : 0 ≤ fl ((a : ℚ) / P) := fl_nonneg (div_nonneg (Nat.cast_nonneg a) hP0.le)
  have h3 : fl ((a : ℚ) / P) * N ≤ fl ((b : ℚ) / P) * N :=
    mul_le_mul_of_nonneg_right h2 (Nat.cast_nonneg N)
  exact Nat.floor_mono (fl_mono (mul_nonneg h0 (Nat.cast_nonneg N)) h3)

theorem blockBound_zero (N P : ℕ) : blockBound N P 0 = 0 := by
  unfold blockBound
  simp [fl_zero]

theorem blockBound_self {N P : ℕ} (hP : 1 ≤ P) (hN : N ≤ 2 ^ 53) : blockBound N P P = N := by
  unfold blockBound
  have hP0 : (P : ℚ) ≠ 0 := by
    have : (0 : ℚ) < P := by exact_mod_cast hP
    exact this.ne.symm
  rw [div_self hP0, fl_one, one_mul, fl_natCast hN, Nat.floor_natCast]

theorem toSizeT_block {N P a : ℕ} (hP : 1 ≤ P) (ha : a ≤ P) (hPN : P ≤ N)
    (hN : N ≤ 2 ^ 53) :
    toSizeT (dmul (ddiv (toDouble a) (toDouble P)) (toDouble N)) = blockBound N P a := by
  have hP53 : P ≤ 2 ^ 53 := hPN.trans hN
  unfold toSizeT dmul ddiv
  rw [toDouble_eq (ha.trans hP53), toDouble_eq hP53, toDouble_eq hN]
  apply Nat.mod_eq_of_lt
  have h1 : blockBound N P a ≤ N := blockBound_le hP ha hN
  unfold blockBound at h1
  have h2 : (2 : ℕ) ^ 53 < 2 ^ 64 := by norm_num
  omega

theorem run_block_start_eq {N P pid : ℕ} (hP : 1 ≤ P) (hpid : pid ≤ P) (hPN : P ≤ N)
    (hN : N ≤ 2 ^ 53) : run_block_start N P pid = blockBound N P pid :=
  toSizeT_block hP hpid hPN hN

theorem run_block_end_eq {N P pid : ℕ} (hpid : pid < P) (hPN : P ≤ N)
    (hN : N ≤ 2 ^ 53) : run_block_end N P pid = blockBound N P (pid + 1) := by
  unfold run_block_end
  have h2 : (2 : ℕ) ^ 53 < 2 ^ 64 := by norm_num
  rw [Nat.mod_eq_of_lt (by omega)]
  exact toSizeT_block (by omega) hpid hPN hN

/-- A monotone sequence of boundaries starting at `0` cuts `[0, B P)` into blocks:
every index lies in the block of some position. -/
theorem exists_block (B : ℕ → ℕ) (h0 : B 0 = 0) :
    ∀ P i : ℕ, i < B P → ∃ r, r < P ∧ B r ≤ i ∧ i < B (r + 1) := by
  intro P
  induction P with
  | zero => intro i hi; omega
  | succ n ih =>
    intro i hi
    rcases Nat.lt_or_ge i (B n) with h | h
    · obtain ⟨r, hr, h1, h2⟩ := ih i h
      exact ⟨r, by omega, h1, h2⟩
    · exact ⟨n, by omega, h, hi⟩

theorem mem_run_block_iff (N P pid i : ℕ) :
    i ∈ run_block N P pid ↔ run_block_start N P pid ≤ i ∧ i < run_block_end N P pid := by
  unfold run_block
  rw [List.mem_range'_1]
  omega

/-! ### Certificates for concrete evaluations -/

/-- Value of `fl x` for a positive `x` in the binade `k` whose scaled mantissa is nearer
to `m` than to any other integer. -/
theorem fl_eq_near {x : ℚ} (k m : ℤ)
    (h : (2 : ℚ) ^ k ≤ x ∧ x < 2 ^ (k + 1) ∧ -1022 ≤ k ∧
      (m : ℚ) - 1 / 2 < x / 2 ^ (k - 52) ∧ x / 2 ^ (k - 52) < (m : ℚ) + 1 / 2) :
    fl x = m * 2 ^ (k - 52) := by
  obtain ⟨h1, h2, hk, h3, h4⟩ := h
  have hx : 0 < x := lt_of_lt_of_le (two_zpow_pos k) h1
  exact fl_eq (by rwa [abs_of_pos hx]) (by rwa [abs_of_pos hx]) hk
    (roundHalfEven_eq_of_near h3 h4)

/-- Value of `fl x` for a positive `x` in the binade `k` whose scaled mantissa lies
half-way between two integers, `m` being the even one. -/
theorem fl_eq_tie {x : ℚ} (k m : ℤ)
    (h : (2 : ℚ) ^ k ≤ x ∧ x < 2 ^ (k + 1) ∧ -1022 ≤ k ∧ m % 2 = 0 ∧
      (x / 2 ^ (k - 52) = (m : ℚ) + 1 / 2 ∨ x / 2 ^ (k - 52) = (m : ℚ) - 1 / 2)) :
    fl x = m * 2 ^ (k - 52) := by
  obtain ⟨h1, h2, hk, hm, h3⟩ := h
  have hx : 0 < x := lt_of_lt_of_le (two_zpow_pos k) h1
  exact fl_eq (by rwa [abs_of_pos hx]) (by rwa [abs_of_pos hx]) hk
    (roundHalfEven_eq_of_tie hm h3)

/-- Evaluation of `size_t(floor((double(a) / b) * c))` from the values of its parts. -/
theorem toSizeT_eval_of {a b c : ℕ} {da db dc q r : ℚ} {v : ℕ} (ha : toDouble a = da)
    (hb : toDouble b = db) (hc : toDouble c = dc) (hq : fl (da / db) = q)
    (hr : fl (q * dc) = r) (hv : (v : ℚ) ≤ r ∧ r < (v : ℚ) + 1 ∧ v < 2 ^ 64) :
    toSizeT (dmul (ddiv (toDouble a) (toDouble b)) (toDouble c)) = v := by
  unfold toSizeT dmul ddiv
  rw [ha, hb, hc, hq, hr]
  have hr0 : 0 ≤ r := (Nat.cast_nonneg v).trans hv.1
  rw [(Nat.floor_eq_iff hr0).mpr ⟨hv.1, hv.2.1⟩]
  exact Nat.mod_eq_of_lt hv.2.2

/-- Evaluation of `size_t(floor((double(a) / b) * c))` when `a`, `b` and `c` convert to
`double` exactly. -/
theorem toSizeT_eval {a b c : ℕ} {q r : ℚ} {v : ℕ}
    (h : a ≤ 2 ^ 53 ∧ b ≤ 2 ^ 53 ∧ c ≤ 2 ^ 53) (hq : fl ((a : ℚ) / b) = q)
    (hr : fl (q * c) = r) (hv : (v : ℚ) ≤ r ∧ r < (v : ℚ) + 1 ∧ v < 2 ^ 64) :
    toSizeT (dmul (ddiv (toDouble a) (toDouble b)) (toDouble c)) = v :=
  toSizeT_eval_of (toDouble_eq h.1) (toDouble_eq h.2.1) (toDouble_eq h.2.2) hq hr hv

theorem fl_eq_zero {x : ℚ} (h : x = 0) : fl x = 0 := by
  rw [h]; exact fl_zero

/-! ### C1: the blocks of `burnin` and `runAll` tile the runs -/

theorem run_block_start_10_3_0 : run_block_start 10 3 0 = 0 := by
  unfold run_block_start
  exact toSizeT_eval (by norm_num)
    (fl_eq_zero (by norm_num))
    (fl_eq_zero (by norm_num)) (by norm_num)

theorem run_block_end_10_3_0 : run_block_end 10 3 0 = 3 := by
  unfold run_block_end
  exact toSizeT_eval (by norm_num)
    (fl_eq_near (-2) 6004799503160661 (by norm_num))
    (fl_eq_near (1) 7505999378950826 (by norm_num)) (by norm_num)

theorem run_block_start_10_3_1 : run_block_start 10 3 1 = 3 := by
  unfold run_block_start
  exact toSizeT_eval (by norm_num)
    (fl_eq_near (-2) 6004799503160661 (by norm_num))
    (fl_eq_near (1) 7505999378950826 (by norm_num)) (by norm_num)

theorem run_block_end_10_3_1 : run_block_end 10 3 1 = 6 := by
  unfold run_block_end
  exact toSizeT_eval (by norm_num)
    (fl_eq_near (-1) 6004799503160661 (by norm_num))
    (fl_eq_near (2) 7505999378950826 (by norm_num)) (by norm_num)

theorem run_block_start_10_3_2 : run_block_start 10 3 2 = 6 := by
  unfold run_block_start
  exact toSizeT_eval (by norm_num)
    (fl_eq_near (-1) 6004799503160661 (by norm_num))
    (fl_eq_near (2) 7505999378950826 (by norm_num)) (by norm_num)

theorem run_block_end_10_3_2 : run_block_end 10 3 2 = 10 := by
  unfold run_block_end
  exact toSizeT_eval (by norm_num)
    (fl_eq_near (0) 4503599627370496 (by norm_num))
    (fl_eq_near (3) 5629499534213120 (by norm_num)) (by norm_num)

theorem run_block_end_big : run_block_end 9007199254740993 1 0 = 9007199254740992 := by
  unfold run_block_end
  exact toSizeT_eval_of (toDouble_eq (by norm_num)) (toDouble_eq (by norm_num))
    (fl_eq_tie (53) 4503599627370496 (by norm_num))
    (fl_eq_near (0) 4503599627370496 (by norm_num))
    (fl_eq_near (53) 4503599627370496 (by norm_num)) (by norm_num)

/-- C1: for `1 ≤ P ≤ N` every run index `i < N` lies in the block
`[run_block_start, run_block_end)` of exactly one rank `pid < P`, and every index of a
block is a run index; for `N = 10`, `P = 3` the blocks are `[0,3)`, `[3,6)`, `[6,10)`.
The number of runs is `num_runs = dir_names.size()`, the size of the vector `runs` of
pointers; `N ≤ 2 ^ 53` holds for every such size (a vector of `2 ^ 53` pointers takes
`2 ^ 56` bytes), and in this range `num_runs` converts to `double` exactly. -/
theorem run_blocks_tile (N P i : ℕ) (hP : 1 ≤ P) (hPN : P ≤ N) (hN : N ≤ 2 ^ 53)
    (hi : i < N) :
    (∃! pid, pid < P ∧ i ∈ run_block N P pid) ∧
    (∀ pid j, pid < P → j ∈ run_block N P pid → j < N) ∧
    (run_block 10 3 0 = [0, 1, 2] ∧ run_block 10 3 1 = [3, 4, 5] ∧
      run_block 10 3 2 = [6, 7, 8, 9]) := by
  refine ⟨?_, ?_, ?_, ?_, ?_⟩
  · obtain ⟨r, hr, h1, h2⟩ := exists_block (blockBound N P) (blockBound_zero N P) P i
      (by rw [blockBound_self hP hN]; exact hi)
    refine ⟨r, ⟨hr, ?_⟩, ?_⟩
    · rw [mem_run_block_iff, run_block_start_eq hP hr.le hPN hN, run_block_end_eq hr hPN hN]
      exact ⟨h1, h2⟩
    · rintro q ⟨hq, hmem⟩
      rw [mem_run_block_iff, run_block_start_eq hP hq.le hPN hN,
        run_block_end_eq hq hPN hN] at hmem
      rcases Nat.lt_trichotomy q r with hlt | heq | hgt
      · have := blockBound_mono (N := N) hP (show q + 1 ≤ r by omega)
        omega
      · exact heq
      · have := blockBound_mono (N := N) hP (show r + 1 ≤ q by omega)
        omega
  · intro pid j hpid hj
    rw [mem_run_block_iff, run_block_end_eq hpid hPN hN] at hj
    have := blockBound_le (a := pid + 1) hP (by omega) hN
    omega
  · unfold run_block
    rw [run_block_start_10_3_0, run_block_end_10_3_0]
    rfl
  · unfold run_block
    rw [run_block_start_10_3_1, run_block_end_10_3_1]
    rfl
  · unfold run_block
    rw [run_block_start_10_3_2, run_block_end_10_3_2]
    rfl

/-- Witness for `run_blocks_tile`: ten runs on three processes, run 4. -/
theorem run_blocks_tile_witness :
    (1 ≤ 3 ∧ 3 ≤ 10 ∧ 10 ≤ 2 ^ 53 ∧ 4 < 10) ∧
      ∃! pid, pid < 3 ∧ 4 ∈ run_block 10 3 pid :=
  ⟨by norm_num, (run_blocks_tile 10 3 4 (by norm_num) (by norm_num) (by norm_num)
    (by norm_num)).1⟩

/-- The bound `2 ^ 53` on the number of runs is the exact range of `double`: in the
arithmetic of the boundaries `2 ^ 53 + 1` runs on one process would leave the index
`2 ^ 53` in no block, because `num_runs` is rounded to `2 ^ 53` when it is converted to
`double`.  No vector `runs` has that many entries. -/
theorem run_blocks_miss_last_run :
    1 ≤ 1 ∧ 1 ≤ 9007199254740993 ∧ 9007199254740992 < 9007199254740993 ∧
      ¬ ∃ pid, pid < 1 ∧ 9007199254740992 ∈ run_block 9007199254740993 1 pid := by
  refine ⟨by norm_num, by norm_num, by norm_num, ?_⟩
  rintro ⟨pid, hpid, hmem⟩
  have h0 : pid = 0 := by omega
  subst h0
  rw [mem_run_block_iff, run_block_end_big] at hmem
  omega

/-! ### C7: the sizes of the blocks -/

theorem run_block_start_22_22_14 : run_block_start 22 22 14 = 14 := by
  unfold run_block_start
  exact toSizeT_eval (by norm_num)
    (fl_eq_near (-1) 5731854071198813 (by norm_num))
    (fl_eq_near (3) 7881299347898368 (by norm_num)) (by norm_num)

theorem run_block_end_22_22_14 : run_block_end 22 22 14 = 14 := by
  unfold run_block_end
  exact toSizeT_eval (by norm_num)
    (fl_eq_near (-1) 6141272219141585 (by norm_num))
    (fl_eq_near (3) 8444249301319679 (by norm_num)) (by norm_num)

theorem run_block_start_22_22_15 : run_block_start 22 22 15 = 14 := by
  unfold run_block_start
  exact toSizeT_eval (by norm_num)
    (fl_eq_near (-1) 6141272219141585 (by norm_num))
    (fl_eq_near (3) 8444249301319679 (by norm_num)) (by norm_num)

theorem run_block_end_22_22_15 : run_block_end 22 22 15 = 16 := by
  unfold run_block_end
  exact toSizeT_eval (by norm_num)
    (fl_eq_near (-1) 6550690367084358 (by norm_num))
    (fl_eq_near (4) 4503599627370496 (by norm_num)) (by norm_num)

/-- The quotient `15.0 / 22` and the product `(15.0 / 22) * 22` in `double`: the product
is the `double` just below 15, printed as `14.999999999999998`. -/
theorem dmul_ddiv_15_22 :
    ddiv (toDouble 15) (toDouble 22) = 6141272219141585 / 2 ^ 53 ∧
      dmul (ddiv (toDouble 15) (toDouble 22)) (toDouble 22) = 15 - 1 / 2 ^ 49 := by
  have h1 : ddiv (toDouble 15) (toDouble 22) = 6141272219141585 / 2 ^ 53 := by
    unfold ddiv
    rw [toDouble_eq (by norm_num), toDouble_eq (by norm_num),
      fl_eq_near (-1) 6141272219141585 (by norm_num)]
    norm_num
  refine ⟨h1, ?_⟩
  rw [h1]
  unfold dmul
  rw [toDouble_eq (by norm_num),
    fl_eq_near 3 8444249301319679 (by norm_num)]
  norm_num

/-- C7 at the failing input: with 22 runs on 22 processes the block of rank 14 is empty
and the block of rank 15 holds the two runs 14 and 15, so the block sizes differ by two.
The boundary `(15.0 / 22) * 22` is computed as `14.999999999999998` and floored to 14,
where the exact quotient is 15. -/
theorem block_sizes_differ_by_two :
    run_block 22 22 14 = [] ∧ run_block 22 22 15 = [14, 15] ∧
      (run_block 22 22 15).length = (run_block 22 22 14).length + 2 ∧
      run_block_start 22 22 15 = 14 ∧
      dmul (ddiv (toDouble 15) (toDouble 22)) (toDouble 22) = 15 - 1 / 2 ^ 49 ∧
      15 * 22 / 22 = 15 := by
  have h1 : run_block 22 22 14 = [] := by
    unfold run_block
    rw [run_block_start_22_22_14, run_block_end_22_22_14]
    rfl
  have h2 : run_block 22 22 15 = [14, 15] := by
    unfold run_block
    rw [run_block_start_22_22_15, run_block_end_22_22_15]
    rfl
  refine ⟨h1, h2, ?_, run_block_start_22_22_15, dmul_ddiv_15_22.2, by norm_num⟩
  rw [h1, h2]
  rfl

/-! ### C8: the runs a process executes and the runs it has instantiated -/

theorem run_block_start_3_2_1 : run_block_start 3 2 1 = 1 := by
  unfold run_block_start
  exact toSizeT_eval (by norm_num)
    (fl_eq_near (-1) 4503599627370496 (by norm_num))
    (fl_eq_near (0) 6755399441055744 (by norm_num)) (by norm_num)

theorem run_block_end_3_2_1 : run_block_end 3 2 1 = 3 := by
  unfold run_block_end
  exact toSizeT_eval (by norm_num)
    (fl_eq_near (0) 4503599627370496 (by norm_num))
    (fl_eq_near (1) 6755399441055744 (by norm_num)) (by norm_num)

theorem run_pid_start_3_2_1 : run_pid_start 3 2 1 = 0 := by
  unfold run_pid_start
  exact toSizeT_eval (by norm_num)
    (fl_eq_near (-2) 6004799503160661 (by norm_num))
    (fl_eq_near (-1) 6004799503160661 (by norm_num)) (by norm_num)

theorem run_pid_end_3_2_1 : run_pid_end 3 2 1 = 0 := by
  have h : toSizeT (dmul (ddiv (toDouble ((1 + 1) % 2 ^ 64)) (toDouble 3)) (toDouble 2))
      = 1 := by
    exact toSizeT_eval (by norm_num)
      (fl_eq_near (-1) 6004799503160661 (by norm_num))
      (fl_eq_near (0) 6004799503160661 (by norm_num)) (by norm_num)
  unfold run_pid_end
  rw [run_pid_start_3_2_1, h]
  norm_num

theorem deref_constructor (N P pid i : ℕ) (hi : i < N) :
    deref (constructor N P pid) i =
      if run_pid_start N P i ≤ pid ∧ pid ≤ run_pid_end N P i
      then some ⟨i, run_pid_start N P i, number_processes_per_run N P i⟩ else none := by
  unfold deref constructor
  rw [List.get?_eq_getElem?, List.getElem?_map, List.getElem?_range hi]
  simp only [Option.map_some']
  split_ifs <;> rfl

/-- C8 at the failing input: three runs on two processes.  Rank 1 executes the block
`[1, 3)`, but the constructor instantiates run 1 on rank 0 only
(`run_pid_start = run_pid_end = 0`), so on rank 1 `runs[1]` is `NULL` when `burnin` and
`runSim` dereference it. -/
theorem burnin_dereferences_null :
    run_block 3 2 1 = [1, 2] ∧ run_pid_start 3 2 1 = 0 ∧ run_pid_end 3 2 1 = 0 ∧
      deref (constructor 3 2 1) 1 = none ∧ burnin (constructor 3 2 1) 3 2 1 = none ∧
      runAll (constructor 3 2 1) 3 2 1 = none := by
  have hb : run_block 3 2 1 = [1, 2] := by
    unfold run_block
    rw [run_block_start_3_2_1, run_block_end_3_2_1]
    rfl
  have hd : deref (constructor 3 2 1) 1 = none := by
    rw [deref_constructor 3 2 1 1 (by norm_num), run_pid_start_3_2_1, run_pid_end_3_2_1]
    simp
  refine ⟨hb, run_pid_start_3_2_1, run_pid_end_3_2_1, hd, ?_, ?_⟩
  · unfold burnin
    rw [hb]
    simp [List.mapM, List.mapM.loop, hd]
  · unfold runAll runSim
    rw [hb]
    simp [List.mapM, List.mapM.loop, hd]

/-! ### C9: the ranks that instantiate a run -/

theorem run_pid_start_3_2_0 : run_pid_start 3 2 0 = 0 := by
  unfold run_pid_start
  exact toSizeT_eval (by norm_num)
    (fl_eq_zero (by norm_num))
    (fl_eq_zero (by norm_num)) (by norm_num)

theorem run_pid_end_3_2_0 : run_pid_end 3 2 0 = 2 ^ 64 - 1 := by
  have h : toSizeT (dmul (ddiv (toDouble ((0 + 1) % 2 ^ 64)) (toDouble 3)) (toDouble 2))
      = 0 := by
    exact toSizeT_eval (by norm_num)
      (fl_eq_near (-2) 6004799503160661 (by norm_num))
      (fl_eq_near (-1) 6004799503160661 (by norm_num)) (by norm_num)
  unfold run_pid_end
  rw [run_pid_start_3_2_0, h]
  norm_num

/-- C9 at the failing input: three runs on two processes.  For run 0 the value
`size_t(floor((1.0 / 3) * 2)) - 1` is `0 - 1` in `size_t`, that is `2 ^ 64 - 1`, so
`run_pid_end = 2 ^ 64 - 1` and both rank 0 and rank 1 instantiate run 0. -/
theorem run_instantiated_on_two_ranks :
    run_pid_start 3 2 0 = 0 ∧ run_pid_end 3 2 0 = 2 ^ 64 - 1 ∧
      (deref (constructor 3 2 0) 0).isSome = true ∧
      (deref (constructor 3 2 1) 0).isSome = true ∧
      ¬ ∃! pid, pid < 2 ∧ run_pid_start 3 2 0 ≤ pid ∧ pid ≤ run_pid_end 3 2 0 := by
  refine ⟨run_pid_start_3_2_0, run_pid_end_3_2_0, ?_, ?_, ?_⟩
  · rw [deref_constructor 3 2 0 0 (by norm_num), run_pid_start_3_2_0, run_pid_end_3_2_0]
    simp
  · rw [deref_constructor 3 2 1 0 (by norm_num), run_pid_start_3_2_0, run_pid_end_3_2_0]
    simp
  · rw [run_pid_start_3_2_0, run_pid_end_3_2_0]
    rintro ⟨pid, _, huniq⟩
    have h0 := huniq 0 ⟨by norm_num, by norm_num, by norm_num⟩
    have h1 := huniq 1 ⟨by norm_num, by norm_num, by norm_num⟩
    omega

/-! ### C10: `pid_per_sample` and the sample blocks -/

theorem pid_per_sample_3_2_1 : pid_per_sample 3 2 0 1 = 0 := by
  have h : toSizeT (dmul (ddiv (toDouble 1) (toDouble 3)) (toDouble 2)) = 0 := by
    exact toSizeT_eval (by norm_num)
      (fl_eq_near (-2) 6004799503160661 (by norm_num))
      (fl_eq_near (-1) 6004799503160661 (by norm_num)) (by norm_num)
  unfold pid_per_sample
  rw [h]
  norm_num

theorem sample_block_start_3_2_0 : sample_block_start 3 2 0 0 = 0 := by
  unfold sample_block_start
  exact toSizeT_eval (by norm_num)
    (fl_eq_zero (by norm_num))
    (fl_eq_zero (by norm_num)) (by norm_num)

theorem sample_block_end_3_2_0 : sample_block_end 3 2 0 0 = 1 := by
  unfold sample_block_end
  exact toSizeT_eval (by norm_num)
    (fl_eq_near (-1) 4503599627370496 (by norm_num))
    (fl_eq_near (0) 6755399441055744 (by norm_num)) (by norm_num)

theorem sample_block_start_3_2_1 : sample_block_start 3 2 0 1 = 1 := by
  unfold sample_block_start
  exact toSizeT_eval (by norm_num)
    (fl_eq_near (-1) 4503599627370496 (by norm_num))
    (fl_eq_near (0) 6755399441055744 (by norm_num)) (by norm_num)

theorem sample_block_end_3_2_1 : sample_block_end 3 2 0 1 = 3 := by
  unfold sample_block_end
  exact toSizeT_eval (by norm_num)
    (fl_eq_near (0) 4503599627370496 (by norm_num))
    (fl_eq_near (1) 6755399441055744 (by norm_num)) (by norm_num)

theorem getD_local_ln_probs (n P a pid i : ℕ) (f : ℕ → ℚ) (hi : i < n) :
    (local_ln_probs n P a pid f).getD i 0 =
      if sample_block_start n P a pid ≤ i ∧ i < sample_block_end n P a pid then f i else 0 := by
  unfold local_ln_probs
  rw [List.getD_eq_getElem?_getD, List.getElem?_map, List.getElem?_range hi]
  rfl

/-- C10 at the failing input: three samples on two processes, active process 0.  Sample 1
lies in the block `[1, 3)` of rank 1, which computes `ln_probs[1]`, but
`pid_per_sample[1] = 0`: the active process keeps its own entry, which it never computed
and which is still `0.0`, whatever the value `f 1` computed on rank 1. -/
theorem pid_per_sample_disagrees_with_block (f : ℕ → ℚ) :
    pid_per_sample 3 2 0 1 = 0 ∧
      ¬ (sample_block_start 3 2 0 0 ≤ 1 ∧ 1 < sample_block_end 3 2 0 0) ∧
      (sample_block_start 3 2 0 1 ≤ 1 ∧ 1 < sample_block_end 3 2 0 1) ∧
      (local_ln_probs 3 2 0 1 f).getD 1 0 = f 1 ∧
      (gathered_ln_probs 3 2 0 f).getD 1 0 = 0 := by
  refine ⟨pid_per_sample_3_2_1, ?_, ?_, ?_, ?_⟩
  · rw [sample_block_start_3_2_0, sample_block_end_3_2_0]; omega
  · rw [sample_block_start_3_2_1, sample_block_end_3_2_1]; omega
  · rw [getD_local_ln_probs 3 2 0 1 1 f (by norm_num), sample_block_start_3_2_1,
      sample_block_end_3_2_1]
    simp
  · unfold gathered_ln_probs
    rw [List.getD_eq_getElem?_getD, List.getElem?_map, List.getElem?_range (by norm_num)]
    simp only [Option.map_some', Option.getD_some]
    rw [pid_per_sample_3_2_1, getD_local_ln_probs 3 2 0 0 1 f (by norm_num),
      sample_block_start_3_2_0, sample_block_end_3_2_0]
    simp

/-! ### C2: the acceptance rule of `Mcmc::run` -/

theorem performMove_of_lt {σ : Type} (exp : Double → Double) (rng : ℕ → Double) (i : ℕ)
    (theMove : InferenceMove σ) (c : Chain σ)
    (h : Double.lt (rng (drawIndex rng theMove c)) (acceptanceRatio exp
      ((theMove.perform c.model (valuesFrom rng c.draws)).2.1.add
        (theMove.perform c.model (valuesFrom rng c.draws)).2.2.1)) = true) :
    performMove exp rng i theMove c =
      { model := (theMove.accept (theMove.perform c.model (valuesFrom rng c.draws)).1
          (valuesFrom rng (drawIndex rng theMove c + 1))).1,
        lnProbability :=
          c.lnProbability.add (theMove.perform c.model (valuesFrom rng c.draws)).2.1,
        draws := drawIndex rng theMove c + 1 +
          (theMove.accept (theMove.perform c.model (valuesFrom rng c.draws)).1
            (valuesFrom rng (drawIndex rng theMove c + 1))).2,
        calls := c.calls ++ [Call.perform i, Call.uniform01, Call.accept i] } := by
  unfold performMove
  simp only [h, if_true]

theorem performMove_of_not_lt {σ : Type} (exp : Double → Double) (rng : ℕ → Double) (i : ℕ)
    (theMove : InferenceMove σ) (c : Chain σ)
    (h : Double.lt (rng (drawIndex rng theMove c)) (acceptanceRatio exp
      ((theMove.perform c.model (valuesFrom rng c.draws)).2.1.add
        (theMove.perform c.model (valuesFrom rng c.draws)).2.2.1)) = false) :
    performMove exp rng i theMove c =
      { model := (theMove.reject (theMove.perform c.model (valuesFrom rng c.draws)).1
          (valuesFrom rng (drawIndex rng theMove c + 1))).1,
        lnProbability := c.lnProbability,
        draws := drawIndex rng theMove c + 1 +
          (theMove.reject (theMove.perform c.model (valuesFrom rng c.draws)).1
            (valuesFrom rng (drawIndex rng theMove c + 1))).2,
        calls := c.calls ++ [Call.perform i, Call.uniform01, Call.reject i] } := by
  unfold performMove
  simp [h]

/-- C2: for a move with `lnR = lnProbabilityRatio + lnHastingsRatio` and a draw
`u` in `[0,1)`, the calls of the loop body are `perform`, `uniform01`, `accept` (and no
`reject`) exactly when `u < r`, and `perform`, `uniform01`, `reject` (and no `accept`)
otherwise, where `r` is 1 for `lnR > 0`, 0 for `lnR < -300` and `exp(lnR)` otherwise.
So a move with `lnR > 0` is accepted and a move with `lnR < -300` is rejected for every
such `u`.  The draw `u` is the value that the generator yields after `perform()`. -/
theorem accept_iff_lt_ratio {σ : Type} (exp : Double → Double) (rng : ℕ → Double) (i : ℕ)
    (theMove : InferenceMove σ) (c : Chain σ) (q : ℚ)
    (hu : rng (drawIndex rng theMove c) = Double.fin q) (h0 : 0 ≤ q) (h1 : q < 1) :
    let lnR := (theMove.perform c.model (valuesFrom rng c.draws)).2.1.add
      (theMove.perform c.model (valuesFrom rng c.draws)).2.2.1
    let r := if Double.lt (Double.fin 0) lnR then Double.fin 1
      else if Double.lt lnR (Double.fin (-300)) then Double.fin 0 else exp lnR
    let accepted := (performMove exp rng i theMove c).calls =
      c.calls ++ [Call.perform i, Call.uniform01, Call.accept i]
    let rejected := (performMove exp rng i theMove c).calls =
      c.calls ++ [Call.perform i, Call.uniform01, Call.reject i]
    (accepted ↔ Double.lt (Double.fin q) r = true) ∧
    (rejected ↔ Double.lt (Double.fin q) r = false) ∧
    (Double.lt (Double.fin 0) lnR = true → accepted) ∧
    (Double.lt lnR (Double.fin (-300)) = true → rejected) := by
  intro lnR r accepted rejected
  have hr : r = acceptanceRatio exp lnR := rfl
  have hacc : Double.lt (Double.fin q) r = true → accepted := by
    intro h
    have h2 : Double.lt (rng (drawIndex rng theMove c)) (acceptanceRatio exp lnR) = true := by
      rw [hu, ← hr]; exact h
    show (performMove exp rng i theMove c).calls = _
    rw [performMove_of_lt exp rng i theMove c h2]
  have hrej : Double.lt (Double.fin q) r = false → rejected := by
    intro h
    have h2 : Double.lt (rng (drawIndex rng theMove c)) (acceptanceRatio exp lnR) = false := by
      rw [hu, ← hr]; exact h
    show (performMove exp rng i theMove c).calls = _
    rw [performMove_of_not_lt exp rng i theMove c h2]
  have hne : ¬ (accepted ∧ rejected) := by
    rintro ⟨ha, hb⟩
    have ha2 : (performMove exp rng i theMove c).calls = _ := ha
    have hb2 : (performMove exp rng i theMove c).calls = _ := hb
    rw [ha2] at hb2
    simp at hb2
  refine ⟨⟨?_, hacc⟩, ⟨?_, hrej⟩, ?_, ?_⟩
  · intro ha
    by_contra hcon
    exact hne ⟨ha, hrej (by simpa using hcon)⟩
  · intro hb
    by_contra hcon
    exact hne ⟨hacc (by simpa using hcon), hb⟩
  · intro hpos
    apply hacc
    show Double.lt (Double.fin q) (if Double.lt (Double.fin 0) lnR then Double.fin 1
      else if Double.lt lnR (Double.fin (-300)) then Double.fin 0 else exp lnR) = true
    rw [if_pos hpos]
    simpa [Double.lt] using h1
  · intro hneg
    apply hrej
    have hnpos : Double.lt (Double.fin 0) lnR = false := by
      cases hl : lnR with
      | fin x =>
        rw [hl] at hneg
        simp only [Double.lt, decide_eq_true_eq] at hneg
        simp only [Double.lt, decide_eq_false_iff_not, not_lt]
        linarith
      | pinf => rw [hl] at hneg; simp [Double.lt] at hneg
      | ninf => simp [Double.lt]
      | nan => simp [Double.lt]
    show Double.lt (Double.fin q) (if Double.lt (Double.fin 0) lnR then Double.fin 1
      else if Double.lt lnR (Double.fin (-300)) then Double.fin 0 else exp lnR) = false
    rw [hnpos, if_pos hneg]
    simpa [Double.lt] using h0

theorem Double.add_fin {a b v : ℚ} (hv : fl (a + b) = v) (hl : -2 ^ 1024 < v)
    (hr : v < 2 ^ 1024) : Double.add (Double.fin a) (Double.fin b) = Double.fin v := by
  show Double.round (a + b) = Double.fin v
  unfold Double.round
  rw [hv, if_neg (not_le.mpr hr), if_neg (not_le.mpr hl)]

theorem fl_half : fl ((1 : ℚ) / 2 + 0) = 1 / 2 := by
  rw [fl_eq_near (-1) 4503599627370496 (by norm_num)]
  norm_num

theorem fl_neg_400 : fl ((-400 : ℚ) + 0) = -400 := by
  rw [fl_eq (k := 8) (m := -7036874417766400) (by norm_num [abs_of_neg])
    (by norm_num [abs_of_neg]) (by norm_num)
    (roundHalfEven_eq_of_near (by norm_num) (by norm_num))]
  norm_num

/-- Witness for `accept_iff_lt_ratio`: with `lnProbabilityRatio = 0.5`,
`lnHastingsRatio = 0` and `u = 0.3` the move is accepted, and with `lnR = -400` it is
rejected. -/
theorem accept_iff_lt_ratio_witness :
    ((0 : ℚ) ≤ zeroPointThree ∧ zeroPointThree < 1) ∧
    (performMove (fun x => x) (fun _ => Double.fin zeroPointThree) 0
      (constantMove (Double.fin (1 / 2)) (Double.fin 0))
      ⟨(), Double.fin 0, 0, []⟩).calls = [Call.perform 0, Call.uniform01, Call.accept 0] ∧
    (performMove (fun x => x) (fun _ => Double.fin zeroPointThree) 0
      (constantMove (Double.fin (-400)) (Double.fin 0))
      ⟨(), Double.fin 0, 0, []⟩).calls = [Call.perform 0, Call.uniform01, Call.reject 0] := by
  have hq : (0 : ℚ) ≤ zeroPointThree ∧ zeroPointThree < 1 := by
    unfold zeroPointThree; norm_num
  refine ⟨hq, ?_, ?_⟩
  · refine (accept_iff_lt_ratio (fun x => x) (fun _ => Double.fin zeroPointThree) 0
      (constantMove (Double.fin (1 / 2)) (Double.fin 0)) ⟨(), Double.fin 0, 0, []⟩
      zeroPointThree rfl hq.1 hq.2).2.2.1 ?_
    show Double.lt (Double.fin 0) (Double.add (Double.fin (1 / 2)) (Double.fin 0)) = true
    rw [Double.add_fin fl_half (by norm_num) (by norm_num)]
    simp [Double.lt]
  · refine (accept_iff_lt_ratio (fun x => x) (fun _ => Double.fin zeroPointThree) 0
      (constantMove (Double.fin (-400)) (Double.fin 0)) ⟨(), Double.fin 0, 0, []⟩
      zeroPointThree rfl hq.1 hq.2).2.2.2 ?_
    show Double.lt (Double.add (Double.fin (-400)) (Double.fin 0)) (Double.fin (-300)) = true
    rw [Double.add_fin fl_neg_400 (by norm_num) (by norm_num)]
    simp [Double.lt]
    norm_num

/-! ### C3: the running total over one generation -/

theorem performMove_lnProbability {σ : Type} (exp : Double → Double) (rng : ℕ → Double)
    (i : ℕ) (theMove : InferenceMove σ) (c : Chain σ) :
    (performMove exp rng i theMove c).lnProbability =
      if (moveOutcome exp rng theMove c).accepted
      then c.lnProbability.add (moveOutcome exp rng theMove c).lnProbabilityRatio
      else c.lnProbability := by
  unfold performMove moveOutcome
  simp only
  split_ifs <;> rfl

theorem movesLoop_lnProbability {σ : Type} (exp : Double → Double) (rng : ℕ → Double)
    (ms : List (InferenceMove σ)) :
    ∀ (i : ℕ) (c : Chain σ), (movesLoop exp rng i ms c).lnProbability =
      (((outcomes exp rng i ms c).filter fun o => o.accepted).map
        fun o => o.lnProbabilityRatio).foldl Double.add c.lnProbability := by
  induction ms with
  | nil => intro i c; rfl
  | cons m ms ih =>
    intro i c
    rw [movesLoop, outcomes, ih (i + 1) (performMove exp rng i m c),
      performMove_lnProbability]
    by_cases h : (moveOutcome exp rng m c).accepted = true
    · rw [if_pos h, List.filter_cons_of_pos (by simpa using h)]
      rfl
    · rw [if_neg h, List.filter_cons_of_neg (by simpa using h)]

theorem monitorsLoop_lnProbability {σ : Type} (rng : ℕ → Double) (gen : ℕ)
    (ms : List (InferenceMonitor σ)) :
    ∀ (i : ℕ) (c : Chain σ), (monitorsLoop rng gen i ms c).lnProbability = c.lnProbability := by
  induction ms with
  | nil => intro i c; rfl
  | cons m ms ih => intro i c; rw [monitorsLoop, ih]

theorem moveOutcome_accepted_iff {σ : Type} (exp : Double → Double) (rng : ℕ → Double)
    (i : ℕ) (theMove : InferenceMove σ) (c : Chain σ) :
    (moveOutcome exp rng theMove c).accepted = true ↔
      (performMove exp rng i theMove c).calls =
        c.calls ++ [Call.perform i, Call.uniform01, Call.accept i] := by
  cases h : (moveOutcome exp rng theMove c).accepted with
  | true =>
    have h2 : Double.lt (rng (drawIndex rng theMove c)) (acceptanceRatio exp
        ((theMove.perform c.model (valuesFrom rng c.draws)).2.1.add
          (theMove.perform c.model (valuesFrom rng c.draws)).2.2.1)) = true := h
    rw [performMove_of_lt exp rng i theMove c h2]
    simp
  | false =>
    have h2 : Double.lt (rng (drawIndex rng theMove c)) (acceptanceRatio exp
        ((theMove.perform c.model (valuesFrom rng c.draws)).2.1.add
          (theMove.perform c.model (valuesFrom rng c.draws)).2.2.1)) = false := h
    rw [performMove_of_not_lt exp rng i theMove c h2]
    simp

/-- C3: over one generation the running total `lnProbability` becomes the old total plus
(`+=`, in move order) the `lnProbabilityRatio` of every accepted move of that
generation; the Hastings ratios are not added and a rejected move leaves the total as it
is.  A move counts as accepted exactly when `accept()` is called on it. -/
theorem generation_lnProbability {σ : Type} (exp : Double → Double) (rng : ℕ → Double)
    (moves : List (InferenceMove σ)) (monitors : List (InferenceMonitor σ)) (c : Chain σ)
    (gen : ℕ) :
    (generation exp rng moves monitors c gen).lnProbability =
      (((outcomes exp rng 0 moves c).filter fun o => o.accepted).map
        fun o => o.lnProbabilityRatio).foldl Double.add c.lnProbability ∧
    ∀ (i : ℕ) (theMove : InferenceMove σ) (d : Chain σ),
      ((moveOutcome exp rng theMove d).accepted = true ↔
        (performMove exp rng i theMove d).calls =
          d.calls ++ [Call.perform i, Call.uniform01, Call.accept i]) ∧
      (moveOutcome exp rng theMove d).lnProbabilityRatio =
        (theMove.perform d.model (valuesFrom rng d.draws)).2.1 ∧
      (performMove exp rng i theMove d).lnProbability =
        if (moveOutcome exp rng theMove d).accepted
        then d.lnProbability.add (theMove.perform d.model (valuesFrom rng d.draws)).2.1
        else d.lnProbability := by
  refine ⟨?_, ?_⟩
  · unfold generation
    rw [monitorsLoop_lnProbability]
    exact movesLoop_lnProbability exp rng moves 0 c
  · intro i theMove d
    exact ⟨moveOutcome_accepted_iff exp rng i theMove d, rfl,
      performMove_lnProbability exp rng i theMove d⟩

/-! ### C4: the initial `lnProbability` -/

theorem parentEliminated_eq_any (dagNodes : List InferenceDagNode) (ps : List ℕ) :
    parentEliminated dagNodes ps = ps.any (notInstantiated dagNodes) := by
  induction ps with
  | nil => rfl
  | cons j js ih =>
    rw [parentEliminated, List.any_cons, ih]
    cases notInstantiated dagNodes j <;> simp

theorem initLoop_succ (cf : FactorRoots → ℕ → FactorRoots) (dagNodes : List InferenceDagNode)
    (roots : FactorRoots) (n : ℕ) :
    initLoop cf dagNodes roots (n + 1) = initNode cf dagNodes (initLoop cf dagNodes roots n) n := by
  unfold initLoop
  rw [List.range_succ, List.foldl_append]
  rfl

theorem calculated_append (xs ys : List Call) :
    calculated (xs ++ ys) = calculated xs ++ calculated ys := by
  unfold calculated
  rw [List.filterMap_append]

theorem constructed_append (xs ys : List Call) :
    constructed (xs ++ ys) = constructed xs ++ constructed ys := by
  unfold constructed
  rw [List.filterMap_append]

theorem filter_range_succ (p : ℕ → Bool) (n : ℕ) :
    (List.range (n + 1)).filter p = (List.range n).filter p ++ (if p n then [n] else []) := by
  rw [List.range_succ, List.filter_append]
  cases h : p n <;> simp [h]

theorem calculated_singleton_calc (i : ℕ) :
    calculated [Call.calculateLnProbability i] = [i] := rfl

theorem calculated_singleton_cons (i : ℕ) : calculated [Call.constructFactor i] = [] := rfl

theorem constructed_singleton_calc (i : ℕ) :
    constructed [Call.calculateLnProbability i] = [] := rfl

theorem constructed_singleton_cons (i : ℕ) : constructed [Call.constructFactor i] = [i] := rfl

theorem calculated_pair (i : ℕ) :
    calculated [Call.constructFactor i, Call.calculateLnProbability i] = [i] := rfl

theorem constructed_pair (i : ℕ) :
    constructed [Call.constructFactor i, Call.calculateLnProbability i] = [i] := rfl

/-- One iteration of the loop over `dagNodes`, field by field. -/
theorem initNode_fields (cf : FactorRoots → ℕ → FactorRoots)
    (dagNodes : List InferenceDagNode)
    (s : InitState) (n : ℕ) (node : InferenceDagNode) (hg : dagNodes.get? n = some node) :
    (initNode cf dagNodes s n).lnProbability =
      (if (node.isStochastic &&
          (if node.isNotInstantiated
           then decide ((if s.factorRoot n = none then cf s.factorRoot n else s.factorRoot) n
             = some n)
           else !(node.parents.any (notInstantiated dagNodes)))) = true
       then s.lnProbability.add node.lnProb else s.lnProbability) ∧
    calculated (initNode cf dagNodes s n).calls = calculated s.calls ++
      (if (node.isStochastic &&
          (if node.isNotInstantiated
           then decide ((if s.factorRoot n = none then cf s.factorRoot n else s.factorRoot) n
             = some n)
           else !(node.parents.any (notInstantiated dagNodes)))) = true
       then [n] else []) ∧
    constructed (initNode cf dagNodes s n).calls = constructed s.calls ++
      (if (node.isStochastic && node.isNotInstantiated && decide (s.factorRoot n = none)) = true
       then [n] else []) ∧
    (initNode cf dagNodes s n).factorRoot =
      (if (node.isStochastic && node.isNotInstantiated && decide (s.factorRoot n = none)) = true
       then cf s.factorRoot n else s.factorRoot) := by
  unfold initNode
  rw [hg]
  simp only
  cases hst : node.isStochastic
  · simp
  cases hni : node.isNotInstantiated
  · rw [parentEliminated_eq_any]
    cases hpe : node.parents.any (notInstantiated dagNodes)
    · simp [calculated_append, constructed_append, calculated_singleton_calc,
        constructed_singleton_calc]
    · simp
  · by_cases hr : s.factorRoot n = none
    · by_cases ht : cf s.factorRoot n n = some n
      · cases hso : node.isSummedOver <;>
          simp [hr, ht, calculated_append, constructed_append, calculated_singleton_calc,
            constructed_singleton_calc, calculated_singleton_cons, constructed_singleton_cons,
            calculated_pair, constructed_pair]
      · cases hso : node.isSummedOver <;>
          simp [hr, ht, calculated_append, constructed_append, calculated_singleton_calc,
            constructed_singleton_calc, calculated_singleton_cons, constructed_singleton_cons,
            calculated_pair, constructed_pair]
    · by_cases ht : s.factorRoot n = some n
      · cases hso : node.isSummedOver <;>
          simp [hr, ht, calculated_append, constructed_append, calculated_singleton_calc,
            constructed_singleton_calc, calculated_singleton_cons, constructed_singleton_cons,
            calculated_pair, constructed_pair]
      · cases hso : node.isSummedOver <;>
          simp [hr, ht, calculated_append, constructed_append, calculated_singleton_calc,
            constructed_singleton_calc, calculated_singleton_cons, constructed_singleton_cons,
            calculated_pair, constructed_pair]

theorem calculated_map_touch (l : List ℕ) : calculated (l.map Call.touch) = [] := by
  induction l with
  | nil => rfl
  | cons a l ih =>
    rw [List.map_cons, show Call.touch a :: l.map Call.touch = [Call.touch a] ++ l.map Call.touch
      from rfl, calculated_append, ih]
    rfl

theorem constructed_map_touch (l : List ℕ) : constructed (l.map Call.touch) = [] := by
  induction l with
  | nil => rfl
  | cons a l ih =>
    rw [List.map_cons, show Call.touch a :: l.map Call.touch = [Call.touch a] ++ l.map Call.touch
      from rfl, constructed_append, ih]
    rfl

theorem calculated_map_keep (l : List ℕ) : calculated (l.map Call.keep) = [] := by
  induction l with
  | nil => rfl
  | cons a l ih =>
    rw [List.map_cons, show Call.keep a :: l.map Call.keep = [Call.keep a] ++ l.map Call.keep
      from rfl, calculated_append, ih]
    rfl

theorem constructed_map_keep (l : List ℕ) : constructed (l.map Call.keep) = [] := by
  induction l with
  | nil => rfl
  | cons a l ih =>
    rw [List.map_cons, show Call.keep a :: l.map Call.keep = [Call.keep a] ++ l.map Call.keep
      from rfl, constructed_append, ih]
    rfl

theorem contributes_eq (cf : FactorRoots → ℕ → FactorRoots) (dagNodes : List InferenceDagNode)
    (roots : FactorRoots) (n : ℕ) (node : InferenceDagNode) (hg : dagNodes.get? n = some node) :
    contributes cf dagNodes roots n =
      (node.isStochastic &&
        (if node.isNotInstantiated
         then decide ((if (initLoop cf dagNodes roots n).factorRoot n = none
            then cf (initLoop cf dagNodes roots n).factorRoot n
            else (initLoop cf dagNodes roots n).factorRoot) n = some n)
         else !(node.parents.any (notInstantiated dagNodes)))) := by
  unfold contributes rootsAtTest rootsBefore
  rw [hg]

theorem needsFactor_eq (cf : FactorRoots → ℕ → FactorRoots) (dagNodes : List InferenceDagNode)
    (roots : FactorRoots) (n : ℕ) (node : InferenceDagNode) (hg : dagNodes.get? n = some node) :
    needsFactor cf dagNodes roots n =
      (node.isStochastic && node.isNotInstantiated &&
        decide ((initLoop cf dagNodes roots n).factorRoot n = none)) := by
  unfold needsFactor rootsBefore
  rw [hg]

/-- What the loop over `dagNodes` has computed after `n` iterations: the total is the sum,
in order, over the contributing nodes among the first `n`, `calculateLnProbability()` was
called on exactly these and `constructFactor()` on exactly the nodes whose root was
`NULL`. -/
theorem initLoop_spec (cf : FactorRoots → ℕ → FactorRoots) (dagNodes : List InferenceDagNode)
    (roots : FactorRoots) (n : ℕ) :
    (initLoop cf dagNodes roots n).lnProbability =
      (((List.range n).filter (contributes cf dagNodes roots)).map
        (nodeLnProb dagNodes)).foldl Double.add (Double.fin 0) ∧
    calculated (initLoop cf dagNodes roots n).calls =
      (List.range n).filter (contributes cf dagNodes roots) ∧
    constructed (initLoop cf dagNodes roots n).calls =
      (List.range n).filter (needsFactor cf dagNodes roots) := by
  induction n with
  | zero =>
    refine ⟨rfl, ?_, ?_⟩
    · exact calculated_map_touch _
    · exact constructed_map_touch _
  | succ n ih =>
    obtain ⟨ih1, ih2, ih3⟩ := ih
    rw [initLoop_succ, filter_range_succ, filter_range_succ]
    cases hg : dagNodes.get? n with
    | none =>
      have hc : contributes cf dagNodes roots n = false := by
        unfold contributes; rw [hg]
      have hn : needsFactor cf dagNodes roots n = false := by
        unfold needsFactor; rw [hg]
      have hs : initNode cf dagNodes (initLoop cf dagNodes roots n) n =
          initLoop cf dagNodes roots n := by
        unfold initNode; rw [hg]
      rw [hs, hc, hn]
      simp only [Bool.false_eq_true, if_false, List.append_nil]
      exact ⟨ih1, ih2, ih3⟩
    | some node =>
      obtain ⟨h1, h2, h3, _⟩ := initNode_fields cf dagNodes (initLoop cf dagNodes roots n) n
        node hg
      rw [← contributes_eq cf dagNodes roots n node hg] at h1 h2
      rw [← needsFactor_eq cf dagNodes roots n node hg] at h3
      refine ⟨?_, ?_, ?_⟩
      · rw [h1, List.map_append, List.foldl_append, ← ih1]
        cases hc : contributes cf dagNodes roots n
        · simp
        · have hl : nodeLnProb dagNodes n = node.lnProb := by
            unfold nodeLnProb; rw [hg]
          simp [hl]
      · rw [h2, ih2]
      · rw [h3, ih3]

theorem initialise_spec (cf : FactorRoots → ℕ → FactorRoots)
    (dagNodes : List InferenceDagNode)
    (roots : FactorRoots) :
    (initialise cf dagNodes roots).lnProbability =
      (((List.range dagNodes.length).filter (contributes cf dagNodes roots)).map
        (nodeLnProb dagNodes)).foldl Double.add (Double.fin 0) ∧
    calculated (initialise cf dagNodes roots).calls =
      (List.range dagNodes.length).filter (contributes cf dagNodes roots) ∧
    constructed (initialise cf dagNodes roots).calls =
      (List.range dagNodes.length).filter (needsFactor cf dagNodes roots) := by
  obtain ⟨h1, h2, h3⟩ := initLoop_spec cf dagNodes roots dagNodes.length
  unfold initialise
  simp only
  refine ⟨h1, ?_, ?_⟩
  · rw [calculated_append, calculated_map_keep, List.append_nil, h2]
  · rw [constructed_append, constructed_map_keep, List.append_nil, h3]

/-- C4: the initial `lnProbability` is the sum (`+=` from `0.0`, in the order of
`dagNodes`) of `calculateLnProbability()` over exactly the stochastic nodes that are
(a) instantiated with no uninstantiated parent, or (b) uninstantiated and their own factor
root when the loop tests it; `calculateLnProbability()` is called on these nodes only,
once each. -/
theorem initial_lnProbability_sum (cf : FactorRoots → ℕ → FactorRoots)
    (dagNodes : List InferenceDagNode) (roots : FactorRoots) :
    (initialise cf dagNodes roots).lnProbability =
      (((List.range dagNodes.length).filter (contributes cf dagNodes roots)).map
        (nodeLnProb dagNodes)).foldl Double.add (Double.fin 0) ∧
    calculated (initialise cf dagNodes roots).calls =
      (List.range dagNodes.length).filter (contributes cf dagNodes roots) ∧
    (calculated (initialise cf dagNodes roots).calls).Nodup ∧
    ∀ (k : ℕ) (node : InferenceDagNode), dagNodes.get? k = some node →
      (contributes cf dagNodes roots k = true ↔
        node.isStochastic = true ∧
          ((node.isNotInstantiated = false ∧
              ∀ j ∈ node.parents, notInstantiated dagNodes j = false) ∨
           (node.isNotInstantiated = true ∧
              rootsAtTest cf dagNodes roots k k = some k))) := by
  obtain ⟨h1, h2, _⟩ := initialise_spec cf dagNodes roots
  refine ⟨h1, h2, ?_, ?_⟩
  · rw [h2]
    exact List.Nodup.filter _ (List.nodup_range _)
  · intro k node hg
    unfold contributes
    rw [hg]
    cases hst : node.isStochastic <;> cases hni : node.isNotInstantiated <;> simp [hst, hni]

/-! ### C5: eliminated ancestors -/

theorem contributes_false_of_parent (cf : FactorRoots → ℕ → FactorRoots)
    (dagNodes : List InferenceDagNode) (roots : FactorRoots) (k : ℕ) (node : InferenceDagNode)
    (hg : dagNodes.get? k = some node) (hni : node.isNotInstantiated = false) (j : ℕ)
    (hj : j ∈ node.parents) (hjn : notInstantiated dagNodes j = true) :
    contributes cf dagNodes roots k = false := by
  unfold contributes
  rw [hg]
  have hany : node.parents.any (notInstantiated dagNodes) = true :=
    List.any_eq_true.mpr ⟨j, hj, hjn⟩
  simp [hni, hany]

/-- C5 (as amended): an instantiated node, in particular an instantiated stochastic node,
one of whose direct parents is uninstantiated contributes nothing to the initial
`lnProbability`:
`calculateLnProbability()` is not called on it and the total is the sum over the other
contributing nodes. -/
theorem eliminated_parent_contributes_nothing (cf : FactorRoots → ℕ → FactorRoots)
    (dagNodes : List InferenceDagNode) (roots : FactorRoots) (k : ℕ) (node : InferenceDagNode)
    (hg : dagNodes.get? k = some node)
    (hni : node.isNotInstantiated = false) (j : ℕ) (hj : j ∈ node.parents)
    (hjn : notInstantiated dagNodes j = true) :
    k ∉ calculated (initialise cf dagNodes roots).calls ∧
    (initialise cf dagNodes roots).lnProbability =
      (((List.range dagNodes.length).filter
        (fun i => decide (i ≠ k) && contributes cf dagNodes roots i)).map
        (nodeLnProb dagNodes)).foldl Double.add (Double.fin 0) := by
  have hc := contributes_false_of_parent cf dagNodes roots k node hg hni j hj hjn
  obtain ⟨h1, h2, _⟩ := initialise_spec cf dagNodes roots
  constructor
  · rw [h2, List.mem_filter, hc]
    simp
  · rw [h1]
    congr 2
    apply List.filter_congr
    intro i _
    by_cases hik : i = k
    · subst hik; simp [hc]
    · simp [hik]

theorem fl_neg_one : fl ((0 : ℚ) + -1) = -1 := by
  rw [fl_eq (k := 0) (m := -4503599627370496) (by norm_num [abs_of_neg])
    (by norm_num [abs_of_neg]) (by norm_num)
    (roundHalfEven_eq_of_near (by norm_num) (by norm_num))]
  norm_num

theorem fl_neg_five : fl ((-1 : ℚ) + -4) = -5 := by
  rw [fl_eq (k := 2) (m := -5629499534213120) (by norm_num [abs_of_neg])
    (by norm_num [abs_of_neg]) (by norm_num)
    (roundHalfEven_eq_of_near (by norm_num) (by norm_num))]
  norm_num

theorem grandparentExample_calls :
    (initialise selfRoot grandparentExample (fun _ => none)).calls =
      [Call.touch 0, Call.touch 1, Call.touch 2, Call.constructFactor 0,
        Call.calculateLnProbability 0, Call.calculateLnProbability 2,
        Call.keep 0, Call.keep 1, Call.keep 2] := by
  decide

theorem grandparentExample_total :
    (initialise selfRoot grandparentExample (fun _ => none)).lnProbability =
      Double.fin (-5) := by
  have h : (initialise selfRoot grandparentExample (fun _ => none)).lnProbability =
      Double.add (Double.add (Double.fin 0) (Double.fin (-1))) (Double.fin (-4)) := by
    rfl
  rw [h, Double.add_fin fl_neg_one (by norm_num) (by norm_num),
    Double.add_fin fl_neg_five (by norm_num) (by norm_num)]

/-- Witness for `eliminated_parent_contributes_nothing`: the node `M` of the example
graph, whose parent `G` is eliminated. -/
theorem eliminated_parent_contributes_nothing_witness :
    1 ∉ calculated (initialise selfRoot grandparentExample (fun _ => none)).calls :=
  (eliminated_parent_contributes_nothing selfRoot grandparentExample (fun _ => none) 1
    ⟨true, false, false, [0], Double.fin (-2)⟩ rfl rfl 0 (by simp) rfl).1

/-- C5 as stated fails: in the graph `G → M → C` the node `C` is an instantiated
stochastic node whose grandparent `G` is eliminated, and its value `-4` is added:
`calculateLnProbability()` is called on `C` and the initial `lnProbability` is
`-1 + -4 = -5`. -/
theorem eliminated_grandparent_contributes :
    (grandparentExample.get? 2).map (fun n => (n.isStochastic, n.isNotInstantiated, n.parents))
      = some (true, false, [1]) ∧
    (grandparentExample.get? 1).map (fun n => n.parents) = some [0] ∧
    notInstantiated grandparentExample 0 = true ∧
    2 ∈ calculated (initialise selfRoot grandparentExample (fun _ => none)).calls ∧
    (initialise selfRoot grandparentExample (fun _ => none)).lnProbability =
      Double.fin (-5) := by
  refine ⟨rfl, rfl, rfl, ?_, grandparentExample_total⟩
  rw [grandparentExample_calls]
  decide

/-! ### C6: a chain of two eliminated nodes -/

theorem Double.fin_zero_add {x : Double} (hx : x.IsDouble) :
    Double.add (Double.fin 0) x = x := by
  cases x with
  | fin q =>
    obtain ⟨h1, h2⟩ := hx
    have h3 := abs_lt.mp h2
    exact Double.add_fin (by rw [zero_add]; exact h1) h3.1 h3.2
  | pinf => rfl
  | ninf => rfl
  | nan => rfl

/-- C6: for two uninstantiated stochastic nodes whose factor roots are `NULL` at the start
and for which `constructFactor()`, called on the first, gives both the same factor root
`r` (one of the two), the initial `lnProbability` is the value
`calculateLnProbability()` of `r` alone; `calculateLnProbability()` is called on `r` only
and `constructFactor()` only once, on the first node, whose root was `NULL`. -/
theorem chain_counts_factor_root_once (cf : FactorRoots → ℕ → FactorRoots)
    (a b : InferenceDagNode) (roots : FactorRoots) (r : ℕ)
    (ha1 : a.isStochastic = true) (ha2 : a.isNotInstantiated = true)
    (hb1 : b.isStochastic = true) (hb2 : b.isNotInstantiated = true)
    (hroot : roots 0 = none) (h0 : cf roots 0 0 = some r) (h1 : cf roots 0 1 = some r)
    (hr : r < 2) (hda : a.lnProb.IsDouble) (hdb : b.lnProb.IsDouble) :
    (initialise cf [a, b] roots).lnProbability = nodeLnProb [a, b] r ∧
    calculated (initialise cf [a, b] roots).calls = [r] ∧
    constructed (initialise cf [a, b] roots).calls = [0] := by
  have hloop : initLoop cf [a, b] roots 2 =
      initNode cf [a, b] (initNode cf [a, b] (initLoop cf [a, b] roots 0) 0) 1 := by
    rw [initLoop_succ, initLoop_succ]
  have hs0r : (initLoop cf [a, b] roots 0).factorRoot = roots := rfl
  have hs0p : (initLoop cf [a, b] roots 0).lnProbability = Double.fin 0 := rfl
  have hs0c : calculated (initLoop cf [a, b] roots 0).calls = [] := calculated_map_touch _
  have hs0k : constructed (initLoop cf [a, b] roots 0).calls = [] := constructed_map_touch _
  obtain ⟨p1, c1, k1, r1⟩ := initNode_fields cf [a, b] (initLoop cf [a, b] roots 0) 0 a rfl
  rw [hs0r, hs0p, ha1, ha2] at p1
  rw [hs0r, hs0c, ha1, ha2] at c1
  rw [hs0r, hs0k, ha1, ha2] at k1
  rw [hs0r, ha1, ha2] at r1
  simp only [hroot, h0, if_true, Bool.true_and, decide_True, List.nil_append] at p1 c1 k1 r1
  obtain ⟨p2, c2, k2, _⟩ := initNode_fields cf [a, b]
    (initNode cf [a, b] (initLoop cf [a, b] roots 0) 0) 1 b rfl
  rw [r1, p1, hb1, hb2] at p2
  rw [r1, c1, hb1, hb2] at c2
  rw [r1, k1, hb1, hb2] at k2
  simp only [h1, if_true, Bool.true_and, reduceCtorEq, if_false, decide_False,
    Bool.and_false, Bool.false_eq_true, List.append_nil] at p2 c2 k2
  have hr01 : r = 0 ∨ r = 1 := by omega
  unfold initialise
  simp only
  rw [calculated_append, constructed_append, calculated_map_keep, constructed_map_keep,
    List.append_nil, List.append_nil]
  rw [show [a, b].length = 2 from rfl, hloop, p2, c2, k2]
  rcases hr01 with hr0 | hr1
  · subst hr0
    simp [nodeLnProb, Double.fin_zero_add hda]
  · subst hr1
    simp [nodeLnProb, Double.fin_zero_add hdb]

theorem isDouble_neg_one : (Double.fin (-1)).IsDouble := by
  refine ⟨?_, by norm_num [abs_of_neg]⟩
  have := fl_neg_one
  rwa [zero_add] at this

theorem isDouble_neg_four : (Double.fin (-4)).IsDouble := by
  refine ⟨?_, by norm_num [abs_of_neg]⟩
  rw [fl_eq (k := 2) (m := -4503599627370496) (by norm_num [abs_of_neg])
    (by norm_num [abs_of_neg]) (by norm_num)
    (roundHalfEven_eq_of_near (by norm_num) (by norm_num))]
  norm_num

/-- Witness for `chain_counts_factor_root_once`: the chain `A → B` with values `-1` and
`-4` and factor root `A`; the initial `lnProbability` is `-1`, not the sum `-5`. -/
theorem chain_counts_factor_root_once_witness :
    (initialise chainFactor chainExample (fun _ => none)).lnProbability = Double.fin (-1) ∧
    Double.add (Double.fin (-1)) (Double.fin (-4)) = Double.fin (-5) ∧
    constructed (initialise chainFactor chainExample (fun _ => none)).calls = [0] := by
  have h := chain_counts_factor_root_once chainFactor
    ⟨true, true, false, [], Double.fin (-1)⟩ ⟨true, true, false, [0], Double.fin (-4)⟩
    (fun _ => none) 0 rfl rfl rfl rfl rfl rfl rfl (by norm_num) isDouble_neg_one
    isDouble_neg_four
  exact ⟨h.1, Double.add_fin fl_neg_five (by norm_num) (by norm_num), h.2.2⟩

/-! ### C17: the number of processes of a run -/

/-- C17 at the failing input: three runs on two processes, run 0.  `run_pid_end` is
`2 ^ 64 - 1`, not below `num_processes = 2`, and
`number_processes_per_run = int(2 ^ 64 - 1) - int(0) + 1 = -1 - 0 + 1 = 0`, which is
neither at least 1 nor the number of ranks between `run_pid_start` and `run_pid_end`. -/
theorem number_processes_per_run_zero :
    run_pid_start 3 2 0 = 0 ∧ run_pid_end 3 2 0 = 2 ^ 64 - 1 ∧ ¬ run_pid_end 3 2 0 < 2 ∧
      toInt (run_pid_end 3 2 0) = -1 ∧ number_processes_per_run 3 2 0 = 0 ∧
      deref (constructor 3 2 0) 0 = some { file := 0, activePID := 0, numProcesses := 0 } := by
  have h1 : toInt (2 ^ 64 - 1) = -1 := by decide
  have h2 : toInt 0 = 0 := by decide
  have h3 : number_processes_per_run 3 2 0 = 0 := by
    unfold number_processes_per_run
    rw [run_pid_start_3_2_0, run_pid_end_3_2_0, h1, h2]
    norm_num
  refine ⟨run_pid_start_3_2_0, run_pid_end_3_2_0, ?_, ?_, h3, ?_⟩
  · rw [run_pid_end_3_2_0]; norm_num
  · rw [run_pid_end_3_2_0]; exact h1
  · rw [deref_constructor 3 2 0 0 (by norm_num), h3, run_pid_start_3_2_0, run_pid_end_3_2_0]
    simp

/-! ### C14: the errors of the constructor -/

/-- C14: when the path is neither an existing file nor an existing directory, or when it
is not a directory, the constructor throws, and at the throw no run has been created:
`runs` is empty and `num_runs` is 0.  The first case throws the "could not find"
exception. -/
theorem create_error_before_runs (fm : RbFileManager) (num_processes pid : ℕ)
    (h : (fm.testFile = false ∧ fm.testDirectory = false) ∨ fm.isDirectory = false) :
    (∃ e, PosteriorPredictiveAnalysis.create fm num_processes pid =
      Except.error (e, { num_runs := 0, runs := [] })) ∧
    (fm.testFile = false ∧ fm.testDirectory = false →
      PosteriorPredictiveAnalysis.create fm num_processes pid =
        Except.error (ConstructorError.notFound, { num_runs := 0, runs := [] })) := by
  unfold PosteriorPredictiveAnalysis.create PosteriorPredictiveAnalysis.initial
  constructor
  · rcases h with ⟨h1, h2⟩ | h3
    · exact ⟨ConstructorError.notFound, by simp [h1, h2]⟩
    · by_cases hc : (!fm.testFile && !fm.testDirectory) = true
      · exact ⟨ConstructorError.notFound, by simp [hc]⟩
      · exact ⟨ConstructorError.notADirectory, by simp [hc, h3]⟩
  · rintro ⟨h1, h2⟩
    simp [h1, h2]

/-- Witness for `create_error_before_runs`: a path that is an existing file. -/
theorem create_error_before_runs_witness :
    ∃ e, PosteriorPredictiveAnalysis.create ⟨true, false, false, []⟩ 2 0 =
      Except.error (e, { num_runs := 0, runs := [] }) :=
  (create_error_before_runs ⟨true, false, false, []⟩ 2 0 (Or.inr rfl)).1

/-! ### C20: copies of a `PosteriorPredictiveAnalysis` -/

theorem copyRunsLoop_all_null (a_runs : List (Option MonteCarloAnalysis)) (m : ℕ) :
    ∀ n i : ℕ, i + n ≤ m →
      copyRunsLoop a_runs n i (List.replicate m none) = some (List.replicate m none) := by
  intro n
  induction n with
  | zero => intro i _; rfl
  | succ n ih =>
    intro i hi
    have hlt : i < m := by omega
    have hget : (List.replicate m (none : Option MonteCarloAnalysis)).get? i = some none := by
      rw [List.get?_eq_getElem?, List.getElem?_replicate]
      simp [hlt]
    rw [copyRunsLoop, hget]
    exact ih (i + 1) (by omega)

/-- The assignment never clones a run: whatever the source holds, every entry of `runs`
is `NULL` afterwards. -/
theorem assign_runs_all_null (a : PosteriorPredictiveAnalysis) :
    a.assign = some { num_runs := a.num_runs, runs := List.replicate a.num_runs none } := by
  unfold PosteriorPredictiveAnalysis.assign
  rw [copyRunsLoop_all_null a.runs a.num_runs a.num_runs 0 (by omega)]
  rfl

/-- C20 at the failing input: an analysis with one replicate.  After the assignment the
entry of `runs` is `NULL`, not a clone of the replicate (the loop tests `runs[i]`, which
was just set to `NULL`, instead of `a.runs[i]`); the copy constructor and `clone()` read
`runs[0]` of the still empty vector `runs`. -/
theorem copy_loses_runs :
    oneRunExample.runs = [some { file := 0, activePID := 0, numProcesses := 1 }] ∧
    oneRunExample.assign = some { num_runs := 1, runs := [none] } ∧
    oneRunExample.copy = none ∧ oneRunExample.clone = none := by
  refine ⟨rfl, ?_, rfl, rfl⟩
  rw [assign_runs_all_null]
  rfl

/-! ### C13: the order of the moves and of the draws -/

theorem maxLoop_succ (i : ℕ) (qs : List ℚ) :
    ∀ a : ℚ, maxLoop (i + 1) (Double.fin a) (qs.map Double.fin) =
      Double.fin (qs.foldl max a) := by
  induction qs generalizing i with
  | nil => intro a; rfl
  | cons q qs ih =>
    intro a
    rw [List.map_cons, maxLoop, List.foldl_cons]
    by_cases h : a < q
    · have h1 : (i + 1 = 0 ∨ (Double.fin a).lt (Double.fin q) = true) := by
        right; simp [Double.lt, h]
      rw [if_pos h1, ih, max_eq_right h.le]
    · have h1 : ¬ (i + 1 = 0 ∨ (Double.fin a).lt (Double.fin q) = true) := by
        simp [Double.lt, h]
      rw [if_neg h1, ih, max_eq_left (not_lt.mp h)]

theorem le_foldl_max (qs : List ℚ) : ∀ a : ℚ, a ≤ qs.foldl max a := by
  induction qs with
  | nil => intro a; exact le_refl a
  | cons q qs ih => intro a; exact (le_max_left a q).trans (ih (max a q))

theorem mem_le_foldl_max (qs : List ℚ) : ∀ a : ℚ, ∀ q ∈ qs, q ≤ qs.foldl max a := by
  induction qs with
  | nil => intro a q hq; simp at hq
  | cons x qs ih =>
    intro a q hq
    rw [List.foldl_cons]
    rcases List.mem_cons.mp hq with h | h
    · rw [h]; exact (le_max_right a x).trans (le_foldl_max qs (max a x))
    · exact ih (max a x) q h

theorem foldl_max_mem (qs : List ℚ) :
    ∀ a : ℚ, qs.foldl max a = a ∨ qs.foldl max a ∈ qs := by
  induction qs with
  | nil => intro a; left; rfl
  | cons x qs ih =>
    intro a
    rw [List.foldl_cons]
    rcases ih (max a x) with h | h
    · rcases max_choice a x with h2 | h2
      · left; rw [h, h2]
      · right; rw [h, h2]; exact List.mem_cons_self x qs
    · right; exact List.mem_cons_of_mem x h

/-- C11: for a non-empty vector of finite values `q_0, ..., q_{n-1}`, `max` is the largest
of them (it belongs to the vector and none is larger, also when all are negative), and the
aggregate is `log(prob) + max - log(n)` with `prob` the sum, from `0.0` and in order, of
`exp(q_i - max)`; all operations are those of `double`. -/
theorem sampleAggregate_eq (exp log : Double → Double) (q0 : ℚ) (qs : List ℚ) :
    ∃ m : ℚ, m ∈ q0 :: qs ∧ (∀ q ∈ q0 :: qs, q ≤ m) ∧
      maxLoop 0 (Double.fin 0) ((q0 :: qs).map Double.fin) = Double.fin m ∧
      sampleAggregate exp log ((q0 :: qs).map Double.fin) =
        ((log (((q0 :: qs).map Double.fin).foldl
            (fun prob x => prob.add (exp (x.sub (Double.fin m)))) (Double.fin 0))).add
          (Double.fin m)).sub (log (Double.fin (toDouble (qs.length + 1)))) := by
  have hmax : maxLoop 0 (Double.fin 0) ((q0 :: qs).map Double.fin) =
      Double.fin (qs.foldl max q0) := by
    rw [List.map_cons, maxLoop, if_pos (Or.inl rfl)]
    exact maxLoop_succ 0 qs q0
  refine ⟨qs.foldl max q0, ?_, ?_, hmax, ?_⟩
  · rcases foldl_max_mem qs q0 with h | h
    · rw [h]; exact List.mem_cons_self q0 qs
    · exact List.mem_cons_of_mem q0 h
  · intro q hq
    rcases List.mem_cons.mp hq with h | h
    · rw [h]; exact le_foldl_max qs q0
    · exact mem_le_foldl_max qs q0 q h
  · unfold sampleAggregate
    simp only
    rw [hmax]
    simp

/-! ### C12: the aggregate on several processes -/

theorem pid_per_sample_3_2_0 : pid_per_sample 3 2 0 0 = 0 := by
  have h : toSizeT (dmul (ddiv (toDouble 0) (toDouble 3)) (toDouble 2)) = 0 := by
    exact toSizeT_eval (by norm_num)
      (fl_eq_zero (by norm_num))
      (fl_eq_zero (by norm_num)) (by norm_num)
  unfold pid_per_sample
  rw [h]
  norm_num

theorem pid_per_sample_3_2_2 : pid_per_sample 3 2 0 2 = 1 := by
  have h : toSizeT (dmul (ddiv (toDouble 2) (toDouble 3)) (toDouble 2)) = 1 := by
    exact toSizeT_eval (by norm_num)
      (fl_eq_near (-1) 6004799503160661 (by norm_num))
      (fl_eq_near (0) 6004799503160661 (by norm_num)) (by norm_num)
  unfold pid_per_sample
  rw [h]
  norm_num

theorem pid_per_sample_3_1_0 : pid_per_sample 3 1 0 0 = 0 := by
  have h : toSizeT (dmul (ddiv (toDouble 0) (toDouble 3)) (toDouble 1)) = 0 := by
    exact toSizeT_eval (by norm_num)
      (fl_eq_zero (by norm_num))
      (fl_eq_zero (by norm_num)) (by norm_num)
  unfold pid_per_sample
  rw [h]
  norm_num

theorem pid_per_sample_3_1_1 : pid_per_sample 3 1 0 1 = 0 := by
  have h : toSizeT (dmul (ddiv (toDouble 1) (toDouble 3)) (toDouble 1)) = 0 := by
    exact toSizeT_eval (by norm_num)
      (fl_eq_near (-2) 6004799503160661 (by norm_num))
      (fl_eq_near (-2) 6004799503160661 (by norm_num)) (by norm_num)
  unfold pid_per_sample
  rw [h]
  norm_num

theorem pid_per_sample_3_1_2 : pid_per_sample 3 1 0 2 = 0 := by
  have h : toSizeT (dmul (ddiv (toDouble 2) (toDouble 3)) (toDouble 1)) = 0 := by
    exact toSizeT_eval (by norm_num)
      (fl_eq_near (-1) 6004799503160661 (by norm_num))
      (fl_eq_near (-1) 6004799503160661 (by norm_num)) (by norm_num)
  unfold pid_per_sample
  rw [h]
  norm_num

theorem sample_block_start_3_1_0 : sample_block_start 3 1 0 0 = 0 := by
  unfold sample_block_start
  exact toSizeT_eval (by norm_num)
    (fl_eq_zero (by norm_num))
    (fl_eq_zero (by norm_num)) (by norm_num)

theorem sample_block_end_3_1_0 : sample_block_end 3 1 0 0 = 3 := by
  unfold sample_block_end
  exact toSizeT_eval (by norm_num)
    (fl_eq_near (0) 4503599627370496 (by norm_num))
    (fl_eq_near (1) 6755399441055744 (by norm_num)) (by norm_num)

theorem gathered_eq (n P a : ℕ) (f : ℕ → ℚ) :
    gathered_ln_probs n P a f = (List.range n).map fun i =>
      if i < n then
        (if sample_block_start n P a (pid_per_sample n P a i) ≤ i ∧
            i < sample_block_end n P a (pid_per_sample n P a i) then f i else 0)
      else 0 := by
  unfold gathered_ln_probs
  apply List.map_congr_left
  intro i hi
  have hlt : i < n := List.mem_range.mp hi
  rw [getD_local_ln_probs n P a _ i f hlt, if_pos hlt]

/-- C12 at the failing input: three samples with the values `-1, -2, -3`.  On two
processes the active process gathers `-1, 0, -3` (entry 1 is its own, never computed
`0.0`), takes `max = 0` and sums `exp(-1 - 0)`, `exp(0 - 0)`, `exp(-3 - 0)`; a single
process has `-1, -2, -3` and `max = -1`.  For every `f` the gathered vector on two
processes is `f 0, 0, f 2`. -/
theorem gathered_aggregate_differs :
    (∀ f : ℕ → ℚ, gathered_ln_probs 3 2 0 f = [f 0, 0, f 2]) ∧
    (∀ f : ℕ → ℚ, gathered_ln_probs 3 1 0 f = [f 0, f 1, f 2]) ∧
    maxLoop 0 (Double.fin 0) ((gathered_ln_probs 3 2 0 exampleLnProbs).map Double.fin) =
      Double.fin 0 ∧
    maxLoop 0 (Double.fin 0) ((gathered_ln_probs 3 1 0 exampleLnProbs).map Double.fin) =
      Double.fin (-1) ∧
    (∀ exp log : Double → Double,
      sampleAggregate exp log ((gathered_ln_probs 3 2 0 exampleLnProbs).map Double.fin) =
        ((log ((((Double.fin 0).add (exp ((Double.fin (-1)).sub (Double.fin 0)))).add
            (exp ((Double.fin 0).sub (Double.fin 0)))).add
            (exp ((Double.fin (-3)).sub (Double.fin 0))))).add (Double.fin 0)).sub
          (log (Double.fin (toDouble 3)))) ∧
    (∀ exp log : Double → Double,
      sampleAggregate exp log ((gathered_ln_probs 3 1 0 exampleLnProbs).map Double.fin) =
        ((log ((((Double.fin 0).add (exp ((Double.fin (-1)).sub (Double.fin (-1))))).add
            (exp ((Double.fin (-2)).sub (Double.fin (-1))))).add
            (exp ((Double.fin (-3)).sub (Double.fin (-1)))))).add (Double.fin (-1))).sub
          (log (Double.fin (toDouble 3)))) := by
  have h2 : ∀ f : ℕ → ℚ, gathered_ln_probs 3 2 0 f = [f 0, 0, f 2] := by
    intro f
    rw [gathered_eq]
    simp [List.range_succ, pid_per_sample_3_2_0, pid_per_sample_3_2_1, pid_per_sample_3_2_2,
      sample_block_start_3_2_0, sample_block_end_3_2_0, sample_block_start_3_2_1,
      sample_block_end_3_2_1]
  have h1 : ∀ f : ℕ → ℚ, gathered_ln_probs 3 1 0 f = [f 0, f 1, f 2] := by
    intro f
    rw [gathered_eq]
    simp [List.range_succ, pid_per_sample_3_1_0, pid_per_sample_3_1_1, pid_per_sample_3_1_2,
      sample_block_start_3_1_0, sample_block_end_3_1_0]
  have e2 : (gathered_ln_probs 3 2 0 exampleLnProbs).map Double.fin =
      [Double.fin (-1), Double.fin 0, Double.fin (-3)] := by
    rw [h2]; simp [exampleLnProbs]; norm_num
  have e1 : (gathered_ln_probs 3 1 0 exampleLnProbs).map Double.fin =
      [Double.fin (-1), Double.fin (-2), Double.fin (-3)] := by
    rw [h1]; simp [exampleLnProbs]; norm_num
  have m2 : maxLoop 0 (Double.fin 0) [Double.fin (-1), Double.fin 0, Double.fin (-3)] =
      Double.fin 0 := by
    simp [maxLoop, Double.lt]
  have m1 : maxLoop 0 (Double.fin 0) [Double.fin (-1), Double.fin (-2), Double.fin (-3)] =
      Double.fin (-1) := by
    simp [maxLoop, Double.lt]
  refine ⟨h2, h1, by rw [e2, m2], by rw [e1, m1], ?_, ?_⟩
  · intro exp log
    unfold sampleAggregate
    simp only
    rw [e2, m2]
    rfl
  · intro exp log
    unfold sampleAggregate
    simp only
    rw [e1, m1]
    rfl

/-! ### C16: branches whose rate is not finite -/

theorem computeBranchRateLnProbability_eq (rate_prior : Double → Double)
    (nodes : List BranchNode) :
    computeBranchRateLnProbability rate_prior true true nodes =
      ((nodes.filter fun n => !n.isRoot).map fun n =>
        rate_prior (n.branch_exp_num_events.div n.branch_time)).foldl Double.add
        (Double.fin 0) := by
  unfold computeBranchRateLnProbability
  simp only [Bool.true_eq_false, if_false, if_true]
  generalize Double.fin 0 = acc
  induction nodes generalizing acc with
  | nil => rfl
  | cons n ns ih =>
    rw [List.foldl_cons, ih]
    cases hr : n.isRoot
    · rw [List.filter_cons_of_pos (by simp [hr])]
      simp
    · rw [List.filter_cons_of_neg (by simp [hr])]
      simp

/-- C16 (as amended): when the clade is present and the topologies agree, the result is
the sum (`+=` from `0.0`, in node order) of the value of `rate_prior` at the rate of
every non-root branch, whether that rate is finite or not; so a non-root branch that comes
last adds the value of `rate_prior` at its rate to the result for the other nodes. -/
theorem branch_adds_prior_of_rate (rate_prior : Double → Double) (nodes : List BranchNode)
    (the_node : BranchNode) (h : the_node.isRoot = false) :
    computeBranchRateLnProbability rate_prior true true nodes =
      ((nodes.filter fun n => !n.isRoot).map fun n =>
        rate_prior (n.branch_exp_num_events.div n.branch_time)).foldl Double.add
        (Double.fin 0) ∧
    computeBranchRateLnProbability rate_prior true true (nodes ++ [the_node]) =
      (computeBranchRateLnProbability rate_prior true true nodes).add
        (rate_prior (the_node.branch_exp_num_events.div the_node.branch_time)) := by
  refine ⟨computeBranchRateLnProbability_eq rate_prior nodes, ?_⟩
  rw [computeBranchRateLnProbability_eq, computeBranchRateLnProbability_eq,
    List.filter_append, List.map_append, List.foldl_append,
    List.filter_cons_of_pos (by simp [h])]
  rfl

/-- Witness for `branch_adds_prior_of_rate`: a single branch of time 0 with one expected
event; its rate is `+inf` and it adds `-inf`. -/
theorem branch_adds_prior_of_rate_witness :
    computeBranchRateLnProbability exponentialLnPdf true true
        ([] ++ [⟨false, Double.fin 0, Double.fin 1⟩]) =
      (computeBranchRateLnProbability exponentialLnPdf true true []).add
        (exponentialLnPdf ((Double.fin 1).div (Double.fin 0))) :=
  (branch_adds_prior_of_rate exponentialLnPdf [] ⟨false, Double.fin 0, Double.fin 1⟩ rfl).2

/-- C16 as stated fails: a tree whose only non-root branch has time 0 and one expected
event.  The rate `1 / 0` is `+inf`, the prior (here the exponential log-density `-x`)
gives `-inf` for it and the result is `-inf`; with a zero contribution it would be 0. -/
theorem infinite_rate_contributes :
    (Double.fin 1).div (Double.fin 0) = Double.pinf ∧
    computeBranchRateLnProbability exponentialLnPdf true true
      [⟨true, Double.fin 0, Double.fin 0⟩, ⟨false, Double.fin 0, Double.fin 1⟩] =
      Double.ninf ∧
    computeBranchRateLnProbability exponentialLnPdf true true
      [⟨true, Double.fin 0, Double.fin 0⟩] = Double.fin 0 := by
  have hdiv : (Double.fin 1).div (Double.fin 0) = Double.pinf := by
    simp [Double.div]
  refine ⟨hdiv, ?_, ?_⟩
  · rw [computeBranchRateLnProbability_eq]
    simp [hdiv, exponentialLnPdf, Double.neg, Double.add]
  · rw [computeBranchRateLnProbability_eq]
    simp

/-! ### C15: a NaN speciation rate -/

theorem EventMap.assign_apply (m : EventMap) (idx : EventKey) (v : Double) (k : EventKey) :
    m.assign idx v k = if k = idx then some v else m k := rfl

theorem resetEvent_other (s : Biogeography) (m : EventMap) (e : EventKey × ℕ) (k : EventKey)
    (h : m k = some (Double.fin 0)) : resetEvent s m e k = some (Double.fin 0) := by
  simp only [resetEvent]
  split_ifs <;> simp only [EventMap.assign_apply] <;> split_ifs <;> first | rfl | exact h

theorem resetEvent_self (s : Biogeography) (m : EventMap) (e : EventKey × ℕ) :
    resetEvent s m e e.1 = some (Double.fin 0) := by
  simp only [resetEvent]
  split_ifs <;> simp only [EventMap.assign_apply] <;> split_ifs <;> rfl

theorem foldl_resetEvent_keep (s : Biogeography) (es : List (EventKey × ℕ)) (k : EventKey) :
    ∀ m : EventMap, m k = some (Double.fin 0) →
      es.foldl (resetEvent s) m k = some (Double.fin 0) := by
  induction es with
  | nil => intro m h; exact h
  | cons e es ih => intro m h; exact ih _ (resetEvent_other s m e k h)

theorem foldl_resetEvent_mem (s : Biogeography) (es : List (EventKey × ℕ)) (e : EventKey × ℕ)
    (he : e ∈ es) : ∀ m : EventMap, es.foldl (resetEvent s) m e.1 = some (Double.fin 0) := by
  induction es with
  | nil => simp at he
  | cons x es ih =>
    intro m
    rcases List.mem_cons.mp he with h | h
    · rw [List.foldl_cons, ← h]
      exact foldl_resetEvent_keep s es e.1 _ (resetEvent_self s m e)
    · exact ih h _

theorem rateEvent_other (s : Biogeography) (m : EventMap) (x : EventKey × ℕ) (k : EventKey)
    (h1 : x.1 ≠ k) (h2 : s.use_hidden_rate = true → hiddenKey s.numRanges x.1 ≠ k) :
    rateEvent s m x k = m k := by
  simp only [rateEvent, EventMap.addTo]
  by_cases hh : s.use_hidden_rate = true
  · rw [if_pos hh, EventMap.assign_apply, if_neg (Ne.symm (h2 hh)), EventMap.assign_apply,
      if_neg (Ne.symm h1)]
  · rw [if_neg hh, EventMap.assign_apply, if_neg (Ne.symm h1)]

theorem rateEvent_self (s : Biogeography) (m : EventMap) (e : EventKey × ℕ)
    (h2 : s.use_hidden_rate = true → hiddenKey s.numRanges e.1 ≠ e.1) :
    rateEvent s m e e.1 = some (((m e.1).getD (Double.fin 0)).add (eventRate s e)) := by
  simp only [rateEvent, EventMap.addTo]
  by_cases hh : s.use_hidden_rate = true
  · rw [if_pos hh, EventMap.assign_apply, if_neg (Ne.symm (h2 hh)), EventMap.assign_apply,
      if_pos rfl]
  · rw [if_neg hh, EventMap.assign_apply, if_pos rfl]

theorem foldl_rateEvent_other (s : Biogeography) (es : List (EventKey × ℕ)) (k : EventKey)
    (h1 : ∀ x ∈ es, x.1 ≠ k)
    (h2 : s.use_hidden_rate = true → ∀ x ∈ es, hiddenKey s.numRanges x.1 ≠ k) :
    ∀ m : EventMap, es.foldl (rateEvent s) m k = m k := by
  induction es with
  | nil => intro m; rfl
  | cons x es ih =>
    intro m
    rw [List.foldl_cons,
      ih (fun y hy => h1 y (List.mem_cons_of_mem x hy))
        (fun hh y hy => h2 hh y (List.mem_cons_of_mem x hy)),
      rateEvent_other s m x k (h1 x (List.mem_cons_self x es))
        (fun hh => h2 hh x (List.mem_cons_self x es))]

theorem foldl_rateEvent_mem (s : Biogeography) (es : List (EventKey × ℕ)) (e : EventKey × ℕ)
    (he : e ∈ es) (hnodup : (es.map Prod.fst).Nodup)
    (h2 : s.use_hidden_rate = true → ∀ x ∈ es, hiddenKey s.numRanges x.1 ≠ e.1) :
    ∀ m : EventMap, es.foldl (rateEvent s) m e.1 =
      some (((m e.1).getD (Double.fin 0)).add (eventRate s e)) := by
  induction es with
  | nil => simp at he
  | cons x es ih =>
    intro m
    rw [List.map_cons, List.nodup_cons] at hnodup
    rw [List.foldl_cons]
    rcases List.mem_cons.mp he with h | h
    · subst h
      have hne : ∀ y ∈ es, y.1 ≠ e.1 := by
        intro y hy hcon
        exact hnodup.1 (hcon ▸ List.mem_map_of_mem Prod.fst hy)
      rw [foldl_rateEvent_other s es e.1 hne
        (fun hh y hy => h2 hh y (List.mem_cons_of_mem e hy))]
      exact rateEvent_self s m e (fun hh => h2 hh e (List.mem_cons_self e es))
    · have hxe : x.1 ≠ e.1 := by
        intro hcon
        exact hnodup.1 (hcon ▸ List.mem_map_of_mem Prod.fst h)
      rw [ih h hnodup.2 (fun hh y hy => h2 hh y (List.mem_cons_of_mem x hy)),
        rateEvent_other s m x e.1 hxe (fun hh => h2 hh x (List.mem_cons_self x es))]

theorem updateRound_mem (s : Biogeography) (e : EventKey × ℕ) (he : e ∈ s.eventMapTypes)
    (hnodup : (s.eventMapTypes.map Prod.fst).Nodup)
    (h2 : s.use_hidden_rate = true →
      ∀ x ∈ s.eventMapTypes, hiddenKey s.numRanges x.1 ≠ e.1) (m : EventMap) :
    updateRound s m e.1 = some ((Double.fin 0).add (eventRate s e)) := by
  unfold updateRound
  rw [foldl_rateEvent_mem s s.eventMapTypes e he hnodup h2, foldl_resetEvent_mem s _ e he]
  rfl

theorem resetEvent_hidden_self (s : Biogeography) (m : EventMap) (e : EventKey × ℕ)
    (hh : s.use_hidden_rate = true) :
    resetEvent s m e (hiddenKey s.numRanges e.1) = some (Double.fin 0) := by
  simp only [resetEvent]
  rw [if_pos hh, EventMap.assign_apply, if_pos rfl]

theorem getD_set_self {α : Type} (l : List α) (i : ℕ) (a d : α) (h : i < l.length) :
    (l.set i a).getD i d = a := by
  simp [List.getD_eq_getElem?_getD, List.getElem?_set, h]

theorem getD_set_of_ne {α : Type} (l : List α) (i j : ℕ) (a d : α) (h : i ≠ j) :
    (l.set i a).getD j d = l.getD j d := by
  simp [List.getD_eq_getElem?_getD, List.getElem?_set, h]

theorem getD_replicate_lt {α : Type} (n i : ℕ) (a d : α) (h : i < n) :
    (List.replicate n a).getD i d = a := by
  simp [List.getD_eq_getElem?_getD, List.getElem?_replicate, h]

theorem MatchState.WF_fill {V : Type} {st : MatchState V} {size n : ℕ} (h : st.WF size n)
    (r : ArgumentRule V) (a : Argument V) (i j : ℕ) (once : Bool) :
    (st.fill r a i j once).WF size n := by
  obtain ⟨h1, h2, h3, h4⟩ := h
  exact ⟨by simp [MatchState.fill, h1], by simp [MatchState.fill, h2],
    by simp [MatchState.fill, h3], by simp [MatchState.fill, h4]⟩

theorem MatchState.isTaken_fill {V : Type} {st : MatchState V} {size n : ℕ} (h : st.WF size n)
    (r : ArgumentRule V) (a : Argument V) {i : ℕ} (hi : i < size) (j : ℕ) (once : Bool)
    (k : ℕ) : (st.fill r a i j once).isTaken k = if k = i then true else st.isTaken k := by
  unfold MatchState.isTaken MatchState.fill
  by_cases hk : k = i
  · subst hk
    rw [if_pos rfl]
    exact getD_set_self _ _ _ _ (h.1.symm ▸ hi)
  · rw [if_neg hk]
    exact getD_set_of_ne _ _ _ _ _ (Ne.symm hk)

theorem MatchState.isFilled_fill {V : Type} {st : MatchState V} {size n : ℕ} (h : st.WF size n)
    (r : ArgumentRule V) (a : Argument V) (i : ℕ) {j : ℕ} (hj : j < n) (once : Bool)
    (k : ℕ) : (st.fill r a i j once).isFilled k = if k = j then true else st.isFilled k := by
  unfold MatchState.isFilled MatchState.fill
  by_cases hk : k = j
  · subst hk
    rw [if_pos rfl]
    exact getD_set_self _ _ _ _ (h.2.1.symm ▸ hj)
  · rw [if_neg hk]
    exact getD_set_of_ne _ _ _ _ _ (Ne.symm hk)

theorem MatchState.argIndex_fill {V : Type} {st : MatchState V} {size n : ℕ} (h : st.WF size n)
    (r : ArgumentRule V) (a : Argument V) (i : ℕ) {j : ℕ} (hj : j < n) (once : Bool)
    (k : ℕ) :
    (st.fill r a i j once).argIndex k = if k = j then (i : Int) else st.argIndex k := by
  unfold MatchState.argIndex MatchState.fill
  by_cases hk : k = j
  · subst hk
    rw [if_pos rfl]
    exact getD_set_self _ _ _ _ (h.2.2.1.symm ▸ hj)
  · rw [if_neg hk]
    exact getD_set_of_ne _ _ _ _ _ (Ne.symm hk)

theorem MatchState.slot_fill {V : Type} {st : MatchState V} {size n : ℕ} (h : st.WF size n)
    (r : ArgumentRule V) (a : Argument V) (i : ℕ) {j : ℕ} (hj : j < n) (once : Bool)
    (k : ℕ) :
    (st.fill r a i j once).slot k =
      if k = j then SlotValue.passed a.getVariable (r.conversionNeeded a.getVariable once)
      else st.slot k := by
  unfold MatchState.slot MatchState.fill
  by_cases hk : k = j
  · subst hk
    rw [if_pos rfl]
    exact getD_set_self _ _ _ _ (h.2.2.2.symm ▸ hj)
  · rw [if_neg hk]
    exact getD_set_of_ne _ _ _ _ _ (Ne.symm hk)

theorem MatchState.Ext_refl {V : Type} (st : MatchState V) : st.Ext st :=
  ⟨fun _ h => h, fun _ h => ⟨h, rfl, rfl⟩⟩

theorem MatchState.Ext_trans {V : Type} {st st1 st2 : MatchState V} (h1 : st.Ext st1)
    (h2 : st1.Ext st2) : st.Ext st2 := by
  refine ⟨fun i h => h2.1 i (h1.1 i h), fun j h => ?_⟩
  obtain ⟨a, b, c⟩ := h1.2 j h
  obtain ⟨a2, b2, c2⟩ := h2.2 j a
  exact ⟨a2, b2.trans b, c2.trans c⟩

theorem MatchState.Ext_fill {V : Type} {st : MatchState V} {size n : ℕ} (h : st.WF size n)
    (r : ArgumentRule V) (a : Argument V) {i j : ℕ} (hi : i < size) (hj : j < n)
    (once : Bool) (hf : st.isFilled j = false) : st.Ext (st.fill r a i j once) := by
  refine ⟨fun k hk => ?_, fun k hk => ?_⟩
  · rw [MatchState.isTaken_fill h r a hi j once k]
    split_ifs
    · rfl
    · exact hk
  · have hkj : k ≠ j := by
      intro hkj
      rw [hkj, hf] at hk
      exact Bool.noConfusion hk
    rw [MatchState.isFilled_fill h r a i hj once k, MatchState.argIndex_fill h r a i hj once k,
      MatchState.slot_fill h r a i hj once k, if_neg hkj, if_neg hkj, if_neg hkj]
    exact ⟨hk, rfl, rfl⟩

theorem MatchState.Touches_refl {V : Type} {st : MatchState V} {size n : ℕ}
    (h : st.WF size n) (lo hi : ℕ) : st.Touches st size n lo hi :=
  ⟨h, MatchState.Ext_refl st, fun _ _ => rfl⟩

theorem MatchState.Touches_trans {V : Type} {st st1 st2 : MatchState V} {size n lo hi : ℕ}
    (h1 : st.Touches st1 size n lo hi) (h2 : st1.Touches st2 size n lo hi) :
    st.Touches st2 size n lo hi := by
  refine ⟨h2.1, MatchState.Ext_trans h1.2.1 h2.2.1, fun k hk => ?_⟩
  rw [h2.2.2 k hk, h1.2.2 k hk]

theorem MatchState.Touches_mono {V : Type} {st st1 : MatchState V} {size n lo hi lo1 hi1 : ℕ}
    (h : st.Touches st1 size n lo hi) (hlo : lo1 ≤ lo) (hhi : hi ≤ hi1) :
    st.Touches st1 size n lo1 hi1 :=
  ⟨h.1, h.2.1, fun k hk => h.2.2 k (by omega)⟩

theorem MatchState.Touches_fill {V : Type} {st : MatchState V} {size n : ℕ} (h : st.WF size n)
    (r : ArgumentRule V) (a : Argument V) {i j : ℕ} (hi : i < size) (hj : j < n)
    (once : Bool) (hf : st.isFilled j = false) :
    st.Touches (st.fill r a i j once) size n i (i + 1) := by
  refine ⟨MatchState.WF_fill h r a i j once, MatchState.Ext_fill h r a hi hj once hf,
    fun k hk => ?_⟩
  rw [MatchState.isTaken_fill h r a hi j once k, if_neg (by omega)]

theorem label_length_eq_zero (s : String) : s.length = 0 ↔ s = "" := by
  constructor
  · intro h
    have h1 : s.data = [] := List.length_eq_zero.mp h
    cases s
    simp only at h1
    subst h1
    rfl
  · intro h
    subst h
    rfl

/-! ### Phase 2 -/

theorem exactInner_touches {V : Type} (rules : List (ArgumentRule V)) (a : Argument V)
    {i size n : ℕ} (hi : i < size) (once : Bool) :
    ∀ (js : List ℕ) (st st1 : MatchState V), (∀ j ∈ js, j < n) → st.WF size n →
      exactInner rules a i once js st = Except.ok st1 → st.Touches st1 size n i (i + 1) := by
  intro js
  induction js with
  | nil =>
    intro st st1 _ hwf h
    simp only [exactInner, Except.ok.injEq] at h
    subst h
    exact MatchState.Touches_refl hwf _ _
  | cons j js ih =>
    intro st st1 hjs hwf h
    have hj : j < n := hjs j (List.mem_cons_self j js)
    have hjs1 : ∀ k ∈ js, k < n := fun k hk => hjs k (List.mem_cons_of_mem j hk)
    cases hr : rules[j]? with
    | none => simp [exactInner, hr] at h
    | some r =>
      simp only [exactInner, hr] at h
      split_ifs at h with h1 h2
      · have t1 := MatchState.Touches_fill hwf r a hi hj once h2.2
        exact MatchState.Touches_trans t1 (ih _ _ hjs1 t1.1 h)
      · exact ih _ _ hjs1 hwf h

theorem exactInner_bound {V : Type} (rules : List (ArgumentRule V)) (a : Argument V)
    {i size n : ℕ} (hi : i < size) (once : Bool) :
    ∀ (js : List ℕ) (st st1 : MatchState V), (∀ j ∈ js, j < n) → st.WF size n →
      exactInner rules a i once js st = Except.ok st1 →
      ∀ j ∈ js, ∀ r, rules[j]? = some r → a.getLabel = r.getArgLabel →
        st1.argIndex j = (i : Int) ∧ st1.isFilled j = true ∧
          r.isArgValid a.getVariable once = true := by
  intro js
  induction js with
  | nil => intro st st1 _ _ _ j hj; simp at hj
  | cons j0 js ih =>
    intro st st1 hjs hwf h j hjmem r hrj hlab
    have hj0 : j0 < n := hjs j0 (List.mem_cons_self j0 js)
    have hjs1 : ∀ k ∈ js, k < n := fun k hk => hjs k (List.mem_cons_of_mem j0 hk)
    cases hr : rules[j0]? with
    | none => simp [exactInner, hr] at h
    | some r0 =>
      simp only [exactInner, hr] at h
      split_ifs at h with h1 h2
      · have t1 := MatchState.Touches_fill hwf r0 a hi hj0 once h2.2
        have t2 := exactInner_touches rules a hi once js _ _ hjs1 t1.1 h
        rcases List.mem_cons.mp hjmem with hjj | hjj
        · subst hjj
          have hrr : r0 = r := Option.some.inj (hr.symm.trans hrj)
          subst hrr
          have hf : (st.fill r0 a i j once).isFilled j = true := by
            rw [MatchState.isFilled_fill hwf r0 a i hj0 once j, if_pos rfl]
          obtain ⟨e1, e2, _⟩ := t2.2.1.2 j hf
          rw [MatchState.argIndex_fill hwf r0 a i hj0 once j, if_pos rfl] at e2
          exact ⟨e2, e1, h2.1⟩
        · exact ih _ _ hjs1 t1.1 h j hjj r hrj hlab
      · rcases List.mem_cons.mp hjmem with hjj | hjj
        · subst hjj
          have hrr : r0 = r := Option.some.inj (hr.symm.trans hrj)
          subst hrr
          exact absurd hlab h1
        · exact ih _ _ hjs1 hwf h j hjj r hrj hlab

theorem exactInner_no_match {V : Type} (rules : List (ArgumentRule V)) (a : Argument V)
    (i : ℕ) (once : Bool) :
    ∀ (js : List ℕ) (st st1 : MatchState V),
      (∀ j ∈ js, ∀ r, rules[j]? = some r → a.getLabel ≠ r.getArgLabel) →
      exactInner rules a i once js st = Except.ok st1 → st1 = st := by
  intro js
  induction js with
  | nil =>
    intro st st1 _ h
    simp only [exactInner, Except.ok.injEq] at h
    exact h.symm
  | cons j0 js ih =>
    intro st st1 hno h
    cases hr : rules[j0]? with
    | none => simp [exactInner, hr] at h
    | some r0 =>
      simp only [exactInner, hr] at h
      rw [if_neg (hno j0 (List.mem_cons_self j0 js) r0 hr)] at h
      exact ih _ _ (fun j hj => hno j (List.mem_cons_of_mem j0 hj)) h

theorem exactLoop_touches {V : Type} (rules : List (ArgumentRule V)) (once : Bool)
    {size n : ℕ} (hn : numRegularRules rules ≤ n) :
    ∀ (as : List (Argument V)) (i0 : ℕ) (st st1 : MatchState V), i0 + as.length ≤ size →
      st.WF size n → exactLoop rules once i0 as st = Except.ok st1 →
      st.Touches st1 size n i0 (i0 + as.length) := by
  intro as
  induction as with
  | nil =>
    intro i0 st st1 _ hwf h
    simp only [exactLoop, Except.ok.injEq] at h
    subst h
    exact MatchState.Touches_refl hwf _ _
  | cons a as ih =>
    intro i0 st st1 hlen hwf h
    simp only [List.length_cons] at hlen ⊢
    simp only [exactLoop] at h
    split_ifs at h with h1 h2
    · simp only [Except.ok.injEq] at h
      subst h
      exact MatchState.Touches_refl hwf _ _
    · exact MatchState.Touches_mono (ih (i0 + 1) st st1 (by omega) hwf h) (by omega) (by omega)
    · cases hin : exactInner rules a i0 once (List.range (numRegularRules rules)) st with
      | error e => simp [hin] at h
      | ok st2 =>
        simp only [hin] at h
        have t1 := exactInner_touches rules a (by omega : i0 < size) once _ st st2
          (fun j hj => lt_of_lt_of_le (List.mem_range.mp hj) hn) hwf hin
        have t2 := ih (i0 + 1) st2 st1 (by omega) t1.1 h
        exact MatchState.Touches_trans (MatchState.Touches_mono t1 (le_refl _) (by omega))
          (MatchState.Touches_mono t2 (by omega) (by omega))

theorem exactLoop_bound {V : Type} (rules : List (ArgumentRule V)) (once : Bool)
    {size n : ℕ} (hn : numRegularRules rules ≤ n) :
    ∀ (as : List (Argument V)) (i0 : ℕ) (st st1 : MatchState V), i0 + as.length ≤ size →
      st.WF size n → exactLoop rules once i0 as st = Except.ok st1 →
      ∀ i a, i0 ≤ i → as[i - i0]? = some a → a.getLabel ≠ "" →
        (∀ k, i0 ≤ k → k ≤ i → st.isTaken k = false) →
        ∀ j, j < numRegularRules rules → ∀ r, rules[j]? = some r →
          a.getLabel = r.getArgLabel →
          st1.argIndex j = (i : Int) ∧ st1.isFilled j = true ∧
            r.isArgValid a.getVariable once = true := by
  intro as
  induction as with
  | nil => intro i0 st st1 _ _ _ i a _ ha; simp at ha
  | cons a0 as ih =>
    intro i0 st st1 hlen hwf h i a hi ha hlab hunt j hj r hrj hjlab
    simp only [List.length_cons] at hlen
    simp only [exactLoop] at h
    have h0 : st.isTaken i0 = false := hunt i0 (le_refl _) hi
    rw [if_neg (by rw [h0]; exact Bool.false_ne_true)] at h
    by_cases hii : i = i0
    · subst hii
      simp only [Nat.sub_self, List.getElem?_cons_zero, Option.some.injEq] at ha
      subst ha
      rw [if_neg (fun hz => hlab ((label_length_eq_zero _).mp hz))] at h
      cases hin : exactInner rules a0 i once (List.range (numRegularRules rules)) st with
      | error e => simp [hin] at h
      | ok st2 =>
        simp only [hin] at h
        have hjs : ∀ j ∈ List.range (numRegularRules rules), j < n :=
          fun j hj => lt_of_lt_of_le (List.mem_range.mp hj) hn
        have t1 := exactInner_touches rules a0 (by omega : i < size) once _ st st2 hjs hwf hin
        obtain ⟨b1, b2, b3⟩ := exactInner_bound rules a0 (by omega : i < size) once _ st st2
          hjs hwf hin j (List.mem_range.mpr hj) r hrj hjlab
        have t2 := exactLoop_touches rules once hn as (i + 1) st2 st1 (by omega) t1.1 h
        obtain ⟨e1, e2, _⟩ := t2.2.1.2 j b2
        exact ⟨e2.trans b1, e1, b3⟩
    · have hlt : i0 < i := lt_of_le_of_ne hi (Ne.symm hii)
      have ha1 : as[i - (i0 + 1)]? = some a := by
        have : i - i0 = (i - (i0 + 1)) + 1 := by omega
        rw [this, List.getElem?_cons_succ] at ha
        exact ha
      split_ifs at h with h2
      · exact ih (i0 + 1) st st1 (by omega) hwf h i a hlt ha1 hlab
          (fun k hk1 hk2 => hunt k (by omega) hk2) j hj r hrj hjlab
      · cases hin : exactInner rules a0 i0 once (List.range (numRegularRules rules)) st with
        | error e => simp [hin] at h
        | ok st2 =>
          simp only [hin] at h
          have hjs : ∀ j ∈ List.range (numRegularRules rules), j < n :=
            fun j hj => lt_of_lt_of_le (List.mem_range.mp hj) hn
          have t1 := exactInner_touches rules a0 (by omega : i0 < size) once _ st st2 hjs
            hwf hin
          exact ih (i0 + 1) st2 st1 (by omega) t1.1 h i a hlt ha1 hlab
            (fun k hk1 hk2 => by rw [t1.2.2 k (by omega)]; exact hunt k (by omega) hk2)
            j hj r hrj hjlab

theorem exactLoop_taken {V : Type} (rules : List (ArgumentRule V)) (once : Bool)
    {size n : ℕ} (hn : numRegularRules rules ≤ n) :
    ∀ (as : List (Argument V)) (i0 : ℕ) (st st1 : MatchState V), i0 + as.length ≤ size →
      st.WF size n → exactLoop rules once i0 as st = Except.ok st1 →
      ∀ i, st1.isTaken i = true → st.isTaken i = true ∨
        (i0 ≤ i ∧ ∃ a, as[i - i0]? = some a ∧ a.getLabel ≠ "" ∧
          ∃ j, j < numRegularRules rules ∧ ∃ r, rules[j]? = some r ∧
            a.getLabel = r.getArgLabel) := by
  intro as
  induction as with
  | nil =>
    intro i0 st st1 _ _ h i hi
    simp only [exactLoop, Except.ok.injEq] at h
    subst h
    exact Or.inl hi
  | cons a0 as ih =>
    intro i0 st st1 hlen hwf h i hi
    simp only [List.length_cons] at hlen
    simp only [exactLoop] at h
    have shift : ∀ st2 : MatchState V, (st2.isTaken i = true ∨
        (i0 + 1 ≤ i ∧ ∃ a, as[i - (i0 + 1)]? = some a ∧ a.getLabel ≠ "" ∧
          ∃ j, j < numRegularRules rules ∧ ∃ r, rules[j]? = some r ∧
            a.getLabel = r.getArgLabel)) → st2.isTaken i = true ∨
        (i0 ≤ i ∧ ∃ a, (a0 :: as)[i - i0]? = some a ∧ a.getLabel ≠ "" ∧
          ∃ j, j < numRegularRules rules ∧ ∃ r, rules[j]? = some r ∧
            a.getLabel = r.getArgLabel) := by
      intro st2 hs
      rcases hs with hs | ⟨hle, a, ha, rest⟩
      · exact Or.inl hs
      · refine Or.inr ⟨by omega, a, ?_, rest⟩
        have : i - i0 = (i - (i0 + 1)) + 1 := by omega
        rw [this, List.getElem?_cons_succ]
        exact ha
    split_ifs at h with h1 h2
    · simp only [Except.ok.injEq] at h
      subst h
      exact Or.inl hi
    · exact shift st (ih (i0 + 1) st st1 (by omega) hwf h i hi)
    · cases hin : exactInner rules a0 i0 once (List.range (numRegularRules rules)) st with
      | error e => simp [hin] at h
      | ok st2 =>
        simp only [hin] at h
        have hjs : ∀ j ∈ List.range (numRegularRules rules), j < n :=
          fun j hj => lt_of_lt_of_le (List.mem_range.mp hj) hn
        have t1 := exactInner_touches rules a0 (by omega : i0 < size) once _ st st2 hjs
          hwf hin
        rcases shift st2 (ih (i0 + 1) st2 st1 (by omega) t1.1 h i hi) with hs | hs
        · by_cases hii : i = i0
          · subst hii
            by_cases hm : ∃ j, j < numRegularRules rules ∧ ∃ r, rules[j]? = some r ∧
                a0.getLabel = r.getArgLabel
            · refine Or.inr ⟨le_refl _, a0, by simp, ?_, hm⟩
              exact fun hz => h2 ((label_length_eq_zero _).mpr hz)
            · have hst : st2 = st := exactInner_no_match rules a0 i once _ st st2
                (fun j hj r hr hl => hm ⟨j, List.mem_range.mp hj, r, hr, hl⟩) hin
              rw [hst] at hs
              exact Or.inl hs
          · rw [t1.2.2 i (by omega)] at hs
            exact Or.inl hs
        · exact Or.inr hs

/-! ### Phase 3 -/

theorem partialInner_spec {V : Type} (rules : List (ArgumentRule V)) (a : Argument V)
    (st : MatchState V) :
    ∀ (js : List ℕ) (acc res : ℕ × Int), partialInner rules a st js acc = Except.ok res →
      (res = acc ∧ ∀ j ∈ js, ¬ PartialMatch rules a st j) ∨
      (res.1 = acc.1 + 1 ∧ ∃ j ∈ js, PartialMatch rules a st j ∧ res.2 = (j : Int) ∧
        ∀ k ∈ js, PartialMatch rules a st k → k = j) ∨
      acc.1 + 2 ≤ res.1 := by
  intro js
  induction js with
  | nil =>
    intro acc res h
    simp only [partialInner, Except.ok.injEq] at h
    exact Or.inl ⟨h.symm, fun j hj => by simp at hj⟩
  | cons j0 js ih =>
    intro acc res h
    cases hr : rules[j0]? with
    | none => simp [partialInner, hr] at h
    | some r0 =>
      simp only [partialInner, hr] at h
      split_ifs at h with h1
      · have hp : PartialMatch rules a st j0 := ⟨r0, hr, h1.1, h1.2⟩
        rcases ih _ _ h with ⟨e, hno⟩ | ⟨e, j, hj, _, _, _⟩ | e
        · refine Or.inr (Or.inl ⟨by rw [e], j0, List.mem_cons_self j0 js, hp, by rw [e], ?_⟩)
          intro k hk hpk
          rcases List.mem_cons.mp hk with hk | hk
          · exact hk
          · exact absurd hpk (hno k hk)
        · exact Or.inr (Or.inr (by simp only at e; omega))
        · exact Or.inr (Or.inr (by simp only at e; omega))
      · have hp : ¬ PartialMatch rules a st j0 := by
          rintro ⟨r, hr1, hf, hs⟩
          have hrr : r0 = r := Option.some.inj (hr.symm.trans hr1)
          subst hrr
          exact h1 ⟨hf, hs⟩
        rcases ih _ _ h with ⟨e, hno⟩ | ⟨e, j, hj, hpj, em, hu⟩ | e
        · refine Or.inl ⟨e, fun k hk => ?_⟩
          rcases List.mem_cons.mp hk with hk | hk
          · rw [hk]; exact hp
          · exact hno k hk
        · refine Or.inr (Or.inl ⟨e, j, List.mem_cons_of_mem j0 hj, hpj, em, ?_⟩)
          intro k hk hpk
          rcases List.mem_cons.mp hk with hk | hk
          · rw [hk] at hpk; exact absurd hpk hp
          · exact hu k hk hpk
        · exact Or.inr (Or.inr e)

theorem partialStep_spec {V : Type} (rules : List (ArgumentRule V)) (once : Bool) (i : ℕ)
    (a : Argument V) (st st1 : MatchState V) (h : partialStep rules once i a st = Except.ok st1)
    (ht : st.isTaken i = false) (hlab : a.getLabel ≠ "") :
    ∃ j r, j < numRegularRules rules ∧ rules[j]? = some r ∧ st.isFilled j = false ∧
      labelStartsWith r.getArgLabel a.getLabel = true ∧
      (∀ k, k < numRegularRules rules → PartialMatch rules a st k → k = j) ∧
      r.isArgValid a.getVariable once = true ∧ st1 = st.fill r a i j once := by
  unfold partialStep at h
  rw [if_neg (by rw [ht]; exact Bool.false_ne_true),
    if_neg (fun hz => hlab ((label_length_eq_zero _).mp hz))] at h
  cases hin : partialInner rules a st (List.range (numRegularRules rules)) (0, -1) with
  | error e => simp [hin] at h
  | ok res =>
    obtain ⟨nMatches, matchRule⟩ := res
    simp only [hin] at h
    split_ifs at h with h1
    have h1 : nMatches = 1 := not_not.mp h1
    rcases partialInner_spec rules a st _ _ _ hin with ⟨e, _⟩ | ⟨_, j, hj, hpj, em, hu⟩ | e
    · simp only [Prod.mk.injEq] at e
      omega
    · simp only at em
      subst em
      simp only [Int.toNat_ofNat] at h
      obtain ⟨r, hr, hf, hs⟩ := hpj
      simp only [hr] at h
      split_ifs at h with h2
      simp only [Except.ok.injEq] at h
      exact ⟨j, r, List.mem_range.mp hj, hr, hf, hs,
        fun k hk hpk => hu k (List.mem_range.mpr hk) hpk, h2, h.symm⟩
    · simp only at e
      omega

theorem partialStep_touches {V : Type} (rules : List (ArgumentRule V)) (once : Bool)
    {size n : ℕ} (hn : numRegularRules rules ≤ n) {i : ℕ} (hi : i < size) (a : Argument V)
    (st st1 : MatchState V) (hwf : st.WF size n)
    (h : partialStep rules once i a st = Except.ok st1) :
    st.Touches st1 size n i (i + 1) := by
  by_cases ht : st.isTaken i = true
  · simp only [partialStep, if_pos ht, Except.ok.injEq] at h
    subst h
    exact MatchState.Touches_refl hwf _ _
  · by_cases hl : a.getLabel.length = 0
    · simp only [partialStep, if_neg ht, if_pos hl, Except.ok.injEq] at h
      subst h
      exact MatchState.Touches_refl hwf _ _
    · obtain ⟨j, r, hj, _, hf, _, _, _, e⟩ := partialStep_spec rules once i a st st1 h
        (by simpa using ht) (fun hz => hl ((label_length_eq_zero _).mpr hz))
      rw [e]
      exact MatchState.Touches_fill hwf r a hi (lt_of_lt_of_le hj hn) once hf

theorem partialLoop_touches {V : Type} (rules : List (ArgumentRule V)) (once : Bool)
    {size n : ℕ} (hn : numRegularRules rules ≤ n) :
    ∀ (as : List (Argument V)) (i0 : ℕ) (st st1 : MatchState V), i0 + as.length ≤ size →
      st.WF size n → partialLoop rules once i0 as st = Except.ok st1 →
      st.Touches st1 size n i0 (i0 + as.length) := by
  intro as
  induction as with
  | nil =>
    intro i0 st st1 _ hwf h
    simp only [partialLoop, Except.ok.injEq] at h
    subst h
    exact MatchState.Touches_refl hwf _ _
  | cons a as ih =>
    intro i0 st st1 hlen hwf h
    simp only [List.length_cons] at hlen ⊢
    simp only [partialLoop] at h
    cases hin : partialStep rules once i0 a st with
    | error e => simp [hin] at h
    | ok st2 =>
      simp only [hin] at h
      have t1 := partialStep_touches rules once hn (by omega : i0 < size) a st st2 hwf hin
      have t2 := ih (i0 + 1) st2 st1 (by omega) t1.1 h
      exact MatchState.Touches_trans (MatchState.Touches_mono t1 (le_refl _) (by omega))
          (MatchState.Touches_mono t2 (by omega) (by omega))

theorem partialLoop_append {V : Type} (rules : List (ArgumentRule V)) (once : Bool) :
    ∀ (xs ys : List (Argument V)) (i0 : ℕ) (st : MatchState V),
      partialLoop rules once i0 (xs ++ ys) st =
        match partialLoop rules once i0 xs st with
        | Except.error e => Except.error e
        | Except.ok st1 => partialLoop rules once (i0 + xs.length) ys st1 := by
  intro xs
  induction xs with
  | nil => intro ys i0 st; simp [partialLoop]
  | cons x xs ih =>
    intro ys i0 st
    simp only [List.cons_append, partialLoop, List.length_cons]
    cases hin : partialStep rules once i0 x st with
    | error e => rfl
    | ok st2 =>
      have e := ih ys (i0 + 1) st2
      have e2 : i0 + 1 + xs.length = i0 + (xs.length + 1) := by omega
      rw [e2] at e
      exact e

theorem partialLoop_labelled_taken {V : Type} (rules : List (ArgumentRule V)) (once : Bool)
    {size n : ℕ} (hn : numRegularRules rules ≤ n) :
    ∀ (as : List (Argument V)) (i0 : ℕ) (st st1 : MatchState V), i0 + as.length ≤ size →
      st.WF size n → partialLoop rules once i0 as st = Except.ok st1 →
      ∀ i a, i0 ≤ i → as[i - i0]? = some a → a.getLabel ≠ "" →
        st1.isTaken i = true := by
  intro as
  induction as with
  | nil => intro i0 st st1 _ _ _ i a _ ha; simp at ha
  | cons a0 as ih =>
    intro i0 st st1 hlen hwf h i a hi ha hlab
    simp only [List.length_cons] at hlen
    simp only [partialLoop] at h
    cases hin : partialStep rules once i0 a0 st with
    | error e => simp [hin] at h
    | ok st2 =>
      simp only [hin] at h
      have t1 := partialStep_touches rules once hn (by omega : i0 < size) a0 st st2 hwf hin
      have t2 := partialLoop_touches rules once hn as (i0 + 1) st2 st1 (by omega) t1.1 h
      by_cases hii : i = i0
      · subst hii
        simp only [Nat.sub_self, List.getElem?_cons_zero, Option.some.injEq] at ha
        subst ha
        apply t2.2.1.1
        by_cases ht : st.isTaken i = true
        · exact t1.2.1.1 i ht
        · obtain ⟨j, r, hj, _, _, _, _, _, e⟩ := partialStep_spec rules once i a0 st st2 hin
            (by simpa using ht) hlab
          rw [e, MatchState.isTaken_fill hwf r a0 (by omega : i < size) j once i, if_pos rfl]
      · have ha1 : as[i - (i0 + 1)]? = some a := by
          have : i - i0 = (i - (i0 + 1)) + 1 := by omega
          rw [this, List.getElem?_cons_succ] at ha
          exact ha
        exact ih (i0 + 1) st2 st1 (by omega) t1.1 h i a (by omega) ha1 hlab

/-! ### Phase 4 -/

theorem unusedInner_spec {V : Type} (rules : List (ArgumentRule V)) (a : Argument V) (i : ℕ)
    (once : Bool) :
    ∀ (js : List ℕ) (st st1 : MatchState V),
      unusedInner rules a i once js st = Except.ok st1 →
      ((∀ j ∈ js, st.isFilled j = true) ∧ st1 = st) ∨
      ∃ pre j post r, js = pre ++ j :: post ∧ (∀ k ∈ pre, st.isFilled k = true) ∧
        st.isFilled j = false ∧ rules[j]? = some r ∧
        r.isArgValid a.getVariable once = true ∧ st1 = st.fill r a i j once := by
  intro js
  induction js with
  | nil =>
    intro st st1 h
    simp only [unusedInner, Except.ok.injEq] at h
    exact Or.inl ⟨fun j hj => by simp at hj, h.symm⟩
  | cons j0 js ih =>
    intro st st1 h
    simp only [unusedInner] at h
    split_ifs at h with h1
    · cases hr : rules[j0]? with
      | none => simp [hr] at h
      | some r =>
        simp only [hr] at h
        split_ifs at h with h2
        simp only [Except.ok.injEq] at h
        exact Or.inr ⟨[], j0, js, r, rfl, fun k hk => by simp at hk, h1, hr, h2, h.symm⟩
    · have h1t : st.isFilled j0 = true := by simpa using h1
      rcases ih st st1 h with ⟨hall, e⟩ | ⟨pre, j, post, r, e, hpre, rest⟩
      · refine Or.inl ⟨fun j hj => ?_, e⟩
        rcases List.mem_cons.mp hj with hj | hj
        · rw [hj]; exact h1t
        · exact hall j hj
      · refine Or.inr ⟨j0 :: pre, j, post, r, by rw [e]; rfl, fun k hk => ?_, rest⟩
        rcases List.mem_cons.mp hk with hk | hk
        · rw [hk]; exact h1t
        · exact hpre k hk

theorem range_split {m j : ℕ} {pre post : List ℕ} (h : List.range m = pre ++ j :: post) :
    j < m ∧ ∀ k, k < j → k ∈ pre := by
  have hj : j ∈ List.range m := by rw [h]; simp
  have hjm : j < m := List.mem_range.mp hj
  refine ⟨hjm, fun k hk => ?_⟩
  have hkm : k ∈ List.range m := List.mem_range.mpr (by omega)
  rw [h] at hkm
  rcases List.mem_append.mp hkm with hkm | hkm
  · exact hkm
  · rcases List.mem_cons.mp hkm with hkm | hkm
    · omega
    · have hs : (pre ++ j :: post).Pairwise (· < ·) := by
        rw [← h]
        exact List.pairwise_lt_range m
      have h2 := (List.pairwise_append.mp hs).2.1
      have h3 := (List.pairwise_cons.mp h2).1 k hkm
      omega

theorem unusedInner_touches {V : Type} (rules : List (ArgumentRule V)) (a : Argument V)
    {i size n : ℕ} (hi : i < size) (once : Bool) (js : List ℕ) (st st1 : MatchState V)
    (hjs : ∀ j ∈ js, j < n) (hwf : st.WF size n)
    (h : unusedInner rules a i once js st = Except.ok st1) :
    st.Touches st1 size n i (i + 1) := by
  rcases unusedInner_spec rules a i once js st st1 h with ⟨_, e⟩ |
    ⟨pre, j, post, r, e, _, hf, _, _, e1⟩
  · rw [e]
    exact MatchState.Touches_refl hwf _ _
  · rw [e1]
    exact MatchState.Touches_fill hwf r a hi (hjs j (by rw [e]; simp)) once hf

theorem unusedLoop_touches {V : Type} (rules : List (ArgumentRule V)) (once : Bool)
    {size n : ℕ} (hn : numRegularRules rules ≤ n) :
    ∀ (as : List (Argument V)) (i0 : ℕ) (st st1 : MatchState V), i0 + as.length ≤ size →
      st.WF size n → unusedLoop rules once i0 as st = Except.ok st1 →
      st.Touches st1 size n i0 (i0 + as.length) := by
  intro as
  induction as with
  | nil =>
    intro i0 st st1 _ hwf h
    simp only [unusedLoop, Except.ok.injEq] at h
    subst h
    exact MatchState.Touches_refl hwf _ _
  | cons a as ih =>
    intro i0 st st1 hlen hwf h
    simp only [List.length_cons] at hlen ⊢
    simp only [unusedLoop] at h
    split_ifs at h with h1
    · exact MatchState.Touches_mono (ih (i0 + 1) st st1 (by omega) hwf h) (by omega) (by omega)
    · cases hin : unusedInner rules a i0 once (List.range (numRegularRules rules)) st with
      | error e => simp [hin] at h
      | ok st2 =>
        simp only [hin] at h
        have t1 := unusedInner_touches rules a (by omega : i0 < size) once _ st st2
          (fun j hj => lt_of_lt_of_le (List.mem_range.mp hj) hn) hwf hin
        have t2 := ih (i0 + 1) st2 st1 (by omega) t1.1 h
        exact MatchState.Touches_trans (MatchState.Touches_mono t1 (le_refl _) (by omega))
          (MatchState.Touches_mono t2 (by omega) (by omega))

/-! ### Phase 5 -/

theorem defaultLoop_spec {V : Type} (rules : List (ArgumentRule V)) {size n : ℕ} :
    ∀ (js : List ℕ) (st st1 : MatchState V), (∀ j ∈ js, j < n) → st.WF size n →
      defaultLoop rules js st = Except.ok st1 →
      st1.taken = st.taken ∧ st1.filled = st.filled ∧
      st1.passedArgIndex = st.passedArgIndex ∧ st1.WF size n ∧
      (∀ j, st.isFilled j = true → st1.slot j = st.slot j) ∧
      (∀ j, st.slot j = SlotValue.defaultValue → st1.slot j = SlotValue.defaultValue) ∧
      ∀ j ∈ js, st.isFilled j = false →
        st1.slot j = SlotValue.defaultValue ∧
          ∃ r, rules[j]? = some r ∧ r.hasDefault = true := by
  intro js
  induction js with
  | nil =>
    intro st st1 _ hwf h
    simp only [defaultLoop, Except.ok.injEq] at h
    subst h
    exact ⟨rfl, rfl, rfl, hwf, fun _ _ => rfl, fun _ h => h, fun j hj => by simp at hj⟩
  | cons j0 js ih =>
    intro st st1 hjs hwf h
    have hj0 : j0 < n := hjs j0 (List.mem_cons_self j0 js)
    have hjs1 : ∀ k ∈ js, k < n := fun k hk => hjs k (List.mem_cons_of_mem j0 hk)
    simp only [defaultLoop] at h
    split_ifs at h with h1
    · obtain ⟨a1, a2, a3, a4, a5, a6, a7⟩ := ih st st1 hjs1 hwf h
      refine ⟨a1, a2, a3, a4, a5, a6, fun j hj hf => ?_⟩
      rcases List.mem_cons.mp hj with hj | hj
      · rw [hj, h1] at hf
        exact Bool.noConfusion hf
      · exact a7 j hj hf
    · cases hr : rules[j0]? with
      | none => simp [hr] at h
      | some r =>
        simp only [hr] at h
        split_ifs at h with h2
        have hd : r.hasDefault = true := by simpa using h2
        have hwf1 : ({ st with args := st.args.set j0 SlotValue.defaultValue } :
            MatchState V).WF size n :=
          ⟨hwf.1, hwf.2.1, hwf.2.2.1, by simp [hwf.2.2.2]⟩
        obtain ⟨a1, a2, a3, a4, a5, a6, a7⟩ := ih _ st1 hjs1 hwf1 h
        have hs0 : ({ st with args := st.args.set j0 SlotValue.defaultValue } :
            MatchState V).slot j0 = SlotValue.defaultValue :=
          getD_set_self _ _ _ _ (hwf.2.2.2.symm ▸ hj0)
        refine ⟨a1, a2, a3, a4, fun j hf => ?_, fun j hs => ?_, fun j hj hf => ?_⟩
        · have hne : j0 ≠ j := by
            intro e
            rw [e] at h1
            exact h1 hf
          rw [a5 j hf]
          exact getD_set_of_ne _ _ _ _ _ hne
        · apply a6
          by_cases e : j0 = j
          · rw [← e]; exact hs0
          · exact (getD_set_of_ne _ _ _ _ _ e).trans hs
        · rcases List.mem_cons.mp hj with hj | hj
          · rw [hj]
            exact ⟨a6 j0 hs0, r, hr, hd⟩
          · exact a7 j hj hf

/-! ### Phases 0 and 1 -/

theorem emptySlots_spec {V : Type} (rules : List (ArgumentRule V)) :
    ∀ (is : List ℕ) (args res : List (SlotValue V)),
      emptySlots rules is args = Except.ok res →
      res = args ++ List.replicate is.length SlotValue.empty := by
  intro is
  induction is with
  | nil =>
    intro args res h
    simp only [emptySlots, Except.ok.injEq] at h
    simp [h]
  | cons i is ih =>
    intro args res h
    cases hr : rules[i]? with
    | none => simp [emptySlots, hr] at h
    | some r =>
      simp only [emptySlots, hr] at h
      rw [ih _ _ h]
      simp [List.replicate_succ]

theorem getD_replicate_self {α : Type} (n i : ℕ) (a : α) :
    (List.replicate n a).getD i a = a := by
  by_cases h : i < n
  · exact getD_replicate_lt n i a a h
  · simp [List.getD_eq_getElem?_getD, List.getElem?_replicate, h]

theorem hasEllipsis_numRegularRules_le {V : Type} (rules : List (ArgumentRule V)) :
    numRegularRules rules ≤ rules.length := by
  unfold numRegularRules
  split_ifs <;> omega

theorem numRegularRules_le_numFinalArgs {V : Type} (rules : List (ArgumentRule V))
    (passedArgs : List (Argument V)) :
    numRegularRules rules ≤ numFinalArgs rules passedArgs := by
  unfold numRegularRules numFinalArgs
  split_ifs <;> omega

theorem initialState_spec {V : Type} (rules : List (ArgumentRule V))
    (passedArgs : List (Argument V)) (st0 : MatchState V)
    (h : initialState rules passedArgs = Except.ok st0) :
    passedArgs.length ≤ numFinalArgs rules passedArgs ∧
    st0.WF passedArgs.length (numFinalArgs rules passedArgs) ∧
    (∀ i, st0.isTaken i = false) ∧ (∀ j, st0.isFilled j = false) ∧
    (∀ j, st0.argIndex j = -1) ∧ ∀ j, st0.slot j = SlotValue.empty := by
  unfold initialState at h
  split_ifs at h with h1
  cases he : emptySlots rules (List.range (numFinalArgs rules passedArgs)) [] with
  | error e => simp [he] at h
  | ok args =>
    simp only [he, Except.ok.injEq] at h
    have ha := emptySlots_spec rules _ _ _ he
    simp only [List.nil_append, List.length_range] at ha
    subst h
    subst ha
    refine ⟨by omega, ⟨by simp, by simp, by simp, by simp⟩, fun i => ?_, fun j => ?_,
      fun j => ?_, fun j => ?_⟩
    · exact getD_replicate_self _ _ _
    · exact getD_replicate_self _ _ _
    · exact getD_replicate_self _ _ _
    · exact getD_replicate_self _ _ _

theorem ellipsisLoop_spec {V : Type} (r : ArgumentRule V) (once : Bool) {size n : ℕ} :
    ∀ (as : List (Argument V)) (i0 : ℕ) (st st1 : MatchState V), st.WF size n →
      ellipsisLoop r once i0 as st = Except.ok st1 →
      st1.WF size n ∧ ∀ k, k < i0 → st.SameAt st1 k := by
  intro as
  induction as with
  | nil =>
    intro i0 st st1 hwf h
    simp only [ellipsisLoop, Except.ok.injEq] at h
    subst h
    exact ⟨hwf, fun k _ => ⟨rfl, rfl, rfl, rfl⟩⟩
  | cons a as ih =>
    intro i0 st st1 hwf h
    simp only [ellipsisLoop] at h
    cases hv : a.getVariable with
    | none => simp [hv] at h
    | some v =>
      simp only [hv] at h
      split_ifs at h with h1
      have hwf1 : (st.fill r a i0 i0 once).WF size n := MatchState.WF_fill hwf r a i0 i0 once
      obtain ⟨w, hs⟩ := ih (i0 + 1) _ st1 hwf1 h
      refine ⟨w, fun k hk => ?_⟩
      obtain ⟨s1, s2, s3, s4⟩ := hs k (by omega)
      have hne : i0 ≠ k := by omega
      refine ⟨s1.trans ?_, s2.trans ?_, s3.trans ?_, s4.trans ?_⟩
      · exact getD_set_of_ne _ _ _ _ _ hne
      · exact getD_set_of_ne _ _ _ _ _ hne
      · exact getD_set_of_ne _ _ _ _ _ hne
      · exact getD_set_of_ne _ _ _ _ _ hne

theorem ellipsisPhase_spec {V : Type} (rules : List (ArgumentRule V))
    (passedArgs : List (Argument V)) (once : Bool) {size n : ℕ} (st st1 : MatchState V)
    (hwf : st.WF size n) (h : ellipsisPhase rules passedArgs once st = Except.ok st1) :
    st1.WF size n ∧ ∀ k, ¬ swallowed rules passedArgs k → st.SameAt st1 k := by
  unfold ellipsisPhase at h
  split_ifs at h with h1
  · cases hr : rules[rules.length - 1]? with
    | none => simp [hr] at h
    | some r =>
      simp only [hr] at h
      obtain ⟨w, hs⟩ := ellipsisLoop_spec r once _ _ st st1 hwf h
      refine ⟨w, fun k hk => hs k ?_⟩
      by_contra hlt
      exact hk ⟨h1.1, h1.2, by omega⟩
  · simp only [Except.ok.injEq] at h
    subst h
    exact ⟨hwf, fun k _ => ⟨rfl, rfl, rfl, rfl⟩⟩

theorem not_swallowed_of_lt_numRegularRules {V : Type} (rules : List (ArgumentRule V))
    (passedArgs : List (Argument V)) {j : ℕ} (hj : j < numRegularRules rules) :
    ¬ swallowed rules passedArgs j := by
  rintro ⟨h1, _, h3⟩
  unfold numRegularRules at hj
  rw [if_pos h1] at hj
  omega

/-! ### No access out of bounds -/

theorem emptySlots_ok {V : Type} (rules : List (ArgumentRule V)) :
    ∀ (is : List ℕ) (args : List (SlotValue V)), (∀ i ∈ is, i < rules.length) →
      ∃ res, emptySlots rules is args = Except.ok res := by
  intro is
  induction is with
  | nil => intro args _; exact ⟨args, rfl⟩
  | cons i is ih =>
    intro args his
    have hi : i < rules.length := his i (List.mem_cons_self i is)
    simp only [emptySlots, List.getElem?_eq_getElem hi]
    exact ih _ (fun k hk => his k (List.mem_cons_of_mem i hk))

theorem ellipsisLoop_inBounds {V : Type} (r : ArgumentRule V) (once : Bool) :
    ∀ (as : List (Argument V)) (i0 : ℕ) (st : MatchState V),
      ellipsisLoop r once i0 as st ≠ Except.error Stop.outOfBounds := by
  intro as
  induction as with
  | nil => intro i0 st; simp [ellipsisLoop]
  | cons a as ih =>
    intro i0 st
    simp only [ellipsisLoop]
    cases hv : a.getVariable with
    | none => simp
    | some v =>
      simp only
      split_ifs
      · exact ih _ _
      · simp

theorem exactInner_inBounds {V : Type} (rules : List (ArgumentRule V)) (a : Argument V)
    (i : ℕ) (once : Bool) :
    ∀ (js : List ℕ) (st : MatchState V), (∀ j ∈ js, j < rules.length) →
      exactInner rules a i once js st ≠ Except.error Stop.outOfBounds := by
  intro js
  induction js with
  | nil => intro st _; simp [exactInner]
  | cons j js ih =>
    intro st hjs
    have hj : j < rules.length := hjs j (List.mem_cons_self j js)
    have hjs1 : ∀ k ∈ js, k < rules.length := fun k hk => hjs k (List.mem_cons_of_mem j hk)
    simp only [exactInner, List.getElem?_eq_getElem hj]
    split_ifs
    · exact ih _ hjs1
    · simp
    · exact ih _ hjs1

theorem exactLoop_inBounds {V : Type} (rules : List (ArgumentRule V)) (once : Bool) :
    ∀ (as : List (Argument V)) (i0 : ℕ) (st : MatchState V),
      exactLoop rules once i0 as st ≠ Except.error Stop.outOfBounds := by
  intro as
  induction as with
  | nil => intro i0 st; simp [exactLoop]
  | cons a as ih =>
    intro i0 st
    simp only [exactLoop]
    split_ifs
    · simp
    · exact ih _ _
    · cases hin : exactInner rules a i0 once (List.range (numRegularRules rules)) st with
      | error e =>
        simp only
        intro he
        simp only [Except.error.injEq] at he
        subst he
        exact exactInner_inBounds rules a i0 once _ st
          (fun j hj => lt_of_lt_of_le (List.mem_range.mp hj)
            (hasEllipsis_numRegularRules_le rules)) hin
      | ok st2 => exact ih _ _

theorem partialInner_inBounds {V : Type} (rules : List (ArgumentRule V)) (a : Argument V)
    (st : MatchState V) :
    ∀ (js : List ℕ) (acc : ℕ × Int), (∀ j ∈ js, j < rules.length) →
      partialInner rules a st js acc ≠ Except.error Stop.outOfBounds := by
  intro js
  induction js with
  | nil => intro acc _; simp [partialInner]
  | cons j js ih =>
    intro acc hjs
    have hj : j < rules.length := hjs j (List.mem_cons_self j js)
    have hjs1 : ∀ k ∈ js, k < rules.length := fun k hk => hjs k (List.mem_cons_of_mem j hk)
    simp only [partialInner, List.getElem?_eq_getElem hj]
    split_ifs
    · exact ih _ hjs1
    · exact ih _ hjs1

theorem partialStep_inBounds {V : Type} (rules : List (ArgumentRule V)) (once : Bool) (i : ℕ)
    (a : Argument V) (st : MatchState V) :
    partialStep rules once i a st ≠ Except.error Stop.outOfBounds := by
  unfold partialStep
  split_ifs
  · simp
  · simp
  · cases hin : partialInner rules a st (List.range (numRegularRules rules)) (0, -1) with
    | error e =>
      simp only
      intro he
      simp only [Except.error.injEq] at he
      subst he
      exact partialInner_inBounds rules a st _ _
        (fun j hj => lt_of_lt_of_le (List.mem_range.mp hj)
          (hasEllipsis_numRegularRules_le rules)) hin
    | ok res =>
      obtain ⟨nMatches, matchRule⟩ := res
      simp only
      split_ifs with h1
      · simp
      · have h1 : nMatches = 1 := not_not.mp h1
        rcases partialInner_spec rules a st _ _ _ hin with
          ⟨e, _⟩ | ⟨_, j, hj, hpj, em, _⟩ | e
        · simp only [Prod.mk.injEq] at e
          omega
        · simp only at em
          subst em
          obtain ⟨r, hr, _, _⟩ := hpj
          simp only [Int.toNat_ofNat, hr]
          split_ifs <;> simp
        · simp only at e
          omega

theorem partialLoop_inBounds {V : Type} (rules : List (ArgumentRule V)) (once : Bool) :
    ∀ (as : List (Argument V)) (i0 : ℕ) (st : MatchState V),
      partialLoop rules once i0 as st ≠ Except.error Stop.outOfBounds := by
  intro as
  induction as with
  | nil => intro i0 st; simp [partialLoop]
  | cons a as ih =>
    intro i0 st
    simp only [partialLoop]
    cases hin : partialStep rules once i0 a st with
    | error e =>
      simp only
      intro he
      simp only [Except.error.injEq] at he
      subst he
      exact partialStep_inBounds rules once i0 a st hin
    | ok st2 => exact ih _ _

theorem unusedInner_inBounds {V : Type} (rules : List (ArgumentRule V)) (a : Argument V)
    (i : ℕ) (once : Bool) :
    ∀ (js : List ℕ) (st : MatchState V), (∀ j ∈ js, j < rules.length) →
      unusedInner rules a i once js st ≠ Except.error Stop.outOfBounds := by
  intro js
  induction js with
  | nil => intro st _; simp [unusedInner]
  | cons j js ih =>
    intro st hjs
    have hj : j < rules.length := hjs j (List.mem_cons_self j js)
    have hjs1 : ∀ k ∈ js, k < rules.length := fun k hk => hjs k (List.mem_cons_of_mem j hk)
    simp only [unusedInner, List.getElem?_eq_getElem hj]
    split_ifs
    · simp
    · simp
    · exact ih _ hjs1

theorem unusedLoop_inBounds {V : Type} (rules : List (ArgumentRule V)) (once : Bool) :
    ∀ (as : List (Argument V)) (i0 : ℕ) (st : MatchState V),
      unusedLoop rules once i0 as st ≠ Except.error Stop.outOfBounds := by
  intro as
  induction as with
  | nil => intro i0 st; simp [unusedLoop]
  | cons a as ih =>
    intro i0 st
    simp only [unusedLoop]
    split_ifs
    · exact ih _ _
    · cases hin : unusedInner rules a i0 once (List.range (numRegularRules rules)) st with
      | error e =>
        simp only
        intro he
        simp only [Except.error.injEq] at he
        subst he
        exact unusedInner_inBounds rules a i0 once _ st
          (fun j hj => lt_of_lt_of_le (List.mem_range.mp hj)
            (hasEllipsis_numRegularRules_le rules)) hin
      | ok st2 => exact ih _ _

theorem defaultLoop_inBounds {V : Type} (rules : List (ArgumentRule V)) :
    ∀ (js : List ℕ) (st : MatchState V), (∀ j ∈ js, j < rules.length) →
      defaultLoop rules js st ≠ Except.error Stop.outOfBounds := by
  intro js
  induction js with
  | nil => intro st _; simp [defaultLoop]
  | cons j js ih =>
    intro st hjs
    have hj : j < rules.length := hjs j (List.mem_cons_self j js)
    have hjs1 : ∀ k ∈ js, k < rules.length := fun k hk => hjs k (List.mem_cons_of_mem j hk)
    simp only [defaultLoop, List.getElem?_eq_getElem hj]
    split_ifs
    · exact ih _ hjs1
    · simp
    · exact ih _ hjs1

theorem hasEllipsis_last {V : Type} (rules : List (ArgumentRule V))
    (h : hasEllipsis rules = true) :
    0 < rules.length ∧ ∃ r, rules[rules.length - 1]? = some r ∧ r.isEllipsis = true := by
  unfold hasEllipsis at h
  cases hr : rules[rules.length - 1]? with
  | none => simp [hr] at h
  | some r =>
    simp only [hr, Bool.and_eq_true, decide_eq_true_eq] at h
    exact ⟨h.1, r, rfl, h.2⟩

theorem initialState_inBounds {V : Type} (rules : List (ArgumentRule V))
    (passedArgs : List (Argument V))
    (h : ¬ (hasEllipsis rules = true ∧ rules.length < passedArgs.length)) :
    initialState rules passedArgs ≠ Except.error Stop.outOfBounds := by
  unfold initialState
  split_ifs with h1
  · simp
  · have hle : numFinalArgs rules passedArgs ≤ rules.length := by
      unfold numFinalArgs at h1 ⊢
      split_ifs at h1 ⊢ with h2 h3
      · omega
      · have : ¬ rules.length < passedArgs.length := fun hh => h ⟨h2, hh⟩
        omega
      · omega
    obtain ⟨res, hres⟩ := emptySlots_ok rules (List.range (numFinalArgs rules passedArgs)) []
      (fun i hi => lt_of_lt_of_le (List.mem_range.mp hi) hle)
    rw [hres]
    simp

theorem ellipsisPhase_inBounds {V : Type} (rules : List (ArgumentRule V))
    (passedArgs : List (Argument V)) (once : Bool) (st : MatchState V) :
    ellipsisPhase rules passedArgs once st ≠ Except.error Stop.outOfBounds := by
  unfold ellipsisPhase
  split_ifs with h1
  · obtain ⟨_, r, hr, _⟩ := hasEllipsis_last rules h1.1
    simp only [hr]
    exact ellipsisLoop_inBounds r once _ _ _
  · simp

theorem afterExact_inBounds {V : Type} (rules : List (ArgumentRule V))
    (passedArgs : List (Argument V)) (once : Bool)
    (h : ¬ (hasEllipsis rules = true ∧ rules.length < passedArgs.length)) :
    afterExact rules passedArgs once ≠ Except.error Stop.outOfBounds := by
  unfold afterExact
  cases h0 : initialState rules passedArgs with
  | error e =>
    simp only
    intro he
    simp only [Except.error.injEq] at he
    subst he
    exact initialState_inBounds rules passedArgs h h0
  | ok st0 =>
    simp only
    cases h1 : ellipsisPhase rules passedArgs once st0 with
    | error e =>
      simp only
      intro he
      simp only [Except.error.injEq] at he
      subst he
      exact ellipsisPhase_inBounds rules passedArgs once st0 h1
    | ok st1 => exact exactLoop_inBounds rules once _ _ _

theorem processArguments_inBounds {V : Type} (rules : List (ArgumentRule V))
    (passedArgs : List (Argument V)) (once : Bool)
    (h : ¬ (hasEllipsis rules = true ∧ rules.length < passedArgs.length)) :
    processArguments rules passedArgs once ≠ Except.error Stop.outOfBounds := by
  unfold processArguments afterPartial
  cases h2 : afterExact rules passedArgs once with
  | error e =>
    simp only
    intro he
    simp only [Except.error.injEq] at he
    subst he
    exact afterExact_inBounds rules passedArgs once h h2
  | ok st2 =>
    simp only
    cases h3 : partialLoop rules once 0 passedArgs st2 with
    | error e =>
      simp only
      intro he
      simp only [Except.error.injEq] at he
      subst he
      exact partialLoop_inBounds rules once _ _ _ h3
    | ok st3 =>
      simp only
      cases h4 : unusedLoop rules once 0 passedArgs st3 with
      | error e =>
        simp only
        intro he
        simp only [Except.error.injEq] at he
        subst he
        exact unusedLoop_inBounds rules once _ _ _ h4
      | ok st4 =>
        exact defaultLoop_inBounds rules _ _
          (fun j hj => lt_of_lt_of_le (List.mem_range.mp hj)
            (hasEllipsis_numRegularRules_le rules))

/-! ### The states of a call that returns `true` -/

theorem processArguments_ok {V : Type} (rules : List (ArgumentRule V))
    (passedArgs : List (Argument V)) (once : Bool) (st : MatchState V)
    (h : processArguments rules passedArgs once = Except.ok st) :
    ∃ st0 st1 st2 st3 st4, initialState rules passedArgs = Except.ok st0 ∧
      ellipsisPhase rules passedArgs once st0 = Except.ok st1 ∧
      exactLoop rules once 0 passedArgs st1 = Except.ok st2 ∧
      afterExact rules passedArgs once = Except.ok st2 ∧
      partialLoop rules once 0 passedArgs st2 = Except.ok st3 ∧
      afterPartial rules passedArgs once = Except.ok st3 ∧
      unusedLoop rules once 0 passedArgs st3 = Except.ok st4 ∧
      defaultLoop rules (List.range (numRegularRules rules)) st4 = Except.ok st := by
  unfold processArguments at h
  cases h3 : afterPartial rules passedArgs once with
  | error e => simp [h3] at h
  | ok st3 =>
    simp only [h3] at h
    cases h4 : unusedLoop rules once 0 passedArgs st3 with
    | error e => simp [h4] at h
    | ok st4 =>
      simp only [h4] at h
      have h3a := h3
      unfold afterPartial at h3a
      cases h2 : afterExact rules passedArgs once with
      | error e => simp [h2] at h3a
      | ok st2 =>
        simp only [h2] at h3a
        have h2a := h2
        unfold afterExact at h2a
        cases h0 : initialState rules passedArgs with
        | error e => simp [h0] at h2a
        | ok st0 =>
          simp only [h0] at h2a
          cases h1 : ellipsisPhase rules passedArgs once st0 with
          | error e => simp [h1] at h2a
          | ok st1 =>
            simp only [h1] at h2a
            exact ⟨st0, st1, st2, st3, st4, rfl, h1, h2a, rfl, h3a, rfl, h4, h⟩

theorem argIndex_eq_of_passedArgIndex_eq {V : Type} {st st1 : MatchState V}
    (h : st1.passedArgIndex = st.passedArgIndex) (j : ℕ) : st1.argIndex j = st.argIndex j := by
  unfold MatchState.argIndex
  rw [h]

theorem isFilled_eq_of_filled_eq {V : Type} {st st1 : MatchState V}
    (h : st1.filled = st.filled) (j : ℕ) : st1.isFilled j = st.isFilled j := by
  unfold MatchState.isFilled
  rw [h]

theorem isTaken_eq_of_taken_eq {V : Type} {st st1 : MatchState V}
    (h : st1.taken = st.taken) (i : ℕ) : st1.isTaken i = st.isTaken i := by
  unfold MatchState.isTaken
  rw [h]

theorem not_swallowed_of_le {V : Type} {rules : List (ArgumentRule V)}
    {passedArgs : List (Argument V)} {i k : ℕ} (h : ¬ swallowed rules passedArgs i)
    (hk : k ≤ i) : ¬ swallowed rules passedArgs k :=
  fun ⟨h1, h2, h3⟩ => h ⟨h1, h2, le_trans h3 hk⟩

theorem take_append_cons_drop {α : Type} (l : List α) (i : ℕ) (a : α) (h : l[i]? = some a) :
    l = l.take i ++ a :: l.drop (i + 1) ∧ (l.take i).length = i ∧ i < l.length := by
  obtain ⟨hlt, hget⟩ := List.getElem?_eq_some_iff.mp h
  refine ⟨?_, by simp [List.length_take]; omega, hlt⟩
  rw [← hget, ← List.drop_eq_getElem_cons hlt, List.take_append_drop]

/-! ### C19: the binding of slots and arguments -/

theorem MatchState.Inv_mono {V : Type} {st : MatchState V} {passedArgs : List (Argument V)}
    {n : ℕ} {P Q : ℕ → Argument V → Prop} (h : st.Inv passedArgs n P)
    (hPQ : ∀ i a, P i a → Q i a) : st.Inv passedArgs n Q := by
  obtain ⟨h1, h2, h3, h4, h5⟩ := h
  refine ⟨h1, h2, fun j hj hf => ?_, h4, h5⟩
  obtain ⟨i, a, e1, e2, e3, e4, e5⟩ := h3 j hj hf
  exact ⟨i, a, e1, e2, e3, hPQ i a e4, e5⟩

theorem MatchState.Inv_fill {V : Type} {st : MatchState V} {passedArgs : List (Argument V)}
    {n : ℕ} {P : ℕ → Argument V → Prop} (h : st.Inv passedArgs n P) (r : ArgumentRule V)
    {a : Argument V} {i j : ℕ} (ha : passedArgs[i]? = some a) (hP : P i a) (hj : j < n)
    (once : Bool) (ht : st.isTaken i = false) (hf : st.isFilled j = false) :
    (st.fill r a i j once).Inv passedArgs n P := by
  obtain ⟨h1, h2, h3, h4, h5⟩ := h
  have hi : i < passedArgs.length := (List.getElem?_eq_some_iff.mp ha).1
  have eT := MatchState.isTaken_fill h1 r a hi j once
  have eF := MatchState.isFilled_fill h1 r a i hj once
  have eA := MatchState.argIndex_fill h1 r a i hj once
  have eS := MatchState.slot_fill h1 r a i hj once
  refine ⟨MatchState.WF_fill h1 r a i j once, fun k hk hfk => ?_, fun k hk hfk => ?_,
    fun k hk htk => ?_, fun k l hk hl hfk hfl hkl => ?_⟩
  · rw [eF] at hfk
    by_cases e : k = j
    · rw [if_pos e] at hfk
      exact Bool.noConfusion hfk
    · rw [if_neg e] at hfk
      rw [eA, eS, if_neg e, if_neg e]
      exact h2 k hk hfk
  · rw [eF] at hfk
    by_cases e : k = j
    · refine ⟨i, a, ha, ?_, ?_, hP, r.conversionNeeded a.getVariable once, ?_⟩
      · rw [eA, if_pos e]
      · rw [eT, if_pos rfl]
      · rw [eS, if_pos e]
    · rw [if_neg e] at hfk
      obtain ⟨i1, a1, e1, e2, e3, e4, c, e5⟩ := h3 k hk hfk
      refine ⟨i1, a1, e1, ?_, ?_, e4, c, ?_⟩
      · rw [eA, if_neg e]
        exact e2
      · rw [eT]
        split_ifs
        · rfl
        · exact e3
      · rw [eS, if_neg e]
        exact e5
  · rw [eT] at htk
    by_cases e : k = i
    · exact ⟨j, hj, by rw [eF, if_pos rfl], by rw [eA, if_pos rfl, e]⟩
    · rw [if_neg e] at htk
      obtain ⟨l, hl, e1, e2⟩ := h4 k hk htk
      have hlj : l ≠ j := by
        intro hh
        rw [hh, hf] at e1
        exact Bool.noConfusion e1
      exact ⟨l, hl, by rw [eF, if_neg hlj]; exact e1, by rw [eA, if_neg hlj]; exact e2⟩
  · rw [eF] at hfk hfl
    rw [eA, eA] at hkl
    by_cases ek : k = j
    · by_cases el : l = j
      · rw [ek, el]
      · rw [if_neg el] at hfl
        rw [if_pos ek, if_neg el] at hkl
        obtain ⟨i1, a1, _, e2, e3, _⟩ := h3 l hl hfl
        rw [e2] at hkl
        have : i = i1 := by exact_mod_cast hkl
        rw [← this, ht] at e3
        exact Bool.noConfusion e3
    · rw [if_neg ek] at hfk
      by_cases el : l = j
      · rw [if_neg ek, if_pos el] at hkl
        obtain ⟨i1, a1, _, e2, e3, _⟩ := h3 k hk hfk
        rw [e2] at hkl
        have : i1 = i := by exact_mod_cast hkl
        rw [this, ht] at e3
        exact Bool.noConfusion e3
      · rw [if_neg el] at hfl
        rw [if_neg ek, if_neg el] at hkl
        exact h5 k l hk hl hfk hfl hkl

theorem distinctLabels_index {V : Type} {rules : List (ArgumentRule V)}
    (h : DistinctLabels rules) {j k : ℕ} {r s : ArgumentRule V} (hj : rules[j]? = some r)
    (hk : rules[k]? = some s) (hl : r.getArgLabel = s.getArgLabel) (hne : r.getArgLabel ≠ "") :
    j = k := by
  unfold DistinctLabels at h
  have hp : (rules.map ArgumentRule.getArgLabel).Pairwise
      (fun x y => x ≠ "" → y ≠ "" → x ≠ y) :=
    (List.pairwise_filter (p := fun x : String => x ≠ "")).mp h
  rw [List.pairwise_iff_getElem] at hp
  obtain ⟨hjl, hjg⟩ := List.getElem?_eq_some_iff.mp hj
  obtain ⟨hkl, hkg⟩ := List.getElem?_eq_some_iff.mp hk
  have hjm : j < (rules.map ArgumentRule.getArgLabel).length := by simpa using hjl
  have hkm : k < (rules.map ArgumentRule.getArgLabel).length := by simpa using hkl
  have ej : (rules.map ArgumentRule.getArgLabel)[j] = r.getArgLabel := by
    rw [List.getElem_map, hjg]
  have ek : (rules.map ArgumentRule.getArgLabel)[k] = s.getArgLabel := by
    rw [List.getElem_map, hkg]
  rcases lt_trichotomy j k with hlt | heq | hgt
  · have := hp j k hjm hkm hlt
    rw [ej, ek] at this
    exact absurd hl (this hne (by rw [← hl]; exact hne))
  · exact heq
  · have := hp k j hkm hjm hgt
    rw [ej, ek] at this
    exact absurd hl.symm (this (by rw [← hl]; exact hne) hne)

theorem exactInner_inv {V : Type} (rules : List (ArgumentRule V)) (hd : DistinctLabels rules)
    {passedArgs : List (Argument V)} {n : ℕ} {P : ℕ → Argument V → Prop} {a : Argument V}
    {i : ℕ} (ha : passedArgs[i]? = some a) (hP : P i a) (hlab : a.getLabel ≠ "")
    (once : Bool) :
    ∀ (js : List ℕ) (st st1 : MatchState V), (∀ j ∈ js, j < n) → js.Nodup →
      st.Inv passedArgs n P →
      (st.isTaken i = false ∨ ∀ j ∈ js, ∀ r, rules[j]? = some r →
        a.getLabel ≠ r.getArgLabel) →
      exactInner rules a i once js st = Except.ok st1 → st1.Inv passedArgs n P := by
  intro js
  induction js with
  | nil =>
    intro st st1 _ _ hinv _ h
    simp only [exactInner, Except.ok.injEq] at h
    subst h
    exact hinv
  | cons j0 js ih =>
    intro st st1 hjs hnd hinv hor h
    have hj0 : j0 < n := hjs j0 (List.mem_cons_self j0 js)
    have hjs1 : ∀ k ∈ js, k < n := fun k hk => hjs k (List.mem_cons_of_mem j0 hk)
    have hnd1 := List.nodup_cons.mp hnd
    cases hr : rules[j0]? with
    | none => simp [exactInner, hr] at h
    | some r0 =>
      simp only [exactInner, hr] at h
      split_ifs at h with h1 h2
      · have ht : st.isTaken i = false := by
          rcases hor with hor | hor
          · exact hor
          · exact absurd h1 (hor j0 (List.mem_cons_self j0 js) r0 hr)
        refine ih _ st1 hjs1 hnd1.2 (MatchState.Inv_fill hinv r0 ha hP hj0 once ht h2.2)
          (Or.inr ?_) h
        intro j hj r hrj hl
        have : j0 = j := distinctLabels_index hd hr hrj (h1.symm.trans hl)
          (fun hh => hlab (h1.trans hh))
        rw [this] at hnd1
        exact hnd1.1 hj
      · refine ih st st1 hjs1 hnd1.2 hinv ?_ h
        rcases hor with hor | hor
        · exact Or.inl hor
        · exact Or.inr (fun j hj => hor j (List.mem_cons_of_mem j0 hj))

theorem drop_eq_cons {α : Type} {l : List α} {i : ℕ} {a : α} {t : List α}
    (h : l.drop i = a :: t) : l[i]? = some a ∧ l.drop (i + 1) = t := by
  constructor
  · have := List.getElem?_drop (L := l) (i := i) (j := 0)
    rw [h] at this
    simpa using this.symm
  · have : l.drop (i + 1) = (l.drop i).drop 1 := by rw [List.drop_drop]
    rw [this, h]
    rfl

theorem exactLoop_inv {V : Type} (rules : List (ArgumentRule V)) (hd : DistinctLabels rules)
    (once : Bool) {passedArgs : List (Argument V)} {n : ℕ}
    (hn : numRegularRules rules ≤ n) :
    ∀ (as : List (Argument V)) (i0 : ℕ) (st st1 : MatchState V), passedArgs.drop i0 = as →
      st.Inv passedArgs n (fun _ a => a.getLabel ≠ "") →
      exactLoop rules once i0 as st = Except.ok st1 →
      st1.Inv passedArgs n (fun _ a => a.getLabel ≠ "") := by
  intro as
  induction as with
  | nil =>
    intro i0 st st1 _ hinv h
    simp only [exactLoop, Except.ok.injEq] at h
    subst h
    exact hinv
  | cons a as ih =>
    intro i0 st st1 hdrop hinv h
    obtain ⟨ha, hdrop1⟩ := drop_eq_cons hdrop
    simp only [exactLoop] at h
    split_ifs at h with h1 h2
    · simp only [Except.ok.injEq] at h
      subst h
      exact hinv
    · exact ih (i0 + 1) st st1 hdrop1 hinv h
    · cases hin : exactInner rules a i0 once (List.range (numRegularRules rules)) st with
      | error e => simp [hin] at h
      | ok st2 =>
        simp only [hin] at h
        have hlab : a.getLabel ≠ "" := fun hz => h2 ((label_length_eq_zero _).mpr hz)
        have inv2 := exactInner_inv rules hd ha hlab hlab once _ st st2
          (fun j hj => lt_of_lt_of_le (List.mem_range.mp hj) hn) (List.nodup_range _) hinv
          (Or.inl (by simpa using h1)) hin
        exact ih (i0 + 1) st2 st1 hdrop1 inv2 h

theorem partialLoop_inv {V : Type} (rules : List (ArgumentRule V)) (once : Bool)
    {passedArgs : List (Argument V)} {n : ℕ} (hn : numRegularRules rules ≤ n) :
    ∀ (as : List (Argument V)) (i0 : ℕ) (st st1 : MatchState V), passedArgs.drop i0 = as →
      st.Inv passedArgs n (fun _ a => a.getLabel ≠ "") →
      partialLoop rules once i0 as st = Except.ok st1 →
      st1.Inv passedArgs n (fun _ a => a.getLabel ≠ "") := by
  intro as
  induction as with
  | nil =>
    intro i0 st st1 _ hinv h
    simp only [partialLoop, Except.ok.injEq] at h
    subst h
    exact hinv
  | cons a as ih =>
    intro i0 st st1 hdrop hinv h
    obtain ⟨ha, hdrop1⟩ := drop_eq_cons hdrop
    simp only [partialLoop] at h
    cases hin : partialStep rules once i0 a st with
    | error e => simp [hin] at h
    | ok st2 =>
      simp only [hin] at h
      refine ih (i0 + 1) st2 st1 hdrop1 ?_ h
      by_cases ht : st.isTaken i0 = true
      · simp only [partialStep, if_pos ht, Except.ok.injEq] at hin
        subst hin
        exact hinv
      · by_cases hl : a.getLabel.length = 0
        · simp only [partialStep, if_neg ht, if_pos hl, Except.ok.injEq] at hin
          subst hin
          exact hinv
        · have hlab : a.getLabel ≠ "" := fun hz => hl ((label_length_eq_zero _).mpr hz)
          obtain ⟨j, r, hj, _, hf, _, _, _, e⟩ := partialStep_spec rules once i0 a st st2 hin
            (by simpa using ht) hlab
          rw [e]
          exact MatchState.Inv_fill hinv r ha hlab (lt_of_lt_of_le hj hn) once
            (by simpa using ht) hf

theorem MatchState.Inv_no_room {V : Type} {st : MatchState V} {passedArgs : List (Argument V)}
    {n : ℕ} {P : ℕ → Argument V → Prop} (hinv : st.Inv passedArgs n P)
    (hsize : passedArgs.length ≤ n) (hall : ∀ j, j < n → st.isFilled j = true) {i : ℕ}
    (hi : i < passedArgs.length) (ht : st.isTaken i = false) : False := by
  obtain ⟨_, _, h3, _, h5⟩ := hinv
  have hmaps : ∀ j ∈ Finset.range n,
      (st.argIndex j).toNat ∈ (Finset.range passedArgs.length).erase i := by
    intro j hj
    have hjn : j < n := Finset.mem_range.mp hj
    obtain ⟨i1, a1, e1, e2, e3, _⟩ := h3 j hjn (hall j hjn)
    rw [e2, Int.toNat_ofNat]
    refine Finset.mem_erase.mpr ⟨?_, Finset.mem_range.mpr (List.getElem?_eq_some_iff.mp e1).1⟩
    intro hh
    rw [hh, ht] at e3
    exact Bool.noConfusion e3
  have hinj : Set.InjOn (fun j => (st.argIndex j).toNat) (Finset.range n : Set ℕ) := by
    intro j hj k hk hjk
    have hjn : j < n := Finset.mem_range.mp hj
    have hkn : k < n := Finset.mem_range.mp hk
    obtain ⟨i1, _, _, e2, _⟩ := h3 j hjn (hall j hjn)
    obtain ⟨i2, _, _, f2, _⟩ := h3 k hkn (hall k hkn)
    simp only [e2, f2, Int.toNat_ofNat] at hjk
    exact h5 j k hjn hkn (hall j hjn) (hall k hkn) (by rw [e2, f2, hjk])
  have hcard := Finset.card_le_card_of_injOn _ hmaps hinj
  rw [Finset.card_erase_of_mem (Finset.mem_range.mpr hi), Finset.card_range,
    Finset.card_range] at hcard
  omega

theorem unusedLoop_inv {V : Type} (rules : List (ArgumentRule V)) (once : Bool)
    {passedArgs : List (Argument V)} {n : ℕ} (hn : numRegularRules rules = n)
    (hsize : passedArgs.length ≤ n) :
    ∀ (as : List (Argument V)) (i0 : ℕ) (st st1 : MatchState V), passedArgs.drop i0 = as →
      st.Inv passedArgs n (fun i a => a.getLabel ≠ "" ∨ i < i0) →
      (∀ i, i < i0 → i < passedArgs.length → st.isTaken i = true) →
      (∀ i a, passedArgs[i]? = some a → a.getLabel ≠ "" → st.isTaken i = true) →
      unusedLoop rules once i0 as st = Except.ok st1 →
      st1.Inv passedArgs n (fun _ _ => True) ∧
      (∀ i, i < passedArgs.length → st1.isTaken i = true) ∧
      ∀ (i : ℕ) (a : Argument V), i0 ≤ i → passedArgs[i]? = some a → a.getLabel = "" →
        ∀ j, j < n → st1.argIndex j = (i : Int) → ∀ k, k < j →
          ∃ (i1 : ℕ) (a1 : Argument V), passedArgs[i1]? = some a1 ∧
            st1.argIndex k = (i1 : Int) ∧ (a1.getLabel ≠ "" ∨ i1 < i) := by
  intro as
  induction as with
  | nil =>
    intro i0 st st1 hdrop hinv hbelow _ h
    simp only [unusedLoop, Except.ok.injEq] at h
    subst h
    have hle : passedArgs.length ≤ i0 := List.drop_eq_nil_iff.mp hdrop
    refine ⟨MatchState.Inv_mono hinv (fun _ _ _ => trivial),
      fun i hi => hbelow i (by omega) hi, ?_⟩
    intro i a hi ha
    have := (List.getElem?_eq_some_iff.mp ha).1
    omega
  | cons a0 as ih =>
    intro i0 st st1 hdrop hinv hbelow hlabelled h
    obtain ⟨ha0, hdrop1⟩ := drop_eq_cons hdrop
    have hi0 : i0 < passedArgs.length := (List.getElem?_eq_some_iff.mp ha0).1
    simp only [unusedLoop] at h
    split_ifs at h with h1
    · obtain ⟨c1, c2, c3⟩ := ih (i0 + 1) st st1 hdrop1
        (MatchState.Inv_mono hinv (fun i a hp => hp.imp id (fun hlt => by omega)))
        (fun i hi hl => by
          by_cases e : i = i0
          · rw [e]; exact h1
          · exact hbelow i (by omega) hl)
        hlabelled h
      refine ⟨c1, c2, fun i a hi ha hun => ?_⟩
      by_cases e : i = i0
      · exfalso
        subst e
        have hae : a0 = a := Option.some.inj (ha0.symm.trans ha)
        subst hae
        obtain ⟨j, hj, f1, f2⟩ := hinv.2.2.2.1 i hi0 h1
        obtain ⟨i1, a1, e1, e2, _, e4, _⟩ := hinv.2.2.1 j hj f1
        rw [f2] at e2
        have hii : i = i1 := by exact_mod_cast e2
        subst hii
        have hae : a0 = a1 := Option.some.inj (ha0.symm.trans e1)
        subst hae
        rcases e4 with e4 | e4
        · exact e4 hun
        · omega
      · exact c3 i a (by omega) ha hun
    · have ht : st.isTaken i0 = false := by simpa using h1
      cases hin : unusedInner rules a0 i0 once (List.range (numRegularRules rules)) st with
      | error e => simp [hin] at h
      | ok st2 =>
        simp only [hin] at h
        have hun0 : a0.getLabel = "" := by
          by_contra hl
          rw [hlabelled i0 a0 ha0 hl] at ht
          exact Bool.noConfusion ht
        rcases unusedInner_spec rules a0 i0 once _ st st2 hin with ⟨hall, _⟩ |
          ⟨pre, j, post, r, e, hpre, hf, hr, hval, e1⟩
        · exact (MatchState.Inv_no_room hinv hsize
            (fun j hj => hall j (List.mem_range.mpr (by omega))) hi0 ht).elim
        · obtain ⟨hjm, hlow⟩ := range_split e
          have hj : j < n := by omega
          have wf := hinv.1
          have inv2 : st2.Inv passedArgs n (fun i a => a.getLabel ≠ "" ∨ i < i0 + 1) := by
            have invm : st.Inv passedArgs n (fun i a => a.getLabel ≠ "" ∨ i < i0 + 1) :=
              MatchState.Inv_mono hinv (fun i a hp => hp.imp id (fun hlt => by omega))
            rw [e1]
            exact MatchState.Inv_fill invm r ha0 (Or.inr (Nat.lt_succ_self i0)) hj once ht hf
          have eT := MatchState.isTaken_fill wf r a0 hi0 j once
          have t1 : st.Touches st2 passedArgs.length n i0 (i0 + 1) := by
            rw [e1]
            exact MatchState.Touches_fill wf r a0 hi0 hj once hf
          have t2 := unusedLoop_touches rules once (le_of_eq hn) as (i0 + 1) st2 st1
            (by
              have : as.length = passedArgs.length - (i0 + 1) := by
                rw [← hdrop1, List.length_drop]
              omega) inv2.1 h
          obtain ⟨c1, c2, c3⟩ := ih (i0 + 1) st2 st1 hdrop1 inv2
            (fun i hi hl => by
              rw [e1, eT]
              split_ifs with e
              · rfl
              · exact hbelow i (by omega) hl)
            (fun i a ha hl => t1.2.1.1 i (hlabelled i a ha hl)) h
          refine ⟨c1, c2, fun i a hi ha hun => ?_⟩
          by_cases e : i = i0
          · subst e
            intro j1 hj1 hidx k hk
            have f2 : st2.isFilled j = true := by
              rw [e1, MatchState.isFilled_fill wf r a0 i hj once j, if_pos rfl]
            have a2 : st2.argIndex j = (i : Int) := by
              rw [e1, MatchState.argIndex_fill wf r a0 i hj once j, if_pos rfl]
            obtain ⟨g1, g2, _⟩ := t2.2.1.2 j f2
            have hf1 : st1.isFilled j1 = true := by
              cases hb : st1.isFilled j1 with
              | true => rfl
              | false =>
                have := (c1.2.1 j1 hj1 hb).1
                rw [hidx] at this
                omega
            have hjj : j1 = j := c1.2.2.2.2 j1 j hj1 hj hf1 g1 (by rw [hidx, g2, a2])
            subst hjj
            have hfk : st.isFilled k = true := hpre k (hlow k hk)
            obtain ⟨i1, a1, e2, e3, _, e5, _⟩ := hinv.2.2.1 k (by omega) hfk
            refine ⟨i1, a1, e2, ?_, e5⟩
            obtain ⟨u1, u2, _⟩ := t1.2.1.2 k hfk
            obtain ⟨_, v2, _⟩ := t2.2.1.2 k u1
            rw [v2, u2, e3]
          · exact c3 i a (by omega) ha hun

theorem numFinalArgs_of_no_ellipsis {V : Type} (rules : List (ArgumentRule V))
    (passedArgs : List (Argument V)) (hne : hasEllipsis rules = false) :
    numFinalArgs rules passedArgs = rules.length := by
  unfold numFinalArgs
  rw [if_neg (by rw [hne]; exact Bool.false_ne_true)]

theorem numRegularRules_of_no_ellipsis {V : Type} (rules : List (ArgumentRule V))
    (hne : hasEllipsis rules = false) : numRegularRules rules = rules.length := by
  unfold numRegularRules
  rw [if_neg (by rw [hne]; exact Bool.false_ne_true)]

theorem processArguments_too_many {V : Type} (rules : List (ArgumentRule V))
    (passedArgs : List (Argument V)) (once : Bool)
    (h : numFinalArgs rules passedArgs < passedArgs.length) :
    processArguments rules passedArgs once = Except.error Stop.returnFalse := by
  simp only [processArguments, afterPartial, afterExact, initialState, if_pos h]

/-- C19 (amended): for a rule list without an ellipsis whose non-empty labels are pairwise
distinct, `processArguments` returns `false` when more arguments are passed than there are
rules, it indexes no rule out of bounds, and when it returns `true`: every passed argument
is the argument of exactly one slot; every slot holds either the variable of the passed
argument recorded for it, or, with no argument recorded, the default of its rule, which
has one; and the slot of an unlabelled argument `i` is the first one that is not bound to a
labelled argument or to an argument passed before `i`. -/
theorem slots_and_arguments_bound {V : Type} (rules : List (ArgumentRule V))
    (passedArgs : List (Argument V)) (evaluateOnce : Bool)
    (hne : hasEllipsis rules = false) (hd : DistinctLabels rules) :
    (rules.length < passedArgs.length →
      processArguments rules passedArgs evaluateOnce = Except.error Stop.returnFalse) ∧
    processArguments rules passedArgs evaluateOnce ≠ Except.error Stop.outOfBounds ∧
    ∀ st, processArguments rules passedArgs evaluateOnce = Except.ok st →
      (∀ i, i < passedArgs.length → ∃ j, j < rules.length ∧ st.argIndex j = (i : Int) ∧
        ∀ k, k < rules.length → st.argIndex k = (i : Int) → k = j) ∧
      (∀ j, j < rules.length →
        (∃ (i : ℕ) (a : Argument V) (c : Bool), passedArgs[i]? = some a ∧
          st.argIndex j = (i : Int) ∧ st.slot j = SlotValue.passed a.getVariable c) ∨
        (st.argIndex j = -1 ∧ st.slot j = SlotValue.defaultValue ∧
          ∃ r, rules[j]? = some r ∧ r.hasDefault = true)) ∧
      ∀ (i : ℕ) (a : Argument V), passedArgs[i]? = some a → a.getLabel = "" →
        ∀ j, j < rules.length → st.argIndex j = (i : Int) → ∀ k, k < j →
          ∃ (i1 : ℕ) (a1 : Argument V), passedArgs[i1]? = some a1 ∧
            st.argIndex k = (i1 : Int) ∧ (a1.getLabel ≠ "" ∨ i1 < i) := by
  have hnf := numFinalArgs_of_no_ellipsis rules passedArgs hne
  have hnr := numRegularRules_of_no_ellipsis rules hne
  refine ⟨fun hlt => processArguments_too_many rules passedArgs evaluateOnce
      (by rw [hnf]; exact hlt),
    processArguments_inBounds rules passedArgs evaluateOnce
      (fun hh => by rw [hne] at hh; exact Bool.noConfusion hh.1), ?_⟩
  intro st hres
  obtain ⟨st0, st1, st2, st3, st4, h0, h1, h2, _, h3, _, h4, h5⟩ :=
    processArguments_ok rules passedArgs evaluateOnce st hres
  obtain ⟨hsize, wf0, tk0, fl0, ai0, sl0⟩ := initialState_spec rules passedArgs st0 h0
  rw [hnf] at hsize wf0
  have e1 : st1 = st0 := by
    unfold ellipsisPhase at h1
    rw [if_neg (fun hh => by rw [hne] at hh; exact Bool.noConfusion hh.1)] at h1
    exact (Except.ok.inj h1).symm
  subst e1
  have inv0 : st1.Inv passedArgs rules.length (fun _ a => a.getLabel ≠ "") := by
    refine ⟨wf0, fun j _ _ => ⟨ai0 j, sl0 j⟩, fun j _ hf => ?_, fun i _ ht => ?_,
      fun j _ _ _ hf => ?_⟩
    · rw [fl0 j] at hf
      exact Bool.noConfusion hf
    · rw [tk0 i] at ht
      exact Bool.noConfusion ht
    · rw [fl0 j] at hf
      exact Bool.noConfusion hf
  have inv2 := exactLoop_inv rules hd evaluateOnce (le_of_eq hnr) passedArgs 0 st1 st2 rfl
    inv0 h2
  have inv3 := partialLoop_inv rules evaluateOnce (le_of_eq hnr) passedArgs 0 st2 st3 rfl
    inv2 h3
  have lab3 : ∀ i a, passedArgs[i]? = some a → a.getLabel ≠ "" → st3.isTaken i = true :=
    fun i a ha hl => partialLoop_labelled_taken rules evaluateOnce (le_of_eq hnr) passedArgs 0
      st2 st3 (by omega) inv2.1 h3 i a (Nat.zero_le i) (by simpa using ha) hl
  obtain ⟨inv4, all4, ord4⟩ := unusedLoop_inv rules evaluateOnce hnr hsize passedArgs 0 st3 st4
    rfl (MatchState.Inv_mono inv3 (fun _ _ hp => Or.inl hp)) (fun i hi _ => by omega) lab3 h4
  obtain ⟨_, d2, d3, _, d5, _, d7⟩ := defaultLoop_spec rules _ st4 st
    (fun j hj => by rw [← hnr]; exact List.mem_range.mp hj) inv4.1 h5
  have hA : ∀ j, st.argIndex j = st4.argIndex j := argIndex_eq_of_passedArgIndex_eq d3
  have hfilled : ∀ j (i : ℕ), j < rules.length → st4.argIndex j = (i : Int) →
      st4.isFilled j = true := by
    intro j i hj hji
    cases hb : st4.isFilled j with
    | true => rfl
    | false =>
      have := (inv4.2.1 j hj hb).1
      rw [hji] at this
      omega
  refine ⟨fun i hi => ?_, fun j hj => ?_, fun i a ha hun j hj hji k hk => ?_⟩
  · obtain ⟨j, hj, f1, f2⟩ := inv4.2.2.2.1 i hi (all4 i hi)
    refine ⟨j, hj, by rw [hA, f2], fun k hk hki => ?_⟩
    rw [hA] at hki
    exact inv4.2.2.2.2 k j hk hj (hfilled k i hk hki) f1 (by rw [hki, f2])
  · cases hb : st4.isFilled j with
    | true =>
      obtain ⟨i, a, g1, g2, _, _, c, g5⟩ := inv4.2.2.1 j hj hb
      exact Or.inl ⟨i, a, c, g1, by rw [hA, g2], by rw [d5 j hb, g5]⟩
    | false =>
      obtain ⟨s1, s2⟩ := d7 j (List.mem_range.mpr (by rw [hnr]; exact hj)) hb
      exact Or.inr ⟨by rw [hA]; exact (inv4.2.1 j hj hb).1, s1, s2⟩
  · rw [hA] at hji
    obtain ⟨i1, a1, g1, g2, g3⟩ := ord4 i a (Nat.zero_le i) ha hun j hj hji k hk
    exact ⟨i1, a1, g1, by rw [hA, g2], g3⟩

/-- Witness for `slots_and_arguments_bound`: four rules and three passed arguments. -/
theorem slots_and_arguments_bound_witness :
    ∃ st, processArguments exampleRules exampleArgs true = Except.ok st ∧
      ∀ i, i < exampleArgs.length →
        ∃ j, j < exampleRules.length ∧ st.argIndex j = (i : Int) ∧
          ∀ k, k < exampleRules.length → st.argIndex k = (i : Int) → k = j :=
  ⟨_, rfl, ((slots_and_arguments_bound exampleRules exampleArgs true rfl
    (by unfold DistinctLabels; decide)).2.2 _ rfl).1⟩

/-- C19, counterexample: with the two rules labelled "x" and the passed arguments `x = 1`
and `2`, the rule list has no ellipsis and `processArguments` returns `true` with the first
argument in both slots and the second argument in none. -/
theorem duplicate_label_binds_twice :
    hasEllipsis duplicateRules = false ∧
    ∃ st, processArguments duplicateRules duplicateArgs true = Except.ok st ∧
      st.argIndex 0 = 0 ∧ st.argIndex 1 = 0 ∧
      st.slot 0 = SlotValue.passed (some 1) false ∧
      st.slot 1 = SlotValue.passed (some 1) false :=
  ⟨rfl, _, rfl, rfl, rfl, rfl, rfl⟩

/-! ### C26: indexing the rule list -/

theorem emptySlots_outOfBounds {V : Type} (rules : List (ArgumentRule V)) :
    ∀ (is : List ℕ) (args : List (SlotValue V)), (∃ i ∈ is, rules.length ≤ i) →
      emptySlots rules is args = Except.error Stop.outOfBounds := by
  intro is
  induction is with
  | nil => intro args h; simp at h
  | cons i is ih =>
    intro args h
    by_cases hi : i < rules.length
    · simp only [emptySlots, List.getElem?_eq_getElem hi]
      apply ih
      obtain ⟨k, hk, hle⟩ := h
      rcases List.mem_cons.mp hk with e | e
      · omega
      · exact ⟨k, e, hle⟩
    · simp only [emptySlots, List.getElem?_eq_none (not_lt.mp hi)]

theorem processArguments_outOfBounds {V : Type} (rules : List (ArgumentRule V))
    (passedArgs : List (Argument V)) (once : Bool)
    (h : hasEllipsis rules = true ∧ rules.length < passedArgs.length) :
    processArguments rules passedArgs once = Except.error Stop.outOfBounds := by
  have hnf : numFinalArgs rules passedArgs = passedArgs.length := by
    unfold numFinalArgs
    rw [if_pos h.1, if_neg (by omega)]
  have hempty : emptySlots rules (List.range (numFinalArgs rules passedArgs)) [] =
      Except.error Stop.outOfBounds :=
    emptySlots_outOfBounds rules _ _
      ⟨rules.length, List.mem_range.mpr (by rw [hnf]; exact h.2), le_refl _⟩
  simp only [processArguments, afterPartial, afterExact, initialState, hempty]
  rw [if_neg (by rw [hnf]; omega)]

/-- C26 at the failing input: the only rule is an ellipsis, as for `Func_v_int`, and two
arguments are passed.  `numFinalArgs` is 2, so the loop that creates the slots reads
`theRules[1]`, past the end of the rule list (`nRules` is 1).  In general the call reads
past the end exactly when the last rule is an ellipsis and more than `nRules` arguments
are passed. -/
theorem ellipsis_rule_indexed_out_of_bounds :
    hasEllipsis [ellipsisRule] = true ∧
    numFinalArgs [ellipsisRule] [⟨"", some 1⟩, ⟨"", some 2⟩] = 2 ∧
    emptySlots [ellipsisRule] (List.range 2) [] = Except.error Stop.outOfBounds ∧
    processArguments [ellipsisRule] [⟨"", some 1⟩, ⟨"", some 2⟩] true =
      Except.error Stop.outOfBounds ∧
    ∀ (rules : List (ArgumentRule ℕ)) (passedArgs : List (Argument ℕ)) (once : Bool),
      processArguments rules passedArgs once = Except.error Stop.outOfBounds ↔
        hasEllipsis rules = true ∧ rules.length < passedArgs.length := by
  refine ⟨rfl, rfl, rfl, rfl, fun rules passedArgs once => ⟨fun h => ?_, fun h => ?_⟩⟩
  · by_contra hn
    exact processArguments_inBounds rules passedArgs once hn h
  · exact processArguments_outOfBounds rules passedArgs once h

/-! ### C18: labelled arguments -/

theorem exactInner_ok {V : Type} (rules : List (ArgumentRule V)) (a : Argument V)
    {i size n : ℕ} (hi : i < size) (once : Bool) :
    ∀ (js : List ℕ) (st : MatchState V), js.Nodup → (∀ j ∈ js, j < n ∧ j < rules.length) →
      st.WF size n →
      (∀ j ∈ js, ∀ r, rules[j]? = some r → r.getArgLabel = a.getLabel →
        r.isArgValid a.getVariable once = true ∧ st.isFilled j = false) →
      ∃ st1, exactInner rules a i once js st = Except.ok st1 ∧ st1.WF size n ∧
        (∀ j ∈ js, ∀ r, rules[j]? = some r → r.getArgLabel = a.getLabel →
          st1.isFilled j = true ∧ st1.argIndex j = (i : Int) ∧
            st1.slot j =
              SlotValue.passed a.getVariable (r.conversionNeeded a.getVariable once)) ∧
        (∀ j, (j ∈ js → ∀ r, rules[j]? = some r → r.getArgLabel ≠ a.getLabel) →
          st1.isFilled j = st.isFilled j ∧ st1.argIndex j = st.argIndex j ∧
            st1.slot j = st.slot j) ∧
        (∀ k, k ≠ i → st1.isTaken k = st.isTaken k) ∧
        ((∃ j ∈ js, ∃ r, rules[j]? = some r ∧ r.getArgLabel = a.getLabel) →
          st1.isTaken i = true) := by
  intro js
  induction js with
  | nil =>
    intro st _ _ hwf _
    exact ⟨st, rfl, hwf, fun j hj => by simp at hj, fun j _ => ⟨rfl, rfl, rfl⟩,
      fun k _ => rfl, fun ⟨j, hj, _⟩ => by simp at hj⟩
  | cons j0 js ih =>
    intro st hnd hb hwf hgood
    rw [List.nodup_cons] at hnd
    obtain ⟨hj0n, hj0r⟩ := hb j0 (List.mem_cons_self j0 js)
    have hb1 : ∀ j ∈ js, j < n ∧ j < rules.length :=
      fun j hj => hb j (List.mem_cons_of_mem j0 hj)
    have hr : rules[j0]? = some rules[j0] := List.getElem?_eq_getElem hj0r
    by_cases hl : a.getLabel = (rules[j0]).getArgLabel
    · obtain ⟨hv, hf⟩ := hgood j0 (List.mem_cons_self j0 js) _ hr hl.symm
      have hwf1 := MatchState.WF_fill hwf (rules[j0]) a i j0 once
      have hgood1 : ∀ j ∈ js, ∀ r, rules[j]? = some r → r.getArgLabel = a.getLabel →
          r.isArgValid a.getVariable once = true ∧
            (st.fill (rules[j0]) a i j0 once).isFilled j = false := by
        intro j hj r hrj hlj
        obtain ⟨g1, g2⟩ := hgood j (List.mem_cons_of_mem j0 hj) r hrj hlj
        have hne : j ≠ j0 := fun h => hnd.1 (h ▸ hj)
        rw [MatchState.isFilled_fill hwf _ a i hj0n once j, if_neg hne]
        exact ⟨g1, g2⟩
      obtain ⟨st1, e, w, c1, c2, c3, c4⟩ := ih _ hnd.2 hb1 hwf1 hgood1
      refine ⟨st1, ?_, w, ?_, ?_, ?_, ?_⟩
      · simp only [exactInner, hr]
        rw [if_pos hl, if_pos ⟨hv, hf⟩]
        exact e
      · intro j hj r hrj hlj
        rcases List.mem_cons.mp hj with hjj | hjj
        · subst hjj
          have hrr : rules[j] = r := Option.some.inj (hr.symm.trans hrj)
          obtain ⟨d1, d2, d3⟩ := c2 j (fun hmem => absurd hmem hnd.1)
          rw [d1, d2, d3, MatchState.isFilled_fill hwf _ a i hj0n once j,
            MatchState.argIndex_fill hwf _ a i hj0n once j,
            MatchState.slot_fill hwf _ a i hj0n once j, if_pos rfl, if_pos rfl, if_pos rfl,
            hrr]
          exact ⟨rfl, rfl, rfl⟩
        · exact c1 j hjj r hrj hlj
      · intro j hj
        have hne : j ≠ j0 := by
          intro h
          subst h
          exact hj (List.mem_cons_self _ _) _ hr hl.symm
        obtain ⟨d1, d2, d3⟩ := c2 j (fun hmem => hj (List.mem_cons_of_mem j0 hmem))
        rw [d1, d2, d3, MatchState.isFilled_fill hwf _ a i hj0n once j,
          MatchState.argIndex_fill hwf _ a i hj0n once j,
          MatchState.slot_fill hwf _ a i hj0n once j, if_neg hne, if_neg hne, if_neg hne]
        exact ⟨rfl, rfl, rfl⟩
      · intro k hk
        rw [c3 k hk, MatchState.isTaken_fill hwf _ a hi j0 once k, if_neg hk]
      · intro _
        by_cases hex : ∃ j ∈ js, ∃ r, rules[j]? = some r ∧ r.getArgLabel = a.getLabel
        · exact c4 hex
        · have hst : st1 = st.fill (rules[j0]) a i j0 once :=
            exactInner_no_match rules a i once js _ st1
              (fun j hj r hrj hlj => hex ⟨j, hj, r, hrj, hlj.symm⟩) e
          rw [hst, MatchState.isTaken_fill hwf _ a hi j0 once i, if_pos rfl]
    · have hgood1 : ∀ j ∈ js, ∀ r, rules[j]? = some r → r.getArgLabel = a.getLabel →
          r.isArgValid a.getVariable once = true ∧ st.isFilled j = false :=
        fun j hj => hgood j (List.mem_cons_of_mem j0 hj)
      obtain ⟨st1, e, w, c1, c2, c3, c4⟩ := ih st hnd.2 hb1 hwf hgood1
      refine ⟨st1, ?_, w, ?_, ?_, c3, ?_⟩
      · simp only [exactInner, hr]
        rw [if_neg hl]
        exact e
      · intro j hj r hrj hlj
        rcases List.mem_cons.mp hj with hjj | hjj
        · subst hjj
          have hrr : rules[j] = r := Option.some.inj (hr.symm.trans hrj)
          exact absurd (hrr ▸ hlj.symm) hl
        · exact c1 j hjj r hrj hlj
      · intro j hj
        exact c2 j (fun hmem => hj (List.mem_cons_of_mem j0 hmem))
      · rintro ⟨j, hj, r, hrj, hlj⟩
        rcases List.mem_cons.mp hj with hjj | hjj
        · subst hjj
          have hrr : rules[j] = r := Option.some.inj (hr.symm.trans hrj)
          exact absurd (hrr ▸ hlj.symm) hl
        · exact c4 ⟨j, hjj, r, hrj, hlj⟩

theorem exactInner_fail {V : Type} (rules : List (ArgumentRule V)) (a : Argument V)
    {i size n : ℕ} (once : Bool) :
    ∀ (js : List ℕ) (st : MatchState V), js.Nodup → (∀ j ∈ js, j < n ∧ j < rules.length) →
      st.WF size n →
      (∃ j ∈ js, ∃ r, rules[j]? = some r ∧ r.getArgLabel = a.getLabel ∧
        (r.isArgValid a.getVariable once = false ∨ st.isFilled j = true)) →
      exactInner rules a i once js st = Except.error Stop.returnFalse := by
  intro js
  induction js with
  | nil => intro st _ _ _ ⟨j, hj, _⟩; simp at hj
  | cons j0 js ih =>
    intro st hnd hb hwf hbad
    rw [List.nodup_cons] at hnd
    obtain ⟨hj0n, hj0r⟩ := hb j0 (List.mem_cons_self j0 js)
    have hb1 : ∀ j ∈ js, j < n ∧ j < rules.length :=
      fun j hj => hb j (List.mem_cons_of_mem j0 hj)
    have hr : rules[j0]? = some rules[j0] := List.getElem?_eq_getElem hj0r
    simp only [exactInner, hr]
    obtain ⟨j, hj, r, hrj, hlj, hbadj⟩ := hbad
    by_cases hl : a.getLabel = (rules[j0]).getArgLabel
    · rw [if_pos hl]
      by_cases hg : (rules[j0]).isArgValid a.getVariable once = true ∧ st.isFilled j0 = false
      · rw [if_pos hg]
        have hne : j ≠ j0 := by
          intro h
          subst h
          have hrr : rules[j] = r := Option.some.inj (hr.symm.trans hrj)
          rw [← hrr] at hbadj
          rcases hbadj with h1 | h1
          · rw [hg.1] at h1; exact Bool.noConfusion h1
          · rw [hg.2] at h1; exact Bool.noConfusion h1
        have hjs : j ∈ js := (List.mem_cons.mp hj).resolve_left hne
        apply ih _ hnd.2 hb1 (MatchState.WF_fill hwf _ a i j0 once)
        refine ⟨j, hjs, r, hrj, hlj, ?_⟩
        rw [MatchState.isFilled_fill hwf _ a i hj0n once j, if_neg hne]
        exact hbadj
      · rw [if_neg hg]
    · rw [if_neg hl]
      have hne : j ≠ j0 := by
        intro h
        subst h
        have hrr : rules[j] = r := Option.some.inj (hr.symm.trans hrj)
        exact hl (hrr ▸ hlj.symm)
      exact ih st hnd.2 hb1 hwf ⟨j, (List.mem_cons.mp hj).resolve_left hne, r, hrj, hlj, hbadj⟩

theorem exactLoop_take {V : Type} (rules : List (ArgumentRule V)) (once : Bool)
    {size n : ℕ} (hn : numRegularRules rules ≤ n) :
    ∀ (m : ℕ) (as : List (Argument V)) (i0 : ℕ) (st : MatchState V), m ≤ as.length →
      i0 + as.length ≤ size → st.WF size n →
      (∀ k, i0 ≤ k → k < i0 + m → st.isTaken k = false) →
      exactLoop rules once i0 as st =
        match exactLoop rules once i0 (as.take m) st with
        | Except.error e => Except.error e
        | Except.ok st1 => exactLoop rules once (i0 + m) (as.drop m) st1 := by
  intro m
  induction m with
  | zero => intro as i0 st _ _ _ _; simp [exactLoop]
  | succ m ih =>
    intro as i0 st hm hlen hwf hunt
    cases as with
    | nil => simp at hm
    | cons a as =>
      simp only [List.length_cons] at hm hlen
      have h0 : st.isTaken i0 = false := hunt i0 (le_refl _) (by omega)
      simp only [List.take_succ_cons, List.drop_succ_cons, exactLoop, h0, Bool.false_eq_true,
        if_false]
      have e2 : i0 + (m + 1) = i0 + 1 + m := by omega
      by_cases hl : a.getLabel.length = 0
      · simp only [hl, if_true]
        rw [e2]
        exact ih as (i0 + 1) st (by omega) (by omega) hwf
          (fun k hk1 hk2 => hunt k (by omega) (by omega))
      · simp only [hl, if_false]
        cases hin : exactInner rules a i0 once (List.range (numRegularRules rules)) st with
        | error e => rfl
        | ok st2 =>
          simp only
          have t1 := exactInner_touches rules a (by omega : i0 < size) once _ st st2
            (fun j hj => lt_of_lt_of_le (List.mem_range.mp hj) hn) hwf hin
          rw [e2]
          exact ih as (i0 + 1) st2 (by omega) (by omega) t1.1
            (fun k hk1 hk2 => by
              rw [t1.2.2 k (by omega)]
              exact hunt k (by omega) (by omega))

theorem take_succ_eq_append {α : Type} (l : List α) (i : ℕ) (a : α) (h : l[i]? = some a) :
    l.take (i + 1) = l.take i ++ [a] := by
  obtain ⟨hlt, hget⟩ := List.getElem?_eq_some_iff.mp h
  rw [List.take_succ, h]
  rfl

theorem beforeExact_step {V : Type} (rules : List (ArgumentRule V))
    (passedArgs : List (Argument V)) (once : Bool) (i : ℕ) (a : Argument V)
    (st : MatchState V) (ha : passedArgs[i]? = some a) (hlab : a.getLabel ≠ "")
    (hns : ¬ swallowed rules passedArgs i)
    (h : beforeExact rules passedArgs once i = Except.ok st) :
    st.WF passedArgs.length (numFinalArgs rules passedArgs) ∧ st.isTaken i = false ∧
    beforeExact rules passedArgs once (i + 1) =
      exactInner rules a i once (List.range (numRegularRules rules)) st ∧
    afterExact rules passedArgs once =
      match beforeExact rules passedArgs once (i + 1) with
      | Except.error e => Except.error e
      | Except.ok st1 => exactLoop rules once (i + 1) (passedArgs.drop (i + 1)) st1 := by
  have hn := numRegularRules_le_numFinalArgs rules passedArgs
  obtain ⟨hilt, _⟩ := List.getElem?_eq_some_iff.mp ha
  unfold beforeExact afterExact
  unfold beforeExact at h
  cases h0 : initialState rules passedArgs with
  | error e => simp [h0] at h
  | ok st0 =>
    simp only [h0] at h ⊢
    cases h1 : ellipsisPhase rules passedArgs once st0 with
    | error e => simp [h1] at h
    | ok st1 =>
      simp only [h1] at h ⊢
      obtain ⟨_, wf0, tk0, _, _, _⟩ := initialState_spec rules passedArgs st0 h0
      obtain ⟨wf1, same1⟩ := ellipsisPhase_spec rules passedArgs once st0 st1 wf0 h1
      have hunt : ∀ k, k ≤ i → st1.isTaken k = false := fun k hk => by
        rw [(same1 k (not_swallowed_of_le hns hk)).1]
        exact tk0 k
      have hlen : (passedArgs.take i).length = i := by
        rw [List.length_take]; omega
      have ti := exactLoop_touches rules once hn (passedArgs.take i) 0 st1 st
        (by rw [hlen]; omega) wf1 h
      have hti : st.isTaken i = false := by
        rw [ti.2.2 i (Or.inr (by rw [hlen]; omega))]
        exact hunt i (le_refl i)
      refine ⟨ti.1, hti, ?_, ?_⟩
      · have e := exactLoop_take rules once hn i (passedArgs.take (i + 1)) 0 st1
          (by rw [List.length_take]; omega) (by rw [List.length_take]; omega) wf1
          (fun k _ hk => hunt k (by omega))
        rw [take_succ_eq_append passedArgs i a ha] at e ⊢
        rw [e, List.take_left' hlen, h, List.drop_left' hlen, Nat.zero_add]
        simp only [exactLoop, hti, Bool.false_eq_true, if_false]
        rw [if_neg (fun hz => hlab ((label_length_eq_zero _).mp hz))]
        cases exactInner rules a i once (List.range (numRegularRules rules)) st <;> rfl
      · have e := exactLoop_take rules once hn (i + 1) passedArgs 0 st1 (by omega) (by omega)
          wf1 (fun k _ hk => hunt k (by omega))
        rw [Nat.zero_add] at e
        exact e

theorem beforePartial_step {V : Type} (rules : List (ArgumentRule V))
    (passedArgs : List (Argument V)) (once : Bool) (i : ℕ) (a : Argument V)
    (ha : passedArgs[i]? = some a) :
    beforePartial rules passedArgs once (i + 1) =
      (match beforePartial rules passedArgs once i with
      | Except.error e => Except.error e
      | Except.ok sti => partialStep rules once i a sti) ∧
    afterPartial rules passedArgs once =
      match beforePartial rules passedArgs once (i + 1) with
      | Except.error e => Except.error e
      | Except.ok st1 => partialLoop rules once (i + 1) (passedArgs.drop (i + 1)) st1 := by
  obtain ⟨hilt, _⟩ := List.getElem?_eq_some_iff.mp ha
  have hlen : (passedArgs.take i).length = i := by
    rw [List.length_take]; omega
  have hlen1 : (passedArgs.take (i + 1)).length = i + 1 := by
    rw [List.length_take]; omega
  unfold beforePartial afterPartial
  cases h2 : afterExact rules passedArgs once with
  | error e => exact ⟨rfl, rfl⟩
  | ok st2 =>
    simp only
    constructor
    · rw [take_succ_eq_append passedArgs i a ha, partialLoop_append, hlen, Nat.zero_add]
      cases partialLoop rules once 0 (passedArgs.take i) st2 with
      | error e => rfl
      | ok sti =>
        simp only [partialLoop]
        cases partialStep rules once i a sti <;> rfl
    · have e := partialLoop_append rules once (passedArgs.take (i + 1))
        (passedArgs.drop (i + 1)) 0 st2
      rw [List.take_append_drop, hlen1, Nat.zero_add] at e
      exact e

theorem processArguments_of_afterExact {V : Type} (rules : List (ArgumentRule V))
    (passedArgs : List (Argument V)) (once : Bool) (e : Stop)
    (h : afterExact rules passedArgs once = Except.error e) :
    processArguments rules passedArgs once = Except.error e := by
  simp only [processArguments, afterPartial, h]

theorem processArguments_of_afterPartial {V : Type} (rules : List (ArgumentRule V))
    (passedArgs : List (Argument V)) (once : Bool) (e : Stop)
    (h : afterPartial rules passedArgs once = Except.error e) :
    processArguments rules passedArgs once = Except.error e := by
  simp only [processArguments, h]

theorem partialInner_none {V : Type} (rules : List (ArgumentRule V)) (a : Argument V)
    (st : MatchState V) :
    ∀ (js : List ℕ) (acc : ℕ × Int), (∀ j ∈ js, j < rules.length) →
      (∀ j ∈ js, ¬ PartialMatch rules a st j) →
      partialInner rules a st js acc = Except.ok acc := by
  intro js
  induction js with
  | nil => intro acc _ _; rfl
  | cons j0 js ih =>
    intro acc hb hno
    have hj0 : j0 < rules.length := hb j0 (List.mem_cons_self j0 js)
    have hr : rules[j0]? = some rules[j0] := List.getElem?_eq_getElem hj0
    simp only [partialInner, hr]
    rw [if_neg (fun h => hno j0 (List.mem_cons_self j0 js) ⟨_, hr, h.1, h.2⟩)]
    exact ih acc (fun j hj => hb j (List.mem_cons_of_mem j0 hj))
      (fun j hj => hno j (List.mem_cons_of_mem j0 hj))

theorem partialInner_unique {V : Type} (rules : List (ArgumentRule V)) (a : Argument V)
    (st : MatchState V) (j : ℕ) (hp : PartialMatch rules a st j) :
    ∀ (js : List ℕ) (acc : ℕ × Int), js.Nodup → (∀ k ∈ js, k < rules.length) → j ∈ js →
      (∀ k ∈ js, PartialMatch rules a st k → k = j) →
      partialInner rules a st js acc = Except.ok (acc.1 + 1, (j : Int)) := by
  intro js
  induction js with
  | nil => intro acc _ _ hj; simp at hj
  | cons j0 js ih =>
    intro acc hnd hb hj hu
    rw [List.nodup_cons] at hnd
    have hj0 : j0 < rules.length := hb j0 (List.mem_cons_self j0 js)
    have hr : rules[j0]? = some rules[j0] := List.getElem?_eq_getElem hj0
    have hb1 : ∀ k ∈ js, k < rules.length := fun k hk => hb k (List.mem_cons_of_mem j0 hk)
    simp only [partialInner, hr]
    by_cases hjj : j = j0
    · subst hjj
      obtain ⟨r, hr1, hf, hs⟩ := hp
      have hrr : rules[j] = r := Option.some.inj (hr.symm.trans hr1)
      rw [if_pos ⟨hf, hrr ▸ hs⟩]
      exact partialInner_none rules a st js _ hb1 (fun k hk hpk => by
        have := hu k (List.mem_cons_of_mem j hk) hpk
        subst this
        exact hnd.1 hk)
    · rw [if_neg (fun h => hjj (hu j0 (List.mem_cons_self j0 js) ⟨_, hr, h.1, h.2⟩).symm)]
      exact ih acc hnd.2 hb1 ((List.mem_cons.mp hj).resolve_left hjj)
        (fun k hk => hu k (List.mem_cons_of_mem j0 hk))

theorem partialStep_of_unique {V : Type} (rules : List (ArgumentRule V)) (once : Bool) (i : ℕ)
    (a : Argument V) (st : MatchState V) (ht : st.isTaken i = false) (hlab : a.getLabel ≠ "")
    (j : ℕ) (r : ArgumentRule V) (hj : j < numRegularRules rules) (hr : rules[j]? = some r)
    (hf : st.isFilled j = false) (hs : labelStartsWith r.getArgLabel a.getLabel = true)
    (hu : ∀ k, k < numRegularRules rules → PartialMatch rules a st k → k = j) :
    partialStep rules once i a st =
      if r.isArgValid a.getVariable once = true then Except.ok (st.fill r a i j once)
      else Except.error Stop.returnFalse := by
  unfold partialStep
  rw [if_neg (by rw [ht]; exact Bool.false_ne_true),
    if_neg (fun hz => hlab ((label_length_eq_zero _).mp hz)),
    partialInner_unique rules a st j ⟨r, hr, hf, hs⟩ _ _ (List.nodup_range _)
      (fun k hk => lt_of_lt_of_le (List.mem_range.mp hk)
        (hasEllipsis_numRegularRules_le rules))
      (List.mem_range.mpr hj) (fun k hk => hu k (List.mem_range.mp hk))]
  simp only [zero_add, ne_eq, not_true_eq_false, if_false, Int.toNat_ofNat, hr]

theorem partialStep_of_not_unique {V : Type} (rules : List (ArgumentRule V)) (once : Bool)
    (i : ℕ) (a : Argument V) (st : MatchState V) (ht : st.isTaken i = false)
    (hlab : a.getLabel ≠ "")
    (hno : ¬ ∃ j, j < numRegularRules rules ∧ PartialMatch rules a st j ∧
      ∀ k, k < numRegularRules rules → PartialMatch rules a st k → k = j) :
    partialStep rules once i a st = Except.error Stop.returnFalse := by
  cases h : partialStep rules once i a st with
  | error e =>
    cases e with
    | returnFalse => rfl
    | outOfBounds => exact absurd h (partialStep_inBounds rules once i a st)
  | ok st1 =>
    obtain ⟨j, r, hj, hr, hf, hs, hu, _, _⟩ := partialStep_spec rules once i a st st1 h ht hlab
    exact absurd ⟨j, hj, ⟨r, hr, hf, hs⟩, hu⟩ hno

theorem exactInner_spec {V : Type} (rules : List (ArgumentRule V)) (a : Argument V)
    {i size n : ℕ} (hi : i < size) (once : Bool) (js : List ℕ) (st st1 : MatchState V)
    (hnd : js.Nodup) (hb : ∀ j ∈ js, j < n ∧ j < rules.length) (hwf : st.WF size n)
    (h : exactInner rules a i once js st = Except.ok st1) :
    (∀ j ∈ js, ∀ r, rules[j]? = some r → r.getArgLabel = a.getLabel →
      r.isArgValid a.getVariable once = true ∧ st.isFilled j = false ∧
        st1.isFilled j = true ∧ st1.argIndex j = (i : Int) ∧
          st1.slot j =
            SlotValue.passed a.getVariable (r.conversionNeeded a.getVariable once)) ∧
    (∀ j, (j ∈ js → ∀ r, rules[j]? = some r → r.getArgLabel ≠ a.getLabel) →
      st1.isFilled j = st.isFilled j ∧ st1.argIndex j = st.argIndex j ∧
        st1.slot j = st.slot j) ∧
    ((∃ j ∈ js, ∃ r, rules[j]? = some r ∧ r.getArgLabel = a.getLabel) →
      st1.isTaken i = true) := by
  have hgood : ∀ j ∈ js, ∀ r, rules[j]? = some r → r.getArgLabel = a.getLabel →
      r.isArgValid a.getVariable once = true ∧ st.isFilled j = false := by
    intro j hj r hr hl
    by_contra hcon
    have hbad : r.isArgValid a.getVariable once = false ∨ st.isFilled j = true := by
      cases hv : r.isArgValid a.getVariable once with
      | false => exact Or.inl rfl
      | true =>
        cases hf : st.isFilled j with
        | true => exact Or.inr rfl
        | false => exact absurd ⟨hv, hf⟩ hcon
    have := exactInner_fail rules a (i := i) once js st hnd hb hwf ⟨j, hj, r, hr, hl, hbad⟩
    rw [this] at h
    cases h
  obtain ⟨st2, e, _, c1, c2, _, c4⟩ := exactInner_ok rules a hi once js st hnd hb hwf hgood
  have hst : st2 = st1 := Except.ok.inj (e.symm.trans h)
  subst hst
  refine ⟨fun j hj r hr hl => ?_, c2, c4⟩
  obtain ⟨g1, g2⟩ := hgood j hj r hr hl
  obtain ⟨d1, d2, d3⟩ := c1 j hj r hr hl
  exact ⟨g1, g2, d1, d2, d3⟩

theorem range_regular_bounds {V : Type} (rules : List (ArgumentRule V))
    (passedArgs : List (Argument V)) :
    ∀ j ∈ List.range (numRegularRules rules),
      j < numFinalArgs rules passedArgs ∧ j < rules.length :=
  fun _ hj => ⟨lt_of_lt_of_le (List.mem_range.mp hj)
    (numRegularRules_le_numFinalArgs rules passedArgs),
    lt_of_lt_of_le (List.mem_range.mp hj) (hasEllipsis_numRegularRules_le rules)⟩

/-- The states through which phase 2 passes for a labelled argument `i` that the ellipsis
does not swallow, when phase 2 ends without `return false`. -/
theorem afterExact_states {V : Type} (rules : List (ArgumentRule V))
    (passedArgs : List (Argument V)) (once : Bool) (i : ℕ) (a : Argument V)
    (st2 : MatchState V) (ha : passedArgs[i]? = some a) (hlab : a.getLabel ≠ "")
    (hns : ¬ swallowed rules passedArgs i)
    (h : afterExact rules passedArgs once = Except.ok st2) :
    ∃ st st1, beforeExact rules passedArgs once i = Except.ok st ∧
      st.WF passedArgs.length (numFinalArgs rules passedArgs) ∧ st.isTaken i = false ∧
      exactInner rules a i once (List.range (numRegularRules rules)) st = Except.ok st1 ∧
      beforeExact rules passedArgs once (i + 1) = Except.ok st1 ∧
      st1.Touches st2 passedArgs.length (numFinalArgs rules passedArgs) (i + 1)
        passedArgs.length ∧
      (st2.isTaken i = true → ∃ j, j < numRegularRules rules ∧ ∃ r, rules[j]? = some r ∧
        r.getArgLabel = a.getLabel) := by
  have hn := numRegularRules_le_numFinalArgs rules passedArgs
  obtain ⟨hilt, _⟩ := List.getElem?_eq_some_iff.mp ha
  have h2 := h
  unfold afterExact at h2
  cases h0 : initialState rules passedArgs with
  | error e => simp [h0] at h2
  | ok st0 =>
    simp only [h0] at h2
    cases h1 : ellipsisPhase rules passedArgs once st0 with
    | error e => simp [h1] at h2
    | ok st1 =>
      simp only [h1] at h2
      obtain ⟨_, wf0, tk0, _, _, _⟩ := initialState_spec rules passedArgs st0 h0
      obtain ⟨wf1, same1⟩ := ellipsisPhase_spec rules passedArgs once st0 st1 wf0 h1
      have hunt : ∀ k, k ≤ i → st1.isTaken k = false := fun k hk => by
        rw [(same1 k (not_swallowed_of_le hns hk)).1]
        exact tk0 k
      have e := exactLoop_take rules once hn i passedArgs 0 st1 (by omega) (by omega) wf1
        (fun k _ hk => hunt k (by omega))
      rw [h2] at e
      cases hst : exactLoop rules once 0 (passedArgs.take i) st1 with
      | error err => rw [hst] at e; cases e
      | ok st =>
        have hbe : beforeExact rules passedArgs once i = Except.ok st := by
          unfold beforeExact
          simp only [h0, h1]
          exact hst
        obtain ⟨wf, hti, estep, eafter⟩ :=
          beforeExact_step rules passedArgs once i a st ha hlab hns hbe
        rw [h] at eafter
        cases hstep : beforeExact rules passedArgs once (i + 1) with
        | error err => rw [hstep] at eafter; cases eafter
        | ok st' =>
          rw [hstep] at eafter
          simp only at eafter
          have hin : exactInner rules a i once (List.range (numRegularRules rules)) st =
              Except.ok st' := estep.symm.trans hstep
          have t1 := exactInner_touches rules a hilt once _ st st'
            (fun j hj => (range_regular_bounds rules passedArgs j hj).1) wf hin
          have t2 := exactLoop_touches rules once hn (passedArgs.drop (i + 1)) (i + 1) st' st2
            (by rw [List.length_drop]; omega) t1.1 eafter.symm
          have t2b : st'.Touches st2 passedArgs.length (numFinalArgs rules passedArgs) (i + 1)
              passedArgs.length :=
            MatchState.Touches_mono t2 (le_refl _) (by rw [List.length_drop]; omega)
          refine ⟨st, st', hbe, wf, hti, hin, rfl, t2b, ?_⟩
          intro htk
          rcases exactLoop_taken rules once hn passedArgs 0 st1 st2 (by omega) wf1 h2 i htk
            with h3 | ⟨_, a1, ha1, _, j, hj, r, hr, hl⟩
          · rw [hunt i (le_refl i)] at h3
            exact Bool.noConfusion h3
          · have hae : a1 = a := by
              have : passedArgs[i]? = some a1 := by simpa using ha1
              exact Option.some.inj (this.symm.trans ha)
            subst hae
            exact ⟨j, hj, r, hr, hl.symm⟩

theorem afterExact_of_beforePartial {V : Type} (rules : List (ArgumentRule V))
    (passedArgs : List (Argument V)) (once : Bool) (i : ℕ) (sti : MatchState V)
    (h : beforePartial rules passedArgs once i = Except.ok sti) :
    ∃ st2, afterExact rules passedArgs once = Except.ok st2 ∧
      partialLoop rules once 0 (passedArgs.take i) st2 = Except.ok sti := by
  unfold beforePartial at h
  cases h2 : afterExact rules passedArgs once with
  | error e => simp [h2] at h
  | ok st2 =>
    simp only [h2] at h
    exact ⟨st2, rfl, h⟩

/-- The three phases for a labelled argument `i` that the ellipsis does not swallow: the
step of phase 2, the step of phase 3, and the final state. -/
theorem labelled_argument_phases {V : Type} (rules : List (ArgumentRule V))
    (passedArgs : List (Argument V)) (once : Bool) (i : ℕ) (a : Argument V)
    (ha : passedArgs[i]? = some a) (hlab : a.getLabel ≠ "")
    (hns : ¬ swallowed rules passedArgs i) :
    (∀ st, beforeExact rules passedArgs once i = Except.ok st →
      ((∀ j r, j < numRegularRules rules → rules[j]? = some r → r.getArgLabel = a.getLabel →
          r.isArgValid a.getVariable once = true ∧ st.isFilled j = false) →
        ∃ st1, beforeExact rules passedArgs once (i + 1) = Except.ok st1 ∧
          (∀ j r, j < numRegularRules rules → rules[j]? = some r →
            r.getArgLabel = a.getLabel →
            st1.isFilled j = true ∧ st1.argIndex j = (i : Int) ∧
              st1.slot j =
                SlotValue.passed a.getVariable (r.conversionNeeded a.getVariable once)) ∧
          (∀ j r, j < numRegularRules rules → rules[j]? = some r →
            r.getArgLabel ≠ a.getLabel →
            st1.isFilled j = st.isFilled j ∧ st1.argIndex j = st.argIndex j ∧
              st1.slot j = st.slot j)) ∧
      ((∃ j r, j < numRegularRules rules ∧ rules[j]? = some r ∧ r.getArgLabel = a.getLabel ∧
          (r.isArgValid a.getVariable once = false ∨ st.isFilled j = true)) →
        processArguments rules passedArgs once = Except.error Stop.returnFalse)) ∧
    (∀ sti, beforePartial rules passedArgs once i = Except.ok sti →
      ((∃ j r, j < numRegularRules rules ∧ rules[j]? = some r ∧ r.getArgLabel = a.getLabel) →
        beforePartial rules passedArgs once (i + 1) = Except.ok sti) ∧
      ((∀ j r, j < numRegularRules rules → rules[j]? = some r → r.getArgLabel ≠ a.getLabel) →
        (∀ j r, j < numRegularRules rules → rules[j]? = some r → sti.isFilled j = false →
          labelStartsWith r.getArgLabel a.getLabel = true →
          (∀ k, k < numRegularRules rules → PartialMatch rules a sti k → k = j) →
          (r.isArgValid a.getVariable once = true →
            beforePartial rules passedArgs once (i + 1) =
              Except.ok (sti.fill r a i j once)) ∧
          (r.isArgValid a.getVariable once = false →
            processArguments rules passedArgs once = Except.error Stop.returnFalse)) ∧
        ((¬ ∃ j, j < numRegularRules rules ∧ PartialMatch rules a sti j ∧
            ∀ k, k < numRegularRules rules → PartialMatch rules a sti k → k = j) →
          processArguments rules passedArgs once = Except.error Stop.returnFalse))) ∧
    (∀ stf, processArguments rules passedArgs once = Except.ok stf →
      (∀ j r, j < numRegularRules rules → rules[j]? = some r → r.getArgLabel = a.getLabel →
        stf.argIndex j = (i : Int) ∧
        stf.slot j =
          SlotValue.passed a.getVariable (r.conversionNeeded a.getVariable once) ∧
        r.isArgValid a.getVariable once = true) ∧
      ((∀ j r, j < numRegularRules rules → rules[j]? = some r → r.getArgLabel ≠ a.getLabel) →
        ∃ sti, beforePartial rules passedArgs once i = Except.ok sti ∧
          ∃ j r, j < numRegularRules rules ∧ rules[j]? = some r ∧ sti.isFilled j = false ∧
            labelStartsWith r.getArgLabel a.getLabel = true ∧
            (∀ k, k < numRegularRules rules → PartialMatch rules a sti k → k = j) ∧
            stf.argIndex j = (i : Int) ∧
            stf.slot j =
              SlotValue.passed a.getVariable (r.conversionNeeded a.getVariable once) ∧
            r.isArgValid a.getVariable once = true)) := by
  have hn := numRegularRules_le_numFinalArgs rules passedArgs
  obtain ⟨hilt, _⟩ := List.getElem?_eq_some_iff.mp ha
  have hlen : (passedArgs.take i).length = i := by
    rw [List.length_take]; omega
  have hb := range_regular_bounds rules passedArgs
  obtain ⟨pstep, pafter⟩ := beforePartial_step rules passedArgs once i a ha
  have hfalse : ∀ sti, beforePartial rules passedArgs once i = Except.ok sti →
      partialStep rules once i a sti = Except.error Stop.returnFalse →
      processArguments rules passedArgs once = Except.error Stop.returnFalse := by
    intro sti hsti hstep
    apply processArguments_of_afterPartial
    rw [pafter, pstep, hsti]
    simp only [hstep]
  have huntaken : ∀ sti, beforePartial rules passedArgs once i = Except.ok sti →
      (∀ j r, j < numRegularRules rules → rules[j]? = some r → r.getArgLabel ≠ a.getLabel) →
      sti.WF passedArgs.length (numFinalArgs rules passedArgs) ∧ sti.isTaken i = false := by
    intro sti hsti hno
    obtain ⟨st2, h2, hp⟩ := afterExact_of_beforePartial rules passedArgs once i sti hsti
    obtain ⟨st, st1, _, _, _, _, _, t2, htk⟩ :=
      afterExact_states rules passedArgs once i a st2 ha hlab hns h2
    have ti := partialLoop_touches rules once hn (passedArgs.take i) 0 st2 sti
      (by rw [hlen]; omega) t2.1 hp
    refine ⟨ti.1, ?_⟩
    rw [ti.2.2 i (Or.inr (by rw [hlen]; omega))]
    cases h : st2.isTaken i with
    | false => rfl
    | true =>
      obtain ⟨j, hj, r, hr, hl⟩ := htk h
      exact absurd hl (hno j r hj hr)
  refine ⟨?_, ?_, ?_⟩
  · intro st hst
    obtain ⟨wf, hti, estep, eafter⟩ :=
      beforeExact_step rules passedArgs once i a st ha hlab hns hst
    constructor
    · intro hgood
      obtain ⟨st1, e, _, c1, c2, _, _⟩ := exactInner_ok rules a hilt once
        (List.range (numRegularRules rules)) st (List.nodup_range _) hb wf
        (fun j hj r hr hl => hgood j r (List.mem_range.mp hj) hr hl)
      refine ⟨st1, estep.trans e, fun j r hj hr hl => c1 j (List.mem_range.mpr hj) r hr hl,
        fun j r hj hr hl => c2 j (fun _ r1 hr1 => ?_)⟩
      rw [← Option.some.inj (hr.symm.trans hr1)]
      exact hl
    · rintro ⟨j, r, hj, hr, hl, hbad⟩
      apply processArguments_of_afterExact
      rw [eafter, estep, exactInner_fail rules a once (List.range (numRegularRules rules)) st
        (List.nodup_range _) hb wf ⟨j, List.mem_range.mpr hj, r, hr, hl, hbad⟩]
  · intro sti hsti
    constructor
    · rintro ⟨j, r, hj, hr, hl⟩
      obtain ⟨st2, h2, hp⟩ := afterExact_of_beforePartial rules passedArgs once i sti hsti
      obtain ⟨st, st1, _, wf, _, hin, _, t2, _⟩ :=
        afterExact_states rules passedArgs once i a st2 ha hlab hns h2
      obtain ⟨_, _, c4⟩ := exactInner_spec rules a hilt once _ st st1 (List.nodup_range _) hb
        wf hin
      have h1 : st1.isTaken i = true := c4 ⟨j, List.mem_range.mpr hj, r, hr, hl⟩
      have ti := partialLoop_touches rules once hn (passedArgs.take i) 0 st2 sti
        (by rw [hlen]; omega) t2.1 hp
      have h3 : sti.isTaken i = true := ti.2.1.1 i (t2.2.1.1 i h1)
      rw [pstep, hsti]
      simp only [partialStep, h3, if_true]
    · intro hno
      obtain ⟨wfi, hti⟩ := huntaken sti hsti hno
      constructor
      · intro j r hj hr hf hs hu
        have e := partialStep_of_unique rules once i a sti hti hlab j r hj hr hf hs hu
        constructor
        · intro hv
          rw [pstep, hsti]
          simp only [e, hv, if_true]
        · intro hv
          apply hfalse sti hsti
          rw [e, hv]
          rfl
      · intro hnone
        exact hfalse sti hsti (partialStep_of_not_unique rules once i a sti hti hlab hnone)
  · intro stf hres
    obtain ⟨st0, _, st2, st3, st4, h0, _, _, h2a, h3, h3a, h4, h5⟩ :=
      processArguments_ok rules passedArgs once stf hres
    obtain ⟨st, st1, _, wf, _, hin, _, t2, _⟩ :=
      afterExact_states rules passedArgs once i a st2 ha hlab hns h2a
    have t3 := partialLoop_touches rules once hn passedArgs 0 st2 st3 (by omega) t2.1 h3
    have t4 := unusedLoop_touches rules once hn passedArgs 0 st3 st4 (by omega) t3.1 h4
    obtain ⟨_, _, d3, _, d5, _, _⟩ := defaultLoop_spec rules _ st4 stf
      (fun j hj => lt_of_lt_of_le (List.mem_range.mp hj) hn) t4.1 h5
    have hfin : ∀ j, stf.argIndex j = st4.argIndex j := argIndex_eq_of_passedArgIndex_eq d3
    constructor
    · intro j r hj hr hl
      obtain ⟨c1, _, _⟩ := exactInner_spec rules a hilt once _ st st1 (List.nodup_range _) hb
        wf hin
      obtain ⟨g1, _, f1, f2, f3⟩ := c1 j (List.mem_range.mpr hj) r hr hl
      obtain ⟨b1, b2, b3⟩ := t2.2.1.2 j f1
      obtain ⟨c1, c2, c3⟩ := t3.2.1.2 j b1
      obtain ⟨e1, e2, e3⟩ := t4.2.1.2 j c1
      exact ⟨by rw [hfin, e2, c2, b2, f2], by rw [d5 j e1, e3, c3, b3, f3], g1⟩
    · intro hno
      have h3s := h3
      rw [← List.take_append_drop (i + 1) passedArgs, partialLoop_append] at h3s
      have hp1 : beforePartial rules passedArgs once (i + 1) =
          partialLoop rules once 0 (passedArgs.take (i + 1)) st2 := by
        unfold beforePartial
        rw [h2a]
      cases hq : partialLoop rules once 0 (passedArgs.take (i + 1)) st2 with
      | error e => simp [hq] at h3s
      | ok sti1 =>
        simp only [hq] at h3s
        rw [hq, pstep] at hp1
        cases hsti : beforePartial rules passedArgs once i with
        | error e => simp [hsti] at hp1
        | ok sti =>
          simp only [hsti] at hp1
          obtain ⟨wfi, hti⟩ := huntaken sti hsti hno
          obtain ⟨j, r, hj, hr, hf, hsw, huniq, hval, e⟩ :=
            partialStep_spec rules once i a sti sti1 hp1 hti hlab
          have hjn : j < numFinalArgs rules passedArgs := lt_of_lt_of_le hj hn
          have wfi1 : sti1.WF passedArgs.length (numFinalArgs rules passedArgs) := by
            rw [e]
            exact MatchState.WF_fill wfi r a i j once
          have tr := partialLoop_touches rules once hn (passedArgs.drop (i + 1))
            (0 + (passedArgs.take (i + 1)).length) sti1 st3
            (by rw [List.length_take, List.length_drop]; omega) wfi1 h3s
          have f1 : sti1.isFilled j = true := by
            rw [e, MatchState.isFilled_fill wfi r a i hjn once j, if_pos rfl]
          have f2 : sti1.argIndex j = (i : Int) := by
            rw [e, MatchState.argIndex_fill wfi r a i hjn once j, if_pos rfl]
          have f3 : sti1.slot j =
              SlotValue.passed a.getVariable (r.conversionNeeded a.getVariable once) := by
            rw [e, MatchState.slot_fill wfi r a i hjn once j, if_pos rfl]
          obtain ⟨c1, c2, c3⟩ := tr.2.1.2 j f1
          obtain ⟨e1, e2, e3⟩ := t4.2.1.2 j c1
          exact ⟨sti, rfl, j, r, hj, hr, hf, hsw, huniq, by rw [hfin, e2, c2, f2],
            by rw [d5 j e1, e3, c3, f3], hval⟩

/-- C18: a labelled argument that is not bound.  For the rules `(x, ...)` and the call
`f(x = 1, 2, 3)` the first argument is labelled and is not swallowed by the ellipsis, but
`processArguments` binds it to no rule: with three arguments `numFinalArgs` is 3 and the
loop that creates the slots reads `theRules[2]`, past the end of the two rules, before any
matching (the access of C26); so does every call with an ellipsis and more arguments than
rules.  In every other call no rule is read out of bounds and the matching is as claimed.
With the rules `alpha` and `alphabet` the argument `alpha = 1` is bound to `alpha` (exact
matching first, although two labels start with `alpha`) and `alphabet` gets its default;
`alphab = 1` is bound to `alphabet`; and `x = 2` (no rule) and `al = 1` (two rules) make
the call return `false`.  In general, for a labelled argument `i` that the
ellipsis does not swallow: when phase 2 reaches it in the state `st`, it is bound to every
regular rule with its label (`filled[j]`, `passedArgIndex[j] = i`, the slot holds its
variable) and the other slots are left as they are, provided each such rule accepts it and
its slot is not filled, and the call returns `false` otherwise; when phase 3 reaches it in
the state `sti`, it is left alone if a regular rule has its label, and otherwise it is
bound to the one unfilled regular rule whose label starts with its label, the call
returning `false` if there is no or more than one such rule or if the rule does not accept
it; and when the call returns `true` these bindings are in the final state. -/
theorem labelled_arguments_bound_unless_out_of_bounds :
    (processArguments [plainRule "x" false, ellipsisRule]
        [⟨"x", some 1⟩, ⟨"", some 2⟩, ⟨"", some 3⟩] true = Except.error Stop.outOfBounds ∧
      ¬ swallowed [plainRule "x" false, ellipsisRule]
        [(⟨"x", some 1⟩ : Argument ℕ), ⟨"", some 2⟩, ⟨"", some 3⟩] 0 ∧
      beforeExact [plainRule "x" false, ellipsisRule]
        [⟨"x", some 1⟩, ⟨"", some 2⟩, ⟨"", some 3⟩] true 0 = Except.error Stop.outOfBounds) ∧
    ((∃ st, processArguments alphaRules [⟨"alpha", some 1⟩] true = Except.ok st ∧
        st.argIndex 0 = 0 ∧ st.slot 0 = SlotValue.passed (some 1) false ∧
        st.argIndex 1 = -1 ∧ st.slot 1 = SlotValue.defaultValue) ∧
      (∃ st, processArguments alphaRules [⟨"x", some 2⟩, ⟨"alphab", some 1⟩] true =
          Except.error Stop.returnFalse ∧
        processArguments alphaRules [⟨"", some 2⟩, ⟨"alphab", some 1⟩] true = Except.ok st ∧
        st.argIndex 1 = 1 ∧ st.slot 1 = SlotValue.passed (some 1) false ∧
        st.argIndex 0 = 0 ∧ st.slot 0 = SlotValue.passed (some 2) false) ∧
      processArguments alphaRules [⟨"al", some 1⟩] true = Except.error Stop.returnFalse) ∧
    (∀ (V : Type) (rules : List (ArgumentRule V)) (passedArgs : List (Argument V))
      (evaluateOnce : Bool),
      (processArguments rules passedArgs evaluateOnce = Except.error Stop.outOfBounds ↔
        hasEllipsis rules = true ∧ rules.length < passedArgs.length) ∧
      ∀ (i : ℕ) (a : Argument V), passedArgs[i]? = some a → a.getLabel ≠ "" →
        ¬ swallowed rules passedArgs i →
        (∀ st, beforeExact rules passedArgs evaluateOnce i = Except.ok st →
          ((∀ j r, j < numRegularRules rules → rules[j]? = some r →
              r.getArgLabel = a.getLabel →
              r.isArgValid a.getVariable evaluateOnce = true ∧ st.isFilled j = false) →
            ∃ st1, beforeExact rules passedArgs evaluateOnce (i + 1) = Except.ok st1 ∧
              (∀ j r, j < numRegularRules rules → rules[j]? = some r →
                r.getArgLabel = a.getLabel →
                st1.isFilled j = true ∧ st1.argIndex j = (i : Int) ∧
                  st1.slot j = SlotValue.passed a.getVariable
                    (r.conversionNeeded a.getVariable evaluateOnce)) ∧
              (∀ j r, j < numRegularRules rules → rules[j]? = some r →
                r.getArgLabel ≠ a.getLabel →
                st1.isFilled j = st.isFilled j ∧ st1.argIndex j = st.argIndex j ∧
                  st1.slot j = st.slot j)) ∧
          ((∃ j r, j < numRegularRules rules ∧ rules[j]? = some r ∧
              r.getArgLabel = a.getLabel ∧
              (r.isArgValid a.getVariable evaluateOnce = false ∨ st.isFilled j = true)) →
            processArguments rules passedArgs evaluateOnce =
              Except.error Stop.returnFalse)) ∧
        (∀ sti, beforePartial rules passedArgs evaluateOnce i = Except.ok sti →
          ((∃ j r, j < numRegularRules rules ∧ rules[j]? = some r ∧
              r.getArgLabel = a.getLabel) →
            beforePartial rules passedArgs evaluateOnce (i + 1) = Except.ok sti) ∧
          ((∀ j r, j < numRegularRules rules → rules[j]? = some r →
              r.getArgLabel ≠ a.getLabel) →
            (∀ j r, j < numRegularRules rules → rules[j]? = some r →
              sti.isFilled j = false → labelStartsWith r.getArgLabel a.getLabel = true →
              (∀ k, k < numRegularRules rules → PartialMatch rules a sti k → k = j) →
              (r.isArgValid a.getVariable evaluateOnce = true →
                beforePartial rules passedArgs evaluateOnce (i + 1) =
                  Except.ok (sti.fill r a i j evaluateOnce)) ∧
              (r.isArgValid a.getVariable evaluateOnce = false →
                processArguments rules passedArgs evaluateOnce =
                  Except.error Stop.returnFalse)) ∧
            ((¬ ∃ j, j < numRegularRules rules ∧ PartialMatch rules a sti j ∧
                ∀ k, k < numRegularRules rules → PartialMatch rules a sti k → k = j) →
              processArguments rules passedArgs evaluateOnce =
                Except.error Stop.returnFalse))) ∧
        (∀ stf, processArguments rules passedArgs evaluateOnce = Except.ok stf →
          (∀ j r, j < numRegularRules rules → rules[j]? = some r →
            r.getArgLabel = a.getLabel →
            stf.argIndex j = (i : Int) ∧
            stf.slot j = SlotValue.passed a.getVariable
              (r.conversionNeeded a.getVariable evaluateOnce) ∧
            r.isArgValid a.getVariable evaluateOnce = true) ∧
          ((∀ j r, j < numRegularRules rules → rules[j]? = some r →
              r.getArgLabel ≠ a.getLabel) →
            ∃ sti, beforePartial rules passedArgs evaluateOnce i = Except.ok sti ∧
              ∃ j r, j < numRegularRules rules ∧ rules[j]? = some r ∧
                sti.isFilled j = false ∧
                labelStartsWith r.getArgLabel a.getLabel = true ∧
                (∀ k, k < numRegularRules rules → PartialMatch rules a sti k → k = j) ∧
                stf.argIndex j = (i : Int) ∧
                stf.slot j = SlotValue.passed a.getVariable
                  (r.conversionNeeded a.getVariable evaluateOnce) ∧
                r.isArgValid a.getVariable evaluateOnce = true))) := by
  refine ⟨⟨rfl, fun h => absurd h.2.2 (by decide), rfl⟩,
    ⟨⟨_, rfl, rfl, rfl, rfl, rfl⟩, ⟨_, rfl, rfl, rfl, rfl, rfl, rfl⟩, rfl⟩, ?_⟩
  intro V rules passedArgs evaluateOnce
  refine ⟨⟨fun h => ?_, fun h => processArguments_outOfBounds rules passedArgs evaluateOnce h⟩,
    fun i a ha hlab hns =>
      labelled_argument_phases rules passedArgs evaluateOnce i a ha hlab hns⟩
  by_contra hn
  exact processArguments_inBounds rules passedArgs evaluateOnce hn h

/-! ### C25: the traces read from a file -/

theorem readLoop_filter (stringSplit : String → String → List String)
    (fileName delimitter : String) :
    ∀ (lines : List String) (b : Bool) (data : List AncestralStateTrace),
      readLoop stringSplit fileName delimitter lines b data =
        readLoop stringSplit fileName delimitter (lines.filter isContentLine) b data := by
  intro lines
  induction lines with
  | nil => intro b data; rfl
  | cons line lines ih =>
    intro b data
    by_cases h1 : line.length = 0
    · rw [List.filter_cons_of_neg (by simp [isContentLine, h1])]
      simp only [readLoop, if_pos h1]
      exact ih b data
    · by_cases h2 : line.data.head? = some '#'
      · rw [List.filter_cons_of_neg (by simp [isContentLine, h2])]
        simp only [readLoop, if_neg h1, if_pos h2]
        exact ih b data
      · rw [List.filter_cons_of_pos (by simp [isContentLine, h1, h2])]
        simp only [readLoop, if_neg h1, if_neg h2]
        split_ifs
        · exact ih _ _
        · cases dataLoop 1 ((stringSplit line delimitter).drop 1) data with
          | error e => rfl
          | ok d => exact ih _ _

theorem headerLoop_eq (fileName : String) :
    ∀ (columns : List String) (data : List AncestralStateTrace),
      headerLoop fileName columns data =
        data ++ columns.map fun c => ⟨c, fileName, []⟩ := by
  intro columns
  induction columns with
  | nil => intro data; simp [headerLoop]
  | cons c cs ih => intro data; simp [headerLoop, ih]

theorem dataLoop_eq :
    ∀ (columns : List String) (pre post : List AncestralStateTrace),
      columns.length ≤ post.length →
      dataLoop (pre.length + 1) columns (pre ++ post) =
        Except.ok (pre ++ List.zipWith
          (fun (t : AncestralStateTrace) c => { t with values := t.values ++ [c] })
          post columns ++ post.drop columns.length) := by
  intro columns
  induction columns with
  | nil => intro pre post _; simp [dataLoop]
  | cons c cs ih =>
    intro pre post hlen
    cases post with
    | nil => simp at hlen
    | cons t post =>
      simp only [List.length_cons, Nat.add_le_add_iff_right] at hlen
      simp only [dataLoop, Nat.add_sub_cancel, List.getElem?_append_right (le_refl _),
        Nat.sub_self, List.getElem?_cons_zero]
      have hset : (pre ++ t :: post).set pre.length
          { t with values := t.values ++ [c] } =
          (pre ++ [{ t with values := t.values ++ [c] }]) ++ post := by
        simp [List.set_append]
      rw [hset]
      have := ih (pre ++ [{ t with values := t.values ++ [c] }]) post hlen
      simp only [List.length_append, List.length_singleton] at this
      rw [this]
      simp

theorem tracesAfter_succ (fileName : String) (names : List String)
    (cols : String → List String) (done : List String) (row : String)
    (hrow : (cols row).length = names.length) :
    List.zipWith (fun (t : AncestralStateTrace) c => { t with values := t.values ++ [c] })
      ((List.range names.length).map fun j =>
        ({ parmName := names.getD j "", fileName := fileName,
           values := done.map fun r => (cols r).getD j "" } : AncestralStateTrace))
      (cols row) =
    (List.range names.length).map fun j =>
      ({ parmName := names.getD j "", fileName := fileName,
         values := (done ++ [row]).map fun r => (cols r).getD j "" } : AncestralStateTrace) := by
  apply List.ext_getElem
  · simp [hrow]
  · intro j h1 h2
    have hj : j < names.length := by simpa using h2
    have hjc : j < (cols row).length := by rw [hrow]; exact hj
    simp [List.getD_eq_getElem?_getD, List.getElem?_eq_getElem hjc]

theorem readLoop_rows (stringSplit : String → String → List String)
    (fileName delimitter : String) (names : List String) :
    ∀ (rows done : List String),
      (∀ row ∈ rows, isContentLine row = true ∧
        ((stringSplit row delimitter).drop 1).length = names.length) →
      readLoop stringSplit fileName delimitter rows true
        ((List.range names.length).map fun j =>
          ({ parmName := names.getD j "", fileName := fileName,
             values := done.map fun r => ((stringSplit r delimitter).drop 1).getD j "" } :
            AncestralStateTrace)) =
      Except.ok ((List.range names.length).map fun j =>
        ({ parmName := names.getD j "", fileName := fileName,
           values := (done ++ rows).map fun r =>
             ((stringSplit r delimitter).drop 1).getD j "" } : AncestralStateTrace)) := by
  intro rows
  induction rows with
  | nil => intro done _; simp [readLoop]
  | cons row rows ih =>
    intro done h
    obtain ⟨hc, hl⟩ := h row (List.mem_cons_self row rows)
    have h1 : ¬ row.length = 0 := by
      intro e
      simp [isContentLine, e] at hc
    have h2 : ¬ row.data.head? = some '#' := by
      intro e
      simp [isContentLine, e] at hc
    simp only [readLoop, if_neg h1, if_neg h2]
    rw [if_neg (by simp)]
    have hd := dataLoop_eq ((stringSplit row delimitter).drop 1) []
      ((List.range names.length).map fun j =>
        ({ parmName := names.getD j "", fileName := fileName,
           values := done.map fun r => ((stringSplit r delimitter).drop 1).getD j "" } :
          AncestralStateTrace)) (by rw [hl]; simp)
    simp only [List.length_nil, Nat.zero_add, List.nil_append] at hd
    rw [hd]
    simp only
    have hdrop : List.drop ((stringSplit row delimitter).drop 1).length
        ((List.range names.length).map fun j =>
          ({ parmName := names.getD j "", fileName := fileName,
             values := done.map fun r => ((stringSplit r delimitter).drop 1).getD j "" } :
            AncestralStateTrace)) = [] := by
      apply List.drop_of_length_le
      rw [hl]
      simp
    rw [hdrop, List.append_nil,
      tracesAfter_succ fileName names (fun r => (stringSplit r delimitter).drop 1) done row hl,
      ih (done ++ [row]) (fun r hr => h r (List.mem_cons_of_mem row hr))]
    simp

/-- C25: let `header :: rows` be the lines of the file that are neither empty nor start
with `#`, and let every line of `rows` split into as many columns as the header.  Then
`readAncestralStates` returns one trace for each column `j + 1` of the header after the
first, in column order, named by that column, whose values are the columns `j + 1` of the
lines of `rows`, in file order.  Empty lines and lines that start with `#` do not occur in
the result. -/
theorem readAncestralStates_traces (stringSplit : String → String → List String)
    (fileName delimitter : String) (lines : List String) (header : String)
    (rows : List String) (hcontent : lines.filter isContentLine = header :: rows)
    (hcols : ∀ row ∈ rows,
      (stringSplit row delimitter).length = (stringSplit header delimitter).length) :
    readAncestralStates stringSplit fileName delimitter (some lines) =
      Except.ok ((List.range ((stringSplit header delimitter).length - 1)).map fun j =>
        ({ parmName := (stringSplit header delimitter).getD (j + 1) "",
           fileName := fileName,
           values := rows.map fun row => (stringSplit row delimitter).getD (j + 1) "" } :
          AncestralStateTrace)) := by
  have hmem : ∀ l ∈ header :: rows, isContentLine l = true := by
    intro l hl
    rw [← hcontent] at hl
    exact (List.mem_filter.mp hl).2
  have hh := hmem header (List.mem_cons_self header rows)
  have h1 : ¬ header.length = 0 := by
    intro e
    simp [isContentLine, e] at hh
  have h2 : ¬ header.data.head? = some '#' := by
    intro e
    simp [isContentLine, e] at hh
  unfold readAncestralStates
  simp only
  rw [readLoop_filter, hcontent]
  simp only [readLoop, if_neg h1, if_neg h2, if_true, headerLoop_eq, List.nil_append]
  have hnames : ((stringSplit header delimitter).drop 1).map
      (fun c => ({ parmName := c, fileName := fileName, values := [] } : AncestralStateTrace)) =
      (List.range ((stringSplit header delimitter).drop 1).length).map fun j =>
        ({ parmName := ((stringSplit header delimitter).drop 1).getD j "",
           fileName := fileName,
           values := ([] : List String).map fun r =>
             ((stringSplit r delimitter).drop 1).getD j "" } : AncestralStateTrace) := by
    apply List.ext_getElem
    · simp
    · intro j h1 h2
      have hj : j < ((stringSplit header delimitter).drop 1).length := by simpa using h1
      have hj2 : j + 1 < (stringSplit header delimitter).length := by
        simp only [List.length_drop] at hj
        omega
      simp [List.getD_eq_getElem?_getD, List.getElem?_eq_getElem hj2]
  rw [hnames, readLoop_rows stringSplit fileName delimitter
    ((stringSplit header delimitter).drop 1) rows []
    (fun row hr => ⟨hmem row (List.mem_cons_of_mem header hr), by
      simp only [List.length_drop]
      rw [hcols row hr]⟩)]
  simp only [List.length_drop, List.nil_append]
  congr 1
  apply List.map_congr_left
  intro j _
  simp [List.getD_eq_getElem?_getD, List.getElem?_drop, Nat.add_comm]

/-- Witness for `readAncestralStates_traces`: a comment, the header `ixy`, an empty line
and the two lines `1ab` and `2cd`, split into characters. -/
theorem readAncestralStates_traces_witness :
    readAncestralStates splitCharacters "f" "" (some ["#c", "ixy", "", "1ab", "2cd"]) =
      Except.ok [⟨"x", "f", ["a", "c"]⟩, ⟨"y", "f", ["b", "d"]⟩] :=
  (readAncestralStates_traces splitCharacters "f" "" ["#c", "ixy", "", "1ab", "2cd"] "ixy"
    ["1ab", "2cd"] rfl (by decide)).trans rfl

/-! ### C24: selection without replacement -/

theorem roundHalfEven_le_add_half (z : ℚ) : (roundHalfEven z : ℚ) ≤ z + 1 / 2 := by
  have hf : ((⌊z⌋ : ℤ) : ℚ) ≤ z := Int.floor_le z
  unfold roundHalfEven
  simp only
  split_ifs with h1 h2 h3
  · linarith
  · push_cast; linarith [Int.lt_floor_add_one z]
  · linarith
  · have : z - ⌊z⌋ = 1 / 2 := le_antisymm (not_lt.mp h2) (not_lt.mp h1)
    push_cast
    linarith

/-- The relative error of rounding a positive number in the normal range. -/
theorem fl_le_mul {x : ℚ} (hx : (2 : ℚ) ^ (-1022 : ℤ) ≤ x) : fl x ≤ x * (1 + 2 ^ (-53 : ℤ)) := by
  have hpos : 0 < x := lt_of_lt_of_le (two_zpow_pos _) hx
  have habs : |x| = x := abs_of_pos hpos
  have hlog : (-1022 : ℤ) ≤ Int.log 2 x :=
    (Int.zpow_le_iff_le_log (by norm_num) hpos).mp hx
  have hE : ulpExp x = Int.log 2 x - 52 := by
    unfold ulpExp
    rw [habs, max_eq_left hlog]
  have hk : (2 : ℚ) ^ (Int.log 2 x) ≤ x := Int.zpow_log_le_self (by norm_num) hpos
  have hEpos := two_zpow_pos (Int.log 2 x - 52)
  have h1 := roundHalfEven_le_add_half (x / 2 ^ (Int.log 2 x - 52))
  unfold fl
  rw [hE]
  have h2 : (roundHalfEven (x / 2 ^ (Int.log 2 x - 52)) : ℚ) * 2 ^ (Int.log 2 x - 52) ≤
      (x / 2 ^ (Int.log 2 x - 52) + 1 / 2) * 2 ^ (Int.log 2 x - 52) :=
    mul_le_mul_of_nonneg_right h1 hEpos.le
  have h3 : (x / 2 ^ (Int.log 2 x - 52) + 1 / 2) * 2 ^ (Int.log 2 x - 52) =
      x + 2 ^ (Int.log 2 x) * 2 ^ (-53 : ℤ) := by
    have e : (2 : ℚ) ^ (Int.log 2 x - 52) = 2 ^ (Int.log 2 x) * 2 ^ (-52 : ℤ) := by
      rw [← zpow_add₀ (by norm_num : (2 : ℚ) ≠ 0)]
      congr 1
    have hne : (2 : ℚ) ^ (Int.log 2 x - 52) ≠ 0 := hEpos.ne'
    rw [add_mul, div_mul_cancel₀ _ hne, e]
    have : (2 : ℚ) ^ (-52 : ℤ) = 2 * 2 ^ (-53 : ℤ) := by norm_num
    rw [this]
    ring
  have h4 : (2 : ℚ) ^ (Int.log 2 x) * 2 ^ (-53 : ℤ) ≤ x * 2 ^ (-53 : ℤ) :=
    mul_le_mul_of_nonneg_right hk (two_zpow_pos _).le
  linarith

/-- A double below 1 is at most the largest double below 1. -/
theorem double_lt_one {u : ℚ} (hfl : fl u = u) (h0 : 0 ≤ u) (h1 : u < 1) :
    u ≤ 1 - 2 ^ (-53 : ℤ) := by
  by_cases hhalf : u < 1 / 2
  · have : (1 : ℚ) / 2 ≤ 1 - 2 ^ (-53 : ℤ) := by norm_num
    exact le_trans hhalf.le this
  · have hge : (1 : ℚ) / 2 ≤ u := not_lt.mp hhalf
    have habs : |u| = u := abs_of_nonneg h0
    have hE : ulpExp u = -1 - 52 :=
      ulpExp_eq (k := -1) (by rw [habs]; norm_num; linarith) (by rw [habs]; norm_num; exact h1)
        (by norm_num)
    have hu : (roundHalfEven (u / 2 ^ (-1 - 52 : ℤ)) : ℚ) * 2 ^ (-1 - 52 : ℤ) = u := by
      have := hfl
      unfold fl at this
      rw [hE] at this
      exact this
    have hlt : (roundHalfEven (u / 2 ^ (-1 - 52 : ℤ)) : ℚ) < 2 ^ 53 := by
      have hpos : (0 : ℚ) < 2 ^ (-1 - 52 : ℤ) := two_zpow_pos _
      have : (roundHalfEven (u / 2 ^ (-1 - 52 : ℤ)) : ℚ) * 2 ^ (-1 - 52 : ℤ) <
          2 ^ 53 * 2 ^ (-1 - 52 : ℤ) := by
        rw [hu]
        norm_num
        exact h1
      exact lt_of_mul_lt_mul_right this hpos.le
    have hle : roundHalfEven (u / 2 ^ (-1 - 52 : ℤ)) ≤ 2 ^ 53 - 1 := by
      have : roundHalfEven (u / 2 ^ (-1 - 52 : ℤ)) < 2 ^ 53 := by exact_mod_cast hlt
      omega
    have hle2 : (roundHalfEven (u / 2 ^ (-1 - 52 : ℤ)) : ℚ) ≤ 2 ^ 53 - 1 := by
      exact_mod_cast hle
    have : (roundHalfEven (u / 2 ^ (-1 - 52 : ℤ)) : ℚ) * 2 ^ (-1 - 52 : ℤ) ≤
        (2 ^ 53 - 1) * 2 ^ (-1 - 52 : ℤ) :=
      mul_le_mul_of_nonneg_right hle2 (two_zpow_pos _).le
    rw [hu] at this
    have e : ((2 : ℚ) ^ 53 - 1) * 2 ^ (-1 - 52 : ℤ) = 1 - 2 ^ (-53 : ℤ) := by norm_num
    linarith

theorem whichElement_lt {u : ℚ} {m : ℕ} (hfl : fl u = u) (h0 : 0 ≤ u) (h1 : u < 1)
    (hm : 1 ≤ m) (hm2 : m ≤ 2 ^ 53) : whichElement u m < m := by
  have hmq : (1 : ℚ) ≤ (m : ℚ) := by exact_mod_cast hm
  have hu := double_lt_one hfl h0 h1
  have hy : u * m ≤ (1 - 2 ^ (-53 : ℤ)) * m := mul_le_mul_of_nonneg_right hu (by linarith)
  have hY : (2 : ℚ) ^ (-1022 : ℤ) ≤ (1 - 2 ^ (-53 : ℤ)) * m := by
    have h2 : (2 : ℚ) ^ (-1022 : ℤ) ≤ 1 / 2 := by
      rw [show (1 : ℚ) / 2 = 2 ^ (-1 : ℤ) by norm_num]
      exact zpow_le_zpow_right₀ (by norm_num) (by norm_num)
    have h3 : (1 : ℚ) / 2 ≤ 1 - 2 ^ (-53 : ℤ) := by norm_num
    have h5 : (0 : ℚ) ≤ 1 - 2 ^ (-53 : ℤ) := le_trans (by norm_num) h3
    have h4 : (1 - (2 : ℚ) ^ (-53 : ℤ)) * 1 ≤ (1 - 2 ^ (-53 : ℤ)) * m :=
      mul_le_mul_of_nonneg_left hmq h5
    rw [mul_one] at h4
    exact le_trans h2 (le_trans h3 h4)
  have hfl1 := fl_mono (mul_nonneg h0 (by linarith)) hy
  have hfl2 := fl_le_mul hY
  have hlt : (1 - (2 : ℚ) ^ (-53 : ℤ)) * m * (1 + 2 ^ (-53 : ℤ)) < m := by
    have e : (1 - (2 : ℚ) ^ (-53 : ℤ)) * m * (1 + 2 ^ (-53 : ℤ)) =
        m * (1 - 2 ^ (-53 : ℤ) * 2 ^ (-53 : ℤ)) := by ring
    rw [e]
    have hp : (0 : ℚ) < 2 ^ (-53 : ℤ) * 2 ^ (-53 : ℤ) :=
      mul_pos (two_zpow_pos _) (two_zpow_pos _)
    nlinarith
  unfold whichElement dmul
  rw [toDouble_eq hm2]
  exact (Nat.floor_lt (fl_nonneg (mul_nonneg h0 (by linarith)))).mpr
    (lt_of_le_of_lt (le_trans hfl1 hfl2) hlt)

theorem cons_set_perm {α : Type} :
    ∀ (q : List α) (w : ℕ) (x y : α), q[w]? = some x → (x :: q.set w y).Perm (y :: q) := by
  intro q
  induction q with
  | nil => intro w x y h; simp at h
  | cons a q ih =>
    intro w x y h
    cases w with
    | zero =>
      simp only [List.getElem?_cons_zero, Option.some.injEq] at h
      subst h
      exact List.Perm.swap _ _ _
    | succ w =>
      simp only [List.getElem?_cons_succ] at h
      simp only [List.set_cons_succ]
      exact (List.Perm.swap a x _).trans (((ih w x y h).cons a).trans (List.Perm.swap y a q))

theorem select_step_perm {α : Type} (l : List α) (w m : ℕ) (x y : α) (hw : w < m + 1)
    (hx : l[w]? = some x) (hy : l[m]? = some y) :
    (x :: (l.set w y).take m).Perm (l.take (m + 1)) := by
  rw [List.take_succ, hy, List.set_take]
  simp only [Option.toList_some]
  by_cases e : w = m
  · subst e
    have hxy : x = y := Option.some.inj (hx.symm.trans hy)
    subst hxy
    rw [List.set_eq_of_length_le (by simp)]
    exact (List.perm_append_singleton x _).symm
  · have hq : (l.take m)[w]? = some x := by
      rw [List.getElem?_take_of_lt (by omega)]
      exact hx
    exact (cons_set_perm (l.take m) w x y hq).trans (List.perm_append_singleton y _).symm

theorem selectLoop_perm {α : Type} (rng : ℕ → ℚ) (n : ℕ)
    (hw : ∀ i, i < n → whichElement (rng i) (n - i) < n - i) :
    ∀ (c i : ℕ) (tmpV destV : List α), i + c ≤ n → tmpV.length = n →
      ∃ destV1 rest, selectLoop rng n c i tmpV destV = some destV1 ∧
        destV1.length = destV.length + c ∧ rest.length = n - (i + c) ∧
        (destV1 ++ rest).Perm (destV ++ tmpV.take (n - i)) := by
  intro c
  induction c with
  | zero =>
    intro i tmpV destV hi hlen
    exact ⟨destV, tmpV.take (n - i), rfl, rfl, by simp [hlen], List.Perm.refl _⟩
  | succ c ih =>
    intro i tmpV destV hi hlen
    have hin : i < n := by omega
    have hwi := hw i hin
    obtain ⟨m, hm⟩ : ∃ m, n - i = m + 1 := ⟨n - i - 1, by omega⟩
    simp only [selectLoop]
    generalize whichElement (rng i) (n - i) = w at hwi ⊢
    obtain ⟨x, hx⟩ : ∃ x, tmpV[w]? = some x := ⟨_, List.getElem?_eq_getElem (by omega)⟩
    obtain ⟨y, hy⟩ : ∃ y, tmpV[n - i - 1]? = some y :=
      ⟨_, List.getElem?_eq_getElem (by omega)⟩
    simp only [hx, hy]
    obtain ⟨d1, rest, e1, e2, e3, e4⟩ := ih (i + 1) (tmpV.set w y) (destV ++ [x])
      (by omega) (by simp [hlen])
    refine ⟨d1, rest, e1, by rw [e2]; simp; omega, by rw [e3]; congr 1; omega, e4.trans ?_⟩
    have e6 : n - i - 1 = m := by omega
    rw [e6] at hy
    have hstep := select_step_perm tmpV w m x y (by omega) hx hy
    have e5 : n - (i + 1) = m := by omega
    rw [e5, hm, List.append_assoc]
    exact List.Perm.append_left destV hstep

theorem selectLoop_map {α β : Type} (f : α → β) (rng : ℕ → ℚ) (n : ℕ) :
    ∀ (c i : ℕ) (tmpV destV : List α),
      selectLoop rng n c i (tmpV.map f) (destV.map f) =
        (selectLoop rng n c i tmpV destV).map (List.map f) := by
  intro c
  induction c with
  | zero => intro i tmpV destV; rfl
  | succ c ih =>
    intro i tmpV destV
    simp only [selectLoop, List.getElem?_map]
    cases hx : tmpV[whichElement (rng i) (n - i)]? with
    | none => rfl
    | some x =>
      cases hy : tmpV[n - i - 1]? with
      | none => rfl
      | some y =>
        simp only [Option.map_some']
        have := ih (i + 1) (tmpV.set (whichElement (rng i) (n - i)) y) (destV ++ [x])
        simp only [List.map_set, List.map_append, List.map_cons, List.map_nil] at this
        exact this

theorem toInt_of_lt {x : ℕ} (h : x < 2 ^ 31) : toInt x = (x : ℤ) := by
  unfold toInt
  have e : x % 2 ^ 32 = x := Nat.mod_eq_of_lt (lt_trans h (by norm_num))
  rw [e, if_pos h]

/-- C24 (amended): for a source vector of fewer than `2 ^ 31` elements and draws that are doubles in
`[0, 1)`: when `k` exceeds the size of the source the function throws and both vectors
are as they were; when `0 ≤ k ≤ size` it indexes nothing out of bounds, leaves the source
as it was and leaves in `destV` the elements at `k` pairwise distinct positions of the
source, so that `destV` is a sub-multiset of the source and, for `k = size`, a permutation
of it. -/
theorem select_without_replacement {T : Type} (sourceV destV : List T) (k : ℤ)
    (rng : ℕ → ℚ) (hsize : sourceV.length < 2 ^ 31)
    (hrng : ∀ i, fl (rng i) = rng i ∧ 0 ≤ rng i ∧ rng i < 1) :
    ((sourceV.length : ℤ) < k →
      randomlySelectFromVectorWithoutReplacement sourceV destV k rng =
        SelectResult.thrown sourceV destV) ∧
    (0 ≤ k → k ≤ sourceV.length →
      ∃ positions : List (Fin sourceV.length),
        positions.length = k.toNat ∧ positions.Nodup ∧
        randomlySelectFromVectorWithoutReplacement sourceV destV k rng =
          SelectResult.done sourceV (positions.map sourceV.get) ∧
        (positions.map sourceV.get).Subperm sourceV ∧
        (k = sourceV.length → (positions.map sourceV.get).Perm sourceV)) := by
  constructor
  · intro h
    unfold randomlySelectFromVectorWithoutReplacement
    rw [toInt_of_lt hsize, if_pos h]
  · intro hk0 hk
    have hw : ∀ i, i < sourceV.length →
        whichElement (rng i) (sourceV.length - i) < sourceV.length - i := by
      intro i hi
      obtain ⟨h1, h2, h3⟩ := hrng i
      exact whichElement_lt h1 h2 h3 (by omega)
        (le_trans (Nat.sub_le _ _) (le_trans hsize.le (by norm_num)))
    have hkn : k.toNat ≤ sourceV.length := by omega
    obtain ⟨pos, rest, e1, e2, e3, e4⟩ := selectLoop_perm rng sourceV.length hw k.toNat 0
      (List.finRange sourceV.length) [] (by omega) (by simp)
    simp only [List.nil_append, Nat.sub_zero, List.length_nil, Nat.zero_add] at e2 e3 e4
    rw [List.take_of_length_le (by simp)] at e4
    have hrun : selectLoop rng sourceV.length k.toNat 0 sourceV [] =
        some (pos.map sourceV.get) := by
      have := selectLoop_map sourceV.get rng sourceV.length k.toNat 0
        (List.finRange sourceV.length) []
      rw [List.finRange_map_get, List.map_nil, e1] at this
      exact this
    have hperm : (pos.map sourceV.get ++ rest.map sourceV.get).Perm sourceV := by
      have := e4.map sourceV.get
      rw [List.map_append, List.finRange_map_get] at this
      exact this
    refine ⟨pos, e2, ?_, ?_, ?_, ?_⟩
    · exact (List.nodup_append.mp ((e4.nodup_iff).mpr (List.nodup_finRange _))).1
    · unfold randomlySelectFromVectorWithoutReplacement
      rw [toInt_of_lt hsize, if_neg (by omega), hrun]
    · exact (List.sublist_append_left _ _).subperm.trans hperm.subperm
    · intro hkeq
      have hrest : rest = [] := by
        apply List.eq_nil_of_length_eq_zero
        rw [e3]
        omega
      rw [hrest, List.map_nil, List.append_nil] at hperm
      exact hperm

/-- Witness for `select_without_replacement`: all three elements of a vector are selected
with the draws `0.5, 0.5, 0.5`. -/
theorem select_without_replacement_witness :
    ∃ positions : List (Fin exampleSource.length),
      positions.length = (3 : ℤ).toNat ∧ positions.Nodup ∧
      randomlySelectFromVectorWithoutReplacement exampleSource [] 3 (fun _ => 1 / 2) =
        SelectResult.done exampleSource (positions.map exampleSource.get) ∧
      (positions.map exampleSource.get).Subperm exampleSource ∧
      ((3 : ℤ) = exampleSource.length → (positions.map exampleSource.get).Perm exampleSource) :=
  (select_without_replacement exampleSource [] 3 (fun _ => 1 / 2)
    (by simp [exampleSource])
    (fun _ => ⟨by simpa using fl_half, by norm_num, by norm_num⟩)).2
    (by norm_num) (by simp [exampleSource])

/-- C24 as stated fails: for a source vector of `2 ^ 31` elements `(int)sourceV.size()` is
`-2 ^ 31`, so the call with `k = 1` throws although `0 ≤ k ≤ sourceV.size()`. -/
theorem select_from_huge_vector_throws :
    (List.replicate (2 ^ 31) (0 : ℕ)).length = 2 ^ 31 ∧
    toInt (2 ^ 31) = -2 ^ 31 ∧
    randomlySelectFromVectorWithoutReplacement (List.replicate (2 ^ 31) (0 : ℕ)) [] 1
        (fun _ => 0) =
      SelectResult.thrown (List.replicate (2 ^ 31) (0 : ℕ)) [] := by
  have h : toInt (2 ^ 31) = -2 ^ 31 := by decide
  refine ⟨List.length_replicate _ _, h, ?_⟩
  unfold randomlySelectFromVectorWithoutReplacement
  rw [List.length_replicate, h, if_pos (by norm_num)]

/-! ### `buildBits` -/

theorem sumBits_eq_sum (b : List ℕ) : sumBits b = b.sum := by
  unfold sumBits
  have : ∀ (l : List ℕ) (a : ℕ), l.foldl (fun n x => n + x) a = a + l.sum := by
    intro l
    induction l with
    | nil => intro a; simp
    | cons x l ih => intro a; simp [ih, add_assoc]
  rw [this, zero_add]

theorem sumBits_append (a b : List ℕ) : sumBits (a ++ b) = sumBits a + sumBits b := by
  simp [sumBits_eq_sum]

theorem bitsRow_eq : ∀ (c m : ℕ), bitsRow c m = (List.range c).map fun j => m / 2 ^ j % 2 := by
  intro c
  induction c with
  | zero => intro m; rfl
  | succ c ih =>
    intro m
    rw [bitsRow, List.range_succ_eq_map, List.map_cons, List.map_map]
    simp only [pow_zero, Nat.div_one]
    congr 1
    have hstep : ∀ j, m / 2 ^ (j + 1) = m / 2 / 2 ^ j := by
      intro j
      rw [pow_succ, mul_comm, Nat.div_div_eq_div_mul]
    split_ifs with h
    · apply List.ext_getElem
      · simp
      · intro j h1 h2
        simp [hstep, h]
    · rw [ih]
      apply List.map_congr_left
      intro j _
      simp [hstep]

theorem bitsOf_eq (n i : ℕ) : bitsOf n i = (List.range n).map fun j => i / 2 ^ j % 2 := by
  unfold bitsOf
  split_ifs with h
  · subst h
    apply List.ext_getElem
    · simp
    · intro j h1 h2
      simp
  · exact bitsRow_eq n i

theorem bitsOf_succ (n i : ℕ) : bitsOf (n + 1) i = bitsOf n i ++ [i / 2 ^ n % 2] := by
  rw [bitsOf_eq, bitsOf_eq, List.range_succ, List.map_append]
  rfl

theorem bitsOf_add_pow (n i : ℕ) : bitsOf n (2 ^ n + i) = bitsOf n i := by
  rw [bitsOf_eq, bitsOf_eq]
  apply List.map_congr_left
  intro j hj
  have hjn : j < n := List.mem_range.mp hj
  have e : 2 ^ n = 2 ^ j * 2 ^ (n - j) := by
    rw [← pow_add]
    congr 1
    omega
  rw [e, add_comm, Nat.add_mul_div_left _ _ (pow_pos (by norm_num) j)]
  have h2 : 2 ^ (n - j) = 2 * 2 ^ (n - j - 1) := by
    rw [← pow_succ']
    congr 1
    omega
  rw [h2, Nat.add_mul_mod_self_left]

theorem allBits_succ (n : ℕ) :
    allBits (n + 1) = (allBits n).map (· ++ [0]) ++ (allBits n).map (· ++ [1]) := by
  unfold allBits
  have e : 2 ^ (n + 1) = 2 ^ n + 2 ^ n := by ring
  rw [e, List.range_add, List.map_append, List.map_map, List.map_map, List.map_map]
  congr 1
  · apply List.map_congr_left
    intro i hi
    have hlt : i < 2 ^ n := List.mem_range.mp hi
    simp only [Function.comp_apply]
    rw [bitsOf_succ, Nat.div_eq_of_lt hlt]
  · apply List.map_congr_left
    intro i hi
    have hlt : i < 2 ^ n := List.mem_range.mp hi
    simp only [Function.comp_apply]
    rw [bitsOf_succ, bitsOf_add_pow]
    congr 2
    rw [Nat.add_div_left _ (pow_pos (by norm_num) n), Nat.div_eq_of_lt hlt]

theorem allBits_zero : allBits 0 = [[]] := rfl

theorem isBits_snoc {n : ℕ} {b : List ℕ} {x : ℕ} (hb : IsBits n b) (hx : x = 0 ∨ x = 1) :
    IsBits (n + 1) (b ++ [x]) := by
  refine ⟨by simp [hb.1], ?_⟩
  intro y hy
  rcases List.mem_append.mp hy with h | h
  · exact hb.2 y h
  · rw [List.mem_singleton.mp h]; exact hx

theorem isBits_of_snoc {n : ℕ} {b : List ℕ} {x : ℕ} (h : IsBits (n + 1) (b ++ [x])) :
    IsBits n b ∧ (x = 0 ∨ x = 1) := by
  refine ⟨⟨?_, fun y hy => h.2 y (List.mem_append_left _ hy)⟩,
    h.2 x (List.mem_append_right _ (List.mem_singleton_self x))⟩
  have := h.1
  simp at this
  exact this

theorem mem_allBits_iff : ∀ (n : ℕ) (b : List ℕ), b ∈ allBits n ↔ IsBits n b := by
  intro n
  induction n with
  | zero =>
    intro b
    rw [allBits_zero, List.mem_singleton]
    constructor
    · rintro rfl; exact ⟨rfl, by simp⟩
    · intro h; exact List.length_eq_zero.mp h.1
  | succ n ih =>
    intro b
    rw [allBits_succ, List.mem_append, List.mem_map, List.mem_map]
    constructor
    · rintro (⟨a, ha, rfl⟩ | ⟨a, ha, rfl⟩)
      · exact isBits_snoc ((ih a).mp ha) (Or.inl rfl)
      · exact isBits_snoc ((ih a).mp ha) (Or.inr rfl)
    · intro h
      rcases List.eq_nil_or_concat b with hb | ⟨a, x, hb⟩
      · subst hb; exact absurd h.1 (by simp)
      · rw [List.concat_eq_append] at hb
        subst hb
        obtain ⟨ha, hx⟩ := isBits_of_snoc h
        rcases hx with rfl | rfl
        · exact Or.inl ⟨a, (ih a).mpr ha, rfl⟩
        · exact Or.inr ⟨a, (ih a).mpr ha, rfl⟩

theorem snoc_injective (x : ℕ) : Function.Injective fun b : List ℕ => b ++ [x] := by
  intro a b h
  exact List.append_cancel_right h

theorem allBits_nodup : ∀ n : ℕ, (allBits n).Nodup := by
  intro n
  induction n with
  | zero => rw [allBits_zero]; exact List.nodup_singleton _
  | succ n ih =>
    rw [allBits_succ]
    refine List.Nodup.append (ih.map (snoc_injective 0)) (ih.map (snoc_injective 1)) ?_
    intro b h0 h1
    obtain ⟨a, _, rfl⟩ := List.mem_map.mp h0
    obtain ⟨c, _, hc⟩ := List.mem_map.mp h1
    have := congrArg List.getLast? hc
    simp at this

theorem allBits_length (n : ℕ) : (allBits n).length = 2 ^ n := by
  simp [allBits]

theorem bucket_zero (n : ℕ) :
    (allBits n).filter (fun b => sumBits b = 0) = [List.replicate n 0] := by
  induction n with
  | zero => rfl
  | succ n ih =>
    rw [allBits_succ, List.filter_append, List.filter_map, List.filter_map]
    have e0 : ((fun b => decide (sumBits b = 0)) ∘ fun b : List ℕ => b ++ [0]) =
        fun b => decide (sumBits b = 0) := by
      funext b; simp [sumBits_append, sumBits]
    have e1 : ((fun b => decide (sumBits b = 0)) ∘ fun b : List ℕ => b ++ [1]) =
        fun _ => false := by
      funext b; simp [sumBits_append, sumBits]
    rw [e0, e1, ih]
    simp [List.replicate_succ']

theorem bucket_succ (n j : ℕ) :
    (allBits (n + 1)).filter (fun b => sumBits b = j + 1) =
      ((allBits n).filter (fun b => sumBits b = j + 1)).map (· ++ [0]) ++
      ((allBits n).filter (fun b => sumBits b = j)).map (· ++ [1]) := by
  rw [allBits_succ, List.filter_append, List.filter_map, List.filter_map]
  have e0 : ((fun b => decide (sumBits b = j + 1)) ∘ fun b : List ℕ => b ++ [0]) =
      fun b => decide (sumBits b = j + 1) := by
    funext b; simp [sumBits_append, sumBits]
  have e1 : ((fun b => decide (sumBits b = j + 1)) ∘ fun b : List ℕ => b ++ [1]) =
      fun b => decide (sumBits b = j) := by
    funext b; simp [sumBits_append, sumBits]
  rw [e0, e1]

theorem unitBits_snoc {n j : ℕ} (h : j < n) : unitBits (n + 1) j = unitBits n j ++ [0] := by
  unfold unitBits
  rw [List.replicate_succ', List.set_append]
  simp [h]

theorem unitBits_last (n : ℕ) : unitBits (n + 1) n = List.replicate n 0 ++ [1] := by
  unfold unitBits
  rw [List.replicate_succ', List.set_append]
  simp

theorem bucket_one (n : ℕ) :
    (allBits n).filter (fun b => sumBits b = 1) = (List.range n).map (unitBits n) := by
  induction n with
  | zero => rfl
  | succ n ih =>
    rw [bucket_succ n 0, ih, bucket_zero, List.range_succ, List.map_append, List.map_map]
    congr 1
    · apply List.map_congr_left
      intro j hj
      simp only [Function.comp_apply]
      exact (unitBits_snoc (List.mem_range.mp hj)).symm
    · simp [unitBits_last]

theorem sumBits_le_of_isBits {n : ℕ} {b : List ℕ} (h : IsBits n b) : sumBits b ≤ n := by
  rw [sumBits_eq_sum, ← h.1]
  have : b.sum ≤ b.length * 1 := by
    apply List.sum_le_card_nsmul
    intro x hx
    rcases h.2 x hx with e | e <;> omega
  simpa using this

theorem pushAt_getElem? : ∀ (xs : List (List (List ℕ))) (j : ℕ) (b : List ℕ) (i : ℕ),
    (pushAt xs j b)[i]? = (xs[i]?).map fun x => if i = j then x ++ [b] else x := by
  intro xs
  induction xs with
  | nil => intro j b i; simp [pushAt]
  | cons x xs ih =>
    intro j b i
    cases j with
    | zero =>
      cases i with
      | zero => simp [pushAt]
      | succ i => simp [pushAt]
    | succ j =>
      cases i with
      | zero => simp [pushAt]
      | succ i => simp [pushAt, ih]

theorem pushAt_buckets (m : ℕ) (l : List (List ℕ)) (b : List ℕ) :
    pushAt ((List.range m).map fun j => l.filter fun c => sumBits c = j) (sumBits b) b =
      (List.range m).map fun j => (l ++ [b]).filter fun c => sumBits c = j := by
  apply List.ext_getElem?
  intro i
  rw [pushAt_getElem?]
  by_cases hi : i < m
  · simp only [List.getElem?_map, List.getElem?_range hi, Option.map_some']
    congr 1
    rw [List.filter_append]
    by_cases hb : i = sumBits b
    · simp [hb]
    · have hb2 : ¬ sumBits b = i := fun h => hb h.symm
      simp [hb, hb2]
  · have hi2 : m ≤ i := Nat.le_of_not_lt hi
    simp [List.getElem?_eq_none, hi2]

theorem foldl_pushAt_buckets (m : ℕ) (l l0 : List (List ℕ)) :
    l.foldl (fun bb b => pushAt bb (sumBits b) b)
        ((List.range m).map fun j => l0.filter fun c => sumBits c = j) =
      (List.range m).map fun j => (l0 ++ l).filter fun c => sumBits c = j := by
  induction l generalizing l0 with
  | nil => simp
  | cons b l ih =>
    rw [List.foldl_cons, pushAt_buckets, ih]
    simp

theorem allBits_eq_cons (n : ℕ) : allBits n = bitsOf n 0 :: (allBits n).drop 1 := by
  unfold allBits
  obtain ⟨k, hk⟩ : ∃ k, 2 ^ n = k + 1 :=
    ⟨2 ^ n - 1, (Nat.sub_add_cancel (Nat.one_le_two_pow)).symm⟩
  rw [hk, List.range_succ_eq_map]
  simp

theorem sumBits_bitsOf_zero (n : ℕ) : sumBits (bitsOf n 0) = 0 := by
  simp [bitsOf, sumBits_eq_sum]

theorem bitsByNumOn_eq (n : ℕ) :
    bitsByNumOn n = (List.range (n + 1)).map fun j => (allBits n).filter fun c => sumBits c = j := by
  unfold bitsByNumOn
  have e0 : List.replicate (n + 1) ([] : List (List ℕ)) =
      (List.range (n + 1)).map fun j => ([] : List (List ℕ)).filter fun c => sumBits c = j := by
    apply List.ext_getElem
    · simp
    · intro i h1 h2; simp
  have e1 := pushAt_buckets (n + 1) [] (bitsOf n 0)
  rw [sumBits_bitsOf_zero] at e1
  rw [e0, e1, foldl_pushAt_buckets]
  congr 2
  funext j
  rw [List.nil_append, List.singleton_append, ← allBits_eq_cons]

theorem flatten_buckets_perm (l : List (List ℕ)) : ∀ m : ℕ,
    ((List.range m).map fun j => l.filter fun c => sumBits c = j).flatten.Perm
      (l.filter fun c => sumBits c < m) := by
  intro m
  induction m with
  | zero => simp
  | succ m ih =>
    rw [List.range_succ, List.map_append, List.flatten_append]
    simp only [List.map_cons, List.map_nil, List.flatten_cons, List.flatten_nil, List.append_nil]
    have h := List.filter_append_perm (fun c => decide (sumBits c < m))
      (l.filter fun c => sumBits c < m + 1)
    rw [List.filter_filter, List.filter_filter] at h
    have e1 : (l.filter fun a => decide (sumBits a < m) && decide (sumBits a < m + 1)) =
        l.filter fun c => sumBits c < m := by
      apply List.filter_congr
      intro x _
      by_cases hx : sumBits x < m
      · simp [hx, Nat.lt_succ_of_lt hx]
      · simp [hx]
    have e2 : (l.filter fun a => (!decide (sumBits a < m)) && decide (sumBits a < m + 1)) =
        l.filter fun c => sumBits c = m := by
      apply List.filter_congr
      intro x _
      by_cases hx : sumBits x = m
      · simp [hx]
      · have : ¬ (m ≤ sumBits x ∧ sumBits x < m + 1) := by omega
        simpa [hx] using this
    rw [e1, e2] at h
    exact (List.Perm.append_right _ ih).trans h

theorem statesToBitsByNumOn_perm (n : ℕ) : (statesToBitsByNumOn n).Perm (allBits n) := by
  unfold statesToBitsByNumOn
  rw [bitsByNumOn_eq]
  refine (flatten_buckets_perm (allBits n) (n + 1)).trans ?_
  rw [List.filter_eq_self.mpr]
  intro b hb
  have := sumBits_le_of_isBits ((mem_allBits_iff n b).mp hb)
  simpa using Nat.lt_succ_of_le this

theorem statesToBitsByNumOn_sorted (n : ℕ) :
    (statesToBitsByNumOn n).Pairwise fun a b => sumBits a ≤ sumBits b := by
  unfold statesToBitsByNumOn
  rw [bitsByNumOn_eq, List.pairwise_flatten]
  constructor
  · intro l hl
    obtain ⟨j, _, rfl⟩ := List.mem_map.mp hl
    apply List.pairwise_of_forall_mem_list
    intro a ha b hb
    have h1 := (List.mem_filter.mp ha).2
    have h2 := (List.mem_filter.mp hb).2
    simp at h1 h2
    omega
  · rw [List.pairwise_map]
    refine List.Pairwise.imp ?_ (List.pairwise_lt_range (n + 1))
    intro i j hij a ha b hb
    have h1 := (List.mem_filter.mp ha).2
    have h2 := (List.mem_filter.mp hb).2
    simp at h1 h2
    omega

theorem statesToBitsByNumOn_head (n : ℕ) :
    ∃ rest, statesToBitsByNumOn (n + 1) =
      List.replicate (n + 1) 0 :: ((List.range (n + 1)).map (unitBits (n + 1)) ++ rest) := by
  unfold statesToBitsByNumOn
  have e : List.range (n + 1 + 1) = 0 :: 1 :: (List.range n).map fun j => j + 2 := by
    rw [List.range_succ_eq_map, List.range_succ_eq_map]
    simp
  rw [bitsByNumOn_eq, e]
  simp only [List.map_cons, List.flatten_cons]
  rw [bucket_zero, bucket_one]
  exact ⟨_, rfl⟩

theorem assignStates_not_mem : ∀ (l : List (List ℕ)) (i : ℕ) (m : List ℕ → ℕ) (b : List ℕ),
    b ∉ l → assignStates i l m b = m b := by
  intro l
  induction l with
  | nil => intro i m b _; rfl
  | cons a l ih =>
    intro i m b hb
    rw [assignStates, ih _ _ _ (fun h => hb (List.mem_cons_of_mem _ h))]
    apply Function.update_noteq
    rintro rfl
    exact hb (List.mem_cons_self _ _)

theorem assignStates_getElem? : ∀ (l : List (List ℕ)) (i : ℕ) (m : List ℕ → ℕ) (k : ℕ)
    (b : List ℕ), l.Nodup → l[k]? = some b → assignStates i l m b = i + k := by
  intro l
  induction l with
  | nil => intro i m k b _ h; simp at h
  | cons a l ih =>
    intro i m k b hnd h
    cases k with
    | zero =>
      simp at h
      subst h
      rw [assignStates, assignStates_not_mem _ _ _ _ (List.nodup_cons.mp hnd).1]
      simp
    | succ k =>
      simp at h
      rw [assignStates, ih _ _ _ _ (List.nodup_cons.mp hnd).2 h]
      omega

/-- C23. `buildBits` numbers the presence/absence vectors of the `numCharacters` areas so
that `statesToBitsByNumOn` holds each of the `2^numCharacters` vectors exactly once, in
order of non-decreasing number of areas present: state 0 is the empty vector, state `j + 1`
is the vector of the single area `j`; and `bitsToState` maps the vector of every state back
to that state. -/
theorem buildBits_states (numCharacters : ℕ) :
    (statesToBitsByNumOn numCharacters).length = 2 ^ numCharacters ∧
    (∀ b ∈ statesToBitsByNumOn numCharacters, IsBits numCharacters b) ∧
    (∀ b, IsBits numCharacters b → ∃! s : ℕ, (statesToBitsByNumOn numCharacters)[s]? = some b) ∧
    ((statesToBitsByNumOn numCharacters).Pairwise fun a b => sumBits a ≤ sumBits b) ∧
    (statesToBitsByNumOn numCharacters)[0]? = some (List.replicate numCharacters 0) ∧
    (∀ j, j < numCharacters →
      (statesToBitsByNumOn numCharacters)[j + 1]? = some (unitBits numCharacters j)) ∧
    (∀ s b, (statesToBitsByNumOn numCharacters)[s]? = some b →
      bitsToState numCharacters b = s) := by
  have hperm := statesToBitsByNumOn_perm numCharacters
  have hnd : (statesToBitsByNumOn numCharacters).Nodup :=
    hperm.nodup_iff.mpr (allBits_nodup numCharacters)
  refine ⟨?_, ?_, ?_, statesToBitsByNumOn_sorted numCharacters, ?_, ?_, ?_⟩
  · rw [hperm.length_eq, allBits_length]
  · intro b hb
    exact (mem_allBits_iff _ b).mp (hperm.mem_iff.mp hb)
  · intro b hb
    obtain ⟨s, hs⟩ := List.mem_iff_getElem?.mp
      (hperm.mem_iff.mpr ((mem_allBits_iff _ b).mpr hb))
    refine ⟨s, hs, fun t ht => ?_⟩
    have h1 := assignStates_getElem? _ 0 (fun _ => 0) s b hnd hs
    have h2 := assignStates_getElem? _ 0 (fun _ => 0) t b hnd ht
    omega
  · cases numCharacters with
    | zero => rfl
    | succ n =>
      obtain ⟨rest, h⟩ := statesToBitsByNumOn_head n
      rw [h, List.getElem?_cons_zero]
  · intro j hj
    cases numCharacters with
    | zero => omega
    | succ n =>
      obtain ⟨rest, h⟩ := statesToBitsByNumOn_head n
      rw [h, List.getElem?_cons_succ, List.getElem?_append_left (by simpa using hj)]
      simp [List.getElem?_range hj]
  · intro s b h
    have := assignStates_getElem? _ 0 (fun _ => 0) s b hnd h
    rw [zero_add] at this
    exact this

/-! ### `buildRanges` -/

theorem mem_setInsert {i x : ℕ} : ∀ {s : List ℕ}, x ∈ setInsert i s ↔ x = i ∨ x ∈ s := by
  intro s
  induction s with
  | nil => simp [setInsert]
  | cons y s ih =>
    simp only [setInsert]
    split_ifs with h1 h2
    · simp
    · subst h2; simp
    · simp only [List.mem_cons, ih]
      tauto

theorem setInsert_pairwise {i : ℕ} : ∀ {s : List ℕ}, s.Pairwise (· < ·) →
    (setInsert i s).Pairwise (· < ·) := by
  intro s
  induction s with
  | nil => intro _; simp [setInsert]
  | cons y s ih =>
    intro hs
    simp only [setInsert]
    split_ifs with h1 h2
    · refine List.Pairwise.cons ?_ hs
      intro z hz
      rcases List.mem_cons.mp hz with rfl | hz
      · exact h1
      · exact lt_trans h1 (List.rel_of_pairwise_cons hs hz)
    · exact hs
    · refine List.Pairwise.cons ?_ (ih (List.Pairwise.of_cons hs))
      intro z hz
      rcases mem_setInsert.mp hz with rfl | hz
      · omega
      · exact List.rel_of_pairwise_cons hs hz

theorem setInsert_length {i : ℕ} : ∀ {s : List ℕ}, i ∉ s →
    (setInsert i s).length = s.length + 1 := by
  intro s
  induction s with
  | nil => intro _; rfl
  | cons y s ih =>
    intro hi
    simp only [setInsert]
    have hne : i ≠ y := fun h => hi (h ▸ List.mem_cons_self _ _)
    split_ifs with h1
    · rfl
    · simp [ih (fun h => hi (List.mem_cons_of_mem _ h))]

theorem setInsert_of_mem {i : ℕ} : ∀ {s : List ℕ}, s.Pairwise (· < ·) → i ∈ s →
    setInsert i s = s := by
  intro s
  induction s with
  | nil => intro _ h; simp at h
  | cons y s ih =>
    intro hs hi
    simp only [setInsert]
    rcases List.mem_cons.mp hi with rfl | hi
    · simp
    · have hlt : y < i := List.rel_of_pairwise_cons hs hi
      rw [if_neg (by omega), if_neg (by omega), ih (List.Pairwise.of_cons hs) hi]

theorem setInsert_append_last {i : ℕ} : ∀ {s : List ℕ}, (∀ x ∈ s, x < i) →
    setInsert i s = s ++ [i] := by
  intro s
  induction s with
  | nil => intro _; rfl
  | cons y s ih =>
    intro h
    have hy : y < i := h y (List.mem_cons_self _ _)
    simp only [setInsert]
    rw [if_neg (by omega), if_neg (by omega), ih (fun x hx => h x (List.mem_cons_of_mem _ hx))]
    rfl

theorem mem_rangeInsert {s t : List ℕ} : ∀ {r : List (List ℕ)},
    t ∈ rangeInsert s r ↔ t = s ∨ t ∈ r := by
  intro r
  induction r with
  | nil => simp [rangeInsert]
  | cons y r ih =>
    simp only [rangeInsert]
    split_ifs with h1 h2
    · subst h1; simp
    · simp
    · simp only [List.mem_cons, ih]
      tauto

theorem IsRange_length_le {n k : ℕ} {s : List ℕ} (h : IsRange n k s) : s.length ≤ n := by
  have hnd : s.Nodup := h.1.imp fun hab => Nat.ne_of_lt hab
  have hsub : s ⊆ List.range n := fun x hx => List.mem_range.mpr (h.2.1 x hx)
  simpa using (List.subperm_of_subset hnd hsub).length_le

theorem IsRange_setInsert {n k i : ℕ} {s : List ℕ} (h : IsRange n k s) (hi : i < n)
    (hk : s.length < k) : IsRange n k (setInsert i s) := by
  refine ⟨setInsert_pairwise h.1, ?_, ?_, ?_⟩
  · intro x hx
    rcases mem_setInsert.mp hx with rfl | hx
    · exact hi
    · exact h.2.1 x hx
  · by_cases hm : i ∈ s
    · rw [setInsert_of_mem h.1 hm]; exact h.2.2.1
    · rw [setInsert_length hm]; omega
  · by_cases hm : i ∈ s
    · rw [setInsert_of_mem h.1 hm]; exact h.2.2.2
    · rw [setInsert_length hm]; omega

theorem RangeClosed_of_subset {n k : ℕ} {r r1 : List (List ℕ)} {u : List ℕ}
    (h : RangeClosed n k r u) (hsub : ∀ v ∈ r, v ∈ r1) : RangeClosed n k r1 u := by
  rcases h with h | h
  · exact Or.inl h
  · exact Or.inr fun i hi => hsub _ (h i hi)

theorem matrix_entry {n : ℕ} {g : List (List Double)} (hg : g.length = n)
    (hrow : ∀ row ∈ g, n ≤ row.length) {it i : ℕ} (hit : it < n) (hi : i < n) :
    ∃ x, (g[it]? >>= fun row => row[i]?) = some x := by
  have h1 : it < g.length := by omega
  have h2 : i < (g[it]).length := lt_of_lt_of_le hi (hrow _ (List.getElem_mem h1))
  exact ⟨(g[it])[i], by simp [List.getElem?_eq_getElem h1, List.getElem?_eq_getElem h2]⟩

theorem rangesInner_spec {n k : ℕ} {g : List (List Double)} (hg : g.length = n)
    (hrow : ∀ row ∈ g, n ≤ row.length)
    (recurse : List ℕ → List (List ℕ) → Except RangeError (List (List ℕ)))
    {s : List ℕ} (hs : IsRange n k s) (hlt : s.length < k)
    (hrec : ∀ t r, IsRange n k t → t.length = s.length + 1 → (∀ u ∈ r, IsRange n k u) →
      RangesPost n k r t (recurse t r))
    {it : ℕ} (hit : it < n) :
    ∀ (is : List ℕ) (r : List (List ℕ)), (∀ i ∈ is, i < n) → s ∈ r →
      (∀ u ∈ r, IsRange n k u) →
      ∃ r1, rangesInner recurse g true s it is r = Except.ok r1 ∧ (∀ u ∈ r, u ∈ r1) ∧
        (∀ u ∈ r1, IsRange n k u) ∧ (∀ u ∈ r1, u ∈ r ∨ RangeClosed n k r1 u) ∧
        ∀ i ∈ is, setInsert i s ∈ r1 := by
  intro is
  induction is with
  | nil =>
    intro r _ _ hr
    exact ⟨r, rfl, fun u hu => hu, hr, fun u hu => Or.inl hu, by simp⟩
  | cons i is ih =>
    intro r his hsr hr
    have hi : i < n := his i (List.mem_cons_self _ _)
    have his2 : ∀ j ∈ is, j < n := fun j hj => his j (List.mem_cons_of_mem _ hj)
    obtain ⟨x, hx⟩ := matrix_entry hg hrow hit hi
    by_cases hmem : setInsert i s ∈ r
    · obtain ⟨r1, e, h1, h2, h3, h4⟩ := ih r his2 hsr hr
      refine ⟨r1, ?_, h1, h2, h3, ?_⟩
      · simp only [rangesInner, hx, or_true, if_true, hmem]
        exact e
      · intro j hj
        rcases List.mem_cons.mp hj with rfl | hj
        · exact h1 _ hmem
        · exact h4 j hj
    · have hnot : i ∉ s := by
        intro h
        rw [setInsert_of_mem hs.1 h] at hmem
        exact hmem hsr
      obtain ⟨r0, e0, a1, a2, a3, a4, _⟩ := hrec (setInsert i s) r (IsRange_setInsert hs hi hlt)
        (setInsert_length hnot) hr
      obtain ⟨r1, e, h1, h2, h3, h4⟩ := ih r0 his2 (a1 _ hsr) a2
      refine ⟨r1, ?_, fun u hu => h1 _ (a1 _ hu), h2, ?_, ?_⟩
      · simp only [rangesInner, hx, or_true, if_true, hmem, if_false, e0]
        exact e
      · intro u hu
        rcases h3 u hu with h | h
        · rcases a4 u h with h5 | h5
          · exact Or.inl h5
          · exact Or.inr (RangeClosed_of_subset h5 h1)
        · exact Or.inr h
      · intro j hj
        rcases List.mem_cons.mp hj with rfl | hj
        · exact h1 _ a3
        · exact h4 j hj

theorem rangesOuter_spec {n k : ℕ} {g : List (List Double)} (hg : g.length = n)
    (hrow : ∀ row ∈ g, n ≤ row.length)
    (recurse : List ℕ → List (List ℕ) → Except RangeError (List (List ℕ)))
    {s : List ℕ} (hs : IsRange n k s) (hlt : s.length < k)
    (hrec : ∀ t r, IsRange n k t → t.length = s.length + 1 → (∀ u ∈ r, IsRange n k u) →
      RangesPost n k r t (recurse t r)) :
    ∀ (its : List ℕ) (r : List (List ℕ)), (∀ i ∈ its, i < n) → s ∈ r →
      (∀ u ∈ r, IsRange n k u) →
      ∃ r1, rangesOuter recurse n g true s its r = Except.ok r1 ∧ (∀ u ∈ r, u ∈ r1) ∧
        (∀ u ∈ r1, IsRange n k u) ∧ (∀ u ∈ r1, u ∈ r ∨ RangeClosed n k r1 u) ∧
        (its ≠ [] → ∀ i, i < n → setInsert i s ∈ r1) := by
  intro its
  induction its with
  | nil =>
    intro r _ _ hr
    exact ⟨r, rfl, fun u hu => hu, hr, fun u hu => Or.inl hu, fun h => absurd rfl h⟩
  | cons it its ih =>
    intro r hits hsr hr
    have hit : it < n := hits it (List.mem_cons_self _ _)
    obtain ⟨r0, e0, a1, a2, a3, a4⟩ := rangesInner_spec hg hrow recurse hs hlt hrec hit
      (List.range n) r (fun i hi => List.mem_range.mp hi) hsr hr
    obtain ⟨r1, e, h1, h2, h3, _⟩ := ih r0
      (fun j hj => hits j (List.mem_cons_of_mem _ hj)) (a1 _ hsr) a2
    refine ⟨r1, ?_, fun u hu => h1 _ (a1 _ hu), h2, ?_, ?_⟩
    · simp only [rangesOuter, e0]
      exact e
    · intro u hu
      rcases h3 u hu with h | h
      · rcases a3 u h with h5 | h5
        · exact Or.inl h5
        · exact Or.inr (RangeClosed_of_subset h5 h1)
      · exact Or.inr h
    · intro _ i hi
      exact h1 _ (a4 i (List.mem_range.mpr hi))

theorem buildRangesRecursively_spec {n k : ℕ} {g : List (List Double)} (hg : g.length = n)
    (hrow : ∀ row ∈ g, n ≤ row.length) :
    ∀ (depth : ℕ) (s : List ℕ) (r : List (List ℕ)), IsRange n k s →
      n + 1 ≤ depth + s.length → (∀ u ∈ r, IsRange n k u) →
      RangesPost n k r s (buildRangesRecursively n g true k depth s r) := by
  intro depth
  induction depth with
  | zero =>
    intro s r hs hd _
    have := IsRange_length_le hs
    omega
  | succ depth ih =>
    intro s r hs hd hr
    have hr1 : ∀ u ∈ rangeInsert s r, IsRange n k u := by
      intro u hu
      rcases mem_rangeInsert.mp hu with rfl | hu
      · exact hs
      · exact hr u hu
    by_cases hk : s.length = k
    · refine ⟨rangeInsert s r, ?_, fun u hu => mem_rangeInsert.mpr (Or.inr hu), hr1,
        mem_rangeInsert.mpr (Or.inl rfl), ?_, Or.inl hk⟩
      · simp only [buildRangesRecursively, hk, le_refl, if_true]
      · intro u hu
        rcases mem_rangeInsert.mp hu with rfl | hu
        · exact Or.inr (Or.inl hk)
        · exact Or.inl hu
    · have hlt : s.length < k := lt_of_le_of_ne hs.2.2.2 hk
      have hne : s ≠ [] := by
        intro h
        have := hs.2.2.1
        rw [h] at this
        simp at this
      obtain ⟨r1, e, h1, h2, h3, h4⟩ := rangesOuter_spec hg hrow
        (buildRangesRecursively n g true k depth) hs hlt
        (fun t r0 ht hlen hr0 => ih t r0 ht (by omega) hr0) s (rangeInsert s r)
        hs.2.1 (mem_rangeInsert.mpr (Or.inl rfl)) hr1
      have hcl : RangeClosed n k r1 s := Or.inr (h4 hne)
      refine ⟨r1, ?_, fun u hu => h1 _ (mem_rangeInsert.mpr (Or.inr hu)), h2,
        h1 _ (mem_rangeInsert.mpr (Or.inl rfl)), ?_, hcl⟩
      · simp only [buildRangesRecursively, hs.2.2.2, if_true, hk, if_false]
        exact e
      · intro u hu
        rcases h3 u hu with h | h
        · rcases mem_rangeInsert.mp h with rfl | h
          · exact Or.inr hcl
          · exact Or.inl h
        · exact Or.inr h

theorem rangesLoop_spec {n k : ℕ} {g : List (List Double)} (hg : g.length = n)
    (hrow : ∀ row ∈ g, n ≤ row.length) (hk : 1 ≤ k) {depth : ℕ} (hd : n ≤ depth) :
    ∀ (is : List ℕ) (r : List (List ℕ)), (∀ i ∈ is, i < n) →
      (∀ u ∈ r, IsRange n k u ∧ RangeClosed n k r u) →
      ∃ r1, rangesLoop n g true k depth is r = Except.ok r1 ∧ (∀ u ∈ r, u ∈ r1) ∧
        (∀ u ∈ r1, IsRange n k u ∧ RangeClosed n k r1 u) ∧ ∀ i ∈ is, [i] ∈ r1 := by
  intro is
  induction is with
  | nil =>
    intro r _ hr
    exact ⟨r, rfl, fun u hu => hu, hr, by simp⟩
  | cons i is ih =>
    intro r his hr
    have hi : i < n := his i (List.mem_cons_self _ _)
    have hsingle : IsRange n k [i] :=
      ⟨List.pairwise_singleton _ _, by simpa using hi, by simp, by simpa using hk⟩
    have hr1 : ∀ u ∈ rangeInsert [i] r, IsRange n k u := by
      intro u hu
      rcases mem_rangeInsert.mp hu with rfl | hu
      · exact hsingle
      · exact (hr u hu).1
    obtain ⟨r0, e0, a1, a2, a3, a4, a5⟩ := buildRangesRecursively_spec hg hrow depth [i]
      (rangeInsert [i] r) hsingle (by simp; omega) hr1
    have hr0 : ∀ u ∈ r0, IsRange n k u ∧ RangeClosed n k r0 u := by
      intro u hu
      refine ⟨a2 u hu, ?_⟩
      rcases a4 u hu with h | h
      · rcases mem_rangeInsert.mp h with rfl | h
        · exact a5
        · exact RangeClosed_of_subset (hr u h).2
            (fun v hv => a1 _ (mem_rangeInsert.mpr (Or.inr hv)))
      · exact h
    obtain ⟨r1, e, h1, h2, h3⟩ := ih r0 (fun j hj => his j (List.mem_cons_of_mem _ hj)) hr0
    refine ⟨r1, ?_, fun u hu => h1 _ (a1 _ (mem_rangeInsert.mpr (Or.inr hu))), h2, ?_⟩
    · simp only [rangesLoop, e0]
      exact e
    · intro j hj
      rcases List.mem_cons.mp hj with rfl | hj
      · exact h1 _ a3
      · exact h3 j hj

theorem isRange_mem_of_closed {n k : ℕ} {r : List (List ℕ)}
    (hr : ∀ u ∈ r, IsRange n k u ∧ RangeClosed n k r u) (hsingle : ∀ i, i < n → [i] ∈ r) :
    ∀ u : List ℕ, IsRange n k u → u ∈ r := by
  intro u
  induction u using List.reverseRecOn with
  | nil =>
    intro h
    have := h.2.2.1
    simp at this
  | append_singleton v x ih =>
    intro h
    have hx : x < n := h.2.1 x (by simp)
    rcases List.eq_nil_or_concat v with hv | ⟨w, y, hv⟩
    · subst hv
      exact hsingle x hx
    · have hlen : v.length + 1 ≤ k := by
        have := h.2.2.2
        simpa using this
      have hvr : IsRange n k v := by
        refine ⟨(List.pairwise_append.mp h.1).1, fun z hz => h.2.1 z (by simp [hz]), ?_, by omega⟩
        rw [hv]; simp
      have hlast : ∀ z ∈ v, z < x := fun z hz =>
        (List.pairwise_append.mp h.1).2.2 z hz x (by simp)
      rcases (hr v (ih hvr)).2 with hc | hc
      · omega
      · have := hc x hx
        rw [setInsert_append_last hlast] at this
        exact this

theorem rangesLoop_mem {n k : ℕ} {g : List (List Double)} (hg : g.length = n)
    (hrow : ∀ row ∈ g, n ≤ row.length) (hk : 1 ≤ k) {depth : ℕ} (hd : n ≤ depth) :
    ∃ r, rangesLoop n g true k depth (List.range n) [] = Except.ok r ∧
      ∀ u, u ∈ r ↔ IsRange n k u := by
  obtain ⟨r, e, _, h2, h3⟩ := rangesLoop_spec hg hrow hk hd (List.range n) []
    (fun i hi => List.mem_range.mp hi) (by simp)
  exact ⟨r, e, fun u => ⟨fun hu => (h2 u hu).1,
    isRange_mem_of_closed h2 (fun i hi => h3 i (List.mem_range.mpr hi)) u⟩⟩

theorem foldl_setInsert_mem {α : Type} (f : α → ℕ) (x : ℕ) : ∀ (r : List α) (acc : List ℕ),
    x ∈ r.foldl (fun range_set s => setInsert (f s) range_set) acc ↔
      x ∈ acc ∨ ∃ s ∈ r, f s = x := by
  intro r
  induction r with
  | nil => intro acc; simp
  | cons s r ih =>
    intro acc
    rw [List.foldl_cons, ih, mem_setInsert]
    constructor
    · rintro ((h | h) | ⟨t, ht, h⟩)
      · exact Or.inr ⟨s, List.mem_cons_self _ _, h.symm⟩
      · exact Or.inl h
      · exact Or.inr ⟨t, List.mem_cons_of_mem _ ht, h⟩
    · rintro (h | ⟨t, ht, h⟩)
      · exact Or.inl (Or.inr h)
      · rcases List.mem_cons.mp ht with rfl | ht
        · exact Or.inl (Or.inl h.symm)
        · exact Or.inr ⟨t, ht, h⟩

theorem foldl_setInsert_pairwise {α : Type} (f : α → ℕ) : ∀ (r : List α) (acc : List ℕ),
    acc.Pairwise (· < ·) →
      (r.foldl (fun range_set s => setInsert (f s) range_set) acc).Pairwise (· < ·) := by
  intro r
  induction r with
  | nil => intro acc h; exact h
  | cons s r ih => intro acc h; exact ih _ (setInsert_pairwise h)

theorem foldl_set_length (s : List ℕ) : ∀ v : List ℕ,
    (s.foldl (fun v j => v.set j 1) v).length = v.length := by
  induction s with
  | nil => intro v; rfl
  | cons j s ih => intro v; rw [List.foldl_cons, ih, List.length_set]

theorem foldl_set_getElem? (p : ℕ) (s : List ℕ) : ∀ v : List ℕ,
    (s.foldl (fun v j => v.set j 1) v)[p]? =
      if p ∈ s then (v[p]?).map (fun _ => 1) else v[p]? := by
  induction s with
  | nil => intro v; simp
  | cons j s ih =>
    intro v
    rw [List.foldl_cons, ih, List.getElem?_set]
    by_cases hp : p ∈ s
    · by_cases hj : j = p
      · subst hj
        by_cases hl : j < v.length
        · simp [hp, hl]
        · simp [hp, hl, List.getElem?_eq_none (Nat.le_of_not_lt hl)]
      · simp [hp, hj]
    · by_cases hj : j = p
      · subst hj
        by_cases hl : j < v.length
        · simp [hp, hl]
        · simp [hp, hl, List.getElem?_eq_none (Nat.le_of_not_lt hl)]
      · have hj2 : ¬ p = j := fun h => hj h.symm
        simp [hp, hj, hj2]

theorem indicatorBits_getElem? (n p : ℕ) (s : List ℕ) :
    (indicatorBits n s)[p]? = if p < n then some (if p ∈ s then 1 else 0) else none := by
  unfold indicatorBits
  rw [foldl_set_getElem?]
  by_cases hp : p < n
  · by_cases hs : p ∈ s <;> simp [hp, hs]
  · by_cases hs : p ∈ s <;> simp [hp, hs, Nat.le_of_not_lt hp]

theorem indicatorBits_isBits (n : ℕ) (s : List ℕ) : IsBits n (indicatorBits n s) := by
  refine ⟨by simp [indicatorBits, foldl_set_length], ?_⟩
  intro x hx
  obtain ⟨p, hp⟩ := List.mem_iff_getElem?.mp hx
  rw [indicatorBits_getElem?] at hp
  by_cases h1 : p < n
  · by_cases h2 : p ∈ s
    · simp [h1, h2] at hp; exact Or.inr hp.symm
    · simp [h1, h2] at hp; exact Or.inl hp.symm
  · simp [h1] at hp

theorem sum_set_one : ∀ (l : List ℕ) (x : ℕ), l[x]? = some 0 → (l.set x 1).sum = l.sum + 1 := by
  intro l
  induction l with
  | nil => intro x h; simp at h
  | cons a l ih =>
    intro x h
    cases x with
    | zero =>
      simp at h
      subst h
      simp [add_comm]
    | succ x =>
      simp at h
      simp [ih x h]
      omega

theorem indicatorBits_append (n x : ℕ) (v : List ℕ) :
    indicatorBits n (v ++ [x]) = (indicatorBits n v).set x 1 := by
  simp [indicatorBits, List.foldl_append]

theorem sumBits_indicatorBits (n : ℕ) : ∀ s : List ℕ, s.Pairwise (· < ·) → (∀ x ∈ s, x < n) →
    sumBits (indicatorBits n s) = s.length := by
  intro s
  induction s using List.reverseRecOn with
  | nil => intro _ _; simp [indicatorBits, sumBits_eq_sum]
  | append_singleton v x ih =>
    intro hs hn
    have hx : x < n := hn x (by simp)
    have hnot : x ∉ v := by
      intro h
      exact lt_irrefl x ((List.pairwise_append.mp hs).2.2 x h x (by simp))
    rw [indicatorBits_append, sumBits_eq_sum, sum_set_one, ← sumBits_eq_sum,
      ih (List.pairwise_append.mp hs).1 (fun z hz => hn z (by simp [hz]))]
    · simp
    · rw [indicatorBits_getElem?]
      simp [hx, hnot]

/-- The areas present in a presence/absence vector, as a set. -/
theorem indicatorBits_onAreas {n : ℕ} {b : List ℕ} (hb : IsBits n b) :
    indicatorBits n ((List.range n).filter fun i => b[i]? = some 1) = b := by
  apply List.ext_getElem?
  intro p
  rw [indicatorBits_getElem?]
  by_cases hp : p < n
  · have hpl : p < b.length := by rw [hb.1]; exact hp
    have hval := hb.2 b[p] (List.getElem_mem hpl)
    rw [List.getElem?_eq_getElem hpl]
    rcases hval with h | h
    · simp [hp, List.getElem?_eq_getElem hpl, h]
    · simp [hp, List.getElem?_eq_getElem hpl, h]
  · have hpl : b.length ≤ p := by rw [hb.1]; exact Nat.le_of_not_lt hp
    simp [hp, List.getElem?_eq_none hpl]

theorem isRange_iff_bits (n k : ℕ) (b : List ℕ) :
    (∃ s, IsRange n k s ∧ indicatorBits n s = b) ↔
      IsBits n b ∧ 1 ≤ sumBits b ∧ sumBits b ≤ k := by
  constructor
  · rintro ⟨s, hs, rfl⟩
    rw [sumBits_indicatorBits n s hs.1 hs.2.1]
    exact ⟨indicatorBits_isBits n s, hs.2.2⟩
  · rintro ⟨hb, h1, h2⟩
    have hpw : ((List.range n).filter fun i => b[i]? = some 1).Pairwise (· < ·) :=
      (List.pairwise_lt_range n).filter _
    have hlt : ∀ x ∈ (List.range n).filter fun i => b[i]? = some 1, x < n :=
      fun x hx => List.mem_range.mp (List.mem_filter.mp hx).1
    have hsum := sumBits_indicatorBits n _ hpw hlt
    rw [indicatorBits_onAreas hb] at hsum
    exact ⟨_, ⟨hpw, hlt, by omega, by omega⟩, indicatorBits_onAreas hb⟩

theorem buildRanges_mem {g : List (List Double)} {k : ℕ}
    (hrow : ∀ row ∈ g, g.length ≤ row.length) (hk : 1 ≤ k) :
    ∃ ranges, buildRanges g true k = Except.ok ranges ∧ ranges.Pairwise (· < ·) ∧
      ∀ x, x ∈ ranges ↔ ∃ b, IsBits g.length b ∧ 1 ≤ sumBits b ∧ sumBits b ≤ k ∧
        bitsToState g.length b = x := by
  obtain ⟨r, e, hr⟩ := @rangesLoop_mem g.length k g rfl hrow hk (g.length + 1)
    (Nat.le_succ _)
  refine ⟨r.foldl (fun range_set s =>
      setInsert (bitsToStatesByNumOn g.length (indicatorBits g.length s)) range_set) [],
    ?_, foldl_setInsert_pairwise _ r [] List.Pairwise.nil, ?_⟩
  · simp only [buildRanges, e]
  · intro x
    rw [foldl_setInsert_mem]
    constructor
    · rintro (h | ⟨s, hs, rfl⟩)
      · simp at h
      · obtain ⟨h1, h2, h3⟩ := (isRange_iff_bits g.length k _).mp ⟨s, (hr s).mp hs, rfl⟩
        exact ⟨_, h1, h2, h3, rfl⟩
    · rintro ⟨b, h1, h2, h3, rfl⟩
      obtain ⟨s, hs, rfl⟩ := (isRange_iff_bits g.length k b).mpr ⟨h1, h2, h3⟩
      exact Or.inr ⟨s, (hr s).mpr hs, rfl⟩

theorem bucket_length : ∀ (n j : ℕ),
    ((allBits n).filter fun b => sumBits b = j).length = n.choose j := by
  intro n
  induction n with
  | zero =>
    intro j
    cases j with
    | zero => rfl
    | succ j => rfl
  | succ n ih =>
    intro j
    cases j with
    | zero => rw [bucket_zero]; simp
    | succ j =>
      rw [bucket_succ, List.length_append, List.length_map, List.length_map, ih, ih,
        Nat.choose_succ_succ, add_comm]

theorem flatten_buckets_length (n : ℕ) : ∀ m : ℕ,
    ((List.range m).map fun j => (allBits n).filter fun c => sumBits c = j).flatten.length =
      ∑ j in Finset.range m, n.choose j := by
  intro m
  induction m with
  | zero => simp
  | succ m ih =>
    rw [List.range_succ, List.map_append, List.flatten_append, List.length_append, ih,
      Finset.sum_range_succ]
    simp [bucket_length]

theorem flatten_buckets_mem (n m : ℕ) (b : List ℕ) :
    b ∈ ((List.range m).map fun j => (allBits n).filter fun c => sumBits c = j).flatten ↔
      IsBits n b ∧ sumBits b < m := by
  rw [(flatten_buckets_perm (allBits n) m).mem_iff, List.mem_filter, mem_allBits_iff]
  simp

theorem statesToBitsByNumOn_nodup (n : ℕ) : (statesToBitsByNumOn n).Nodup :=
  (statesToBitsByNumOn_perm n).nodup_iff.mpr (allBits_nodup n)

theorem bitsToState_of_getElem? {n s : ℕ} {b : List ℕ}
    (h : (statesToBitsByNumOn n)[s]? = some b) : bitsToState n b = s := by
  have := assignStates_getElem? _ 0 (fun _ => 0) s b (statesToBitsByNumOn_nodup n) h
  rw [zero_add] at this
  exact this

theorem getElem?_bitsToState {n : ℕ} {b : List ℕ} (hb : IsBits n b) :
    (statesToBitsByNumOn n)[bitsToState n b]? = some b := by
  obtain ⟨s, hs⟩ := List.mem_iff_getElem?.mp
    ((statesToBitsByNumOn_perm n).mem_iff.mpr ((mem_allBits_iff n b).mpr hb))
  rw [bitsToState_of_getElem? hs]
  exact hs

theorem bitsToState_injOn {n : ℕ} {a b : List ℕ} (ha : IsBits n a) (hb : IsBits n b)
    (h : bitsToState n a = bitsToState n b) : a = b := by
  have h1 := getElem?_bitsToState ha
  rw [h, getElem?_bitsToState hb] at h1
  exact (Option.some.inj h1).symm

theorem bitsToState_lt_pow {n : ℕ} {b : List ℕ} (hb : IsBits n b) : bitsToState n b < 2 ^ n := by
  have h := getElem?_bitsToState hb
  have hlen : (statesToBitsByNumOn n).length = 2 ^ n := by
    rw [(statesToBitsByNumOn_perm n).length_eq, allBits_length]
  rw [← hlen]
  by_contra hcon
  rw [List.getElem?_eq_none (Nat.le_of_not_lt hcon)] at h
  cases h

/-- The states of the vectors with at most `m` areas present are the first ones. -/
theorem bitsToState_lt_iff {n m : ℕ} (hm : m ≤ n) {b : List ℕ} (hb : IsBits n b) :
    bitsToState n b < ∑ j in Finset.range (m + 1), n.choose j ↔ sumBits b ≤ m := by
  have hsplit : List.range (n + 1) = List.range (m + 1) ++ List.range' (m + 1) (n - m) := by
    have e : n + 1 = (m + 1) + (n - m) := by omega
    rw [e, List.range_add, List.range'_eq_map_range]
  have hst : statesToBitsByNumOn n =
      ((List.range (m + 1)).map fun j => (allBits n).filter fun c => sumBits c = j).flatten ++
      ((List.range' (m + 1) (n - m)).map
        fun j => (allBits n).filter fun c => sumBits c = j).flatten := by
    unfold statesToBitsByNumOn
    rw [bitsByNumOn_eq, hsplit, List.map_append, List.flatten_append]
  have hget := getElem?_bitsToState hb
  have hnd := statesToBitsByNumOn_nodup n
  rw [hst] at hget hnd
  rw [← flatten_buckets_length n (m + 1)]
  constructor
  · intro hlt
    rw [List.getElem?_append_left hlt] at hget
    have := (flatten_buckets_mem n (m + 1) b).mp (List.mem_iff_getElem?.mpr ⟨_, hget⟩)
    omega
  · intro hle
    by_contra hcon
    have hmem : b ∈ ((List.range (m + 1)).map
        fun j => (allBits n).filter fun c => sumBits c = j).flatten :=
      (flatten_buckets_mem n (m + 1) b).mpr ⟨hb, by omega⟩
    rw [List.getElem?_append_right (Nat.le_of_not_lt hcon)] at hget
    exact (List.nodup_append.mp hnd).2.2 hmem (List.mem_iff_getElem?.mpr ⟨_, hget⟩)

theorem bitsToState_eq_zero_iff {n : ℕ} {b : List ℕ} (hb : IsBits n b) :
    bitsToState n b = 0 ↔ sumBits b = 0 := by
  have h := bitsToState_lt_iff (Nat.zero_le n) hb
  simp at h
  exact h

theorem sum_choose_succ (n m : ℕ) :
    ∑ j in Finset.range (m + 1), n.choose j = 1 + ∑ j in Finset.Icc 1 m, n.choose j := by
  induction m with
  | zero => simp
  | succ m ih =>
    rw [Finset.sum_range_succ, ih, Finset.sum_Icc_succ_top (by omega)]
    ring

theorem mem_ranges_iff {n k x : ℕ} :
    (∃ b, IsBits n b ∧ 1 ≤ sumBits b ∧ sumBits b ≤ k ∧ bitsToState n b = x) ↔
      1 ≤ x ∧ x < 1 + ∑ j in Finset.Icc 1 (min k n), n.choose j := by
  rw [← sum_choose_succ]
  constructor
  · rintro ⟨b, hb, h1, h2, rfl⟩
    have hn := sumBits_le_of_isBits hb
    refine ⟨?_, (bitsToState_lt_iff (Nat.min_le_right k n) hb).mpr (le_min h2 hn)⟩
    by_contra hcon
    have := (bitsToState_eq_zero_iff hb).mp (by omega)
    omega
  · rintro ⟨h1, h2⟩
    have hle : ∑ j in Finset.range (min k n + 1), n.choose j ≤ 2 ^ n := by
      rw [← Nat.sum_range_choose n]
      apply Finset.sum_le_sum_of_subset
      intro j hj
      have := Finset.mem_range.mp hj
      exact Finset.mem_range.mpr (by have := Nat.min_le_right k n; omega)
    have hlen : (statesToBitsByNumOn n).length = 2 ^ n := by
      rw [(statesToBitsByNumOn_perm n).length_eq, allBits_length]
    have hx : x < (statesToBitsByNumOn n).length := by omega
    have hb : IsBits n ((statesToBitsByNumOn n)[x]) :=
      (mem_allBits_iff n _).mp ((statesToBitsByNumOn_perm n).mem_iff.mp (List.getElem_mem hx))
    have hst : bitsToState n ((statesToBitsByNumOn n)[x]) = x :=
      bitsToState_of_getElem? (List.getElem?_eq_getElem hx)
    refine ⟨_, hb, ?_, ?_, hst⟩
    · by_contra hcon
      have := (bitsToState_eq_zero_iff hb).mpr (by omega)
      omega
    · have := (bitsToState_lt_iff (Nat.min_le_right k n) hb).mp (by rw [hst]; exact h2)
      exact le_trans this (Nat.min_le_left k n)

theorem eq_range'_of_mem {l : List ℕ} {N : ℕ} (hl : l.Pairwise (· < ·))
    (hmem : ∀ x, x ∈ l ↔ 1 ≤ x ∧ x < 1 + N) : l = List.range' 1 N := by
  apply List.eq_of_perm_of_sorted (r := (· < ·)) _ hl (List.pairwise_lt_range' 1 N)
  have hnd : l.Nodup := hl.imp fun h => Nat.ne_of_lt h
  refine (List.perm_ext_iff_of_nodup hnd (List.nodup_range' 1 N)).mpr ?_
  intro x
  rw [hmem, List.mem_range'_1]

theorem buildRanges_eq {g : List (List Double)} {k : ℕ}
    (hrow : ∀ row ∈ g, g.length ≤ row.length) (hk : 1 ≤ k) :
    buildRanges g true k =
      Except.ok (List.range' 1 (∑ j in Finset.Icc 1 (min k g.length), g.length.choose j)) := by
  obtain ⟨ranges, e, hpw, hmem⟩ := buildRanges_mem hrow hk
  rw [e, eq_range'_of_mem hpw (fun x => (hmem x).trans mem_ranges_iff)]

/-! ### `buildEventMap` -/

theorem mapAssign_perm (idx : EventKey) (t : ℕ) : ∀ m : List (EventKey × ℕ),
    idx ∉ m.map Prod.fst → (mapAssign idx t m).Perm ((idx, t) :: m) := by
  intro m
  induction m with
  | nil => intro _; exact List.Perm.refl _
  | cons x m ih =>
    intro h
    have h1 : idx ≠ x.1 := fun e => h (by simp [e])
    have h2 : idx ∉ m.map Prod.fst := fun e => h (by simp at e ⊢; exact Or.inr e)
    simp only [mapAssign, if_neg h1]
    split_ifs
    · exact List.Perm.refl _
    · exact ((ih h2).cons x).trans (List.Perm.swap _ _ _)

theorem foldl_mapAssign_perm : ∀ (es m : List (EventKey × ℕ)), (es.map Prod.fst).Nodup →
    (∀ e ∈ es, e.1 ∉ m.map Prod.fst) →
    (es.foldl (fun m e => mapAssign e.1 e.2 m) m).Perm (es ++ m) := by
  intro es
  induction es with
  | nil => intro m _ _; exact List.Perm.refl _
  | cons e es ih =>
    intro m hnd hdis
    rw [List.map_cons, List.nodup_cons] at hnd
    have hp := mapAssign_perm e.1 e.2 m (hdis e (List.mem_cons_self _ _))
    have hdis2 : ∀ x ∈ es, x.1 ∉ (mapAssign e.1 e.2 m).map Prod.fst := by
      intro x hx hcon
      rw [(hp.map Prod.fst).mem_iff, List.map_cons, List.mem_cons] at hcon
      rcases hcon with h | h
      · exact hnd.1 (h ▸ List.mem_map_of_mem Prod.fst hx)
      · exact hdis x (List.mem_cons_of_mem _ hx) h
    rw [List.foldl_cons]
    refine (ih _ hnd.2 hdis2).trans ?_
    refine (List.Perm.append_left es hp).trans ?_
    exact List.perm_middle

theorem foldl_addEvent_types (i : ℕ) : ∀ (es : List (EventKey × ℕ)) (s : Biogeography),
    (es.foldl (addEvent i) s).eventMapTypes =
      es.foldl (fun m e => mapAssign e.1 e.2 m) s.eventMapTypes := by
  intro es
  induction es with
  | nil => intro s; rfl
  | cons e es ih => intro s; rw [List.foldl_cons, ih]; rfl

theorem foldl_addEvent_counts (i : ℕ) : ∀ (es : List (EventKey × ℕ)) (s : Biogeography)
    (a t : ℕ), (es.foldl (addEvent i) s).eventMapCounts a t =
      s.eventMapCounts a t + if a = i then es.countP (fun e => e.2 = t) else 0 := by
  intro es
  induction es with
  | nil => intro s a t; simp
  | cons e es ih =>
    intro s a t
    rw [List.foldl_cons, ih, List.countP_cons]
    by_cases ha : a = i
    · subst ha
      by_cases ht : e.2 = t
      · subst ht; simp [addEvent]; omega
      · have ht2 : ¬ t = e.2 := fun h => ht h.symm
        simp [addEvent, ht, Function.update_noteq ht2]
    · simp [addEvent, ha, Function.update_noteq ha]

theorem foldl_addEvent_fields (i : ℕ) : ∀ (es : List (EventKey × ℕ)) (s : Biogeography),
    (es.foldl (addEvent i) s).numRanges = s.numRanges ∧
    (es.foldl (addEvent i) s).use_hidden_rate = s.use_hidden_rate ∧
    (es.foldl (addEvent i) s).connectivityType = s.connectivityType ∧
    (es.foldl (addEvent i) s).speciationRates = s.speciationRates ∧
    (es.foldl (addEvent i) s).rateMultiplier = s.rateMultiplier := by
  intro es
  induction es with
  | nil => intro s; exact ⟨rfl, rfl, rfl, rfl, rfl⟩
  | cons e es ih => intro s; rw [List.foldl_cons]; exact ih _

theorem eventLoop_spec (types : CladoEventTypes) (n : ℕ) (ranges : List ℕ) :
    ∀ (is : List ℕ) (s : Biogeography), is.Nodup →
      (∀ i ∈ is, i < (statesToBitsByNumOn n).length) →
      ∃ s1, eventLoop types n ranges is s = some s1 ∧
        s1.eventMapTypes =
          (allEvents types n ranges is).foldl (fun m e => mapAssign e.1 e.2 m)
            s.eventMapTypes ∧
        (∀ a t, s1.eventMapCounts a t =
          if a ∈ is then
            (rangeEvents types n ranges a (((statesToBitsByNumOn n)[a]?).getD [])).countP
              (fun e => e.2 = t)
          else s.eventMapCounts a t) ∧
        s1.numRanges = s.numRanges ∧ s1.use_hidden_rate = s.use_hidden_rate ∧
        s1.connectivityType = s.connectivityType ∧ s1.speciationRates = s.speciationRates ∧
        s1.rateMultiplier = s.rateMultiplier := by
  intro is
  induction is with
  | nil =>
    intro s _ _
    exact ⟨s, rfl, rfl, fun a t => by simp, rfl, rfl, rfl, rfl, rfl⟩
  | cons i is ih =>
    intro s hnd hlt
    rw [List.nodup_cons] at hnd
    have hi := hlt i (List.mem_cons_self _ _)
    have hget : (statesToBitsByNumOn n)[i]? = some ((statesToBitsByNumOn n)[i]) :=
      List.getElem?_eq_getElem hi
    obtain ⟨s1, e, h1, h2, h3⟩ := ih
      ((rangeEvents types n ranges i ((statesToBitsByNumOn n)[i])).foldl (addEvent i)
        { s with eventMapCounts := Function.update s.eventMapCounts i fun _ => 0 })
      hnd.2 (fun j hj => hlt j (List.mem_cons_of_mem _ hj))
    obtain ⟨f1, f2, f3, f4, f5⟩ := foldl_addEvent_fields i
      (rangeEvents types n ranges i ((statesToBitsByNumOn n)[i]))
      { s with eventMapCounts := Function.update s.eventMapCounts i fun _ => 0 }
    refine ⟨s1, ?_, ?_, ?_, ?_⟩
    · simp only [eventLoop, hget]
      exact e
    · rw [h1, foldl_addEvent_types]
      simp only [allEvents, List.flatMap_cons, List.foldl_append, hget, Option.getD_some]
    · intro a t
      rw [h2, foldl_addEvent_counts]
      by_cases ha : a = i
      · subst ha
        simp [hnd.1, hget]
      · by_cases hm : a ∈ is
        · simp [hm]
        · simp [hm, ha, Function.update_noteq ha]
    · rw [h3.1, h3.2.1, h3.2.2.1, h3.2.2.2.1, h3.2.2.2.2, f1, f2, f3, f4, f5]
      exact ⟨rfl, rfl, rfl, rfl, rfl⟩

theorem rangeEvents_eq (types : CladoEventTypes) (n : ℕ) (ranges : List ℕ) (i : ℕ)
    (ba : List ℕ) :
    rangeEvents types n ranges i ba =
      if sumBits ba = 1 then
        if i ∈ ranges then [((i, i, i), types.SYMPATRY)] else []
      else if 1 < sumBits ba then
        if i ∈ ranges then
          trunkBudEvents n ranges i types.SYMPATRY
              ((List.range ba.length).filter fun j => ba[j]? = some 1) ++
            budTrunkEvents n ranges i types.SYMPATRY
              ((List.range ba.length).filter fun j => ba[j]? = some 1) ++
            allopatryEvents n i types.ALLOPATRY ba
        else []
      else [] := by
  have hj : ¬ "j" ∈ eventTypes := by decide
  have hs : "s" ∈ eventTypes := by decide
  have ha : "a" ∈ eventTypes := by decide
  simp only [rangeEvents, if_neg hj, if_pos hs, if_pos ha, List.append_nil]

theorem unitBits_getElem? (n j p : ℕ) :
    (unitBits n j)[p]? = if p < n then some (if p = j then 1 else 0) else none := by
  unfold unitBits
  rw [List.getElem?_set]
  by_cases hp : p < n
  · by_cases hj : j = p
    · subst hj; simp [hp]
    · have hj2 : ¬ p = j := fun h => hj h.symm
      simp [hp, hj, hj2]
  · by_cases hj : j = p
    · subst hj; simp [hp]
    · simp [hp, hj, Nat.le_of_not_lt hp]

theorem unitBits_isBits (n j : ℕ) : IsBits n (unitBits n j) := by
  refine ⟨by simp [unitBits], ?_⟩
  intro x hx
  obtain ⟨p, hp⟩ := List.mem_iff_getElem?.mp hx
  rw [unitBits_getElem?] at hp
  by_cases h1 : p < n
  · by_cases h2 : p = j
    · simp [h1, h2] at hp; exact Or.inr hp.2.symm
    · simp [h1, h2] at hp; exact Or.inl hp.symm
  · simp [h1] at hp

theorem unitBits_injective {n j k : ℕ} (hj : j < n) (h : unitBits n j = unitBits n k) :
    j = k := by
  have h1 := unitBits_getElem? n j j
  rw [h, unitBits_getElem?] at h1
  by_contra hne
  simp [hj, hne] at h1

theorem sumBits_unitBits {n j : ℕ} (hj : j < n) : sumBits (unitBits n j) = 1 := by
  unfold unitBits
  rw [sumBits_eq_sum, sum_set_one]
  · simp
  · simp [hj]

theorem trunkBudEvents_keys (n : ℕ) (ranges : List ℕ) (i t : ℕ) (areas : List ℕ) :
    ∀ e ∈ trunkBudEvents n ranges i t areas, ∃ j ∈ areas,
      e = ((i, i, bitsToState n (unitBits n j)), t) := by
  intro e he
  obtain ⟨j, hj, h⟩ := List.mem_filterMap.mp he
  refine ⟨j, hj, ?_⟩
  simp only at h
  split_ifs at h
  exact (Option.some.inj h).symm

theorem budTrunkEvents_keys (n : ℕ) (ranges : List ℕ) (i t : ℕ) (areas : List ℕ) :
    ∀ e ∈ budTrunkEvents n ranges i t areas, ∃ j ∈ areas,
      e = ((i, bitsToState n (unitBits n j), i), t) := by
  intro e he
  obtain ⟨j, hj, h⟩ := List.mem_filterMap.mp he
  refine ⟨j, hj, ?_⟩
  simp only at h
  split_ifs at h
  exact (Option.some.inj h).symm

theorem trunkBudEvents_eq (n : ℕ) (ranges : List ℕ) (i t : ℕ) (areas : List ℕ) :
    trunkBudEvents n ranges i t areas =
      (areas.filter fun j => bitsToState n (unitBits n j) ∈ ranges).map
        fun j => ((i, i, bitsToState n (unitBits n j)), t) := by
  unfold trunkBudEvents bitsToState
  induction areas with
  | nil => rfl
  | cons a areas ih =>
    rw [List.filterMap_cons, List.filter_cons]
    by_cases h : bitsToStatesByNumOn n (unitBits n a) ∈ ranges
    · simp only [h, if_true, decide_True, List.map_cons, ih]
    · simp only [h, if_false, decide_False, ih]
      rfl

theorem budTrunkEvents_eq (n : ℕ) (ranges : List ℕ) (i t : ℕ) (areas : List ℕ) :
    budTrunkEvents n ranges i t areas =
      (areas.filter fun j => bitsToState n (unitBits n j) ∈ ranges).map
        fun j => ((i, bitsToState n (unitBits n j), i), t) := by
  unfold budTrunkEvents bitsToState
  induction areas with
  | nil => rfl
  | cons a areas ih =>
    rw [List.filterMap_cons, List.filter_cons]
    by_cases h : bitsToStatesByNumOn n (unitBits n a) ∈ ranges
    · simp only [h, if_true, decide_True, List.map_cons, ih]
    · simp only [h, if_false, decide_False, ih]
      rfl

theorem unitState_injective {n j k : ℕ} (hj : j < n)
    (h : bitsToState n (unitBits n j) = bitsToState n (unitBits n k)) : j = k :=
  unitBits_injective hj (bitsToState_injOn (unitBits_isBits n j) (unitBits_isBits n k) h)

theorem trunkBudEvents_nodup (n : ℕ) (ranges : List ℕ) (i t : ℕ) {areas : List ℕ}
    (hnd : areas.Nodup) (hlt : ∀ j ∈ areas, j < n) :
    ((trunkBudEvents n ranges i t areas).map Prod.fst).Nodup := by
  rw [trunkBudEvents_eq, List.map_map]
  refine List.Nodup.map_on ?_ (hnd.filter _)
  intro a ha b _ hab
  simp only [Function.comp_apply, Prod.mk.injEq, true_and] at hab
  exact unitState_injective (hlt a (List.mem_filter.mp ha).1) hab

theorem budTrunkEvents_nodup (n : ℕ) (ranges : List ℕ) (i t : ℕ) {areas : List ℕ}
    (hnd : areas.Nodup) (hlt : ∀ j ∈ areas, j < n) :
    ((budTrunkEvents n ranges i t areas).map Prod.fst).Nodup := by
  rw [budTrunkEvents_eq, List.map_map]
  refine List.Nodup.map_on ?_ (hnd.filter _)
  intro a ha b _ hab
  simp only [Function.comp_apply, Prod.mk.injEq, true_and, and_true] at hab
  exact unitState_injective (hlt a (List.mem_filter.mp ha).1) hab

theorem subVectors_spec : ∀ (rest w : List ℕ), w ∈ subVectors rest →
    w.length = rest.length ∧ (∀ x ∈ w, x = 0 ∨ x = 1) ∧
      ∀ p : ℕ, w[p]? = some 1 → rest[p]? = some 1 := by
  intro rest
  induction rest with
  | nil =>
    intro w hw
    simp [subVectors] at hw
    subst hw
    simp
  | cons b rest ih =>
    intro w hw
    simp only [subVectors, List.mem_append, List.mem_map] at hw
    rcases hw with ⟨v, hv, rfl⟩ | hw
    · obtain ⟨h1, h2, h3⟩ := ih v hv
      refine ⟨by simp [h1], ?_, ?_⟩
      · intro x hx
        rcases List.mem_cons.mp hx with rfl | hx
        · exact Or.inl rfl
        · exact h2 x hx
      · intro p hp
        cases p with
        | zero => simp at hp
        | succ p => simpa using h3 p (by simpa using hp)
    · split_ifs at hw with hb
      · obtain ⟨v, hv, rfl⟩ := List.mem_map.mp hw
        obtain ⟨h1, h2, h3⟩ := ih v hv
        refine ⟨by simp [h1], ?_, ?_⟩
        · intro x hx
          rcases List.mem_cons.mp hx with rfl | hx
          · exact Or.inr rfl
          · exact h2 x hx
        · intro p hp
          cases p with
          | zero => simp [hb]
          | succ p => simpa using h3 p (by simpa using hp)
      · simp at hw

theorem subVectors_nodup : ∀ rest : List ℕ, (subVectors rest).Nodup := by
  intro rest
  induction rest with
  | nil => simp [subVectors]
  | cons b rest ih =>
    simp only [subVectors]
    have h0 : ((subVectors rest).map (0 :: ·)).Nodup :=
      ih.map (fun a b h => List.tail_eq_of_cons_eq h)
    have h1 : ((subVectors rest).map (1 :: ·)).Nodup :=
      ih.map (fun a b h => List.tail_eq_of_cons_eq h)
    split_ifs
    · refine List.Nodup.append h0 h1 ?_
      intro w hw0 hw1
      obtain ⟨a, _, rfl⟩ := List.mem_map.mp hw0
      obtain ⟨c, _, hc⟩ := List.mem_map.mp hw1
      simp at hc
    · simpa using h0

theorem bitCombinations_eq (array : List ℕ) : ∀ (rest accum : List ℕ),
    bitCombinations array rest accum =
      ((subVectors rest).map (accum ++ ·)).filter
        fun v => ¬ (sumBits v = 0 ∨ sumBits v = sumBits array) := by
  intro rest
  induction rest with
  | nil =>
    intro accum
    simp only [bitCombinations, subVectors, List.map_cons, List.map_nil, List.append_nil,
      List.filter_cons, List.filter_nil]
    by_cases h : sumBits accum = 0 ∨ sumBits accum = sumBits array
    · simp [h]
    · simp [h]
  | cons b rest ih =>
    intro accum
    simp only [bitCombinations, subVectors, ih, List.map_append, List.filter_append,
      List.map_map]
    congr 1
    · congr 1
      apply List.map_congr_left
      intro w _
      simp
    · split_ifs
      · simp only [List.map_map]
        congr 1
        apply List.map_congr_left
        intro w _
        simp
      · simp

theorem bitCombinations_spec {n : ℕ} {ba : List ℕ} (hba : IsBits n ba) :
    (bitCombinations ba ba []).Nodup ∧
      ∀ bl ∈ bitCombinations ba ba [], IsBits n bl ∧ sumBits bl ≠ 0 ∧
        sumBits bl ≠ sumBits ba ∧ ∀ p : ℕ, bl[p]? = some 1 → ba[p]? = some 1 := by
  rw [bitCombinations_eq]
  have e : (subVectors ba).map (([] : List ℕ) ++ ·) = subVectors ba := by simp
  rw [e]
  refine ⟨(subVectors_nodup ba).filter _, ?_⟩
  intro bl hbl
  obtain ⟨h1, h2⟩ := List.mem_filter.mp hbl
  obtain ⟨a1, a2, a3⟩ := subVectors_spec ba bl h1
  have h3 : ¬ (sumBits bl = 0 ∨ sumBits bl = sumBits ba) := of_decide_eq_true h2
  exact ⟨⟨a1.trans hba.1, a2⟩, fun h => h3 (Or.inl h), fun h => h3 (Or.inr h), a3⟩

theorem complementLoop_length (mask base : List ℕ) : ∀ is : List ℕ,
    (is.foldl (fun ret i => if base[i]? = some 1 then ret.set i 0 else ret) mask).length =
      mask.length := by
  intro is
  induction is using List.reverseRecOn with
  | nil => rfl
  | append_singleton is i ih =>
    rw [List.foldl_append, List.foldl_cons, List.foldl_nil]
    split_ifs
    · rw [List.length_set, ih]
    · exact ih

theorem bitAllopatryComplement_getElem? (mask base : List ℕ) (p : ℕ) :
    (bitAllopatryComplement mask base)[p]? =
      if base[p]? = some 1 then (mask[p]?).map (fun _ => 0) else mask[p]? := by
  unfold bitAllopatryComplement
  have key : ∀ m : ℕ, m ≤ base.length →
      ((List.range m).foldl (fun ret i => if base[i]? = some 1 then ret.set i 0 else ret)
        mask)[p]? =
      if p < m ∧ base[p]? = some 1 then (mask[p]?).map (fun _ => 0) else mask[p]? := by
    intro m
    induction m with
    | zero => intro _; simp
    | succ m ih =>
      intro hm
      rw [List.range_succ, List.foldl_append, List.foldl_cons, List.foldl_nil]
      by_cases hb : base[m]? = some 1
      · rw [if_pos hb, List.getElem?_set, complementLoop_length, ih (by omega)]
        by_cases hpm : m = p
        · subst hpm
          by_cases hl : m < mask.length
          · simp [hb, hl]
          · simp [hb, hl, List.getElem?_eq_none (Nat.le_of_not_lt hl)]
        · have h1 : p < m + 1 ↔ p < m := by omega
          simp [hpm, h1]
      · rw [if_neg hb, ih (by omega)]
        by_cases hpm : p = m
        · subst hpm
          simp [hb]
        · have : p < m + 1 ↔ p < m := by omega
          simp [this]
  rw [key base.length (le_refl _)]
  by_cases hp : p < base.length
  · simp [hp]
  · have : base[p]? = none := List.getElem?_eq_none (Nat.le_of_not_lt hp)
    simp [hp, this]

theorem bitAllopatryComplement_isBits {n : ℕ} {mask : List ℕ} (hm : IsBits n mask)
    (base : List ℕ) : IsBits n (bitAllopatryComplement mask base) := by
  refine ⟨?_, ?_⟩
  · unfold bitAllopatryComplement
    rw [complementLoop_length, hm.1]
  · intro x hx
    obtain ⟨p, hp⟩ := List.mem_iff_getElem?.mp hx
    rw [bitAllopatryComplement_getElem?] at hp
    split_ifs at hp
    · cases hmp : mask[p]? with
      | none => rw [hmp] at hp; simp at hp
      | some y => rw [hmp] at hp; simp at hp; exact Or.inl hp.symm
    · exact hm.2 x (List.mem_iff_getElem?.mpr ⟨p, hp⟩)

theorem exists_one_of_sumBits_ne_zero {n : ℕ} {b : List ℕ} (hb : IsBits n b)
    (h : sumBits b ≠ 0) : ∃ p : ℕ, b[p]? = some 1 := by
  by_contra hcon
  apply h
  rw [sumBits_eq_sum, List.sum_eq_zero_iff]
  intro x hx
  rcases hb.2 x hx with h0 | h1
  · exact h0
  · subst h1
    exact absurd (List.mem_iff_getElem?.mp hx) hcon

theorem complement_ne {n : ℕ} {ba bl : List ℕ} (hbl : IsBits n bl) (h0 : sumBits bl ≠ 0)
    (hsub : ∀ p : ℕ, bl[p]? = some 1 → ba[p]? = some 1) :
    bitAllopatryComplement ba bl ≠ ba := by
  obtain ⟨p, hp⟩ := exists_one_of_sumBits_ne_zero hbl h0
  intro hcon
  have h1 := bitAllopatryComplement_getElem? ba bl p
  rw [hcon, if_pos hp, hsub p hp] at h1
  simp at h1

theorem allopatryEvents_eq (n i t : ℕ) (ba : List ℕ) :
    allopatryEvents n i t ba =
      ((bitCombinations ba ba []).filter fun bl =>
        sumBits bl = 1 ∨ sumBits (bitAllopatryComplement ba bl) = 1).map
        fun bl => ((i, bitsToState n bl, bitsToState n (bitAllopatryComplement ba bl)), t) := by
  unfold allopatryEvents bitsToState
  induction bitCombinations ba ba [] with
  | nil => rfl
  | cons a l ih =>
    rw [List.filterMap_cons, List.filter_cons]
    by_cases h : sumBits a = 1 ∨ sumBits (bitAllopatryComplement ba a) = 1
    · simp only [h, if_true, decide_True, List.map_cons, ih]
    · simp only [h, if_false, decide_False, ih]
      rfl

theorem rangeEvents_ancestor (types : CladoEventTypes) (n : ℕ) (ranges : List ℕ) (i : ℕ)
    (ba : List ℕ) : ∀ e ∈ rangeEvents types n ranges i ba, e.1.1 = i := by
  intro e he
  rw [rangeEvents_eq, trunkBudEvents_eq, budTrunkEvents_eq, allopatryEvents_eq] at he
  split_ifs at he
  · rw [List.mem_singleton.mp he]
  · simp at he
  · simp only [List.mem_append, List.mem_map] at he
    rcases he with (⟨j, _, rfl⟩ | ⟨j, _, rfl⟩) | ⟨bl, _, rfl⟩ <;> rfl
  · simp at he
  · simp at he

theorem rangeEvents_nodup (types : CladoEventTypes) {n : ℕ} (ranges : List ℕ) {i : ℕ}
    {ba : List ℕ} (hba : IsBits n ba) (hi : bitsToState n ba = i) :
    ((rangeEvents types n ranges i ba).map Prod.fst).Nodup := by
  rw [rangeEvents_eq]
  split_ifs with h1 h2 h3 h4
  · simp
  · simp
  · have hon : ((List.range ba.length).filter fun j => ba[j]? = some 1).Nodup :=
      (List.nodup_range _).filter _
    have hlt : ∀ j ∈ (List.range ba.length).filter fun j => ba[j]? = some 1, j < n := by
      intro j hj
      rw [← hba.1]
      exact List.mem_range.mp (List.mem_filter.mp hj).1
    have hunit : ∀ j, j < n → bitsToState n (unitBits n j) ≠ i := by
      intro j hj hcon
      rw [← hi] at hcon
      have := bitsToState_injOn (unitBits_isBits n j) hba hcon
      rw [← this, sumBits_unitBits hj] at h1
      exact h1 rfl
    obtain ⟨hcn, hcs⟩ := bitCombinations_spec hba
    rw [List.map_append, List.map_append]
    refine List.Nodup.append (List.Nodup.append (trunkBudEvents_nodup n ranges i _ hon hlt)
      (budTrunkEvents_nodup n ranges i _ hon hlt) ?_) ?_ ?_
    · intro k hk1 hk2
      obtain ⟨e1, he1, rfl⟩ := List.mem_map.mp hk1
      obtain ⟨e2, he2, hk⟩ := List.mem_map.mp hk2
      obtain ⟨j1, hj1, rfl⟩ := trunkBudEvents_keys n ranges i _ _ e1 he1
      obtain ⟨j2, hj2, rfl⟩ := budTrunkEvents_keys n ranges i _ _ e2 he2
      simp only [Prod.mk.injEq, true_and] at hk
      exact hunit j2 (hlt j2 hj2) hk.1
    · rw [allopatryEvents_eq, List.map_map]
      refine List.Nodup.map_on ?_ (hcn.filter _)
      intro a ha b hb hab
      simp only [Function.comp_apply, Prod.mk.injEq, true_and] at hab
      exact bitsToState_injOn (hcs a (List.mem_filter.mp ha).1).1
        (hcs b (List.mem_filter.mp hb).1).1 hab.1
    · intro k hk1 hk2
      rw [allopatryEvents_eq] at hk2
      obtain ⟨e2, he2, hk⟩ := List.mem_map.mp hk2
      obtain ⟨bl, hbl, rfl⟩ := List.mem_map.mp he2
      obtain ⟨b1, b2, b3, b4⟩ := hcs bl (List.mem_filter.mp hbl).1
      rcases List.mem_append.mp hk1 with hk1 | hk1
      · obtain ⟨e1, he1, rfl⟩ := List.mem_map.mp hk1
        obtain ⟨j1, hj1, rfl⟩ := trunkBudEvents_keys n ranges i _ _ e1 he1
        simp only [Prod.mk.injEq, true_and] at hk
        rw [← hi] at hk
        exact b3 (congrArg sumBits (bitsToState_injOn b1 hba hk.1))
      · obtain ⟨e1, he1, rfl⟩ := List.mem_map.mp hk1
        obtain ⟨j1, hj1, rfl⟩ := budTrunkEvents_keys n ranges i _ _ e1 he1
        simp only [Prod.mk.injEq, true_and] at hk
        rw [← hi] at hk
        exact complement_ne b1 b2 b4
          (bitsToState_injOn (bitAllopatryComplement_isBits hba bl) hba hk.2)
  · simp
  · simp

/-! ### Rounding is idempotent -/

theorem abs_lt_two_zpow_ulpExp (x : ℚ) : |x| < 2 ^ (ulpExp x + 53) := by
  have hb : 1 < (2 : ℕ) := by norm_num
  have h1 : |x| < ((2 : ℕ) : ℚ) ^ (Int.log 2 |x| + 1) := Int.lt_zpow_succ_log_self hb |x|
  have h2 : ((2 : ℕ) : ℚ) ^ (Int.log 2 |x| + 1) ≤ 2 ^ (ulpExp x + 53) := by
    unfold ulpExp
    have : Int.log 2 |x| + 1 ≤ max (Int.log 2 |x|) (-1022) - 52 + 53 := by
      have := le_max_left (Int.log 2 |x|) (-1022)
      omega
    exact_mod_cast zpow_le_zpow_right₀ (by norm_num : (1 : ℚ) ≤ 2) this
  exact lt_of_lt_of_le h1 h2

theorem neg_1074_le_ulpExp (x : ℚ) : -1074 ≤ ulpExp x := by
  unfold ulpExp
  have := le_max_right (Int.log 2 |x|) (-1022)
  omega

theorem roundHalfEven_abs_le {z : ℚ} {M : ℤ} (h : |z| ≤ M) : |roundHalfEven z| ≤ M := by
  have h1 := abs_le.mp h
  rw [abs_le]
  constructor
  · have := roundHalfEven_mono h1.1
    rw [show (-(M : ℚ)) = ((-M : ℤ) : ℚ) by push_cast; ring, roundHalfEven_intCast] at this
    exact this
  · have := roundHalfEven_mono h1.2
    rw [roundHalfEven_intCast] at this
    exact this

theorem fl_eq_self_of_mantissa {y : ℚ} {r e : ℤ} (hy : y = r * 2 ^ e) (hr : |r| ≤ 2 ^ 53)
    (he : -1074 ≤ e) : fl y = y := by
  by_cases h0 : y = 0
  · rw [h0, fl_zero]
  have hb : 1 < (2 : ℕ) := by norm_num
  have hp := two_zpow_pos e
  have h2 : (2 : ℚ) ≠ 0 := by norm_num
  have hyabs : |y| = ((|r| : ℤ) : ℚ) * 2 ^ e := by
    rw [hy, abs_mul, abs_of_pos hp]
    push_cast
    rfl
  have hypos : 0 < |y| := abs_pos.mpr h0
  rcases lt_or_eq_of_le hr with hlt | heq
  · have hlt2 : |y| < 2 ^ (e + 53) := by
      rw [hyabs, zpow_add₀ h2, mul_comm]
      apply mul_lt_mul_of_pos_left _ hp
      have : ((|r| : ℤ) : ℚ) < ((2 ^ 53 : ℤ) : ℚ) := by exact_mod_cast hlt
      rw [show ((2 : ℚ) ^ (53 : ℤ)) = ((2 ^ 53 : ℤ) : ℚ) by norm_num]
      exact this
    have hlog : Int.log 2 |y| < e + 53 := by
      rw [← Int.lt_zpow_iff_log_lt hb hypos]
      simpa using hlt2
    have hle : ulpExp y ≤ e := by
      show max (Int.log 2 |y|) (-1022) - 52 ≤ e
      have : max (Int.log 2 |y|) (-1022) ≤ e + 52 := max_le (by omega) (by omega)
      omega
    obtain ⟨d, hd⟩ : ∃ d : ℕ, e = ulpExp y + d := ⟨(e - ulpExp y).toNat, by omega⟩
    apply fl_eq_self (r * 2 ^ d)
    rw [hy] at hd ⊢
    generalize ulpExp (↑r * 2 ^ e) = u at hd
    rw [hd, zpow_add₀ h2]
    push_cast
    rw [zpow_natCast]
    ring
  · have hyv : |y| = 2 ^ (e + 53) := by
      rw [hyabs, heq, zpow_add₀ h2, mul_comm]
      norm_num
    have hlog : Int.log 2 |y| = e + 53 := by
      rw [hyv]
      have := Int.log_zpow (R := ℚ) hb (e + 53)
      simpa using this
    have hu : ulpExp y = e + 1 := by
      show max (Int.log 2 |y|) (-1022) - 52 = e + 1
      rw [hlog, max_eq_left (by omega)]
      omega
    have hr2 : r = 2 ^ 53 ∨ r = -2 ^ 53 := by
      rcases abs_choice r with h | h
      · left; rw [← h]; exact heq
      · right; rw [h] at heq; omega
    rcases hr2 with h | h
    · apply fl_eq_self (2 ^ 52)
      rw [hu, hy, h, zpow_add₀ h2]
      push_cast
      ring
    · apply fl_eq_self (-2 ^ 52)
      rw [hu, hy, h, zpow_add₀ h2]
      push_cast
      ring

theorem fl_fl (x : ℚ) : fl (fl x) = fl x := by
  have hp := two_zpow_pos (ulpExp x)
  have hz : |x / 2 ^ ulpExp x| ≤ ((2 ^ 53 : ℤ) : ℚ) := by
    rw [abs_div, abs_of_pos hp, div_le_iff₀ hp]
    have := abs_lt_two_zpow_ulpExp x
    rw [zpow_add₀ (by norm_num : (2 : ℚ) ≠ 0)] at this
    have e : ((2 ^ 53 : ℤ) : ℚ) * 2 ^ ulpExp x = 2 ^ ulpExp x * 2 ^ (53 : ℤ) := by
      push_cast
      rw [mul_comm]
      norm_num
    rw [e]
    exact le_of_lt this
  exact fl_eq_self_of_mantissa rfl (roundHalfEven_abs_le hz) (neg_1074_le_ulpExp x)

theorem Double.round_isDouble (q : ℚ) : (Double.round q).IsDouble := by
  by_cases h1 : (2 : ℚ) ^ 1024 ≤ fl q
  · have e : Double.round q = Double.pinf := if_pos h1
    rw [e]
    exact True.intro
  · by_cases h2 : fl q ≤ -2 ^ 1024
    · have e : Double.round q = Double.ninf := (if_neg h1).trans (if_pos h2)
      rw [e]
      exact True.intro
    · have e : Double.round q = Double.fin (fl q) := (if_neg h1).trans (if_neg h2)
      rw [e]
      exact ⟨fl_fl q, abs_lt.mpr ⟨lt_of_not_le h2, lt_of_not_le h1⟩⟩

theorem Double.div_isDouble (x y : Double) : (x.div y).IsDouble := by
  have hz : (Double.fin 0).IsDouble := by
    refine ⟨fl_zero, ?_⟩
    rw [abs_zero]
    exact pow_pos (by norm_num) 1024
  cases x with
  | fin a =>
    cases y with
    | fin b =>
      show Double.IsDouble (if b = 0 then _ else Double.round (a / b))
      by_cases hb : b = 0
      · rw [if_pos hb]
        by_cases ha : a = 0
        · rw [if_pos ha]; exact True.intro
        · rw [if_neg ha]
          by_cases hp : 0 < a
          · rw [if_pos hp]; exact True.intro
          · rw [if_neg hp]; exact True.intro
      · rw [if_neg hb]
        exact Double.round_isDouble _
    | pinf => exact hz
    | ninf => exact hz
    | nan => exact True.intro
  | pinf =>
    cases y with
    | fin b =>
      show Double.IsDouble (if 0 ≤ b then _ else _)
      by_cases hb : 0 ≤ b
      · rw [if_pos hb]; exact True.intro
      · rw [if_neg hb]; exact True.intro
    | pinf => exact True.intro
    | ninf => exact True.intro
    | nan => exact True.intro
  | ninf =>
    cases y with
    | fin b =>
      show Double.IsDouble (if 0 ≤ b then _ else _)
      by_cases hb : 0 ≤ b
      · rw [if_pos hb]; exact True.intro
      · rw [if_neg hb]; exact True.intro
    | pinf => exact True.intro
    | ninf => exact True.intro
    | nan => exact True.intro
  | nan => cases y <;> exact True.intro

theorem Double.zero_add_div (x y : Double) : (Double.fin 0).add (x.div y) = x.div y :=
  Double.fin_zero_add (Double.div_isDouble x y)

theorem statesToBitsByNumOn_length (n : ℕ) : (statesToBitsByNumOn n).length = 2 ^ n := by
  rw [(statesToBitsByNumOn_perm n).length_eq, allBits_length]

theorem statesToBitsByNumOn_getElem_isBits {n i : ℕ} (hi : i < (statesToBitsByNumOn n).length) :
    IsBits n ((statesToBitsByNumOn n)[i]) :=
  (mem_allBits_iff n _).mp ((statesToBitsByNumOn_perm n).mem_iff.mp (List.getElem_mem hi))

theorem allEvents_cons (types : CladoEventTypes) (n : ℕ) (ranges : List ℕ) (i : ℕ)
    (is : List ℕ) :
    allEvents types n ranges (i :: is) =
      rangeEvents types n ranges i (((statesToBitsByNumOn n)[i]?).getD []) ++
        allEvents types n ranges is := by
  simp [allEvents]

theorem allEvents_ancestor (types : CladoEventTypes) (n : ℕ) (ranges : List ℕ) :
    ∀ (is : List ℕ), ∀ e ∈ allEvents types n ranges is, e.1.1 ∈ is := by
  intro is e he
  obtain ⟨i, hi, h⟩ := List.mem_flatMap.mp he
  rw [rangeEvents_ancestor types n ranges i _ e h]
  exact hi

theorem allEvents_nodup (types : CladoEventTypes) (n : ℕ) (ranges : List ℕ) :
    ∀ (is : List ℕ), is.Nodup → (∀ i ∈ is, i < (statesToBitsByNumOn n).length) →
      ((allEvents types n ranges is).map Prod.fst).Nodup := by
  intro is
  induction is with
  | nil => intro _ _; simp [allEvents]
  | cons i is ih =>
    intro hnd hlt
    rw [List.nodup_cons] at hnd
    have hi := hlt i (List.mem_cons_self _ _)
    rw [allEvents_cons, List.map_append]
    refine List.Nodup.append ?_ (ih hnd.2 fun j hj => hlt j (List.mem_cons_of_mem _ hj)) ?_
    · rw [List.getElem?_eq_getElem hi, Option.getD_some]
      exact rangeEvents_nodup types ranges (statesToBitsByNumOn_getElem_isBits hi)
        (bitsToState_of_getElem? (List.getElem?_eq_getElem hi))
    · intro k hk1 hk2
      obtain ⟨e1, he1, rfl⟩ := List.mem_map.mp hk1
      obtain ⟨e2, he2, hk⟩ := List.mem_map.mp hk2
      have h1 := rangeEvents_ancestor types n ranges i _ e1 he1
      have h2 := allEvents_ancestor types n ranges is e2 he2
      rw [hk, h1] at h2
      exact hnd.1 h2

theorem allEvents_countP (types : CladoEventTypes) (n : ℕ) (ranges : List ℕ) (a t : ℕ) :
    ∀ (is : List ℕ), is.Nodup →
      (allEvents types n ranges is).countP (fun e => e.1.1 = a ∧ e.2 = t) =
        if a ∈ is then
          (rangeEvents types n ranges a (((statesToBitsByNumOn n)[a]?).getD [])).countP
            (fun e => e.2 = t)
        else 0 := by
  intro is
  induction is with
  | nil => intro _; simp [allEvents]
  | cons i is ih =>
    intro hnd
    rw [List.nodup_cons] at hnd
    rw [allEvents_cons, List.countP_append, ih hnd.2]
    by_cases ha : a = i
    · subst ha
      rw [if_neg hnd.1, if_pos (List.mem_cons_self _ _), add_zero]
      apply List.countP_congr
      intro e he
      have := rangeEvents_ancestor types n ranges a _ e he
      simp [this]
    · have hzero : (rangeEvents types n ranges i
          (((statesToBitsByNumOn n)[i]?).getD [])).countP (fun e => e.1.1 = a ∧ e.2 = t) = 0 := by
        rw [List.countP_eq_zero]
        intro e he
        have := rangeEvents_ancestor types n ranges i _ e he
        simp [this, Ne.symm ha]
      rw [hzero, zero_add]
      by_cases hm : a ∈ is
      · rw [if_pos hm, if_pos (List.mem_cons_of_mem _ hm)]
      · rw [if_neg hm, if_neg (by simp [ha, hm])]

/-- What `buildEventMap` leaves when it starts from empty maps. -/
theorem buildEventMap_spec (types : CladoEventTypes) (n : ℕ) {ranges : List ℕ}
    (hnd : ranges.Nodup) (hlt : ∀ i ∈ ranges, i < 2 ^ n) (s : Biogeography)
    (hs : s.eventMapTypes = []) :
    ∃ s1, buildEventMap types n ranges s = some s1 ∧
      s1.eventMapTypes.Perm (allEvents types n ranges ranges) ∧
      (s1.eventMapTypes.map Prod.fst).Nodup ∧
      (∀ e ∈ s1.eventMapTypes, s1.eventMapCounts e.1.1 e.2 =
        (s1.eventMapTypes.filter fun x => x.1.1 = e.1.1 ∧ x.2 = e.2).length) ∧
      s1.numRanges = s.numRanges ∧ s1.use_hidden_rate = s.use_hidden_rate ∧
      s1.connectivityType = s.connectivityType ∧ s1.speciationRates = s.speciationRates ∧
      s1.rateMultiplier = s.rateMultiplier := by
  have hlt2 : ∀ i ∈ ranges, i < (statesToBitsByNumOn n).length := by
    intro i hi
    rw [statesToBitsByNumOn_length]
    exact hlt i hi
  obtain ⟨s1, e, h1, h2, h3⟩ := eventLoop_spec types n ranges ranges
    { s with eventMapCounts := fun _ _ => 0 } hnd hlt2
  have hkeys := allEvents_nodup types n ranges ranges hnd hlt2
  have hperm : s1.eventMapTypes.Perm (allEvents types n ranges ranges) := by
    rw [h1]
    have := foldl_mapAssign_perm (allEvents types n ranges ranges) [] hkeys (by simp)
    rw [List.append_nil] at this
    simpa [hs] using this
  refine ⟨s1, e, hperm, (hperm.map Prod.fst).nodup_iff.mpr hkeys, ?_, h3⟩
  intro x hx
  have hx2 := hperm.mem_iff.mp hx
  have ha : x.1.1 ∈ ranges := allEvents_ancestor types n ranges ranges x hx2
  rw [h2, if_pos ha, ← List.countP_eq_length_filter, hperm.countP_eq,
    allEvents_countP types n ranges x.1.1 x.2 ranges hnd, if_pos ha]

theorem update_of_mem (s : Biogeography)
    (hct : s.connectivityType = "none" ∨ s.connectivityType = "modularity")
    (hn : 1 ≤ s.numRanges) (hh : s.use_hidden_rate = false)
    (hnodup : (s.eventMapTypes.map Prod.fst).Nodup) :
    ∃ s2, s.update = Except.ok s2 ∧ s2.eventMapTypes = s.eventMapTypes ∧
      s2.eventMapCounts = s.eventMapCounts ∧ s2.numRanges = s.numRanges ∧
      s2.speciationRates = s.speciationRates ∧
      ∀ e ∈ s.eventMapTypes, s2.eventMap e.1 = some (eventRate s e) := by
  refine ⟨{ s with eventMap :=
      (List.range s.numRanges).foldl (fun m _ => updateRound s m) s.eventMap }, ?_, rfl, rfl,
    rfl, rfl, ?_⟩
  · unfold Biogeography.update
    rw [if_pos hct]
  · intro e he
    obtain ⟨n, hn2⟩ : ∃ n, s.numRanges = n + 1 := ⟨s.numRanges - 1, by omega⟩
    show (List.range s.numRanges).foldl (fun m _ => updateRound s m) s.eventMap e.1 = _
    rw [hn2, List.range_succ, List.foldl_append]
    simp only [List.foldl_cons, List.foldl_nil]
    rw [updateRound_mem s e he hnodup (fun h => by rw [hh] at h; cases h)]
    unfold eventRate
    rw [Double.zero_add_div]

theorem speciationRate_of_ne_nan (s : Biogeography) (t : ℕ)
    (h : s.speciationRates t ≠ Double.nan) : speciationRate s t = s.speciationRates t := by
  unfold speciationRate
  split_ifs with h1
  · rfl
  · exfalso
    apply h1
    cases hx : s.speciationRates t with
    | fin a => simp [Double.eq]
    | pinf => rfl
    | ninf => rfl
    | nan => exact absurd hx h

theorem range'_lt_pow (n k : ℕ) :
    ∀ x ∈ List.range' 1 (∑ j in Finset.Icc 1 (min k n), n.choose j), x < 2 ^ n := by
  intro x hx
  rw [List.mem_range'_1] at hx
  obtain ⟨b, hb, _, _, rfl⟩ := (mem_ranges_iff (n := n) (k := k)).mpr hx
  exact bitsToState_lt_pow hb

theorem mem_mapAssign (idx : EventKey) (t : ℕ) (e : EventKey × ℕ) :
    ∀ m : List (EventKey × ℕ), e ∈ mapAssign idx t m → e = (idx, t) ∨ e ∈ m := by
  intro m
  induction m with
  | nil => intro h; simpa [mapAssign] using h
  | cons x m ih =>
    intro h
    simp only [mapAssign] at h
    split_ifs at h with h1 h2
    · rcases List.mem_cons.mp h with h | h
      · exact Or.inl h
      · exact Or.inr (List.mem_cons_of_mem _ h)
    · rcases List.mem_cons.mp h with h | h
      · exact Or.inl h
      · exact Or.inr h
    · rcases List.mem_cons.mp h with h | h
      · exact Or.inr (by rw [h]; exact List.mem_cons_self _ _)
      · rcases ih h with h | h
        · exact Or.inl h
        · exact Or.inr (List.mem_cons_of_mem _ h)

theorem mem_foldl_mapAssign (e : EventKey × ℕ) : ∀ (es m : List (EventKey × ℕ)),
    e ∈ es.foldl (fun m e => mapAssign e.1 e.2 m) m → e ∈ es ∨ e ∈ m := by
  intro es
  induction es with
  | nil => intro m h; exact Or.inr h
  | cons x es ih =>
    intro m h
    rw [List.foldl_cons] at h
    rcases ih _ h with h | h
    · exact Or.inl (List.mem_cons_of_mem _ h)
    · rcases mem_mapAssign _ _ _ _ h with h | h
      · exact Or.inl (by rw [h]; exact List.mem_cons_self _ _)
      · exact Or.inr h

/-- Every event that `buildEventMap` enters is a sympatry or an allopatry event. -/
theorem rangeEvents_type (types : CladoEventTypes) (n : ℕ) (ranges : List ℕ) (i : ℕ)
    (ba : List ℕ) : ∀ e ∈ rangeEvents types n ranges i ba,
      e.2 = types.SYMPATRY ∨ e.2 = types.ALLOPATRY := by
  intro e he
  rw [rangeEvents_eq, trunkBudEvents_eq, budTrunkEvents_eq, allopatryEvents_eq] at he
  split_ifs at he
  · rw [List.mem_singleton.mp he]
    exact Or.inl rfl
  · simp at he
  · simp only [List.mem_append, List.mem_map] at he
    rcases he with (⟨j, _, rfl⟩ | ⟨j, _, rfl⟩) | ⟨bl, _, rfl⟩
    · exact Or.inl rfl
    · exact Or.inl rfl
    · exact Or.inr rfl
  · simp at he
  · simp at he

theorem allEvents_type (types : CladoEventTypes) (n : ℕ) (ranges : List ℕ) :
    ∀ (is : List ℕ), ∀ e ∈ allEvents types n ranges is,
      e.2 = types.SYMPATRY ∨ e.2 = types.ALLOPATRY := by
  intro is e he
  obtain ⟨i, _, h⟩ := List.mem_flatMap.mp he
  exact rangeEvents_type types n ranges i _ e h

/-- When no read of `update()` leaves its vector, `updateVectors` is `update()` on the
entries of the vectors. -/
theorem updateVectors_of_inBounds (sr rm : List Double) (s s2 : Biogeography)
    (hu : Biogeography.update
      { s with
        speciationRates := fun t => sr.getD t (Double.fin 0)
        rateMultiplier := rm.getD 0 (Double.fin 0) } = Except.ok s2)
    (hb : ∀ e ∈ s.eventMapTypes,
      e.2 < sr.length ∧ (s.use_hidden_rate = true → 0 < rm.length)) :
    updateVectors sr rm s = Except.ok s2 := by
  unfold updateVectors
  rw [hu]
  simp only
  rw [if_pos (Or.inr hb)]

/-- What the constructor leaves, for a vector of speciation rates that has an entry for
the sympatry and for the allopatry events. -/
theorem construct_spec (types : CladoEventTypes) (sr : List Double) {mrs : ℕ}
    {cm : List (List Double)} {ct : String} (hn : cm.length ≤ 10)
    (hrow : ∀ row ∈ cm, cm.length ≤ row.length) (hk : 1 ≤ mrs)
    (hct : ct = "none" ∨ ct = "modularity")
    (hsr : types.SYMPATRY < sr.length ∧ types.ALLOPATRY < sr.length) :
    ∃ f, construct types sr mrs cm ct = Except.ok f ∧ f.numCharacters = cm.length ∧
      f.ranges = List.range' 1 (∑ j in Finset.Icc 1 (min mrs cm.length), cm.length.choose j) ∧
      f.state.numRanges = 1 + ∑ j in Finset.Icc 1 (min mrs cm.length), cm.length.choose j ∧
      f.state.use_hidden_rate = false ∧ f.state.connectivityType = ct ∧
      f.state.speciationRates = (fun t => sr.getD t (Double.fin 0)) ∧
      f.state.eventMapTypes.Perm (allEvents types cm.length f.ranges f.ranges) ∧
      (f.state.eventMapTypes.map Prod.fst).Nodup ∧
      (∀ e ∈ f.state.eventMapTypes, f.state.eventMapCounts e.1.1 e.2 =
        (f.state.eventMapTypes.filter fun x => x.1.1 = e.1.1 ∧ x.2 = e.2).length) ∧
      (∀ e ∈ f.state.eventMapTypes, f.state.eventMap e.1 = some (eventRate f.state e)) ∧
      f.speciationRates = sr := by
  obtain ⟨s1, e1, a1, a2, a3, a4, a5, a6, a7, _⟩ := buildEventMap_spec types cm.length
    (List.nodup_range' 1 (∑ j in Finset.Icc 1 (min mrs cm.length), cm.length.choose j))
    (range'_lt_pow cm.length mrs)
    { numRanges :=
        (List.range' 1 (∑ j in Finset.Icc 1 (min mrs cm.length), cm.length.choose j)).length + 1,
      use_hidden_rate := false, connectivityType := ct, eventMapTypes := [],
      eventMapCounts := fun _ _ => 0, speciationRates := fun t => sr.getD t (Double.fin 0),
      rateMultiplier := Double.fin 0, eventMap := fun _ => none } rfl
  simp only at a4 a5 a6 a7
  obtain ⟨s2, e2, b1, b2, b3, b4, b5⟩ := update_of_mem
    { s1 with
      speciationRates := fun t => sr.getD t (Double.fin 0)
      rateMultiplier := ([] : List Double).getD 0 (Double.fin 0) }
    (by show s1.connectivityType = _ ∨ s1.connectivityType = _; rw [a6]; exact hct)
    (by show 1 ≤ s1.numRanges; rw [a4]; omega) a5 a2
  simp only at b1 b2 b3 b4 b5
  have hb : ∀ e ∈ s1.eventMapTypes,
      e.2 < sr.length ∧ (s1.use_hidden_rate = true → 0 < ([] : List Double).length) := by
    intro e he
    refine ⟨?_, fun h => by rw [a5] at h; cases h⟩
    rcases allEvents_type types cm.length _ _ e (a1.mem_iff.mp he) with h | h
    · rw [h]; exact hsr.1
    · rw [h]; exact hsr.2
  have e3 := updateVectors_of_inBounds sr [] s1 s2 e2 hb
  have hs2 : s2 = { s1 with
      speciationRates := fun t => sr.getD t (Double.fin 0)
      rateMultiplier := ([] : List Double).getD 0 (Double.fin 0)
      eventMap := s2.eventMap } := by
    unfold Biogeography.update at e2
    rw [if_pos (by show s1.connectivityType = _ ∨ s1.connectivityType = _; rw [a6]; exact hct)]
      at e2
    cases e2
    rfl
  refine ⟨BiogeographyFunction.mk cm.length
      (List.range' 1 (∑ j in Finset.Icc 1 (min mrs cm.length), cm.length.choose j)) sr [] s2,
    ?_, rfl, rfl, ?_, ?_, ?_, ?_, ?_, ?_, ?_, ?_, rfl⟩
  · unfold construct
    rw [if_neg (by omega), buildRanges_eq hrow hk]
    simp only [rebuild, e1, e3]
  · show s2.numRanges = _
    rw [b3, a4, List.length_range']
    omega
  · show s2.use_hidden_rate = false
    rw [hs2]
    exact a5
  · show s2.connectivityType = ct
    rw [hs2]
    exact a6
  · show s2.speciationRates = _
    rw [b4]
  · show s2.eventMapTypes.Perm _
    rw [b1]
    exact a1
  · show (s2.eventMapTypes.map Prod.fst).Nodup
    rw [b1]
    exact a2
  · intro e he
    show s2.eventMapCounts e.1.1 e.2 = (s2.eventMapTypes.filter _).length
    rw [b1] at he ⊢
    rw [b2]
    exact a3 e he
  · intro e he
    show s2.eventMap e.1 = some (eventRate s2 e)
    rw [b1] at he
    rw [b5 e he]
    unfold eventRate speciationRate
    rw [b2, b4]

/-! ### C22: the ranges that `buildRanges` finds -/

/-- The entry `g->getValue()[*it][i]` is read before `all` is looked at: on a list of rows
that is no square matrix, here a single empty row, `buildRangesRecursively` reads
`g->getValue()[0][0]`, which does not exist.  A connectivity matrix has a column for
every area. -/
theorem buildRanges_short_row_out_of_bounds :
    buildRanges [[]] true 2 = Except.error RangeError.outOfBounds := by
  rfl

/-- C22: for every number of areas `n`, every connectivity matrix of the `n` areas (`n`
rows, each with an entry for every area) and every maximum range size `k ≥ 1`,
`buildRanges` called with `all = true` returns, whatever the entries of the matrix, and
`ranges` then holds exactly the states of the non-empty sets of at most `k` of the `n`
areas; these are the states `1, ..., N` with `N = Σ_{m=1..min(k,n)} C(n,m)`, so that for
`n ≤ 10` the constructor, given a vector of speciation rates with an entry for the
sympatry and the allopatry events, sets `numRanges = 1 + N`. -/
theorem buildRanges_states (cm : List (List Double)) (k : ℕ)
    (hrow : ∀ row ∈ cm, cm.length ≤ row.length) (hk : 1 ≤ k) :
    ∃ ranges, buildRanges cm true k = Except.ok ranges ∧
      (∀ x, x ∈ ranges ↔
        ∃ s, IsRange cm.length k s ∧ bitsToState cm.length (indicatorBits cm.length s) = x) ∧
      ranges.Pairwise (· < ·) ∧
      ranges = List.range' 1 (∑ m in Finset.Icc 1 (min k cm.length), cm.length.choose m) ∧
      ranges.length + 1 = 1 + ∑ m in Finset.Icc 1 (min k cm.length), cm.length.choose m ∧
      ∀ (types : CladoEventTypes) (sr : List Double) (ct : String), cm.length ≤ 10 →
        ct = "none" ∨ ct = "modularity" →
        types.SYMPATRY < sr.length ∧ types.ALLOPATRY < sr.length →
        ∃ f, construct types sr k cm ct = Except.ok f ∧ f.ranges = ranges ∧
          f.state.numRanges =
            1 + ∑ m in Finset.Icc 1 (min k cm.length), cm.length.choose m := by
  obtain ⟨ranges, e, hpw, hmem⟩ := buildRanges_mem hrow hk
  have heq := buildRanges_eq hrow hk
  rw [e] at heq
  have heq2 : ranges = _ := Except.ok.inj heq
  refine ⟨ranges, e, ?_, hpw, heq2, ?_, ?_⟩
  · intro x
    rw [hmem]
    constructor
    · rintro ⟨b, h1, h2, h3, rfl⟩
      obtain ⟨s, hs, rfl⟩ := (isRange_iff_bits cm.length k b).mpr ⟨h1, h2, h3⟩
      exact ⟨s, hs, rfl⟩
    · rintro ⟨s, hs, rfl⟩
      obtain ⟨h1, h2, h3⟩ := (isRange_iff_bits cm.length k _).mp ⟨s, hs, rfl⟩
      exact ⟨_, h1, h2, h3, rfl⟩
  · rw [heq2, List.length_range']
    omega
  · intro types sr ct hn hct hsr
    obtain ⟨f, hf, _, h2, h3, _⟩ := construct_spec types sr hn hrow hk hct hsr
    exact ⟨f, hf, by rw [h2, ← heq2], h3⟩

/-- Witness for `buildRanges_states`: two areas, maximum range size 1 and a connectivity
matrix of zeros. -/
theorem buildRanges_states_witness :
    (∀ row ∈ zeroMatrix 2, (zeroMatrix 2).length ≤ row.length) ∧ 1 ≤ 1 ∧
    ∃ ranges, buildRanges (zeroMatrix 2) true 1 = Except.ok ranges ∧
      (∀ x, x ∈ ranges ↔
        ∃ s, IsRange (zeroMatrix 2).length 1 s ∧
          bitsToState (zeroMatrix 2).length (indicatorBits (zeroMatrix 2).length s) = x) ∧
      ranges.Pairwise (· < ·) ∧
      ranges = List.range' 1
        (∑ m in Finset.Icc 1 (min 1 (zeroMatrix 2).length), (zeroMatrix 2).length.choose m) ∧
      ranges.length + 1 =
        1 + ∑ m in Finset.Icc 1 (min 1 (zeroMatrix 2).length), (zeroMatrix 2).length.choose m ∧
      ∀ (types : CladoEventTypes) (sr : List Double) (ct : String),
        (zeroMatrix 2).length ≤ 10 → ct = "none" ∨ ct = "modularity" →
        types.SYMPATRY < sr.length ∧ types.ALLOPATRY < sr.length →
        ∃ f, construct types sr 1 (zeroMatrix 2) ct = Except.ok f ∧ f.ranges = ranges ∧
          f.state.numRanges =
            1 + ∑ m in Finset.Icc 1 (min 1 (zeroMatrix 2).length),
              (zeroMatrix 2).length.choose m :=
  ⟨by decide, by decide,
    buildRanges_states (zeroMatrix 2) 1 (by decide) (by decide)⟩

/-! ### C21: the rates of the events and their counts -/

theorem fl_one_sixth : fl ((1 : ℚ) / 6) = 6004799503160661 / 2 ^ 55 := by
  rw [fl_eq_near (-3) 6004799503160661 (by norm_num)]
  norm_num

theorem Double.div_fin {a b : ℚ} (hb : b ≠ 0) :
    (Double.fin a).div (Double.fin b) = Double.round (a / b) := by
  show (if b = 0 then _ else Double.round (a / b)) = _
  rw [if_neg hb]

theorem Double.one_div_six :
    (Double.fin 1).div (Double.fin (toDouble 6)) = Double.fin (6004799503160661 / 2 ^ 55) := by
  have h6 : toDouble 6 = 6 := by
    have := toDouble_eq (n := 6) (by norm_num)
    simpa using this
  rw [h6]
  rw [Double.div_fin (by norm_num)]
  unfold Double.round
  rw [fl_one_sixth, if_neg (by norm_num), if_neg (by norm_num)]

theorem Double.sum_six_sixths :
    (List.replicate 6 (Double.fin (6004799503160661 / 2 ^ 55))).foldl Double.add (Double.fin 0) =
      Double.fin (9007199254740991 / 2 ^ 53) := by
  have e1 : (Double.fin 0).add (Double.fin (6004799503160661 / 2 ^ 55)) =
      Double.fin (6004799503160661 / 2 ^ 55) :=
    Double.add_fin (by
      rw [fl_eq_near (-3) 6004799503160661 (by norm_num)]
      norm_num) (by norm_num) (by norm_num)
  have e2 : (Double.fin (6004799503160661 / 2 ^ 55)).add (Double.fin (6004799503160661 / 2 ^ 55)) =
      Double.fin (6004799503160661 / 2 ^ 54) :=
    Double.add_fin (by
      rw [fl_eq_near (-2) 6004799503160661 (by norm_num)]
      norm_num) (by norm_num) (by norm_num)
  have e3 : (Double.fin (6004799503160661 / 2 ^ 54)).add (Double.fin (6004799503160661 / 2 ^ 55)) =
      Double.fin (1 / 2) :=
    Double.add_fin (by
      rw [fl_eq_tie (-2) 9007199254740992 (by norm_num)]
      norm_num) (by norm_num) (by norm_num)
  have e4 : (Double.fin (1 / 2)).add (Double.fin (6004799503160661 / 2 ^ 55)) =
      Double.fin (6004799503160661 / 2 ^ 53) :=
    Double.add_fin (by
      rw [fl_eq_near (-1) 6004799503160661 (by norm_num)]
      norm_num) (by norm_num) (by norm_num)
  have e5 : (Double.fin (6004799503160661 / 2 ^ 53)).add (Double.fin (6004799503160661 / 2 ^ 55)) =
      Double.fin (7505999378950826 / 2 ^ 53) :=
    Double.add_fin (by
      rw [fl_eq_near (-1) 7505999378950826 (by norm_num)]
      norm_num) (by norm_num) (by norm_num)
  have e6 : (Double.fin (7505999378950826 / 2 ^ 53)).add (Double.fin (6004799503160661 / 2 ^ 55)) =
      Double.fin (9007199254740991 / 2 ^ 53) :=
    Double.add_fin (by
      rw [fl_eq_near (-1) 9007199254740991 (by norm_num)]
      norm_num) (by norm_num) (by norm_num)
  simp only [List.replicate, List.foldl_cons, List.foldl_nil, e1, e2, e3, e4, e5, e6]

theorem construct_three_areas_events :
    ((construct exampleTypes [Double.fin 1, Double.fin 1] 3 (zeroMatrix 3)
        "none").toOption.map
      fun f => ((f.state.eventMapTypes.filter fun x => x.1.1 = 7 ∧ x.2 = 0),
        f.state.eventMapCounts 7 0)) =
      some ([((7, 1, 7), 0), ((7, 2, 7), 0), ((7, 3, 7), 0), ((7, 7, 1), 0), ((7, 7, 2), 0),
        ((7, 7, 3), 0)], 6) := by
  rfl

/-- C21, the sum of the rates: for three areas, maximum range size 3 and the speciation
rates `(1, 1)` of the sympatry and the allopatry events, the event map after the
constructor has six sympatry events with the full range, state 7, as ancestor; each has
the rate `1/6` rounded to a `double`, and six times this rate is not 1; nor is the sum of
the six rates formed in `double` arithmetic, which is `1 - 2^-53`. -/
theorem six_rates_do_not_sum_to_speciation_rate :
    ∃ f, construct exampleTypes [Double.fin 1, Double.fin 1] 3 (zeroMatrix 3) "none" =
        Except.ok f ∧
      f.state.use_hidden_rate = false ∧
      (f.state.eventMapTypes.filter fun x => x.1.1 = 7 ∧ x.2 = 0) =
        [((7, 1, 7), 0), ((7, 2, 7), 0), ((7, 3, 7), 0), ((7, 7, 1), 0), ((7, 7, 2), 0),
          ((7, 7, 3), 0)] ∧
      (∀ e ∈ f.state.eventMapTypes.filter fun x => x.1.1 = 7 ∧ x.2 = 0,
        f.state.eventMap e.1 = some (Double.fin (6004799503160661 / 2 ^ 55))) ∧
      (6 : ℚ) * (6004799503160661 / 2 ^ 55) ≠ 1 ∧
      ((f.state.eventMapTypes.filter fun x => x.1.1 = 7 ∧ x.2 = 0).map
          fun e => (f.state.eventMap e.1).getD (Double.fin 0)).foldl Double.add (Double.fin 0) =
        Double.fin (9007199254740991 / 2 ^ 53) ∧
      (9007199254740991 / 2 ^ 53 : ℚ) ≠ 1 := by
  obtain ⟨f, hf, _, _, _, hh, _, hsr, _, _, _, hrate, _⟩ :=
    @construct_spec exampleTypes [Double.fin 1, Double.fin 1] 3 (zeroMatrix 3) "none"
      (by decide) (by decide) (by decide) (Or.inl rfl) (by decide)
  have hev := construct_three_areas_events
  rw [hf] at hev
  have hev2 := Option.some.inj hev
  have h1 := congrArg Prod.fst hev2
  have h2 := congrArg Prod.snd hev2
  simp only at h1 h2
  have hr : ∀ e ∈ f.state.eventMapTypes.filter fun x => x.1.1 = 7 ∧ x.2 = 0,
      f.state.eventMap e.1 = some (Double.fin (6004799503160661 / 2 ^ 55)) := by
    intro e he
    obtain ⟨hm, hp⟩ := List.mem_filter.mp he
    have hp2 : e.1.1 = 7 ∧ e.2 = 0 := of_decide_eq_true hp
    rw [hrate e hm]
    unfold eventRate
    rw [speciationRate_of_ne_nan _ _ (by rw [hsr, hp2.2]; exact Double.noConfusion), hsr,
      hp2.1, hp2.2, h2]
    exact congrArg some Double.one_div_six
  refine ⟨f, hf, hh, h1, hr, by norm_num, ?_, by norm_num⟩
  have hmap : ((f.state.eventMapTypes.filter fun x => x.1.1 = 7 ∧ x.2 = 0).map
      fun e => (f.state.eventMap e.1).getD (Double.fin 0)) =
      List.replicate 6 (Double.fin (6004799503160661 / 2 ^ 55)) := by
    rw [List.eq_replicate_iff]
    refine ⟨by rw [List.length_map, h1]; rfl, ?_⟩
    intro b hb
    obtain ⟨e, he, rfl⟩ := List.mem_map.mp hb
    rw [hr e he]
    rfl
  rw [hmap, Double.sum_six_sixths]

/-- The read `sr[ event_type ]` outside of the rate vector: for two areas and maximum
range size 2 the event map has allopatry events, and with a vector of one rate
`update()` reads `sr[1]`, which does not exist. -/
theorem short_rate_vector_read_out_of_bounds :
    construct exampleTypes [Double.fin 1] 2 (zeroMatrix 2) "none" =
      Except.error BuildError.outOfBounds := by
  rfl

/-- C21, amended: after the constructor (which ends with `buildEventMap()` and `update()`,
without hidden rates) for at most 10 areas, a connectivity matrix with as many columns as
rows, a maximum range size of at least 1, a connectivity type that `update()` accepts and
a vector of speciation rates that has an entry for the sympatry and for the allopatry
events and holds no NaN, every event `(A -> L | R)` of type `t` in the event map has the
rate `speciationRates[t] / eventMapCounts[A][t]`, the quotient formed in `double`
arithmetic, where `t` is an index of the rate vector and `eventMapCounts[A][t]` is at
least 1 and equals the number of events of type `t` with ancestor `A` in the map.  So the
events of type `t` with ancestor `A` all have the same rate; their sum is the number of
events times this rounded quotient. -/
theorem event_rate_is_rate_by_count (types : CladoEventTypes) (sr : List Double) (mrs : ℕ)
    (cm : List (List Double)) (ct : String) (hn : cm.length ≤ 10)
    (hrow : ∀ row ∈ cm, cm.length ≤ row.length) (hk : 1 ≤ mrs)
    (hct : ct = "none" ∨ ct = "modularity")
    (hsr : types.SYMPATRY < sr.length ∧ types.ALLOPATRY < sr.length)
    (hnan : ∀ x ∈ sr, x ≠ Double.nan) :
    ∃ f, construct types sr mrs cm ct = Except.ok f ∧ f.state.use_hidden_rate = false ∧
      f.speciationRates = sr ∧
      ∀ (idx : EventKey) (t : ℕ), (idx, t) ∈ f.state.eventMapTypes →
        f.state.eventMapCounts idx.1 t =
          (f.state.eventMapTypes.filter fun x => x.1.1 = idx.1 ∧ x.2 = t).length ∧
        1 ≤ f.state.eventMapCounts idx.1 t ∧
        ∃ v, sr[t]? = some v ∧
          f.state.eventMap idx =
            some (v.div (Double.fin (toDouble (f.state.eventMapCounts idx.1 t)))) := by
  obtain ⟨f, hf, _, _, _, hh, _, hsr2, hperm, _, hcount, hrate, hvec⟩ :=
    construct_spec types sr hn hrow hk hct hsr
  refine ⟨f, hf, hh, hvec, ?_⟩
  intro idx t he
  have hc := hcount (idx, t) he
  have ht : t < sr.length := by
    rcases allEvents_type types cm.length _ _ (idx, t) (hperm.mem_iff.mp he) with h | h
    · rw [show t = types.SYMPATRY from h]; exact hsr.1
    · rw [show t = types.ALLOPATRY from h]; exact hsr.2
  have hget : sr.getD t (Double.fin 0) = sr[t] := by
    rw [List.getD_eq_getElem?_getD, List.getElem?_eq_getElem ht, Option.getD_some]
  refine ⟨hc, ?_, sr[t], List.getElem?_eq_getElem ht, ?_⟩
  · rw [hc]
    exact List.length_pos_of_mem (List.mem_filter.mpr ⟨he, by simp⟩)
  · rw [hrate (idx, t) he]
    unfold eventRate
    rw [speciationRate_of_ne_nan _ _
      (by rw [hsr2]; show sr.getD t (Double.fin 0) ≠ _; rw [hget];
          exact hnan _ (List.getElem_mem ht)), hsr2]
    show some ((sr.getD t (Double.fin 0)).div _) = _
    rw [hget]

/-- Witness for `event_rate_is_rate_by_count`: one area, maximum range size 1 and the
speciation rates `(1, 1)`. -/
theorem event_rate_is_rate_by_count_witness :
    (zeroMatrix 1).length ≤ 10 ∧ (∀ row ∈ zeroMatrix 1, (zeroMatrix 1).length ≤ row.length) ∧
    1 ≤ 1 ∧
    (exampleTypes.SYMPATRY < [Double.fin 1, Double.fin 1].length ∧
      exampleTypes.ALLOPATRY < [Double.fin 1, Double.fin 1].length) ∧
    (∀ x ∈ [Double.fin 1, Double.fin 1], x ≠ Double.nan) ∧
    ∃ f, construct exampleTypes [Double.fin 1, Double.fin 1] 1 (zeroMatrix 1) "none" =
        Except.ok f ∧
      f.state.use_hidden_rate = false ∧ f.speciationRates = [Double.fin 1, Double.fin 1] ∧
      ∀ (idx : EventKey) (t : ℕ), (idx, t) ∈ f.state.eventMapTypes →
        f.state.eventMapCounts idx.1 t =
          (f.state.eventMapTypes.filter fun x => x.1.1 = idx.1 ∧ x.2 = t).length ∧
        1 ≤ f.state.eventMapCounts idx.1 t ∧
        ∃ v, [Double.fin 1, Double.fin 1][t]? = some v ∧
          f.state.eventMap idx =
            some (v.div (Double.fin (toDouble (f.state.eventMapCounts idx.1 t)))) :=
  ⟨by decide, by decide, by decide, by decide, by decide,
    event_rate_is_rate_by_count exampleTypes [Double.fin 1, Double.fin 1] 1 (zeroMatrix 1)
      "none" (by decide) (by decide) (by decide) (Or.inl rfl) (by decide) (by decide)⟩

/-! ### C27: the states of the hidden rate category -/

theorem mem_keys_mapAssign (idx k : EventKey) (t : ℕ) : ∀ m : List (EventKey × ℕ),
    k ∈ (mapAssign idx t m).map Prod.fst ↔ k = idx ∨ k ∈ m.map Prod.fst := by
  intro m
  induction m with
  | nil => simp [mapAssign]
  | cons x m ih =>
    simp only [mapAssign]
    split_ifs with h1 h2
    · subst h1; simp
    · simp
    · simp only [List.map_cons, List.mem_cons, ih]
      tauto

theorem mem_keys_foldl_mapAssign (k : EventKey) : ∀ (es m : List (EventKey × ℕ)),
    k ∈ (es.foldl (fun m e => mapAssign e.1 e.2 m) m).map Prod.fst ↔
      k ∈ es.map Prod.fst ∨ k ∈ m.map Prod.fst := by
  intro es
  induction es with
  | nil => intro m; simp
  | cons e es ih =>
    intro m
    rw [List.foldl_cons, ih, mem_keys_mapAssign]
    simp only [List.map_cons, List.mem_cons]
    tauto

theorem assign_isSome (m : EventMap) (idx k : EventKey) (v : Double)
    (h : (m k).isSome = true) : (m.assign idx v k).isSome = true := by
  rw [EventMap.assign_apply]
  split_ifs
  · rfl
  · exact h

theorem resetEvent_isSome (s : Biogeography) (m : EventMap) (e : EventKey × ℕ) (k : EventKey)
    (h : (m k).isSome = true) : (resetEvent s m e k).isSome = true := by
  simp only [resetEvent]
  split_ifs
  · exact assign_isSome _ _ _ _ (assign_isSome _ _ _ _ h)
  · exact assign_isSome _ _ _ _ h

theorem rateEvent_isSome (s : Biogeography) (m : EventMap) (e : EventKey × ℕ) (k : EventKey)
    (h : (m k).isSome = true) : (rateEvent s m e k).isSome = true := by
  simp only [rateEvent, EventMap.addTo]
  split_ifs
  · exact assign_isSome _ _ _ _ (assign_isSome _ _ _ _ h)
  · exact assign_isSome _ _ _ _ h

theorem foldl_resetEvent_isSome (s : Biogeography) (k : EventKey) :
    ∀ (es : List (EventKey × ℕ)) (m : EventMap), (m k).isSome = true →
      (es.foldl (resetEvent s) m k).isSome = true := by
  intro es
  induction es with
  | nil => intro m h; exact h
  | cons e es ih => intro m h; exact ih _ (resetEvent_isSome s m e k h)

theorem foldl_rateEvent_isSome (s : Biogeography) (k : EventKey) :
    ∀ (es : List (EventKey × ℕ)) (m : EventMap), (m k).isSome = true →
      (es.foldl (rateEvent s) m k).isSome = true := by
  intro es
  induction es with
  | nil => intro m h; exact h
  | cons e es ih => intro m h; exact ih _ (rateEvent_isSome s m e k h)

theorem foldl_resetEvent_hidden_isSome (s : Biogeography) (hh : s.use_hidden_rate = true)
    (e : EventKey × ℕ) : ∀ (es : List (EventKey × ℕ)) (m : EventMap), e ∈ es →
      (es.foldl (resetEvent s) m (hiddenKey s.numRanges e.1)).isSome = true := by
  intro es
  induction es with
  | nil => intro m he; simp at he
  | cons x es ih =>
    intro m he
    rw [List.foldl_cons]
    rcases List.mem_cons.mp he with h | h
    · subst h
      apply foldl_resetEvent_isSome
      rw [resetEvent_hidden_self s m e hh]
      rfl
    · exact ih _ h

theorem updateRound_hidden_isSome (s : Biogeography) (hh : s.use_hidden_rate = true)
    (e : EventKey × ℕ) (he : e ∈ s.eventMapTypes) (m : EventMap) :
    (updateRound s m (hiddenKey s.numRanges e.1)).isSome = true := by
  unfold updateRound
  exact foldl_rateEvent_isSome s _ _ _ (foldl_resetEvent_hidden_isSome s hh e _ m he)

theorem update_hidden_isSome (s : Biogeography)
    (hct : s.connectivityType = "none" ∨ s.connectivityType = "modularity")
    (hn : 1 ≤ s.numRanges) (hh : s.use_hidden_rate = true) :
    ∃ s2, s.update = Except.ok s2 ∧ s2.numRanges = s.numRanges ∧
      s2.use_hidden_rate = true ∧
      ∀ e ∈ s.eventMapTypes, (s2.eventMap (hiddenKey s.numRanges e.1)).isSome = true := by
  refine ⟨{ s with eventMap :=
      (List.range s.numRanges).foldl (fun m _ => updateRound s m) s.eventMap }, ?_, rfl, hh, ?_⟩
  · unfold Biogeography.update
    rw [if_pos hct]
  · intro e he
    obtain ⟨n, hn2⟩ : ∃ n, s.numRanges = n + 1 := ⟨s.numRanges - 1, by omega⟩
    show ((List.range s.numRanges).foldl (fun m _ => updateRound s m) s.eventMap
      (hiddenKey s.numRanges e.1)).isSome = true
    rw [hn2, List.range_succ, List.foldl_append]
    simp only [List.foldl_cons, List.foldl_nil]
    rw [← hn2]
    exact updateRound_hidden_isSome s hh e he _

theorem one_le_sum_choose {n k : ℕ} (hn : 1 ≤ n) (hk : 1 ≤ k) :
    n ≤ ∑ j in Finset.Icc 1 (min k n), n.choose j := by
  have h1 : (1 : ℕ) ∈ Finset.Icc 1 (min k n) :=
    Finset.mem_Icc.mpr ⟨le_refl 1, le_min hk hn⟩
  have := Finset.single_le_sum (f := fun j => n.choose j) (fun j _ => Nat.zero_le _) h1
  simpa using this

theorem sum_choose_lt_pow (n k : ℕ) :
    1 + ∑ j in Finset.Icc 1 (min k n), n.choose j ≤ 2 ^ n := by
  rw [← sum_choose_succ, ← Nat.sum_range_choose n]
  apply Finset.sum_le_sum_of_subset
  intro j hj
  have := Finset.mem_range.mp hj
  exact Finset.mem_range.mpr (by have := Nat.min_le_right k n; omega)

/-- The last range has an event. -/
theorem last_range_has_event (types : CladoEventTypes) {n k : ℕ} (hn : 1 ≤ n) (hk : 1 ≤ k) :
    ∃ e ∈ allEvents types n
        (List.range' 1 (∑ j in Finset.Icc 1 (min k n), n.choose j))
        (List.range' 1 (∑ j in Finset.Icc 1 (min k n), n.choose j)),
      e.1.1 = ∑ j in Finset.Icc 1 (min k n), n.choose j := by
  have hN := one_le_sum_choose hn hk
  have hle := sum_choose_lt_pow n k
  generalize hNdef : (∑ j in Finset.Icc 1 (min k n), n.choose j) = N at hN hle
  have hmemN : N ∈ List.range' 1 N := by
    rw [List.mem_range'_1]; omega
  have hlt : N < (statesToBitsByNumOn n).length := by
    rw [statesToBitsByNumOn_length]; omega
  have hba := statesToBitsByNumOn_getElem_isBits hlt
  have hst : bitsToState n ((statesToBitsByNumOn n)[N]) = N :=
    bitsToState_of_getElem? (List.getElem?_eq_getElem hlt)
  have hsum : sumBits ((statesToBitsByNumOn n)[N]) ≠ 0 := by
    intro h
    have := (bitsToState_eq_zero_iff hba).mpr h
    omega
  have hsub : ∀ e ∈ rangeEvents types n (List.range' 1 N) N ((statesToBitsByNumOn n)[N]),
      e ∈ allEvents types n (List.range' 1 N) (List.range' 1 N) := by
    intro e he
    refine List.mem_flatMap.mpr ⟨N, hmemN, ?_⟩
    rw [List.getElem?_eq_getElem hlt, Option.getD_some]
    exact he
  by_cases h1 : sumBits ((statesToBitsByNumOn n)[N]) = 1
  · refine ⟨((N, N, N), types.SYMPATRY), hsub _ ?_, rfl⟩
    rw [rangeEvents_eq, if_pos h1, if_pos hmemN]
    exact List.mem_singleton_self _
  · obtain ⟨p, hp⟩ := exists_one_of_sumBits_ne_zero hba hsum
    have hpn : p < n := by
      rw [← hba.1]
      by_contra hcon
      rw [List.getElem?_eq_none (Nat.le_of_not_lt hcon)] at hp
      cases hp
    have hunit : bitsToState n (unitBits n p) ∈ List.range' 1 N := by
      rw [List.mem_range'_1, ← hNdef]
      exact (mem_ranges_iff (n := n) (k := k)).mp
        ⟨unitBits n p, unitBits_isBits n p, by rw [sumBits_unitBits hpn],
          by rw [sumBits_unitBits hpn]; exact hk, rfl⟩
    refine ⟨((N, N, bitsToState n (unitBits n p)), types.SYMPATRY), hsub _ ?_, rfl⟩
    rw [rangeEvents_eq, if_neg h1, if_pos (by omega), if_pos hmemN, trunkBudEvents_eq]
    apply List.mem_append_left
    apply List.mem_append_left
    refine List.mem_map.mpr ⟨p, List.mem_filter.mpr ⟨List.mem_filter.mpr
      ⟨List.mem_range.mpr (by rw [hba.1]; exact hpn), by simpa using hp⟩, by simpa using hunit⟩,
      rfl⟩

theorem setRateMultipliers_spec (types : CladoEventTypes) (sr : List Double) {mrs : ℕ}
    {cm : List (List Double)} {ct : String} (rm : List Double) (h1 : 1 ≤ cm.length)
    (hn : cm.length ≤ 10) (hrow : ∀ row ∈ cm, cm.length ≤ row.length) (hk : 1 ≤ mrs)
    (hct : ct = "none" ∨ ct = "modularity")
    (hsr : types.SYMPATRY < sr.length ∧ types.ALLOPATRY < sr.length) (hrm : 0 < rm.length) :
    ∃ f g, construct types sr mrs cm ct = Except.ok f ∧
      setRateMultipliers types f rm = Except.ok g ∧ g.state.use_hidden_rate = true ∧
      g.state.numRanges = f.state.numRanges ∧
      ∃ idx : EventKey, (g.state.eventMap idx).isSome = true ∧
        idx.1 = 2 * g.state.numRanges := by
  obtain ⟨f, hf, a1, a2, a3, a4, a5, _, a7, _, _, _, a11⟩ :=
    construct_spec types sr hn hrow hk hct hsr
  have hlt2 : ∀ i ∈ f.ranges, i < (statesToBitsByNumOn cm.length).length := by
    intro i hi
    rw [statesToBitsByNumOn_length]
    rw [a2] at hi
    exact range'_lt_pow cm.length mrs i hi
  have hnd : f.ranges.Nodup := by rw [a2]; exact List.nodup_range' _ _
  obtain ⟨s1, e1, b1, _, b3, b4, b5, _⟩ := eventLoop_spec types cm.length f.ranges f.ranges
    { ({ f.state with use_hidden_rate := true } : Biogeography) with
      eventMapCounts := fun _ _ => 0 } hnd hlt2
  simp only at b1 b3 b4 b5
  obtain ⟨s2, e2, c1, c2, c3⟩ := update_hidden_isSome
    { s1 with
      speciationRates := fun t => sr.getD t (Double.fin 0)
      rateMultiplier := rm.getD 0 (Double.fin 0) }
    (by show s1.connectivityType = _ ∨ s1.connectivityType = _; rw [b5, a5]; exact hct)
    (by show 1 ≤ s1.numRanges; rw [b3, a3]; omega) b4
  simp only at c1 c3
  have hb : ∀ e ∈ s1.eventMapTypes,
      e.2 < sr.length ∧ (s1.use_hidden_rate = true → 0 < rm.length) := by
    intro e he
    refine ⟨?_, fun _ => hrm⟩
    rw [b1] at he
    have hty : e.2 = types.SYMPATRY ∨ e.2 = types.ALLOPATRY := by
      rcases mem_foldl_mapAssign e _ _ he with h | h
      · exact allEvents_type types cm.length _ _ e h
      · exact allEvents_type types cm.length _ _ e (a7.mem_iff.mp h)
    rcases hty with h | h
    · rw [h]; exact hsr.1
    · rw [h]; exact hsr.2
  have e3 := updateVectors_of_inBounds sr rm s1 s2 e2 hb
  obtain ⟨e0, he0, hanc⟩ := last_range_has_event types (n := cm.length) (k := mrs) h1 hk
  rw [← a2] at he0
  have hkey : e0.1 ∈ s1.eventMapTypes.map Prod.fst := by
    rw [b1, mem_keys_foldl_mapAssign]
    exact Or.inl (List.mem_map_of_mem Prod.fst he0)
  obtain ⟨e, he, hee⟩ := List.mem_map.mp hkey
  refine ⟨f, BiogeographyFunction.mk f.numCharacters f.ranges sr rm s2, hf, ?_, c2, ?_,
    hiddenKey s1.numRanges e.1, c3 e he, ?_⟩
  · unfold setRateMultipliers rebuild buildEventMap
    rw [a1, a11, e1]
    simp only [e3]
  · show s2.numRanges = f.state.numRanges
    rw [c1, b3]
  · show (hiddenKey s1.numRanges e.1).1 = 2 * s2.numRanges
    have hle := sum_choose_lt_pow cm.length mrs
    have hpow : 2 ^ cm.length ≤ 2 ^ 10 := Nat.pow_le_pow_right (by norm_num) hn
    rw [c1, b3, hee]
    show (e0.1.1 + f.state.numRanges + 1) % 2 ^ 32 = _
    rw [hanc, a3, Nat.mod_eq_of_lt (by omega)]
    omega

theorem hidden_example_evaluated :
    (((construct exampleTypes [Double.fin 1, Double.fin 1] 1 (zeroMatrix 1)
          "none").toOption.bind
        fun f => (setRateMultipliers exampleTypes f [Double.fin 2]).toOption).map
      fun g => (g.state.numRanges, (g.state.eventMap (4, 4, 4)).isSome)) = some (2, true) := by
  rfl

/-- The read `rate_multipliers[0]` outside of the vector: `setRateMultipliers` with an
empty vector of multipliers. -/
theorem empty_multipliers_read_out_of_bounds :
    ((construct exampleTypes [Double.fin 1, Double.fin 1] 1 (zeroMatrix 1)
        "none").toOption.map
      fun f => setRateMultipliers exampleTypes f []) =
      some (Except.error BuildError.outOfBounds) := by
  rfl

theorem assign_isSome_iff (m : EventMap) (idx k : EventKey) (v : Double) :
    (m.assign idx v k).isSome = true ↔ k = idx ∨ (m k).isSome = true := by
  rw [EventMap.assign_apply]
  by_cases h : k = idx
  · simp [h]
  · simp [h]

theorem foldl_addEvent_domain (i : ℕ) (k : EventKey) :
    ∀ (es : List (EventKey × ℕ)) (s : Biogeography),
      ((es.foldl (addEvent i) s).eventMap k).isSome = true →
        k ∈ es.map Prod.fst ∨ (s.eventMap k).isSome = true := by
  intro es
  induction es with
  | nil => intro s h; exact Or.inr h
  | cons e es ih =>
    intro s h
    rw [List.foldl_cons] at h
    rcases ih _ h with h1 | h1
    · exact Or.inl (List.mem_cons_of_mem _ h1)
    · rcases (assign_isSome_iff _ _ _ _).mp h1 with h2 | h2
      · exact Or.inl (by rw [h2]; exact List.mem_cons_self _ _)
      · exact Or.inr h2

theorem eventLoop_domain (types : CladoEventTypes) (n : ℕ) (ranges : List ℕ) (k : EventKey) :
    ∀ (is : List ℕ) (s s1 : Biogeography), eventLoop types n ranges is s = some s1 →
      (s1.eventMap k).isSome = true →
        k ∈ (allEvents types n ranges is).map Prod.fst ∨ (s.eventMap k).isSome = true := by
  intro is
  induction is with
  | nil =>
    intro s s1 h hk
    simp only [eventLoop, Option.some.injEq] at h
    subst h
    exact Or.inr hk
  | cons i is ih =>
    intro s s1 h hk
    simp only [eventLoop] at h
    cases hget : (statesToBitsByNumOn n)[i]? with
    | none => rw [hget] at h; cases h
    | some ba =>
      rw [hget] at h
      simp only at h
      rw [allEvents_cons, List.map_append, List.mem_append, hget, Option.getD_some]
      rcases ih _ s1 h hk with h1 | h1
      · exact Or.inl (Or.inr h1)
      · rcases foldl_addEvent_domain i k _ _ h1 with h2 | h2
        · exact Or.inl (Or.inl h2)
        · exact Or.inr h2

theorem resetEvent_domain (s : Biogeography) (hh : s.use_hidden_rate = false) (m : EventMap)
    (e : EventKey × ℕ) (k : EventKey) (h : (resetEvent s m e k).isSome = true) :
    k = e.1 ∨ (m k).isSome = true := by
  simp only [resetEvent, hh, Bool.false_eq_true, if_false] at h
  exact (assign_isSome_iff _ _ _ _).mp h

theorem rateEvent_domain (s : Biogeography) (hh : s.use_hidden_rate = false) (m : EventMap)
    (e : EventKey × ℕ) (k : EventKey) (h : (rateEvent s m e k).isSome = true) :
    k = e.1 ∨ (m k).isSome = true := by
  simp only [rateEvent, EventMap.addTo, hh, Bool.false_eq_true, if_false] at h
  exact (assign_isSome_iff _ _ _ _).mp h

theorem foldl_domain (step : EventMap → EventKey × ℕ → EventMap) (k : EventKey)
    (hstep : ∀ m e, (step m e k).isSome = true → k = e.1 ∨ (m k).isSome = true) :
    ∀ (es : List (EventKey × ℕ)) (m : EventMap), (es.foldl step m k).isSome = true →
      k ∈ es.map Prod.fst ∨ (m k).isSome = true := by
  intro es
  induction es with
  | nil => intro m h; exact Or.inr h
  | cons e es ih =>
    intro m h
    rw [List.foldl_cons] at h
    rcases ih _ h with h1 | h1
    · exact Or.inl (List.mem_cons_of_mem _ h1)
    · rcases hstep m e h1 with h2 | h2
      · exact Or.inl (by rw [h2]; exact List.mem_cons_self _ _)
      · exact Or.inr h2

theorem updateRound_domain (s : Biogeography) (hh : s.use_hidden_rate = false) (m : EventMap)
    (k : EventKey) (h : (updateRound s m k).isSome = true) :
    k ∈ s.eventMapTypes.map Prod.fst ∨ (m k).isSome = true := by
  unfold updateRound at h
  rcases foldl_domain (rateEvent s) k (fun m e => rateEvent_domain s hh m e k) _ _ h with h1 | h1
  · exact Or.inl h1
  · exact foldl_domain (resetEvent s) k (fun m e => resetEvent_domain s hh m e k) _ _ h1

theorem update_domain (s s2 : Biogeography) (hh : s.use_hidden_rate = false)
    (h : s.update = Except.ok s2) (k : EventKey) (hk : (s2.eventMap k).isSome = true) :
    k ∈ s.eventMapTypes.map Prod.fst ∨ (s.eventMap k).isSome = true := by
  unfold Biogeography.update at h
  split_ifs at h
  cases h
  have key : ∀ (l : List ℕ) (m : EventMap),
      (l.foldl (fun m _ => updateRound s m) m k).isSome = true →
        k ∈ s.eventMapTypes.map Prod.fst ∨ (m k).isSome = true := by
    intro l
    induction l with
    | nil => intro m h; exact Or.inr h
    | cons x l ih =>
      intro m h
      rw [List.foldl_cons] at h
      rcases ih _ h with h1 | h1
      · exact Or.inl h1
      · exact updateRound_domain s hh m k h1
  exact key _ _ hk

theorem sum_le_of_dominated : ∀ (a b : List ℕ), (∀ x ∈ a, x = 0 ∨ x = 1) →
    a.length = b.length → (∀ p : ℕ, a[p]? = some 1 → b[p]? = some 1) → a.sum ≤ b.sum := by
  intro a
  induction a with
  | nil => intro b _ _ _; simp
  | cons x a ih =>
    intro b hx hlen hdom
    cases b with
    | nil => simp at hlen
    | cons y b =>
      have h1 : a.sum ≤ b.sum :=
        ih b (fun z hz => hx z (List.mem_cons_of_mem _ hz)) (by simpa using hlen)
          (fun p hp => by simpa using hdom (p + 1) (by simpa using hp))
      have h2 : x ≤ y := by
        rcases hx x (List.mem_cons_self _ _) with h | h
        · omega
        · have := hdom 0 (by simp [h])
          simp at this
          omega
      simp only [List.sum_cons]
      omega

theorem rangeEvents_states (types : CladoEventTypes) {n k i : ℕ}
    (hi : i ∈ List.range' 1 (∑ j in Finset.Icc 1 (min k n), n.choose j)) {ba : List ℕ}
    (hba : IsBits n ba) (hst : bitsToState n ba = i) :
    ∀ e ∈ rangeEvents types n (List.range' 1 (∑ j in Finset.Icc 1 (min k n), n.choose j)) i ba,
      e.1.1 < 1 + ∑ j in Finset.Icc 1 (min k n), n.choose j ∧
      e.1.2.1 < 1 + ∑ j in Finset.Icc 1 (min k n), n.choose j ∧
      e.1.2.2 < 1 + ∑ j in Finset.Icc 1 (min k n), n.choose j := by
  have hlt : ∀ x ∈ List.range' 1 (∑ j in Finset.Icc 1 (min k n), n.choose j),
      x < 1 + ∑ j in Finset.Icc 1 (min k n), n.choose j := by
    intro x hx
    exact (List.mem_range'_1.mp hx).2
  have hi2 := hlt i hi
  have hsumba : sumBits ba ≤ min k n := by
    rw [← hst, ← sum_choose_succ] at hi2
    exact (bitsToState_lt_iff (Nat.min_le_right k n) hba).mp hi2
  have hsub : ∀ b, IsBits n b → (∀ p : ℕ, b[p]? = some 1 → ba[p]? = some 1) →
      bitsToState n b < 1 + ∑ j in Finset.Icc 1 (min k n), n.choose j := by
    intro b hb hdom
    rw [← sum_choose_succ]
    apply (bitsToState_lt_iff (Nat.min_le_right k n) hb).mpr
    have := sum_le_of_dominated b ba hb.2 (hb.1.trans hba.1.symm) hdom
    rw [← sumBits_eq_sum, ← sumBits_eq_sum] at this
    omega
  intro e he
  rw [rangeEvents_eq, trunkBudEvents_eq, budTrunkEvents_eq, allopatryEvents_eq, if_pos hi,
    if_pos hi] at he
  by_cases h1 : sumBits ba = 1
  · rw [if_pos h1] at he
    rw [List.mem_singleton.mp he]
    exact ⟨hi2, hi2, hi2⟩
  · rw [if_neg h1] at he
    by_cases h2 : 1 < sumBits ba
    · rw [if_pos h2] at he
      simp only [List.mem_append, List.mem_map] at he
      rcases he with (⟨j, hj, rfl⟩ | ⟨j, hj, rfl⟩) | ⟨bl, hbl, rfl⟩
      · have := hlt _ (of_decide_eq_true (List.mem_filter.mp hj).2)
        exact ⟨hi2, hi2, this⟩
      · have := hlt _ (of_decide_eq_true (List.mem_filter.mp hj).2)
        exact ⟨hi2, this, hi2⟩
      · obtain ⟨b1, _, _, b4⟩ := (bitCombinations_spec hba).2 bl (List.mem_filter.mp hbl).1
        refine ⟨hi2, hsub bl b1 b4, hsub _ (bitAllopatryComplement_isBits hba bl) ?_⟩
        intro p hp
        rw [bitAllopatryComplement_getElem?] at hp
        split_ifs at hp
        · cases hba2 : ba[p]? with
          | none => rw [hba2] at hp; simp at hp
          | some y => rw [hba2] at hp; simp at hp
        · exact hp
    · rw [if_neg h2] at he
      simp at he

theorem rebuild_domain (types : CladoEventTypes) (n : ℕ) {ranges : List ℕ}
    (sr rm : List Double) (s : Biogeography) (f : BiogeographyFunction) (hnd : ranges.Nodup)
    (hlt : ∀ i ∈ ranges, i < (statesToBitsByNumOn n).length)
    (hh : s.use_hidden_rate = false) (h : rebuild types n ranges sr rm s = Except.ok f)
    (k : EventKey) (hk : (f.state.eventMap k).isSome = true) :
    k ∈ f.state.eventMapTypes.map Prod.fst ∨ (s.eventMap k).isSome = true := by
  obtain ⟨s1, e1, b1, _, _, b4, _⟩ := eventLoop_spec types n ranges ranges
    { s with eventMapCounts := fun _ _ => 0 } hnd hlt
  unfold rebuild buildEventMap at h
  rw [e1] at h
  simp only at h b4
  unfold updateVectors at h
  cases hu : Biogeography.update
      { s1 with
        speciationRates := fun t => sr.getD t (Double.fin 0)
        rateMultiplier := rm.getD 0 (Double.fin 0) } with
  | error msg => rw [hu] at h; cases h
  | ok s2 =>
    rw [hu] at h
    simp only at h
    split_ifs at h
    cases h
    have hty : s2.eventMapTypes = s1.eventMapTypes := by
      unfold Biogeography.update at hu
      split_ifs at hu
      cases hu
      rfl
    show k ∈ s2.eventMapTypes.map Prod.fst ∨ _
    rw [hty]
    rcases update_domain
        { s1 with
          speciationRates := fun t => sr.getD t (Double.fin 0)
          rateMultiplier := rm.getD 0 (Double.fin 0) }
        s2 (show s1.use_hidden_rate = false from b4.trans hh) hu k hk with h1 | h1
    · exact Or.inl h1
    · rcases eventLoop_domain types n ranges k _ _ s1 e1 h1 with h2 | h2
      · left
        rw [b1, mem_keys_foldl_mapAssign]
        exact Or.inl h2
      · exact Or.inr h2

/-- Without hidden rates every state in a key of the event map is a range or the null
range. -/
theorem construct_states_lt (types : CladoEventTypes) (sr : List Double) {mrs : ℕ}
    {cm : List (List Double)} {ct : String} (hn : cm.length ≤ 10)
    (hrow : ∀ row ∈ cm, cm.length ≤ row.length) (hk : 1 ≤ mrs)
    (hct : ct = "none" ∨ ct = "modularity")
    (hsr : types.SYMPATRY < sr.length ∧ types.ALLOPATRY < sr.length) :
    ∃ f, construct types sr mrs cm ct = Except.ok f ∧ f.state.use_hidden_rate = false ∧
      ∀ idx : EventKey, (f.state.eventMap idx).isSome = true →
        idx.1 < f.state.numRanges ∧ idx.2.1 < f.state.numRanges ∧
          idx.2.2 < f.state.numRanges := by
  obtain ⟨f, hf, a1, a2, a3, a4, a5, a6, a7, _⟩ :=
    construct_spec types sr hn hrow hk hct hsr
  refine ⟨f, hf, a4, ?_⟩
  intro idx hidx
  have hkeys : ∀ e ∈ allEvents types cm.length f.ranges f.ranges,
      e.1.1 < f.state.numRanges ∧ e.1.2.1 < f.state.numRanges ∧
        e.1.2.2 < f.state.numRanges := by
    intro e he
    obtain ⟨i, hi, h⟩ := List.mem_flatMap.mp he
    rw [a2] at hi h
    have hlt : i < (statesToBitsByNumOn cm.length).length := by
      rw [statesToBitsByNumOn_length]
      exact range'_lt_pow cm.length mrs i hi
    rw [List.getElem?_eq_getElem hlt, Option.getD_some] at h
    rw [a3]
    exact rangeEvents_states types hi (statesToBitsByNumOn_getElem_isBits hlt)
      (bitsToState_of_getElem? (List.getElem?_eq_getElem hlt)) e h
  have hmem : idx ∈ f.state.eventMapTypes.map Prod.fst := by
    have hf2 := hf
    unfold construct at hf2
    rw [if_neg (by omega), buildRanges_eq hrow hk] at hf2
    simp only at hf2
    have hlt2 : ∀ i ∈ List.range' 1
        (∑ j in Finset.Icc 1 (min mrs cm.length), cm.length.choose j),
        i < (statesToBitsByNumOn cm.length).length := by
      intro i hi
      rw [statesToBitsByNumOn_length]
      exact range'_lt_pow cm.length mrs i hi
    rcases rebuild_domain types cm.length sr [] _ f (List.nodup_range' _ _) hlt2 rfl hf2 idx
        hidx
      with h1 | h1
    · exact h1
    · cases h1
  obtain ⟨e, he, rfl⟩ := List.mem_map.mp hmem
  exact hkeys e (a7.mem_iff.mp he)

/-- C27: with hidden rates the event map holds a state index that is not smaller than
`2·numRanges`.  For one area, maximum range size 1 and the speciation rates `(1, 1)`,
`numRanges` is 2 and after `setRateMultipliers` with the multiplier 2 the event map
written by `update()` has the key `(4, 4, 4)`, the hidden copy of the event
`(1 -> 1 | 1)`, while the matrix has `2·numRanges = 4` states.  In general, for 1 to 10
areas, a connectivity matrix with as many columns as rows, a maximum range size of at
least 1, a connectivity type that `update()` accepts, a vector of speciation rates with
an entry for the sympatry and the allopatry events and a non-empty vector of multipliers,
the event map after `setRateMultipliers` has a key whose ancestor is exactly
`2·numRanges`: `idx_hidden` is `idx + numRanges + 1`, and the largest range is
`numRanges - 1`.  Without hidden rates, after the constructor, every state in every key
of the event map is smaller than `numRanges`. -/
theorem hidden_state_index_reaches_number_of_states :
    (∃ f g, construct exampleTypes [Double.fin 1, Double.fin 1] 1 (zeroMatrix 1) "none" =
        Except.ok f ∧
      setRateMultipliers exampleTypes f [Double.fin 2] = Except.ok g ∧
      g.state.use_hidden_rate = true ∧ g.state.numRanges = 2 ∧
      (g.state.eventMap (4, 4, 4)).isSome = true ∧ ¬ 4 < 2 * g.state.numRanges) ∧
    (∀ (types : CladoEventTypes) (sr : List Double) (mrs : ℕ) (cm : List (List Double))
      (ct : String) (rm : List Double), 1 ≤ cm.length → cm.length ≤ 10 →
      (∀ row ∈ cm, cm.length ≤ row.length) → 1 ≤ mrs → ct = "none" ∨ ct = "modularity" →
      types.SYMPATRY < sr.length ∧ types.ALLOPATRY < sr.length → 0 < rm.length →
      ∃ f g, construct types sr mrs cm ct = Except.ok f ∧
        setRateMultipliers types f rm = Except.ok g ∧ g.state.use_hidden_rate = true ∧
        g.state.numRanges = f.state.numRanges ∧
        ∃ idx : EventKey, (g.state.eventMap idx).isSome = true ∧
          ¬ idx.1 < 2 * g.state.numRanges) ∧
    ∀ (types : CladoEventTypes) (sr : List Double) (mrs : ℕ) (cm : List (List Double))
      (ct : String), cm.length ≤ 10 → (∀ row ∈ cm, cm.length ≤ row.length) → 1 ≤ mrs →
      ct = "none" ∨ ct = "modularity" →
      types.SYMPATRY < sr.length ∧ types.ALLOPATRY < sr.length →
      ∃ f, construct types sr mrs cm ct = Except.ok f ∧ f.state.use_hidden_rate = false ∧
        ∀ idx : EventKey, (f.state.eventMap idx).isSome = true →
          idx.1 < f.state.numRanges ∧ idx.2.1 < f.state.numRanges ∧
            idx.2.2 < f.state.numRanges := by
  refine ⟨?_, ?_, ?_⟩
  · obtain ⟨f, g, hf, hg, hh, _, _⟩ := @setRateMultipliers_spec exampleTypes
      [Double.fin 1, Double.fin 1] 1 (zeroMatrix 1) "none" [Double.fin 2]
      (by decide) (by decide) (by decide) (by decide) (Or.inl rfl) (by decide) (by decide)
    have h := hidden_example_evaluated
    rw [hf] at h
    simp only [Except.toOption, Option.some_bind] at h
    rw [hg] at h
    have h2 := Option.some.inj h
    have h3 := congrArg Prod.fst h2
    have h4 := congrArg Prod.snd h2
    simp only at h3 h4
    exact ⟨f, g, hf, hg, hh, h3, h4, by rw [h3]; decide⟩
  · intro types sr mrs cm ct rm h1 hn hrow hk hct hsr hrm
    obtain ⟨f, g, hf, hg, hh, hnr, idx, hsome, hidx⟩ :=
      setRateMultipliers_spec types sr rm h1 hn hrow hk hct hsr hrm
    exact ⟨f, g, hf, hg, hh, hnr, idx, hsome, by omega⟩
  · intro types sr mrs cm ct hn hrow hk hct hsr
    exact construct_states_lt types sr hn hrow hk hct hsr

end RevBayes
